import Mathlib

/-!
# BusTub buffer pool core: extendible hash table, LRU-K replacer, buffer pool manager

A shallow embedding of
* `src/container/hash/extendible_hash_table.cpp`
* `src/buffer/lru_k_replacer.cpp`
* `src/buffer/buffer_pool_manager_instance.cpp`

Conventions of the embedding.
* A `std::shared_ptr<Bucket>` is a handle (an index) into an arena `heap` of buckets; the
  directory `dir_` is the list of handles. `std::make_shared` appends to the arena.
* `std::hash<K>` is a parameter `hash : K → Nat`.
* `(1 << depth) - 1` is an `int` of 32 bits: `intMask` is `2^depth - 1` for `depth ≤ 30`
  and `none` from `depth = 31` on, where the expression overflows (undefined behaviour). A
  split that would raise a local depth beyond 30 therefore does not return, and no table
  that an operation returns has a depth beyond 30.
* Sizes, counters and timestamps are unbounded naturals / integers: page ids are integers
  allocated from a counter that does not wrap, frame ids are integers, and the replacer's
  `static_cast<int>(replacer_size_)` is `replacer_size_` (exact below `2^31`).
* Where an operation has to return after a split loop, the hash of the key to insert is
  assumed to differ in its low 30 bits from the hashes of the other keys of the table.
* The mutexes are not modelled: every public operation runs under its component's latch, so
  operations are atomic state transformers.
* Code paths with undefined behaviour (dereferencing `begin()` of an empty list, indexing
  out of range) make the embedded operation return `none` or `Res.undef`; a thrown
  exception is the outcome `Res.raise`.
* The manager's operations accept any page id. `Reachable` allows every argument;
  `ReachableAllocated` restricts `FetchPgImp` to page ids that `NewPgImp` has handed out,
  `ReachableValidFetch` only excludes `FetchPgImp` of `INVALID_PAGE_ID`.
-/

namespace Bustub

/-! ## Extendible hash table -/

/-- Bucket of the extendible hash table: `size_` (capacity), `depth_` (local depth) and the
entry list `list_`. -/
structure Bucket (K V : Type) where
  size_ : Nat
  depth_ : Nat
  list_ : List (K × V)
deriving DecidableEq, Repr

namespace Bucket

variable {K V : Type} [DecidableEq K]

/-- Modelled from the spec: `Bucket::IsFull` lives in the header, which is not part of the
sources; the spec says an entry is appended "if the bucket has spare capacity", i.e. the
bucket is full when its list holds `size_` entries. -/
def IsFull (b : Bucket K V) : Bool := b.list_.length == b.size_

/-- Linear scan of `Bucket::Find`: the value of the first entry whose key matches. -/
def findList (key : K) : List (K × V) → Option V
  | [] => none
  | (k, v) :: rest => if k = key then some v else findList key rest

/-- `Bucket::Find`: `some v` stands for `true` with `value = v`, `none` for `false`. -/
def Find (b : Bucket K V) (key : K) : Option V := findList key b.list_

/-- Loop of `Bucket::Remove`: erase the first entry whose key matches; `none` when no entry
matches. -/
def removeList (key : K) : List (K × V) → Option (List (K × V))
  | [] => none
  | (k, v) :: rest =>
    if k = key then some rest
    else match removeList key rest with
      | some rest' => some ((k, v) :: rest')
      | none => none

/-- `Bucket::Remove`. -/
def Remove (b : Bucket K V) (key : K) : Bool × Bucket K V :=
  match removeList key b.list_ with
  | some l => (true, { b with list_ := l })
  | none => (false, b)

/-- First loop of `Bucket::Insert`: overwrite the value of the first entry whose key
matches; `none` when no entry matches. -/
def updateList (key : K) (value : V) : List (K × V) → Option (List (K × V))
  | [] => none
  | (k, v) :: rest =>
    if k = key then some ((k, value) :: rest)
    else match updateList key value rest with
      | some rest' => some ((k, v) :: rest')
      | none => none

/-- `Bucket::Insert`. -/
def Insert (b : Bucket K V) (key : K) (value : V) : Bool × Bucket K V :=
  match updateList key value b.list_ with
  | some l => (true, { b with list_ := l })
  | none =>
    if !b.IsFull then (true, { b with list_ := b.list_ ++ [(key, value)] })
    else (false, b)

end Bucket

/-- State of `ExtendibleHashTable<K, V>`. `dir_` holds handles into `heap`. -/
structure ExtendibleHashTable (K V : Type) where
  global_depth_ : Nat
  bucket_size_ : Nat
  num_buckets_ : Nat
  dir_ : List Nat
  heap : List (Bucket K V)
deriving DecidableEq, Repr

namespace ExtendibleHashTable

variable {K V : Type} [DecidableEq K]

/-- Constructor `ExtendibleHashTable(bucket_size)`. -/
def new (bucket_size : Nat) : ExtendibleHashTable K V :=
  { global_depth_ := 0, bucket_size_ := bucket_size, num_buckets_ := 1,
    dir_ := [0], heap := [{ size_ := bucket_size, depth_ := 0, list_ := [] }] }

/-- The `int` expression `(1 << depth) - 1` of `IndexOf`, `ComputeIndex` and
`RedistributeBucket`. `int` has 32 bits: up to `depth = 30` the value is `2^depth - 1`; from
`depth = 31` on the expression overflows `int` (`1 << 31` is `INT_MIN`, from which 1 is
subtracted, and a shift by 32 or more is out of range), which is undefined behaviour and
`none` here. -/
def intMask (depth : Nat) : Option Nat :=
  if depth ≤ 30 then some ((1 <<< depth) - 1) else none

/-- `ComputeIndex(key, depth)`: `hash(key) & mask` with `int mask = (1 << depth) - 1`;
`none` when the mask overflows. -/
def ComputeIndex (hash : K → Nat) (key : K) (depth : Nat) : Option Nat :=
  match intMask depth with
  | none => none
  | some mask => some (hash key &&& mask)

/-- `IndexOf(key)`: `hash(key) & mask` with `int mask = (1 << global_depth_) - 1`; `none`
when the mask overflows. -/
def IndexOf (hash : K → Nat) (t : ExtendibleHashTable K V) (key : K) : Option Nat :=
  match intMask t.global_depth_ with
  | none => none
  | some mask => some (hash key &&& mask)

/-- `GetGlobalDepth`. -/
def GetGlobalDepth (t : ExtendibleHashTable K V) : Nat := t.global_depth_

/-- `GetNumBuckets`. -/
def GetNumBuckets (t : ExtendibleHashTable K V) : Nat := t.num_buckets_

/-- The bucket `*dir_[ind]` together with its handle. -/
def bucketAt (t : ExtendibleHashTable K V) (ind : Nat) : Option (Nat × Bucket K V) :=
  match t.dir_[ind]? with
  | none => none
  | some bid =>
    match t.heap[bid]? with
    | none => none
    | some b => some (bid, b)

/-- `GetLocalDepth(dir_index)`. -/
def GetLocalDepth (t : ExtendibleHashTable K V) (dir_index : Nat) : Option Nat :=
  (t.bucketAt dir_index).map (fun p => p.2.depth_)

/-- `ExtendibleHashTable::Find`; `none` (not found) also stands for the undefined `IndexOf`
of a table whose global depth is beyond 30. -/
def Find (hash : K → Nat) (t : ExtendibleHashTable K V) (key : K) : Option V :=
  match IndexOf hash t key with
  | none => none
  | some ind =>
    if ind ≥ t.dir_.length then none
    else
      match t.bucketAt ind with
      | none => none
      | some (_, bucket) => bucket.Find key

/-- `ExtendibleHashTable::Remove`; an undefined `IndexOf` leaves the table as it is. -/
def Remove (hash : K → Nat) (t : ExtendibleHashTable K V) (key : K) :
    Bool × ExtendibleHashTable K V :=
  match IndexOf hash t key with
  | none => (false, t)
  | some ind =>
    if ind ≥ t.dir_.length then (false, t)
    else
      match t.bucketAt ind with
      | none => (false, t)
      | some (bid, bucket) =>
        let r := bucket.Remove key
        (r.1, { t with heap := t.heap.set bid r.2 })

/-- Entry loop of `RedistributeBucket`: an entry whose index at `local_depth` differs from
`pre_ind` is inserted into the new bucket and erased from the old list; the others stay.
Returns the remaining list and the new bucket; `none` when `ComputeIndex` is undefined at
`local_depth`. -/
def splitItems (hash : K → Nat) (local_depth pre_ind : Nat) :
    List (K × V) → Bucket K V → Option (List (K × V) × Bucket K V)
  | [], nb => some ([], nb)
  | (k, v) :: rest, nb =>
    match ComputeIndex hash k local_depth with
    | none => none
    | some ind =>
      if ind ≠ pre_ind then
        splitItems hash local_depth pre_ind rest (nb.Insert k v).2
      else
        match splitItems hash local_depth pre_ind rest nb with
        | none => none
        | some r => some ((k, v) :: r.1, r.2)

/-- Directory loop of `RedistributeBucket`, started at index `i`: slot `i` is repointed to
`new_bucket` when `(i & mask(local_depth - 1)) == pre_ind` and
`(i & mask(local_depth)) != pre_ind`, the second mask being computed only when the first
test holds; `none` when a mask overflows. -/
def repointFrom (local_depth pre_ind new_bucket : Nat) : Nat → List Nat → Option (List Nat)
  | _, [] => some []
  | i, b :: rest =>
    match intMask (local_depth - 1) with
    | none => none
    | some mask1 =>
      if (i &&& mask1) = pre_ind then
        match intMask local_depth with
        | none => none
        | some mask =>
          match repointFrom local_depth pre_ind new_bucket (i + 1) rest with
          | none => none
          | some rest' => some ((if (i &&& mask) ≠ pre_ind then new_bucket else b) :: rest')
      else
        match repointFrom local_depth pre_ind new_bucket (i + 1) rest with
        | none => none
        | some rest' => some (b :: rest')

/-- `RedistributeBucket(bucket)`, `bucket` given by its handle. `none` when the handle is
dangling, when the bucket's list is empty (`kv_pairs.begin()->first` is then undefined), or
when a mask overflows `int`, which happens as soon as the new local depth exceeds 30. -/
def RedistributeBucket (hash : K → Nat) (t : ExtendibleHashTable K V) (bucket : Nat) :
    Option (ExtendibleHashTable K V) :=
  match t.heap[bucket]? with
  | none => none
  | some b =>
    match b.list_ with
    | [] => none
    | (k0, _) :: _ =>
      let local_depth := b.depth_ + 1
      let grow := decide (local_depth > t.global_depth_)
      let global_depth := if grow then t.global_depth_ + 1 else t.global_depth_
      let dir := if grow then t.dir_ ++ t.dir_ else t.dir_
      let new_bucket : Bucket K V := { size_ := t.bucket_size_, depth_ := local_depth, list_ := [] }
      let new_id := t.heap.length
      match ComputeIndex hash k0 (local_depth - 1) with
      | none => none
      | some pre_ind =>
        match splitItems hash local_depth pre_ind b.list_ new_bucket with
        | none => none
        | some r =>
          match repointFrom local_depth pre_ind new_id 0 dir with
          | none => none
          | some dir' =>
            some { global_depth_ := global_depth
                   bucket_size_ := t.bucket_size_
                   num_buckets_ := t.num_buckets_ + 1
                   dir_ := dir'
                   heap := t.heap.set bucket { b with depth_ := b.depth_ + 1, list_ := r.1 }
                     ++ [r.2] }

/-- `ExtendibleHashTable::Insert`. The `while (true)` loop is run for at most `fuel`
iterations; `none` means the loop has not ended within `fuel` iterations (or hit undefined
behaviour). -/
def Insert (hash : K → Nat) : Nat → ExtendibleHashTable K V → K → V →
    Option (ExtendibleHashTable K V)
  | 0, _, _, _ => none
  | fuel + 1, t, key, value =>
    match IndexOf hash t key with
    | none => none
    | some ind =>
      match t.bucketAt ind with
      | none => none
      | some (bid, b) =>
        let r := b.Insert key value
        if r.1 then some { t with heap := t.heap.set bid r.2 }
        else
          match RedistributeBucket hash t bid with
          | none => none
          | some t' => Insert hash fuel t' key value

end ExtendibleHashTable

end Bustub

namespace Bustub

namespace ExtendibleHashTable

variable {K V : Type} [DecidableEq K]

/-- Well-formedness of a table state: the global depth is in the range where the `int`
masks are defined; the directory has `2 ^ global_depth_` slots; every
slot holds a live handle; the bucket behind slot `i` has local depth at most the global
depth, is shared by exactly the slots that agree with `i` on the low `depth_` bits, holds
only keys whose hash agrees with `i` on those bits, has no duplicate key, respects its
capacity and carries the table's bucket size. -/
structure WF (hash : K → Nat) (t : ExtendibleHashTable K V) : Prop where
  depth_le : t.global_depth_ ≤ 30
  dir_len : t.dir_.length = 2 ^ t.global_depth_
  slot : ∀ i bid, t.dir_[i]? = some bid → ∃ b, t.heap[bid]? = some b ∧
    b.depth_ ≤ t.global_depth_ ∧
    (∀ j, j < t.dir_.length → (t.dir_[j]? = some bid ↔ j % 2 ^ b.depth_ = i % 2 ^ b.depth_)) ∧
    (∀ kv ∈ b.list_, hash kv.1 % 2 ^ b.depth_ = i % 2 ^ b.depth_) ∧
    (b.list_.map Prod.fst).Nodup ∧ b.list_.length ≤ b.size_ ∧ b.size_ = t.bucket_size_

/-- Table states reachable from the empty table of the given bucket size by `Insert` calls
that return and by `Remove` calls (`Find` does not change the state). -/
inductive Reachable (hash : K → Nat) (bucket_size : Nat) : ExtendibleHashTable K V → Prop
  | init : Reachable hash bucket_size (new bucket_size)
  | insert {t t' : ExtendibleHashTable K V} (fuel : Nat) (k : K) (v : V) :
      Reachable hash bucket_size t → Insert hash fuel t k v = some t' →
      Reachable hash bucket_size t'
  | remove {t : ExtendibleHashTable K V} (k : K) :
      Reachable hash bucket_size t → Reachable hash bucket_size (Remove hash t k).2

end ExtendibleHashTable

end Bustub

namespace Bustub

/-! ## LRU-K replacer -/

/-- Outcome of an operation that may throw or run into undefined behaviour: `ok s a` is a
normal return with state `s` and value `a`; `raise s` is a thrown `std::runtime_error`,
with the state as it is when the exception leaves; `undef` stands for undefined behaviour
(an invalid iterator, an index out of range) and for a loop that has not returned within
its fuel. -/
inductive Res (σ α : Type) where
  | ok (s : σ) (a : α)
  | raise (s : σ)
  | undef

/-! Association lists model `std::unordered_map<frame_id_t, _>`, and a `std::list` of
`(frame_id, _)` pairs in which an iterator is identified by the frame id of its node. -/

namespace AL

variable {κ α : Type} [DecidableEq κ]

/-- The value stored under `k` (`find` / dereferencing the iterator of `k`'s node). -/
def find? (k : κ) : List (κ × α) → Option α
  | [] => none
  | (k', v) :: rest => if k' = k then some v else find? k rest

/-- The entry of `k` erased (`erase(key)`, `erase(iterator)`). -/
def erase (k : κ) (l : List (κ × α)) : List (κ × α) :=
  l.filter (fun p => decide (p.1 ≠ k))

/-- The value of `k`'s entry overwritten in place. -/
def replace (k : κ) (v : α) (l : List (κ × α)) : List (κ × α) :=
  l.map (fun p => if p.1 = k then (p.1, v) else p)

/-- Assignment through `operator[]`: overwrite, or create the entry. -/
def insert (k : κ) (v : α) (l : List (κ × α)) : List (κ × α) :=
  if (find? k l).isSome then replace k v l else (k, v) :: l

end AL

/-- The list a `location_` iterator points into. -/
inductive ListId where
  | history
  | cache
deriving DecidableEq, Repr

/-- State of `LRUKReplacer`. Lists have their front at the head. A node of `history_list_`
or `cache_list_` is a pair `(frame_id, timestamps)`; `location_` maps a frame to the list
that holds its node (the iterator is that list together with the frame id). -/
structure LRUKReplacer where
  replacer_size_ : Nat
  k_ : Nat
  current_timestamp_ : Nat
  history_list_ : List (Int × List Nat)
  cache_list_ : List (Int × List Nat)
  count_map_ : List (Int × Nat)
  evictable_map_ : List (Int × Bool)
  location_ : List (Int × ListId)
deriving DecidableEq, Repr

namespace LRUKReplacer

/-- Constructor `LRUKReplacer(num_frames, k)`. -/
def new (num_frames k : Nat) : LRUKReplacer :=
  { replacer_size_ := num_frames, k_ := k, current_timestamp_ := 0, history_list_ := [],
    cache_list_ := [], count_map_ := [], evictable_map_ := [], location_ := [] }

/-- One scan `for (revit = list.rbegin(); ...) if (evictable_map_[revit->first])`, the
list given back to front. Reading `evictable_map_[f]` for a missing `f` creates the entry
with value `false`. Returns the first frame found evictable and the map after the reads. -/
def scan (m : List (Int × Bool)) : List (Int × List Nat) → Option Int × List (Int × Bool)
  | [] => (none, m)
  | n :: rest =>
    match AL.find? n.1 m with
    | some true => (some n.1, m)
    | some false => scan m rest
    | none => scan ((n.1, false) :: m) rest

/-- `timestamps::front()` of a node. The front of an empty list is undefined in C++; nodes
of the cache list never have an empty timestamp list. -/
def front (n : Int × List Nat) : Nat := n.2.headD 0

/-- `cache_list_.sort(comp)` with `comp(lhs, rhs) = lhs.second.front() > rhs.second.front()`:
the stable sort by decreasing front timestamp. -/
def sortCache (l : List (Int × List Nat)) : List (Int × List Nat) :=
  l.insertionSort (fun a b => front a ≥ front b)

/-- The list an iterator of kind `lid` points into. -/
def listOf (r : LRUKReplacer) : ListId → List (Int × List Nat)
  | ListId.history => r.history_list_
  | ListId.cache => r.cache_list_

/-- Store `l` as the list of kind `lid`. -/
def setList (r : LRUKReplacer) : ListId → List (Int × List Nat) → LRUKReplacer
  | ListId.history, l => { r with history_list_ := l }
  | ListId.cache, l => { r with cache_list_ := l }

/-- `list.erase(location_[frame_id])` for `list` of kind `lid`, with the bookkeeping that
follows it in `Evict` and `Remove`: the frame leaves `count_map_`, `location_` and
`evictable_map_`. Undefined when `location_` has no iterator for the frame, or one into
the other list, or the node is gone. -/
def eraseFrame (r : LRUKReplacer) (lid : ListId) (frame_id : Int) : Option LRUKReplacer :=
  match AL.find? frame_id r.location_ with
  | none => none
  | some lid' =>
    if lid' = lid ∧ (AL.find? frame_id (r.listOf lid)).isSome then
      some { r.setList lid (AL.erase frame_id (r.listOf lid)) with
        count_map_ := AL.erase frame_id r.count_map_
        location_ := AL.erase frame_id r.location_
        evictable_map_ := AL.erase frame_id r.evictable_map_ }
    else none

/-- `LRUKReplacer::Evict`; the value is the chosen frame, `none` for a `false` return. -/
def Evict (r : LRUKReplacer) : Res LRUKReplacer (Option Int) :=
  match scan r.evictable_map_ r.history_list_.reverse with
  | (some f, em) =>
    match eraseFrame { r with evictable_map_ := em } ListId.history f with
    | none => Res.undef
    | some r' => Res.ok r' (some f)
  | (none, em) =>
    let sorted := sortCache r.cache_list_
    match scan em sorted.reverse with
    | (some f, em') =>
      match eraseFrame { r with cache_list_ := sorted, evictable_map_ := em' }
          ListId.cache f with
      | none => Res.undef
      | some r' => Res.ok r' (some f)
    | (none, em') => Res.ok { r with cache_list_ := sorted, evictable_map_ := em' } none

/-- `it = location_[frame_id]; it->second = g(it->second)`: rewrite the timestamps of the
frame's node through its iterator. Undefined when there is no valid iterator, or when `g`
is (erasing `begin()` of an empty list). -/
def updateTimestamps (r : LRUKReplacer) (frame_id : Int)
    (g : List Nat → Option (List Nat)) : Option LRUKReplacer :=
  match AL.find? frame_id r.location_ with
  | none => none
  | some lid =>
    match AL.find? frame_id (r.listOf lid) with
    | none => none
    | some ts =>
      match g ts with
      | none => none
      | some ts' => some (r.setList lid (AL.replace frame_id ts' (r.listOf lid)))

/-- The block `if (count_map_[frame_id] == k_)` of `RecordAccess`: the node moves from the
history list to the front of the cache list. -/
def promote (r : LRUKReplacer) (frame_id : Int) : Option LRUKReplacer :=
  match AL.find? frame_id r.location_ with
  | none => none
  | some lid =>
    match AL.find? frame_id (r.listOf lid) with
    | none => none
    | some ts =>
      if lid = ListId.history then
        some { r with
          cache_list_ := (frame_id, ts) :: r.cache_list_
          location_ := AL.insert frame_id ListId.cache r.location_
          history_list_ := AL.erase frame_id r.history_list_ }
      else none

/-- `LRUKReplacer::RecordAccess`. The range check compares `frame_id` with
`static_cast<int>(replacer_size_)`, which is `replacer_size_` itself as long as
`replacer_size_ < 2^31`. -/
def RecordAccess (r : LRUKReplacer) (frame_id : Int) : Res LRUKReplacer Unit :=
  if frame_id > (r.replacer_size_ : Int) then Res.raise r
  else
    let count := (AL.find? frame_id r.count_map_).getD 0 + 1
    let r0 := { r with count_map_ := AL.insert frame_id count r.count_map_ }
    if count > r.k_ then
      match updateTimestamps r0 frame_id (fun ts =>
          match ts with
          | [] => none
          | _ :: tl => some (tl ++ [r.current_timestamp_])) with
      | none => Res.undef
      | some r1 => Res.ok { r1 with current_timestamp_ := r1.current_timestamp_ + 1 } ()
    else
      let r1 :=
        if count = 1 then
          { r0 with
            history_list_ := (frame_id, []) :: r0.history_list_
            location_ := AL.insert frame_id ListId.history r0.location_
            evictable_map_ := AL.insert frame_id true r0.evictable_map_ }
        else r0
      match updateTimestamps r1 frame_id (fun ts => some (ts ++ [r.current_timestamp_])) with
      | none => Res.undef
      | some r2 =>
        if count = r.k_ then
          match promote r2 frame_id with
          | none => Res.undef
          | some r3 => Res.ok { r3 with current_timestamp_ := r3.current_timestamp_ + 1 } ()
        else Res.ok { r2 with current_timestamp_ := r2.current_timestamp_ + 1 } ()

/-- `LRUKReplacer::SetEvictable`. The range check compares `frame_id` with
`static_cast<int>(replacer_size_)`, which is `replacer_size_` itself as long as
`replacer_size_ < 2^31`. -/
def SetEvictable (r : LRUKReplacer) (frame_id : Int) (set_evictable : Bool) :
    Res LRUKReplacer Unit :=
  if frame_id > (r.replacer_size_ : Int) then Res.raise r
  else if (AL.find? frame_id r.count_map_).isNone then Res.ok r ()
  else Res.ok { r with evictable_map_ := AL.insert frame_id set_evictable r.evictable_map_ } ()

/-- `LRUKReplacer::Remove`. -/
def Remove (r : LRUKReplacer) (frame_id : Int) : Res LRUKReplacer Unit :=
  match AL.find? frame_id r.count_map_ with
  | none => Res.ok r ()
  | some count =>
    -- `evictable_map_[frame_id]` creates a `false` entry when the frame has none
    let em := if (AL.find? frame_id r.evictable_map_).isSome then r.evictable_map_
      else (frame_id, false) :: r.evictable_map_
    if (AL.find? frame_id em).getD false = false then Res.raise { r with evictable_map_ := em }
    else
      match eraseFrame { r with evictable_map_ := em }
          (if count ≥ r.k_ then ListId.cache else ListId.history) frame_id with
      | none => Res.undef
      | some r' => Res.ok r' ()

/-- `LRUKReplacer::Size`. -/
def Size (r : LRUKReplacer) : Nat := r.evictable_map_.countP (fun p => p.2)

end LRUKReplacer

end Bustub

namespace Bustub

namespace LRUKReplacer

/-- The frame is tracked: it has an entry in `count_map_`. -/
def tracked (r : LRUKReplacer) (f : Int) : Bool := (AL.find? f r.count_map_).isSome

/-- Number of recorded accesses of a tracked frame. -/
def accessCount (r : LRUKReplacer) (f : Int) : Option Nat := AL.find? f r.count_map_

/-- Evictable flag of a frame, `none` when the map has no entry for it. -/
def evictable (r : LRUKReplacer) (f : Int) : Option Bool := AL.find? f r.evictable_map_

/-- Recorded timestamps of a frame (oldest first): those of its node in the history list
or else in the cache list. -/
def timestampsOf (r : LRUKReplacer) (f : Int) : Option (List Nat) :=
  (AL.find? f r.history_list_).orElse (fun _ => AL.find? f r.cache_list_)

/-- Oldest recorded timestamp of a frame: its first access while it has fewer than `k_`
accesses (the list then holds all of them), its `k_`-th most recent access afterwards (the
list then holds the last `k_`). -/
def oldestTimestamp (r : LRUKReplacer) (f : Int) : Option Nat :=
  (r.timestampsOf f).bind List.head?

/-- Representation invariant of the replacer. -/
structure Inv (r : LRUKReplacer) : Prop where
  k_pos : 1 ≤ r.k_
  nodup_ev : (r.evictable_map_.map Prod.fst).Nodup
  nodup_hist : (r.history_list_.map Prod.fst).Nodup
  nodup_cache : (r.cache_list_.map Prod.fst).Nodup
  loc : ∀ f, AL.find? f r.location_ =
    if (AL.find? f r.history_list_).isSome then some ListId.history
    else if (AL.find? f r.cache_list_).isSome then some ListId.cache else none
  ev_dom : ∀ f, (AL.find? f r.evictable_map_).isSome = (AL.find? f r.count_map_).isSome
  hist : ∀ f ts, AL.find? f r.history_list_ = some ts →
    ∃ c, AL.find? f r.count_map_ = some c ∧ 1 ≤ c ∧ c < r.k_ ∧ ts.length = c ∧
      ∀ x ∈ ts, x < r.current_timestamp_
  cache : ∀ f ts, AL.find? f r.cache_list_ = some ts →
    ∃ c, AL.find? f r.count_map_ = some c ∧ r.k_ ≤ c ∧ ts.length = r.k_ ∧
      ∀ x ∈ ts, x < r.current_timestamp_
  count_dom : ∀ f c, AL.find? f r.count_map_ = some c →
    if c < r.k_ then (AL.find? f r.history_list_).isSome = true
    else (AL.find? f r.cache_list_).isSome = true
  hist_sorted : r.history_list_.Pairwise (fun a b => front a > front b)

/-- Replacer states reachable from `LRUKReplacer(num_frames, k)` by calls of the public
operations, whether they return or throw. -/
inductive Reachable (num_frames k : Nat) : LRUKReplacer → Prop
  | init : Reachable num_frames k (new num_frames k)
  | record {r r' : LRUKReplacer} (f : Int) :
      Reachable num_frames k r → r.RecordAccess f = Res.ok r' () → Reachable num_frames k r'
  | recordRaise {r r' : LRUKReplacer} (f : Int) :
      Reachable num_frames k r → r.RecordAccess f = Res.raise r' → Reachable num_frames k r'
  | setEvictable {r r' : LRUKReplacer} (f : Int) (b : Bool) :
      Reachable num_frames k r → r.SetEvictable f b = Res.ok r' () →
      Reachable num_frames k r'
  | setEvictableRaise {r r' : LRUKReplacer} (f : Int) (b : Bool) :
      Reachable num_frames k r → r.SetEvictable f b = Res.raise r' →
      Reachable num_frames k r'
  | evict {r r' : LRUKReplacer} (a : Option Int) :
      Reachable num_frames k r → r.Evict = Res.ok r' a → Reachable num_frames k r'
  | remove {r r' : LRUKReplacer} (f : Int) :
      Reachable num_frames k r → r.Remove f = Res.ok r' () → Reachable num_frames k r'
  | removeRaise {r r' : LRUKReplacer} (f : Int) :
      Reachable num_frames k r → r.Remove f = Res.raise r' → Reachable num_frames k r'

end LRUKReplacer

end Bustub

namespace Bustub

/-- The table obtained from `ExtendibleHashTable(2)` by `Insert(0, 10)` and
`Insert(2, 12)`, with integer keys hashed to themselves: one full bucket. -/
def exampleTable : ExtendibleHashTable Int Int :=
  { global_depth_ := 0, bucket_size_ := 2, num_buckets_ := 1, dir_ := [0],
    heap := [{ size_ := 2, depth_ := 0, list_ := [(0, 10), (2, 12)] }] }

/-- The replacer obtained from `LRUKReplacer(7, 2)` by the accesses 1, 2, 1, 2, 3. -/
def exampleReplacer : LRUKReplacer :=
  { replacer_size_ := 7, k_ := 2, current_timestamp_ := 5,
    history_list_ := [(3, [4])],
    cache_list_ := [(2, [1, 3]), (1, [0, 2])],
    count_map_ := [(3, 1), (2, 2), (1, 2)],
    evictable_map_ := [(3, true), (2, true), (1, true)],
    location_ := [(3, ListId.history), (2, ListId.cache), (1, ListId.cache)] }

end Bustub

namespace Bustub

/-! ## Buffer pool manager -/

/-- `INVALID_PAGE_ID`. -/
def INVALID_PAGE_ID : Int := -1

/-- Modelled from the spec: `BUSTUB_PAGE_SIZE` comes from a configuration header that is
not part of the sources ("page size is fixed and externally defined"). -/
def BUSTUB_PAGE_SIZE : Nat := 4096

/-- Modelled from the spec: class `Page` lives in `storage/page/page.h`, which is not part
of the sources; the spec describes a frame as a fixed-size byte buffer plus the metadata
`page_id`, `pin_count` and `is_dirty`. -/
structure Page where
  data_ : List Nat
  page_id_ : Int
  pin_count_ : Int
  is_dirty_ : Bool
deriving DecidableEq, Repr

namespace Page

/-- The all-zero buffer written by `Page::ResetMemory`. -/
def zeroData : List Nat := List.replicate BUSTUB_PAGE_SIZE 0

/-- A frame that holds no page, as the constructor of `Page` leaves it. -/
def empty : Page :=
  { data_ := zeroData, page_id_ := INVALID_PAGE_ID, pin_count_ := 0, is_dirty_ := false }

end Page

/-- A call received by the disk manager. -/
inductive DiskOp where
  | read (page_id : Int)
  | write (page_id : Int) (data : List Nat)
  | deallocate (page_id : Int)
deriving DecidableEq, Repr

/-- Modelled from the spec: the Disk Manager is an external collaborator with
`ReadPage(PageId, buffer)`, `WritePage(PageId, buffer)` and a deallocation hook. Its state
is the content of every page and the log of the calls it has received, oldest first. -/
structure DiskManager where
  content : Int → List Nat
  log : List DiskOp

namespace DiskManager

/-- `ReadPage(page_id, page_data)`: the bytes of the page, and the call logged. -/
def ReadPage (d : DiskManager) (page_id : Int) : DiskManager × List Nat :=
  ({ d with log := d.log ++ [DiskOp.read page_id] }, d.content page_id)

/-- `WritePage(page_id, page_data)`. -/
def WritePage (d : DiskManager) (page_id : Int) (data : List Nat) : DiskManager :=
  { content := fun q => if q = page_id then data else d.content q
    log := d.log ++ [DiskOp.write page_id data] }

/-- The deallocation hook reached through `DeallocatePage(page_id)`: no page content
changes. -/
def DeallocatePage (d : DiskManager) (page_id : Int) : DiskManager :=
  { d with log := d.log ++ [DiskOp.deallocate page_id] }

end DiskManager

/-- State of `BufferPoolManagerInstance`. The log manager is only stored by the code and is
left out. -/
structure BufferPoolManagerInstance where
  pool_size_ : Nat
  pages_ : List Page
  page_table_ : ExtendibleHashTable Int Int
  replacer_ : LRUKReplacer
  free_list_ : List Int
  next_page_id_ : Int
  disk_manager_ : DiskManager

namespace BufferPoolManagerInstance

/-- Constructor. `bucket_size` is the member constant `bucket_size_` of the header. -/
def new (pool_size replacer_k bucket_size : Nat) (disk_manager : DiskManager) :
    BufferPoolManagerInstance :=
  { pool_size_ := pool_size
    pages_ := List.replicate pool_size Page.empty
    page_table_ := ExtendibleHashTable.new bucket_size
    replacer_ := LRUKReplacer.new pool_size replacer_k
    free_list_ := (List.range pool_size).map Int.ofNat
    next_page_id_ := 0
    disk_manager_ := disk_manager }

/-- The frame `pages_[frame_id]`; `none` when the index is out of range. -/
def pageAt (pages : List Page) (frame_id : Int) : Option Page :=
  if 0 ≤ frame_id then pages[frame_id.toNat]? else none

/-- Assignment to `pages_[frame_id]`. -/
def setPageAt (pages : List Page) (frame_id : Int) (p : Page) : List Page :=
  pages.set frame_id.toNat p

/-- `FlushPgImpInternal(page_id)`; `none` stands for an out-of-range `pages_[frame_id]`. -/
def FlushPgImpInternal (hash : Int → Nat) (s : BufferPoolManagerInstance) (page_id : Int) :
    Option (BufferPoolManagerInstance × Bool) :=
  match ExtendibleHashTable.Find hash s.page_table_ page_id with
  | none => some (s, false)
  | some frame_id =>
    match pageAt s.pages_ frame_id with
    | none => none
    | some pg =>
      some ({ s with
        disk_manager_ := s.disk_manager_.WritePage page_id pg.data_
        pages_ := setPageAt s.pages_ frame_id { pg with is_dirty_ := false } }, true)

/-- `FlushPgImp(page_id)`. -/
def FlushPgImp (hash : Int → Nat) (s : BufferPoolManagerInstance) (page_id : Int) :
    Res BufferPoolManagerInstance Bool :=
  match FlushPgImpInternal hash s page_id with
  | none => Res.undef
  | some (s', b) => Res.ok s' b

/-- The block shared by `NewPgImp` and `FetchPgImp` that obtains a frame: the front of the
free list, or else the replacer's victim, flushed when dirty and unmapped from the page
table. `Evict` leaves `frame_id = INVALID_PAGE_ID` when it finds no victim. -/
def takeFrame (hash : Int → Nat) (s : BufferPoolManagerInstance) :
    Option (BufferPoolManagerInstance × Int) :=
  match s.free_list_ with
  | frame_id :: rest => some ({ s with free_list_ := rest }, frame_id)
  | [] =>
    match s.replacer_.Evict with
    | Res.ok r a =>
      let frame_id := a.getD INVALID_PAGE_ID
      let s1 := { s with replacer_ := r }
      match pageAt s1.pages_ frame_id with
      | none => none
      | some pg =>
        match (if pg.is_dirty_ then FlushPgImpInternal hash s1 pg.page_id_
            else some (s1, true)) with
        | none => none
        | some (s2, _) =>
          match pageAt s2.pages_ frame_id with
          | none => none
          | some pg2 =>
            some ({ s2 with page_table_ :=
              (ExtendibleHashTable.Remove hash s2.page_table_ pg2.page_id_).2 }, frame_id)
    | _ => none

/-- The tail `replacer_->RecordAccess(frame_id); replacer_->SetEvictable(frame_id, false);
return &pages_[frame_id]` of `NewPgImp` and `FetchPgImp`; an exception of the replacer
leaves the manager as it is at that point. -/
def recordAndPin (s : BufferPoolManagerInstance) (frame_id : Int) :
    Res BufferPoolManagerInstance Unit :=
  match s.replacer_.RecordAccess frame_id with
  | Res.raise r => Res.raise { s with replacer_ := r }
  | Res.undef => Res.undef
  | Res.ok r1 _ =>
    match r1.SetEvictable frame_id false with
    | Res.raise r => Res.raise { s with replacer_ := r }
    | Res.undef => Res.undef
    | Res.ok r2 _ => Res.ok { s with replacer_ := r2 } ()

/-- `NewPgImp`: the value is `none` for a null return, else the index of the returned
frame and the page id stored through `page_id`. `fuel` bounds the loop of the page table's
`Insert`. -/
def NewPgImp (hash : Int → Nat) (fuel : Nat) (s : BufferPoolManagerInstance) :
    Res BufferPoolManagerInstance (Option (Int × Int)) :=
  if s.free_list_.isEmpty && s.replacer_.Size == 0 then Res.ok s none
  else
    let page_id := s.next_page_id_
    let s0 := { s with next_page_id_ := s.next_page_id_ + 1 }
    match takeFrame hash s0 with
    | none => Res.undef
    | some (s1, frame_id) =>
      match ExtendibleHashTable.Insert hash fuel s1.page_table_ page_id frame_id with
      | none => Res.undef
      | some pt =>
        match pageAt s1.pages_ frame_id with
        | none => Res.undef
        | some _ =>
          let pg : Page :=
            { data_ := Page.zeroData, page_id_ := page_id, pin_count_ := 1, is_dirty_ := false }
          let s2 := { s1 with page_table_ := pt, pages_ := setPageAt s1.pages_ frame_id pg }
          match recordAndPin s2 frame_id with
          | Res.raise s3 => Res.raise s3
          | Res.undef => Res.undef
          | Res.ok s3 _ => Res.ok s3 (some (frame_id, page_id))

/-- `FetchPgImp(page_id)`: the value is `none` for a null return, else the index of the
returned frame. -/
def FetchPgImp (hash : Int → Nat) (fuel : Nat) (s : BufferPoolManagerInstance)
    (page_id : Int) : Res BufferPoolManagerInstance (Option Int) :=
  let pin := fun (s1 : BufferPoolManagerInstance) (frame_id : Int) =>
    match pageAt s1.pages_ frame_id with
    | none => Res.undef
    | some pg =>
      let s2 := { s1 with
        pages_ := setPageAt s1.pages_ frame_id { pg with pin_count_ := pg.pin_count_ + 1 } }
      match recordAndPin s2 frame_id with
      | Res.raise s3 => Res.raise s3
      | Res.undef => Res.undef
      | Res.ok s3 _ => Res.ok s3 (some frame_id)
  match ExtendibleHashTable.Find hash s.page_table_ page_id with
  | some frame_id => pin s frame_id
  | none =>
    if s.free_list_.isEmpty && s.replacer_.Size == 0 then Res.ok s none
    else
      match takeFrame hash s with
      | none => Res.undef
      | some (s1, frame_id) =>
        match ExtendibleHashTable.Insert hash fuel s1.page_table_ page_id frame_id with
        | none => Res.undef
        | some pt =>
          match pageAt s1.pages_ frame_id with
          | none => Res.undef
          | some _ =>
            let rd := s1.disk_manager_.ReadPage page_id
            let pg : Page :=
              { data_ := rd.2, page_id_ := page_id, pin_count_ := 0, is_dirty_ := false }
            pin { s1 with
              page_table_ := pt
              pages_ := setPageAt s1.pages_ frame_id pg
              disk_manager_ := rd.1 } frame_id

/-- `UnpinPgImp(page_id, is_dirty)`. -/
def UnpinPgImp (hash : Int → Nat) (s : BufferPoolManagerInstance) (page_id : Int)
    (is_dirty : Bool) : Res BufferPoolManagerInstance Bool :=
  match ExtendibleHashTable.Find hash s.page_table_ page_id with
  | none => Res.ok s false
  | some frame_id =>
    match pageAt s.pages_ frame_id with
    | none => Res.undef
    | some pg =>
      if pg.pin_count_ = 0 then Res.ok s false
      else
        let pg' : Page :=
          { pg with
            pin_count_ := pg.pin_count_ - 1
            is_dirty_ := if is_dirty then is_dirty else pg.is_dirty_ }
        let s1 := { s with pages_ := setPageAt s.pages_ frame_id pg' }
        if pg'.pin_count_ = 0 then
          match s1.replacer_.SetEvictable frame_id true with
          | Res.raise r => Res.raise { s1 with replacer_ := r }
          | Res.undef => Res.undef
          | Res.ok r _ => Res.ok { s1 with replacer_ := r } true
        else Res.ok s1 true

/-- `DeletePgImp(page_id)`. -/
def DeletePgImp (hash : Int → Nat) (s : BufferPoolManagerInstance) (page_id : Int) :
    Res BufferPoolManagerInstance Bool :=
  match ExtendibleHashTable.Find hash s.page_table_ page_id with
  | none => Res.ok s true
  | some frame_id =>
    match pageAt s.pages_ frame_id with
    | none => Res.undef
    | some pg =>
      if pg.pin_count_ > 0 then Res.ok s false
      else
        let s1 := { s with
          page_table_ := (ExtendibleHashTable.Remove hash s.page_table_ page_id).2 }
        match s1.replacer_.Remove frame_id with
        | Res.raise r => Res.raise { s1 with replacer_ := r }
        | Res.undef => Res.undef
        | Res.ok r _ =>
          Res.ok { s1 with
            replacer_ := r
            free_list_ := s1.free_list_ ++ [frame_id]
            pages_ := setPageAt s1.pages_ frame_id Page.empty
            disk_manager_ := s1.disk_manager_.DeallocatePage page_id } true

/-- A client holding a pin writes the buffer of its frame. -/
def writeData (s : BufferPoolManagerInstance) (frame_id : Int) (data : List Nat) :
    Option BufferPoolManagerInstance :=
  match pageAt s.pages_ frame_id with
  | none => none
  | some pg =>
    if pg.pin_count_ > 0 then
      some { s with pages_ := setPageAt s.pages_ frame_id { pg with data_ := data } }
    else none

/-- Manager states reachable from a fresh pool by calls of `NewPgImp`, `FetchPgImp`,
`UnpinPgImp`, `FlushPgImp` and `DeletePgImp` (with any arguments, whether the call returns
or throws) and by writes of clients into the buffers of pinned frames. -/
inductive Reachable (hash : Int → Nat) (pool_size replacer_k bucket_size : Nat)
    (disk_manager : DiskManager) : BufferPoolManagerInstance → Prop
  | init : Reachable hash pool_size replacer_k bucket_size disk_manager
      (new pool_size replacer_k bucket_size disk_manager)
  | newPage {s s' : BufferPoolManagerInstance} (fuel : Nat) (a : Option (Int × Int)) :
      Reachable hash pool_size replacer_k bucket_size disk_manager s →
      NewPgImp hash fuel s = Res.ok s' a →
      Reachable hash pool_size replacer_k bucket_size disk_manager s'
  | newPageRaise {s s' : BufferPoolManagerInstance} (fuel : Nat) :
      Reachable hash pool_size replacer_k bucket_size disk_manager s →
      NewPgImp hash fuel s = Res.raise s' →
      Reachable hash pool_size replacer_k bucket_size disk_manager s'
  | fetchPage {s s' : BufferPoolManagerInstance} (fuel : Nat) (page_id : Int)
      (a : Option Int) :
      Reachable hash pool_size replacer_k bucket_size disk_manager s →
      FetchPgImp hash fuel s page_id = Res.ok s' a →
      Reachable hash pool_size replacer_k bucket_size disk_manager s'
  | fetchPageRaise {s s' : BufferPoolManagerInstance} (fuel : Nat) (page_id : Int) :
      Reachable hash pool_size replacer_k bucket_size disk_manager s →
      FetchPgImp hash fuel s page_id = Res.raise s' →
      Reachable hash pool_size replacer_k bucket_size disk_manager s'
  | unpinPage {s s' : BufferPoolManagerInstance} (page_id : Int) (is_dirty b : Bool) :
      Reachable hash pool_size replacer_k bucket_size disk_manager s →
      UnpinPgImp hash s page_id is_dirty = Res.ok s' b →
      Reachable hash pool_size replacer_k bucket_size disk_manager s'
  | unpinPageRaise {s s' : BufferPoolManagerInstance} (page_id : Int) (is_dirty : Bool) :
      Reachable hash pool_size replacer_k bucket_size disk_manager s →
      UnpinPgImp hash s page_id is_dirty = Res.raise s' →
      Reachable hash pool_size replacer_k bucket_size disk_manager s'
  | flushPage {s s' : BufferPoolManagerInstance} (page_id : Int) (b : Bool) :
      Reachable hash pool_size replacer_k bucket_size disk_manager s →
      FlushPgImp hash s page_id = Res.ok s' b →
      Reachable hash pool_size replacer_k bucket_size disk_manager s'
  | deletePage {s s' : BufferPoolManagerInstance} (page_id : Int) (b : Bool) :
      Reachable hash pool_size replacer_k bucket_size disk_manager s →
      DeletePgImp hash s page_id = Res.ok s' b →
      Reachable hash pool_size replacer_k bucket_size disk_manager s'
  | deletePageRaise {s s' : BufferPoolManagerInstance} (page_id : Int) :
      Reachable hash pool_size replacer_k bucket_size disk_manager s →
      DeletePgImp hash s page_id = Res.raise s' →
      Reachable hash pool_size replacer_k bucket_size disk_manager s'
  | write {s s' : BufferPoolManagerInstance} (frame_id : Int) (data : List Nat) :
      Reachable hash pool_size replacer_k bucket_size disk_manager s →
      writeData s frame_id data = some s' →
      Reachable hash pool_size replacer_k bucket_size disk_manager s'

/-- Invariant of the manager used to show that its operations return: the components are
well-formed, every frame index held by the free list, the replacer or the page table is
in range, pin counts are not negative, a frame with pin count 0 is not marked
non-evictable in the replacer, and a frame with a positive pin count is marked
non-evictable. -/
structure Inv (hash : Int → Nat) (s : BufferPoolManagerInstance) : Prop where
  pages_len : s.pages_.length = s.pool_size_
  table_wf : ExtendibleHashTable.WF hash s.page_table_
  bucket_pos : 1 ≤ s.page_table_.bucket_size_
  replacer_inv : LRUKReplacer.Inv s.replacer_
  replacer_size : s.replacer_.replacer_size_ = s.pool_size_
  free_range : ∀ f ∈ s.free_list_, 0 ≤ f ∧ f < (s.pool_size_ : Int)
  tracked_range : ∀ f, (AL.find? f s.replacer_.count_map_).isSome = true →
    0 ≤ f ∧ f < (s.pool_size_ : Int)
  table_range : ∀ p f, ExtendibleHashTable.Find hash s.page_table_ p = some f →
    0 ≤ f ∧ f < (s.pool_size_ : Int)
  pin_nonneg : ∀ f pg, pageAt s.pages_ f = some pg → 0 ≤ pg.pin_count_
  pin_evictable : ∀ f pg, pageAt s.pages_ f = some pg → pg.pin_count_ = 0 →
    s.replacer_.evictable f ≠ some false
  pinned_flag : ∀ f pg, pageAt s.pages_ f = some pg → 0 < pg.pin_count_ →
    s.replacer_.evictable f = some false

end BufferPoolManagerInstance

end Bustub

namespace Bustub

/-- An injective hash of page ids (non-negative ids to even numbers, negative ids to odd
numbers), used for the concrete pool below. -/
def exampleHash (p : Int) : Nat := if 0 ≤ p then 2 * p.toNat else 2 * (-p).toNat - 1

/-- A disk whose pages are all empty and that has received no call. -/
def exampleDisk : DiskManager := { content := fun _ => [], log := [] }

/-- The pool of one frame (`replacer_k = 2`, `bucket_size = 2`) after one `NewPgImp`:
page 0 sits pinned in frame 0. -/
def examplePool : BufferPoolManagerInstance :=
  { pool_size_ := 1
    pages_ := [{ data_ := Page.zeroData, page_id_ := 0, pin_count_ := 1, is_dirty_ := false }]
    page_table_ :=
      { global_depth_ := 0, bucket_size_ := 2, num_buckets_ := 1, dir_ := [0],
        heap := [{ size_ := 2, depth_ := 0, list_ := [(0, 0)] }] }
    replacer_ :=
      { replacer_size_ := 1, k_ := 2, current_timestamp_ := 1, history_list_ := [(0, [0])],
        cache_list_ := [], count_map_ := [(0, 1)], evictable_map_ := [(0, false)],
        location_ := [(0, ListId.history)] }
    free_list_ := []
    next_page_id_ := 1
    disk_manager_ := exampleDisk }

end Bustub

namespace Bustub

namespace ExtendibleHashTable

variable {K V : Type} [DecidableEq K]

/-- Number of distinct buckets referenced by the directory. -/
def distinctBuckets (t : ExtendibleHashTable K V) : Nat := t.dir_.dedup.length

/-- Number of calls of `RedistributeBucket` made by the loop of `Insert`, which is followed
branch by branch. -/
def InsertSplits (hash : K → Nat) : Nat → ExtendibleHashTable K V → K → V → Option Nat
  | 0, _, _, _ => none
  | fuel + 1, t, key, value =>
    match IndexOf hash t key with
    | none => none
    | some ind =>
      match t.bucketAt ind with
      | none => none
      | some (bid, b) =>
        let r := b.Insert key value
        if r.1 then some 0
        else
          match RedistributeBucket hash t bid with
          | none => none
          | some t' => (InsertSplits hash fuel t' key value).map (fun n => n + 1)

end ExtendibleHashTable

namespace LRUKReplacer

/-- The tracked frames whose evictable flag is true, each listed once. -/
def evictableFrames (r : LRUKReplacer) : List Int :=
  (r.count_map_.map Prod.fst).dedup.filter (fun f => r.evictable f = some true)

end LRUKReplacer

namespace BufferPoolManagerInstance

/-- The frames of the pool that the replacer tracks and whose pin count is 0. -/
def unpinnedTrackedFrames (s : BufferPoolManagerInstance) : List Int :=
  ((List.range s.pool_size_).map Int.ofNat).filter (fun f =>
    s.replacer_.tracked f &&
      (match pageAt s.pages_ f with
       | some pg => decide (pg.pin_count_ = 0)
       | none => false))

/-- The `page_id_` of frame `frame_id`; `none` when the index is out of range. -/
def pageIdAt (pages : List Page) (frame_id : Int) : Option Int :=
  (pageAt pages frame_id).map (fun pg => pg.page_id_)

/-- Agreement of the directory with the frames and the free list: the frame that the
directory gives for a page id holds that page id, no frame of the free list is the target
of a directory entry, and the free list has no frame twice. -/
structure DirInv (hash : Int → Nat) (s : BufferPoolManagerInstance) : Prop where
  dir_page : ∀ q g, ExtendibleHashTable.Find hash s.page_table_ q = some g →
    pageIdAt s.pages_ g = some q
  free_unmapped : ∀ g ∈ s.free_list_, ∀ q,
    ExtendibleHashTable.Find hash s.page_table_ q ≠ some g
  free_nodup : s.free_list_.Nodup

/-- Agreement of the frames with the directory: the page id held by a frame outside the
free list is mapped to that frame, and every mapped page id is below the page-id
counter. -/
structure FrameInv (hash : Int → Nat) (s : BufferPoolManagerInstance) : Prop where
  frame_dir : ∀ g q, pageIdAt s.pages_ g = some q → g ∉ s.free_list_ →
    ExtendibleHashTable.Find hash s.page_table_ q = some g
  keys_lt : ∀ q g, ExtendibleHashTable.Find hash s.page_table_ q = some g →
    q < s.next_page_id_

/-- Manager states reachable from a fresh pool by calls that return of `NewPgImp`,
`UnpinPgImp`, `FlushPgImp`, `DeletePgImp` (with any arguments) and of `FetchPgImp` with a
page id below `next_page_id_`, that is, one that `AllocatePage` has handed out, and by
writes of clients into the buffers of pinned frames. -/
inductive ReachableAllocated (hash : Int → Nat) (pool_size replacer_k bucket_size : Nat)
    (disk_manager : DiskManager) : BufferPoolManagerInstance → Prop
  | init : ReachableAllocated hash pool_size replacer_k bucket_size disk_manager
      (new pool_size replacer_k bucket_size disk_manager)
  | newPage {s s' : BufferPoolManagerInstance} (fuel : Nat) (a : Option (Int × Int)) :
      ReachableAllocated hash pool_size replacer_k bucket_size disk_manager s →
      NewPgImp hash fuel s = Res.ok s' a →
      ReachableAllocated hash pool_size replacer_k bucket_size disk_manager s'
  | fetchPage {s s' : BufferPoolManagerInstance} (fuel : Nat) (page_id : Int)
      (a : Option Int) :
      ReachableAllocated hash pool_size replacer_k bucket_size disk_manager s →
      page_id < s.next_page_id_ →
      FetchPgImp hash fuel s page_id = Res.ok s' a →
      ReachableAllocated hash pool_size replacer_k bucket_size disk_manager s'
  | unpinPage {s s' : BufferPoolManagerInstance} (page_id : Int) (is_dirty b : Bool) :
      ReachableAllocated hash pool_size replacer_k bucket_size disk_manager s →
      UnpinPgImp hash s page_id is_dirty = Res.ok s' b →
      ReachableAllocated hash pool_size replacer_k bucket_size disk_manager s'
  | flushPage {s s' : BufferPoolManagerInstance} (page_id : Int) (b : Bool) :
      ReachableAllocated hash pool_size replacer_k bucket_size disk_manager s →
      FlushPgImp hash s page_id = Res.ok s' b →
      ReachableAllocated hash pool_size replacer_k bucket_size disk_manager s'
  | deletePage {s s' : BufferPoolManagerInstance} (page_id : Int) (b : Bool) :
      ReachableAllocated hash pool_size replacer_k bucket_size disk_manager s →
      DeletePgImp hash s page_id = Res.ok s' b →
      ReachableAllocated hash pool_size replacer_k bucket_size disk_manager s'
  | write {s s' : BufferPoolManagerInstance} (frame_id : Int) (data : List Nat) :
      ReachableAllocated hash pool_size replacer_k bucket_size disk_manager s →
      writeData s frame_id data = some s' →
      ReachableAllocated hash pool_size replacer_k bucket_size disk_manager s'

/-- `Later hash p s s'`: the state `s'` comes from `s` by calls that return of `NewPgImp`,
`FetchPgImp`, `UnpinPgImp` and `FlushPgImp` (with any arguments), and by writes of clients
into pinned frames other than the frame of page `p`. -/
inductive Later (hash : Int → Nat) (p : Int) :
    BufferPoolManagerInstance → BufferPoolManagerInstance → Prop
  | refl (s : BufferPoolManagerInstance) : Later hash p s s
  | newPage {s s1 s2 : BufferPoolManagerInstance} (fuel : Nat) (a : Option (Int × Int)) :
      Later hash p s s1 → NewPgImp hash fuel s1 = Res.ok s2 a → Later hash p s s2
  | fetchPage {s s1 s2 : BufferPoolManagerInstance} (fuel : Nat) (page_id : Int)
      (a : Option Int) :
      Later hash p s s1 → FetchPgImp hash fuel s1 page_id = Res.ok s2 a → Later hash p s s2
  | unpinPage {s s1 s2 : BufferPoolManagerInstance} (page_id : Int) (is_dirty b : Bool) :
      Later hash p s s1 → UnpinPgImp hash s1 page_id is_dirty = Res.ok s2 b →
      Later hash p s s2
  | flushPage {s s1 s2 : BufferPoolManagerInstance} (page_id : Int) (b : Bool) :
      Later hash p s s1 → FlushPgImp hash s1 page_id = Res.ok s2 b → Later hash p s s2
  | write {s s1 s2 : BufferPoolManagerInstance} (frame_id : Int) (data : List Nat) :
      Later hash p s s1 → ExtendibleHashTable.Find hash s1.page_table_ p ≠ some frame_id →
      writeData s1 frame_id data = some s2 → Later hash p s s2

/-- The latest content of page `p` is `B`: either the page is resident in a frame whose
buffer is `B` and that is dirty or whose content on disk is `B` too, or the page is not
resident and its content on disk is `B`. -/
def LatestContent (hash : Int → Nat) (s : BufferPoolManagerInstance) (p : Int)
    (B : List Nat) : Prop :=
  (∃ f pg, ExtendibleHashTable.Find hash s.page_table_ p = some f ∧
      pageAt s.pages_ f = some pg ∧ pg.data_ = B ∧
      (pg.is_dirty_ = true ∨ s.disk_manager_.content p = B)) ∨
  (ExtendibleHashTable.Find hash s.page_table_ p = none ∧ s.disk_manager_.content p = B)

/-- The manager holds page `p` with latest content `B`: the page id has been handed out,
every frame outside the free list that holds page id `p` is the frame that the directory
gives for `p`, and the latest content of `p` is `B`. -/
def Holds (hash : Int → Nat) (s : BufferPoolManagerInstance) (p : Int) (B : List Nat) :
    Prop :=
  p < s.next_page_id_ ∧
  (∀ x, pageIdAt s.pages_ x = some p → x ∉ s.free_list_ →
    ExtendibleHashTable.Find hash s.page_table_ p = some x) ∧
  LatestContent hash s p B

/-- The same while frame `g`, obtained by `takeFrame`, waits for its new page: `g` is
unmapped and is not asked to agree with the directory. -/
def HoldsExcept (hash : Int → Nat) (s : BufferPoolManagerInstance) (g p : Int)
    (B : List Nat) : Prop :=
  p < s.next_page_id_ ∧
  (∀ x, x ≠ g → pageIdAt s.pages_ x = some p → x ∉ s.free_list_ →
    ExtendibleHashTable.Find hash s.page_table_ p = some x) ∧
  ExtendibleHashTable.Find hash s.page_table_ p ≠ some g ∧
  LatestContent hash s p B

end BufferPoolManagerInstance

end Bustub

namespace Bustub

namespace ExtendibleHashTable

variable {K V : Type} [DecidableEq K]

/-- `LoopState hash t k v t0`: the table is in state `t0` at the head of an iteration of the
`while (true)` loop of `Insert(k, v)` called in state `t`. An iteration that does not end
the loop finds the bucket of `k` unable to take the key and splits it. -/
inductive LoopState (hash : K → Nat) (t : ExtendibleHashTable K V) (k : K) (v : V) :
    ExtendibleHashTable K V → Prop
  | start : LoopState hash t k v t
  | split {t0 t1 : ExtendibleHashTable K V} {ind bid : Nat} {b : Bucket K V} :
      LoopState hash t k v t0 →
      IndexOf hash t0 k = some ind →
      t0.bucketAt ind = some (bid, b) →
      (b.Insert k v).1 = false →
      RedistributeBucket hash t0 bid = some t1 →
      LoopState hash t k v t1

end ExtendibleHashTable

namespace BufferPoolManagerInstance

/-- Manager states reachable from a fresh pool by calls that return of `NewPgImp`,
`UnpinPgImp`, `FlushPgImp`, `DeletePgImp` (with any arguments) and of `FetchPgImp` with a
page id other than `INVALID_PAGE_ID`, and by writes of clients into the buffers of pinned
frames. -/
inductive ReachableValidFetch (hash : Int → Nat) (pool_size replacer_k bucket_size : Nat)
    (disk_manager : DiskManager) : BufferPoolManagerInstance → Prop
  | init : ReachableValidFetch hash pool_size replacer_k bucket_size disk_manager
      (new pool_size replacer_k bucket_size disk_manager)
  | newPage {s s' : BufferPoolManagerInstance} (fuel : Nat) (a : Option (Int × Int)) :
      ReachableValidFetch hash pool_size replacer_k bucket_size disk_manager s →
      NewPgImp hash fuel s = Res.ok s' a →
      ReachableValidFetch hash pool_size replacer_k bucket_size disk_manager s'
  | fetchPage {s s' : BufferPoolManagerInstance} (fuel : Nat) (page_id : Int)
      (a : Option Int) :
      ReachableValidFetch hash pool_size replacer_k bucket_size disk_manager s →
      page_id ≠ INVALID_PAGE_ID →
      FetchPgImp hash fuel s page_id = Res.ok s' a →
      ReachableValidFetch hash pool_size replacer_k bucket_size disk_manager s'
  | unpinPage {s s' : BufferPoolManagerInstance} (page_id : Int) (is_dirty b : Bool) :
      ReachableValidFetch hash pool_size replacer_k bucket_size disk_manager s →
      UnpinPgImp hash s page_id is_dirty = Res.ok s' b →
      ReachableValidFetch hash pool_size replacer_k bucket_size disk_manager s'
  | flushPage {s s' : BufferPoolManagerInstance} (page_id : Int) (b : Bool) :
      ReachableValidFetch hash pool_size replacer_k bucket_size disk_manager s →
      FlushPgImp hash s page_id = Res.ok s' b →
      ReachableValidFetch hash pool_size replacer_k bucket_size disk_manager s'
  | deletePage {s s' : BufferPoolManagerInstance} (page_id : Int) (b : Bool) :
      ReachableValidFetch hash pool_size replacer_k bucket_size disk_manager s →
      DeletePgImp hash s page_id = Res.ok s' b →
      ReachableValidFetch hash pool_size replacer_k bucket_size disk_manager s'
  | write {s s' : BufferPoolManagerInstance} (frame_id : Int) (data : List Nat) :
      ReachableValidFetch hash pool_size replacer_k bucket_size disk_manager s →
      writeData s frame_id data = some s' →
      ReachableValidFetch hash pool_size replacer_k bucket_size disk_manager s'

/-- The empty-frame invariant: the page-id counter is not negative, and a frame whose
`page_id_` is `INVALID_PAGE_ID` has pin count 0, is not dirty and is in the free list. -/
structure EmptyInv (s : BufferPoolManagerInstance) : Prop where
  next_nonneg : 0 ≤ s.next_page_id_
  empty : ∀ g pg, pageAt s.pages_ g = some pg → pg.page_id_ = INVALID_PAGE_ID →
    pg.pin_count_ = 0 ∧ pg.is_dirty_ = false ∧ g ∈ s.free_list_

/-- No frame of the free list is tracked by the replacer. -/
def FreeUntracked (s : BufferPoolManagerInstance) : Prop :=
  ∀ g ∈ s.free_list_, s.replacer_.tracked g = false

end BufferPoolManagerInstance

/-- Modelled from the spec: integer keys are "hashed to themselves". This is
`std::hash<int>`, which is not part of the sources: the integer converted to the 64-bit
`size_t`. -/
def stdHashInt (p : Int) : Nat := (p % 2 ^ 64).toNat

/-- The pool of two frames (`replacer_k = 2`, `bucket_size = 2`) after one `NewPgImp`:
page 0 sits pinned in frame 0 and frame 1 holds no page. -/
def examplePoolTwoFrames : BufferPoolManagerInstance :=
  match BufferPoolManagerInstance.NewPgImp exampleHash 1
      (BufferPoolManagerInstance.new 2 2 2 exampleDisk) with
  | Res.ok s _ => s
  | _ => BufferPoolManagerInstance.new 2 2 2 exampleDisk

/-- The pool of two frames with page ids hashed to themselves and a page table of bucket
size 1, after one `NewPgImp`: page 0 sits pinned in frame 0 and frame 1 is free. -/
def examplePoolBucketOne : BufferPoolManagerInstance :=
  match BufferPoolManagerInstance.NewPgImp stdHashInt 1
      (BufferPoolManagerInstance.new 2 2 1 exampleDisk) with
  | Res.ok s _ => s
  | _ => BufferPoolManagerInstance.new 2 2 1 exampleDisk

/-- The pool of two frames with page ids hashed to themselves and a page table of bucket
size 1, after `FetchPgImp(0)`: page 0 sits pinned in frame 0 and frame 1 is free. -/
def examplePoolBucketOneFetched : BufferPoolManagerInstance :=
  match BufferPoolManagerInstance.FetchPgImp stdHashInt 1
      (BufferPoolManagerInstance.new 2 2 1 exampleDisk) 0 with
  | Res.ok s _ => s
  | _ => BufferPoolManagerInstance.new 2 2 1 exampleDisk

/-- The example pool of one frame after `UnpinPgImp(0, false)`: page 0 sits unpinned in
frame 0, the free list is empty and the replacer has one evictable frame. -/
def examplePoolUnpinned : BufferPoolManagerInstance :=
  match BufferPoolManagerInstance.UnpinPgImp exampleHash examplePool 0 false with
  | Res.ok s _ => s
  | _ => examplePool

end Bustub

namespace Bustub

/-! ## Extendible hash table: bucket-level facts -/

namespace Bucket

variable {K V : Type} [DecidableEq K]

theorem findList_eq_none_iff (key : K) (l : List (K × V)) :
    findList key l = none ↔ key ∉ l.map Prod.fst := by
  induction l with
  | nil => simp [findList]
  | cons kv rest ih =>
    obtain ⟨k, v⟩ := kv
    by_cases h : k = key
    · simp [findList, h]
    · simp [findList, h, ih, Ne.symm h]

theorem mem_of_findList {key : K} {v : V} {l : List (K × V)} (h : findList key l = some v) :
    (key, v) ∈ l := by
  induction l with
  | nil => simp [findList] at h
  | cons kv rest ih =>
    obtain ⟨k, w⟩ := kv
    by_cases hk : k = key
    · simp [findList, hk] at h
      simp [hk, h]
    · simp [findList, hk] at h
      exact List.mem_cons_of_mem _ (ih h)

theorem findList_append (key : K) (l₁ l₂ : List (K × V)) :
    findList key (l₁ ++ l₂) = (findList key l₁).orElse (fun _ => findList key l₂) := by
  induction l₁ with
  | nil => simp [findList]
  | cons kv rest ih =>
    obtain ⟨k, v⟩ := kv
    by_cases h : k = key
    · simp [findList, h]
    · simp [findList, h, ih]

theorem updateList_eq_none_iff (key : K) (value : V) (l : List (K × V)) :
    updateList key value l = none ↔ key ∉ l.map Prod.fst := by
  induction l with
  | nil => simp [updateList]
  | cons kv rest ih =>
    obtain ⟨k, v⟩ := kv
    by_cases h : k = key
    · simp [updateList, h]
    · cases hu : updateList key value rest with
      | none => simpa [updateList, h, hu, Ne.symm h] using ih.mp hu
      | some l' =>
        have : ¬ key ∉ rest.map Prod.fst := fun hc => by simp [ih.mpr hc] at hu
        simp only [List.map_cons, List.mem_cons, not_or] 
        simp [updateList, h, hu]
        intro _
        simpa using this

theorem updateList_keys {key : K} {value : V} {l l' : List (K × V)}
    (h : updateList key value l = some l') : l'.map Prod.fst = l.map Prod.fst := by
  induction l generalizing l' with
  | nil => simp [updateList] at h
  | cons kv rest ih =>
    obtain ⟨k, v⟩ := kv
    by_cases hk : k = key
    · simp [updateList, hk] at h
      subst h; simp [hk]
    · cases hu : updateList key value rest with
      | none => simp [updateList, hk, hu] at h
      | some r =>
        simp [updateList, hk, hu] at h
        subst h; simp [ih hu]

theorem findList_updateList_self {key : K} {value : V} {l l' : List (K × V)}
    (h : updateList key value l = some l') : findList key l' = some value := by
  induction l generalizing l' with
  | nil => simp [updateList] at h
  | cons kv rest ih =>
    obtain ⟨k, v⟩ := kv
    by_cases hk : k = key
    · simp [updateList, hk] at h
      subst h; simp [findList]
    · cases hu : updateList key value rest with
      | none => simp [updateList, hk, hu] at h
      | some r =>
        simp [updateList, hk, hu] at h
        subst h; simp [findList, hk, ih hu]

theorem findList_updateList_other {key key' : K} {value : V} {l l' : List (K × V)}
    (h : updateList key value l = some l') (hne : key' ≠ key) :
    findList key' l' = findList key' l := by
  induction l generalizing l' with
  | nil => simp [updateList] at h
  | cons kv rest ih =>
    obtain ⟨k, v⟩ := kv
    by_cases hk : k = key
    · simp [updateList, hk] at h
      subst h; simp [findList, hk, Ne.symm hne]
    · cases hu : updateList key value rest with
      | none => simp [updateList, hk, hu] at h
      | some r =>
        simp [updateList, hk, hu] at h
        subst h
        by_cases hk' : k = key'
        · simp [findList, hk']
        · simp [findList, hk', ih hu]

theorem updateList_mem_fst {key : K} {value : V} {l l' : List (K × V)}
    (h : updateList key value l = some l') {kv : K × V} (hm : kv ∈ l') :
    kv.1 ∈ l.map Prod.fst := by
  rw [← updateList_keys h]
  exact List.mem_map_of_mem _ hm

theorem updateList_length {key : K} {value : V} {l l' : List (K × V)}
    (h : updateList key value l = some l') : l'.length = l.length := by
  have := congrArg List.length (updateList_keys h)
  simpa using this

theorem removeList_eq_none_iff (key : K) (l : List (K × V)) :
    removeList key l = none ↔ findList key l = none := by
  induction l with
  | nil => simp [removeList, findList]
  | cons kv rest ih =>
    obtain ⟨k, v⟩ := kv
    by_cases h : k = key
    · simp [removeList, findList, h]
    · cases hr : removeList key rest with
      | none => simp [removeList, findList, h, hr, ih.mp hr]
      | some r =>
        have : findList key rest ≠ none := fun hc => by simp [ih.mpr hc] at hr
        simp [removeList, findList, h, hr, this]

theorem removeList_sublist {key : K} {l l' : List (K × V)} (h : removeList key l = some l') :
    l'.Sublist l := by
  induction l generalizing l' with
  | nil => simp [removeList] at h
  | cons kv rest ih =>
    obtain ⟨k, v⟩ := kv
    by_cases hk : k = key
    · simp [removeList, hk] at h
      subst h; exact List.sublist_cons_self _ _
    · cases hr : removeList key rest with
      | none => simp [removeList, hk, hr] at h
      | some r =>
        simp [removeList, hk, hr] at h
        subst h; exact (ih hr).cons₂ _

theorem findList_removeList_other {key key' : K} {l l' : List (K × V)}
    (h : removeList key l = some l') (hne : key' ≠ key) :
    findList key' l' = findList key' l := by
  induction l generalizing l' with
  | nil => simp [removeList] at h
  | cons kv rest ih =>
    obtain ⟨k, v⟩ := kv
    by_cases hk : k = key
    · simp [removeList, hk] at h
      subst h; simp [findList, hk, Ne.symm hne]
    · cases hr : removeList key rest with
      | none => simp [removeList, hk, hr] at h
      | some r =>
        simp [removeList, hk, hr] at h
        subst h
        by_cases hk' : k = key'
        · simp [findList, hk']
        · simp [findList, hk', ih hr]

theorem findList_removeList_self {key : K} {l l' : List (K × V)}
    (h : removeList key l = some l') (hnd : (l.map Prod.fst).Nodup) :
    findList key l' = none := by
  induction l generalizing l' with
  | nil => simp [removeList] at h
  | cons kv rest ih =>
    obtain ⟨k, v⟩ := kv
    simp only [List.map_cons, List.nodup_cons] at hnd
    by_cases hk : k = key
    · simp [removeList, hk] at h
      subst h; subst hk
      exact (findList_eq_none_iff _ _).mpr hnd.1
    · cases hr : removeList key rest with
      | none => simp [removeList, hk, hr] at h
      | some r =>
        simp [removeList, hk, hr] at h
        subst h
        simp [findList, hk, ih hr hnd.2]

/-- A predicate on keys that holds of `key` does not change what the scan finds for `key`
in the filtered list. -/
theorem findList_filter (key : K) (P : K → Bool) (hP : P key = true) (l : List (K × V)) :
    findList key (l.filter (fun kv => P kv.1)) = findList key l := by
  induction l with
  | nil => simp [findList]
  | cons kv rest ih =>
    obtain ⟨k, v⟩ := kv
    by_cases hk : k = key
    · subst hk; simp [List.filter, hP, findList]
    · cases hPk : P k with
      | true => simp [List.filter, hPk, findList, hk, ih]
      | false => simp [List.filter, hPk, findList, hk, ih]

end Bucket

end Bustub

namespace Bustub

namespace ExtendibleHashTable

variable {K V : Type} [DecidableEq K]

/-! ## Extendible hash table: index arithmetic -/

theorem mask_eq (x depth : Nat) : x &&& ((1 <<< depth) - 1) = x % 2 ^ depth := by
  rw [Nat.one_shiftLeft, Nat.and_pow_two_sub_one_eq_mod]

theorem intMask_eq {depth : Nat} (h : depth ≤ 30) : intMask depth = some ((1 <<< depth) - 1) := by
  simp [intMask, h]

theorem intMask_eq_none {depth : Nat} (h : 30 < depth) : intMask depth = none := by
  simp [intMask, Nat.not_le.mpr h]

theorem ComputeIndex_eq (hash : K → Nat) (key : K) {depth : Nat} (h : depth ≤ 30) :
    ComputeIndex hash key depth = some (hash key % 2 ^ depth) := by
  simp only [ComputeIndex, intMask_eq h, mask_eq]

theorem ComputeIndex_eq_none (hash : K → Nat) (key : K) {depth : Nat} (h : 30 < depth) :
    ComputeIndex hash key depth = none := by
  simp only [ComputeIndex, intMask_eq_none h]

theorem IndexOf_eq (hash : K → Nat) (t : ExtendibleHashTable K V) (key : K)
    (h : t.global_depth_ ≤ 30) :
    IndexOf hash t key = some (hash key % 2 ^ t.global_depth_) := by
  simp only [IndexOf, intMask_eq h, mask_eq]

theorem IndexOf_some {hash : K → Nat} {t : ExtendibleHashTable K V} {key : K} {ind : Nat}
    (h : IndexOf hash t key = some ind) :
    t.global_depth_ ≤ 30 ∧ ind = hash key % 2 ^ t.global_depth_ := by
  by_cases hg : t.global_depth_ ≤ 30
  · rw [IndexOf_eq hash t key hg] at h
    exact ⟨hg, (Option.some.inj h).symm⟩
  · simp [IndexOf, intMask_eq_none (Nat.not_le.mp hg)] at h

theorem IndexOf_eq_none (hash : K → Nat) (t : ExtendibleHashTable K V) (key : K)
    (h : 30 < t.global_depth_) : IndexOf hash t key = none := by
  simp only [IndexOf, intMask_eq_none h]

theorem mod_mod_pow_le (x : Nat) {d g : Nat} (h : d ≤ g) : x % 2 ^ g % 2 ^ d = x % 2 ^ d :=
  Nat.mod_mod_of_dvd x (Nat.pow_dvd_pow 2 h)

theorem mod_pow_succ_cases (x d : Nat) :
    x % 2 ^ (d + 1) = x % 2 ^ d ∨ x % 2 ^ (d + 1) = x % 2 ^ d + 2 ^ d := by
  rw [Nat.mod_pow_succ]
  rcases Nat.mod_two_eq_zero_or_one (x / 2 ^ d) with h | h <;> simp [h]

theorem mod_eq_of_mod_pow_eq {x y d g : Nat} (h : d ≤ g) (hxy : x % 2 ^ g = y % 2 ^ g) :
    x % 2 ^ d = y % 2 ^ d := by
  rw [← mod_mod_pow_le x h, ← mod_mod_pow_le y h, hxy]

/-- Two indices that agree on the low `d` bits and both differ from `p` (their common low
`d` bits) on the low `d + 1` bits agree on the low `d + 1` bits. -/
theorem mod_succ_eq_of_ne {x y d p : Nat} (hx : x % 2 ^ d = p) (hy : y % 2 ^ d = p)
    (hx' : x % 2 ^ (d + 1) ≠ p) (hy' : y % 2 ^ (d + 1) ≠ p) :
    x % 2 ^ (d + 1) = y % 2 ^ (d + 1) := by
  rcases mod_pow_succ_cases x d with h1 | h1 <;> rcases mod_pow_succ_cases y d with h2 | h2 <;>
    omega

/-! ## Extendible hash table: the loops of `RedistributeBucket` -/

/-- Closed form of the directory loop of `RedistributeBucket` when the masks are defined. -/
theorem repointFrom_some {ld : Nat} (hld : ld ≤ 30) (p n i : Nat) (l : List Nat) :
    ∃ l', repointFrom ld p n i l = some l' ∧ l'.length = l.length ∧
      ∀ j, l'[j]? = (l[j]?).map (fun b =>
        if (i + j) % 2 ^ (ld - 1) = p ∧ (i + j) % 2 ^ ld ≠ p then n else b) := by
  have hld1 : ld - 1 ≤ 30 := by omega
  induction l generalizing i with
  | nil => exact ⟨[], by simp [repointFrom], rfl, fun j => by simp⟩
  | cons b rest ih =>
    obtain ⟨r, hr, hlen, hget⟩ := ih (i + 1)
    by_cases h1 : i % 2 ^ (ld - 1) = p
    · refine ⟨(if i % 2 ^ ld ≠ p then n else b) :: r, ?_, by simp [hlen], ?_⟩
      · simp only [repointFrom, intMask_eq hld1, intMask_eq hld, mask_eq, h1, if_true, hr]
      · intro j
        cases j with
        | zero => simp [h1]
        | succ j =>
          simp only [List.getElem?_cons_succ, hget]
          have : i + 1 + j = i + (j + 1) := by omega
          rw [this]
    · refine ⟨b :: r, ?_, by simp [hlen], ?_⟩
      · simp only [repointFrom, intMask_eq hld1, mask_eq, h1, if_false, hr]
      · intro j
        cases j with
        | zero => simp [h1]
        | succ j =>
          simp only [List.getElem?_cons_succ, hget]
          have : i + 1 + j = i + (j + 1) := by omega
          rw [this]

/-- The directory after the optional doubling: slot `j` holds what slot `j mod 2^g` held. -/
theorem grow_getElem? {dir : List Nat} {g : Nat} (hlen : dir.length = 2 ^ g) (grow : Bool)
    (j : Nat) (hj : j < (if grow then dir ++ dir else dir).length) :
    (if grow then dir ++ dir else dir)[j]? = dir[j % 2 ^ g]? := by
  cases grow with
  | false =>
    simp only [Bool.false_eq_true, if_false] at hj ⊢
    rw [Nat.mod_eq_of_lt (hlen ▸ hj)]
  | true =>
    simp only [if_true] at hj ⊢
    simp only [List.length_append] at hj
    by_cases h : j < dir.length
    · rw [List.getElem?_append_left h, Nat.mod_eq_of_lt (hlen ▸ h)]
    · rw [List.getElem?_append_right (by omega)]
      congr 1
      rw [← hlen]
      have h1 : j - dir.length < dir.length := by omega
      conv_rhs => rw [show j = j - dir.length + dir.length by omega]
      rw [Nat.add_mod_right, Nat.mod_eq_of_lt h1]

/-- Closed form of the entry loop of `RedistributeBucket` when the moved entries fit in the
new bucket and have keys that are pairwise distinct and absent from it. -/
theorem splitItems_eq (hash : K → Nat) {ld : Nat} (hld : ld ≤ 30) (p : Nat)
    (l : List (K × V)) (nb : Bucket K V)
    (hnd : ((nb.list_ ++ l).map Prod.fst).Nodup)
    (hcap : nb.list_.length + l.length ≤ nb.size_) :
    splitItems hash ld p l nb = some
      (l.filter (fun kv => decide (hash kv.1 % 2 ^ ld = p)),
       { nb with list_ := nb.list_ ++ l.filter (fun kv => decide (hash kv.1 % 2 ^ ld ≠ p)) }) := by
  induction l generalizing nb with
  | nil => simp [splitItems]
  | cons kv rest ih =>
    obtain ⟨k, v⟩ := kv
    by_cases hk : hash k % 2 ^ ld = p
    · have hnd' : ((nb.list_ ++ rest).map Prod.fst).Nodup := by
        refine hnd.sublist ?_
        exact (List.Sublist.append_left (List.sublist_cons_self _ _) _).map _
      have hcap' : nb.list_.length + rest.length ≤ nb.size_ := by
        simp only [List.length_cons] at hcap; omega
      simp [splitItems, ComputeIndex_eq hash k hld, hk, ih nb hnd' hcap']
    · have hknot : k ∉ nb.list_.map Prod.fst := by
        intro hmem
        rw [List.map_append, List.nodup_append] at hnd
        exact hnd.2.2 hmem (by simp)
      have hins : nb.Insert k v = (true, { nb with list_ := nb.list_ ++ [(k, v)] }) := by
        have hfull : nb.IsFull = false := by
          simp only [Bucket.IsFull, beq_eq_false_iff_ne, List.length_cons] at hcap ⊢
          omega
        simp [Bucket.Insert, (Bucket.updateList_eq_none_iff k v nb.list_).mpr hknot, hfull]
      have hnd' : (((nb.list_ ++ [(k, v)]) ++ rest).map Prod.fst).Nodup := by
        simpa using hnd
      have hcap' : (nb.list_ ++ [(k, v)]).length + rest.length ≤ nb.size_ := by
        simp only [List.length_cons, List.length_append, List.length_nil] at hcap ⊢; omega
      have := ih { nb with list_ := nb.list_ ++ [(k, v)] } hnd' hcap'
      simp [splitItems, ComputeIndex_eq hash k hld, hk, hins, this]

end ExtendibleHashTable

end Bustub

namespace Bustub

namespace ExtendibleHashTable

variable {K V : Type} [DecidableEq K]

theorem bucketAt_eq_some {t : ExtendibleHashTable K V} {i bid : Nat} {b : Bucket K V} :
    t.bucketAt i = some (bid, b) ↔ t.dir_[i]? = some bid ∧ t.heap[bid]? = some b := by
  unfold bucketAt
  constructor
  · intro h
    split at h
    · cases h
    · rename_i x hx
      split at h
      · cases h
      · rename_i c hc
        simp only [Option.some.injEq, Prod.mk.injEq] at h
        obtain ⟨rfl, rfl⟩ := h
        exact ⟨hx, hc⟩
  · rintro ⟨h1, h2⟩
    simp [h1, h2]

/-- A `RedistributeBucket` that returns has raised the local depth to at most 30. -/
theorem RedistributeBucket_bound {hash : K → Nat} {t t' : ExtendibleHashTable K V}
    {bid : Nat} {b : Bucket K V} (hb : t.heap[bid]? = some b)
    (hr : RedistributeBucket hash t bid = some t') : b.depth_ + 1 ≤ 30 := by
  by_contra hgt
  have hgt' : 30 < b.depth_ + 1 := Nat.not_le.mp hgt
  cases hl : b.list_ with
  | nil => simp [RedistributeBucket, hb, hl] at hr
  | cons kv rest =>
    obtain ⟨k0, v0⟩ := kv
    simp only [RedistributeBucket, hb, hl] at hr
    split at hr
    · cases hr
    · simp only [splitItems, ComputeIndex_eq_none hash k0 hgt'] at hr
      cases hr

/-- Closed form of `RedistributeBucket` on a well-formed table, for the bucket behind slot
`i0`, when the new local depth is at most 30. -/
theorem RedistributeBucket_eq {hash : K → Nat} {t : ExtendibleHashTable K V}
    (hwf : WF hash t) {i0 bid : Nat} {b : Bucket K V}
    (hslot : t.dir_[i0]? = some bid) (hb : t.heap[bid]? = some b) (hne : b.list_ ≠ [])
    (hld : b.depth_ + 1 ≤ 30) :
    ∃ dir', repointFrom (b.depth_ + 1) (i0 % 2 ^ b.depth_) t.heap.length 0
        (if b.depth_ = t.global_depth_ then t.dir_ ++ t.dir_ else t.dir_) = some dir' ∧
    RedistributeBucket hash t bid = some
      { global_depth_ := if b.depth_ = t.global_depth_ then t.global_depth_ + 1
          else t.global_depth_
        bucket_size_ := t.bucket_size_
        num_buckets_ := t.num_buckets_ + 1
        dir_ := dir'
        heap := t.heap.set bid { b with depth_ := b.depth_ + 1, list_ := (b.list_.filter
            (fun kv => decide (hash kv.1 % 2 ^ (b.depth_ + 1) = i0 % 2 ^ b.depth_))) } ++
          [{ size_ := t.bucket_size_, depth_ := b.depth_ + 1, list_ := (b.list_.filter
            (fun kv => decide (hash kv.1 % 2 ^ (b.depth_ + 1) ≠ i0 % 2 ^ b.depth_))) }] } := by
  obtain ⟨b', hb', hdep, hshare, hkeys, hnd, hcap, hsize⟩ := hwf.slot i0 bid hslot
  rw [hb] at hb'; cases hb'
  obtain ⟨kv0, rest, hl⟩ := List.exists_cons_of_ne_nil hne
  obtain ⟨k0, v0⟩ := kv0
  have hp : hash k0 % 2 ^ b.depth_ = i0 % 2 ^ b.depth_ := hkeys (k0, v0) (by simp [hl])
  have hsplit := splitItems_eq hash hld (i0 % 2 ^ b.depth_) b.list_
    { size_ := t.bucket_size_, depth_ := b.depth_ + 1, list_ := [] }
    (by simpa using hnd) (by simp only [List.length_nil, Nat.zero_add]; omega)
  have hgrow : decide (b.depth_ + 1 > t.global_depth_) = decide (b.depth_ = t.global_depth_) := by
    apply decide_eq_decide.mpr; omega
  obtain ⟨dir', hdir', -, -⟩ := repointFrom_some hld (i0 % 2 ^ b.depth_) t.heap.length 0
    (if b.depth_ = t.global_depth_ then t.dir_ ++ t.dir_ else t.dir_)
  refine ⟨dir', hdir', ?_⟩
  have hld0 : b.depth_ ≤ 30 := by omega
  simp only [RedistributeBucket, hb]
  rw [hl]
  simp only [Nat.add_sub_cancel, ComputeIndex_eq hash k0 hld0, hp]
  rw [← hl, hsplit]
  simp only [List.nil_append, hgrow, decide_eq_true_eq, hdir']

/-- What `RedistributeBucket` does to a well-formed table, for the bucket behind slot `i0`:
with `d` the old local depth and `p = i0 mod 2^d`, slot `j` is repointed to the new handle
exactly when `j mod 2^d = p` and `j mod 2^(d+1) ≠ p`; the old bucket keeps the entries
whose hash is `p` modulo `2^(d+1)`, the new bucket receives the others. -/
theorem RedistributeBucket_spec {hash : K → Nat} {t : ExtendibleHashTable K V}
    (hwf : WF hash t) {i0 bid : Nat} {b : Bucket K V}
    (hslot : t.dir_[i0]? = some bid) (hb : t.heap[bid]? = some b) (hne : b.list_ ≠ [])
    (hld : b.depth_ + 1 ≤ 30) :
    ∃ t', RedistributeBucket hash t bid = some t' ∧
      t'.bucket_size_ = t.bucket_size_ ∧ t'.num_buckets_ = t.num_buckets_ + 1 ∧
      t.global_depth_ ≤ t'.global_depth_ ∧ b.depth_ + 1 ≤ t'.global_depth_ ∧
      t'.global_depth_ = (if b.depth_ = t.global_depth_ then t.global_depth_ + 1
        else t.global_depth_) ∧
      t'.dir_.length = 2 ^ t'.global_depth_ ∧
      (∀ j, j < 2 ^ t'.global_depth_ → t'.dir_[j]? =
        if j % 2 ^ b.depth_ = i0 % 2 ^ b.depth_ ∧ j % 2 ^ (b.depth_ + 1) ≠ i0 % 2 ^ b.depth_
        then some t.heap.length else t.dir_[j % 2 ^ t.global_depth_]?) ∧
      t'.heap.length = t.heap.length + 1 ∧
      t'.heap[bid]? = some { b with depth_ := b.depth_ + 1, list_ := (b.list_.filter
        (fun kv => decide (hash kv.1 % 2 ^ (b.depth_ + 1) = i0 % 2 ^ b.depth_))) } ∧
      t'.heap[t.heap.length]? = some
        { size_ := t.bucket_size_, depth_ := b.depth_ + 1, list_ := (b.list_.filter
          (fun kv => decide (hash kv.1 % 2 ^ (b.depth_ + 1) ≠ i0 % 2 ^ b.depth_))) } ∧
      (∀ x, x ≠ bid → x < t.heap.length → t'.heap[x]? = t.heap[x]?) := by
  obtain ⟨b', hb', hdep, hshare, hkeys, hnd, hcap, hsize⟩ := hwf.slot i0 bid hslot
  rw [hb] at hb'; cases hb'
  have hbid : bid < t.heap.length := (List.getElem?_eq_some.mp hb).1
  have hlen : (if b.depth_ = t.global_depth_ then t.dir_ ++ t.dir_ else t.dir_).length =
      2 ^ (if b.depth_ = t.global_depth_ then t.global_depth_ + 1 else t.global_depth_) := by
    split
    · simp [hwf.dir_len, pow_succ]; omega
    · exact hwf.dir_len
  obtain ⟨dir', hdir', hreq⟩ := RedistributeBucket_eq hwf hslot hb hne hld
  obtain ⟨dir'', hdir'', hdlen, hdget⟩ := repointFrom_some hld (i0 % 2 ^ b.depth_)
    t.heap.length 0 (if b.depth_ = t.global_depth_ then t.dir_ ++ t.dir_ else t.dir_)
  rw [hdir'] at hdir''
  cases hdir''
  refine ⟨_, hreq, rfl, rfl, ?_, ?_, rfl, ?_, ?_, ?_, ?_, ?_, ?_⟩
  · show t.global_depth_ ≤ (if _ then _ else _)
    by_cases h : b.depth_ = t.global_depth_ <;> simp [h]
  · show b.depth_ + 1 ≤ (if _ then _ else _)
    by_cases h : b.depth_ = t.global_depth_ <;> simp [h]
    omega
  · show dir'.length = _
    rw [hdlen, hlen]
  · intro j hj
    show dir'[j]? = _
    rw [hdget]
    have hj' : j < (if decide (b.depth_ = t.global_depth_) = true then t.dir_ ++ t.dir_
        else t.dir_).length := by simpa [hlen] using hj
    have := grow_getElem? hwf.dir_len (decide (b.depth_ = t.global_depth_)) j hj'
    simp only [decide_eq_true_eq] at this
    rw [this]
    have hlt : j % 2 ^ t.global_depth_ < t.dir_.length := by
      rw [hwf.dir_len]; exact Nat.mod_lt _ (by positivity)
    obtain ⟨y, hy⟩ : ∃ y, t.dir_[j % 2 ^ t.global_depth_]? = some y :=
      ⟨_, List.getElem?_eq_getElem hlt⟩
    simp only [hy, Option.map_some', Nat.add_sub_cancel, Nat.zero_add]
    split <;> rfl
  · simp
  · show (_ ++ _)[bid]? = _
    rw [List.getElem?_append_left (by simpa using hbid)]
    simp [List.getElem?_set, hbid]
  · show (_ ++ _)[t.heap.length]? = _
    rw [List.getElem?_append_right (by simp)]
    simp
  · intro x hx hxl
    show (_ ++ _)[x]? = _
    rw [List.getElem?_append_left (by simpa using hxl), List.getElem?_set_ne (Ne.symm hx)]

end ExtendibleHashTable

end Bustub

set_option linter.unusedSectionVars false

namespace Bustub

namespace ExtendibleHashTable

variable {K V : Type} [DecidableEq K]

theorem WF.init_table (hash : K → Nat) (bucket_size : Nat) :
    WF hash (new bucket_size : ExtendibleHashTable K V) := by
  refine ⟨by simp [ExtendibleHashTable.new], by simp [ExtendibleHashTable.new], ?_⟩
  intro i bid h
  have hi : i = 0 := by
    by_contra hne
    have : (ExtendibleHashTable.new bucket_size : ExtendibleHashTable K V).dir_[i]? = none := by
      apply List.getElem?_eq_none; simp [ExtendibleHashTable.new]; omega
    rw [this] at h; cases h
  subst hi
  simp only [ExtendibleHashTable.new, List.getElem?_cons_zero, Option.some.injEq] at h
  subst h
  refine ⟨{ size_ := bucket_size, depth_ := 0, list_ := [] }, rfl, Nat.le_refl _, ?_,
    by simp, by simp, by simp, rfl⟩
  intro j hj
  simp only [ExtendibleHashTable.new, List.length_singleton, Nat.lt_one_iff] at hj
  subst hj; simp [ExtendibleHashTable.new]

/-- In a well-formed table every index below `2 ^ global_depth_` has a bucket. -/
theorem WF.exists_bucket {hash : K → Nat} {t : ExtendibleHashTable K V} (hwf : WF hash t)
    (i : Nat) (hi : i < 2 ^ t.global_depth_) :
    ∃ bid b, t.dir_[i]? = some bid ∧ t.heap[bid]? = some b := by
  have hlt : i < t.dir_.length := by rw [hwf.dir_len]; exact hi
  obtain ⟨b, hb, -⟩ := hwf.slot i _ (List.getElem?_eq_getElem hlt)
  exact ⟨_, b, List.getElem?_eq_getElem hlt, hb⟩

theorem Find_of_bucketAt {hash : K → Nat} {t : ExtendibleHashTable K V} {key : K}
    {bid : Nat} {b : Bucket K V} (hg : t.global_depth_ ≤ 30)
    (h : t.dir_[hash key % 2 ^ t.global_depth_]? = some bid) (hb : t.heap[bid]? = some b) :
    Find hash t key = Bucket.findList key b.list_ := by
  have hlt : hash key % 2 ^ t.global_depth_ < t.dir_.length := (List.getElem?_eq_some.mp h).1
  have hba := bucketAt_eq_some.mpr ⟨h, hb⟩
  simp only [Find, IndexOf_eq hash t key hg, ge_iff_le, Nat.not_le.mpr hlt, if_false, hba,
    Bucket.Find]

/-- Nothing is found in the empty table. -/
theorem Find_new (hash : K → Nat) (bucket_size : Nat) (key : K) :
    Find hash (new bucket_size : ExtendibleHashTable K V) key = none := by
  have hg : (new bucket_size : ExtendibleHashTable K V).global_depth_ ≤ 30 :=
    (WF.init_table hash bucket_size).depth_le
  have hd : (new bucket_size : ExtendibleHashTable K V).dir_[
      hash key % 2 ^ (new bucket_size : ExtendibleHashTable K V).global_depth_]? = some 0 := by
    have : hash key % 2 ^ (new bucket_size : ExtendibleHashTable K V).global_depth_ = 0 := by
      simp [ExtendibleHashTable.new, Nat.mod_one]
    rw [this]; rfl
  have hbk : (new bucket_size : ExtendibleHashTable K V).heap[0]? =
      some { size_ := bucket_size, depth_ := 0, list_ := [] } := rfl
  rw [Find_of_bucketAt hg hd hbk]
  rfl

/-- `RedistributeBucket` keeps a well-formed table well-formed. -/
theorem WF.redistribute {hash : K → Nat} {t t' : ExtendibleHashTable K V}
    (hwf : WF hash t) {i0 bid : Nat} {b : Bucket K V}
    (hslot : t.dir_[i0]? = some bid) (hb : t.heap[bid]? = some b)
    (hr : RedistributeBucket hash t bid = some t') : WF hash t' := by
  have hne : b.list_ ≠ [] := by
    intro hnil
    simp [RedistributeBucket, hb, hnil] at hr
  have hbound := RedistributeBucket_bound hb hr
  obtain ⟨t'', hr', hbs, -, hgg, hdg, hgeq, hlen, hdir, hheaplen, hold, hnew, hother⟩ :=
    RedistributeBucket_spec hwf hslot hb hne hbound
  rw [hr] at hr'; cases hr'
  have hdepth' : t'.global_depth_ ≤ 30 := by
    have := hwf.depth_le
    rw [hgeq]; split <;> omega
  obtain ⟨b0, hb0, hdep, hshare, hkeys, hnd, hcap, hsize⟩ := hwf.slot i0 bid hslot
  rw [hb] at hb0; cases hb0
  -- every old slot, seen from an index of the new directory
  have hsrc : ∀ j, ∃ y, t.dir_[j % 2 ^ t.global_depth_]? = some y ∧ y < t.heap.length ∧
      (y = bid ↔ j % 2 ^ b.depth_ = i0 % 2 ^ b.depth_) := by
    intro j
    have hlt : j % 2 ^ t.global_depth_ < t.dir_.length := by
      rw [hwf.dir_len]; exact Nat.mod_lt _ (by positivity)
    obtain ⟨c, hc, -⟩ := hwf.slot _ _ (List.getElem?_eq_getElem hlt)
    refine ⟨_, List.getElem?_eq_getElem hlt, (List.getElem?_eq_some.mp hc).1, ?_⟩
    have := hshare _ hlt
    rw [List.getElem?_eq_getElem hlt, Option.some.injEq, mod_mod_pow_le _ hdep] at this
    exact this
  have hp_lt : i0 % 2 ^ b.depth_ < 2 ^ b.depth_ := Nat.mod_lt _ (by positivity)
  refine ⟨hdepth', hlen, ?_⟩
  intro i x hx
  have hi : i < 2 ^ t'.global_depth_ := by
    rw [← hlen]; exact (List.getElem?_eq_some.mp hx).1
  rw [hdir i hi] at hx
  obtain ⟨y, hy, hyN, hybid⟩ := hsrc i
  by_cases hcond : i % 2 ^ b.depth_ = i0 % 2 ^ b.depth_ ∧
      i % 2 ^ (b.depth_ + 1) ≠ i0 % 2 ^ b.depth_
  · -- slot `i` now points to the new bucket
    rw [if_pos hcond, Option.some.injEq] at hx
    subst hx
    refine ⟨_, hnew, hdg, ?_, ?_, ?_, ?_, hbs.symm⟩
    · intro j hj
      rw [hlen] at hj
      rw [hdir j hj]
      obtain ⟨yj, hyj, hyjN, -⟩ := hsrc j
      constructor
      · intro h
        by_cases hcj : j % 2 ^ b.depth_ = i0 % 2 ^ b.depth_ ∧
            j % 2 ^ (b.depth_ + 1) ≠ i0 % 2 ^ b.depth_
        · exact mod_succ_eq_of_ne hcj.1 hcond.1 hcj.2 hcond.2
        · rw [if_neg hcj, hyj, Option.some.injEq] at h; omega
      · intro h
        have h1 : j % 2 ^ b.depth_ = i % 2 ^ b.depth_ :=
          mod_eq_of_mod_pow_eq (Nat.le_succ _) h
        rw [if_pos ⟨h1.trans hcond.1, by rw [h]; exact hcond.2⟩]
    · intro kv hkv
      simp only [List.mem_filter, decide_eq_true_eq] at hkv
      exact mod_succ_eq_of_ne (hkeys kv hkv.1) hcond.1 hkv.2 hcond.2
    · exact hnd.sublist ((List.filter_sublist _).map _)
    · exact le_trans (List.length_filter_le _ _) (hsize ▸ hcap)
  · rw [if_neg hcond, hy, Option.some.injEq] at hx
    subst hx
    by_cases hyb : y = bid
    · -- slot `i` still points to the split bucket
      subst hyb
      have hip : i % 2 ^ b.depth_ = i0 % 2 ^ b.depth_ := hybid.mp rfl
      have hip' : i % 2 ^ (b.depth_ + 1) = i0 % 2 ^ b.depth_ := by
        by_contra hc; exact hcond ⟨hip, hc⟩
      refine ⟨_, hold, hdg, ?_, ?_, ?_, ?_, hsize.trans hbs.symm⟩
      · intro j hj
        rw [hlen] at hj
        rw [hdir j hj]
        obtain ⟨yj, hyj, hyjN, hyjbid⟩ := hsrc j
        constructor
        · intro h
          by_cases hcj : j % 2 ^ b.depth_ = i0 % 2 ^ b.depth_ ∧
              j % 2 ^ (b.depth_ + 1) ≠ i0 % 2 ^ b.depth_
          · rw [if_pos hcj, Option.some.injEq] at h; omega
          · rw [if_neg hcj, hyj, Option.some.injEq] at h
            have h1 := hyjbid.mp h
            have h2 : j % 2 ^ (b.depth_ + 1) = i0 % 2 ^ b.depth_ := by
              by_contra hc; exact hcj ⟨h1, hc⟩
            show j % 2 ^ (b.depth_ + 1) = i % 2 ^ (b.depth_ + 1)
            rw [h2, hip']
        · intro h
          have h' : j % 2 ^ (b.depth_ + 1) = i % 2 ^ (b.depth_ + 1) := h
          have h1 : j % 2 ^ b.depth_ = i % 2 ^ b.depth_ :=
            mod_eq_of_mod_pow_eq (Nat.le_succ _) h'
          rw [if_neg (by rw [h', hip']; simp), hyj, Option.some.injEq]
          exact hyjbid.mpr (h1.trans hip)
      · intro kv hkv
        simp only [List.mem_filter, decide_eq_true_eq] at hkv
        show hash kv.1 % 2 ^ (b.depth_ + 1) = i % 2 ^ (b.depth_ + 1)
        rw [hkv.2, hip']
      · exact hnd.sublist ((List.filter_sublist _).map _)
      · exact le_trans (List.length_filter_le _ _) hcap
    · -- slot `i` points to a bucket the split did not touch
      obtain ⟨c, hc, hcdep, hcshare, hckeys, hcnd, hccap, hcsize⟩ := hwf.slot _ _ hy
      refine ⟨c, (hother y hyb hyN).trans hc, le_trans hcdep hgg, ?_, ?_, hcnd, hccap,
        hcsize.trans hbs.symm⟩
      · intro j hj
        rw [hlen] at hj
        rw [hdir j hj]
        obtain ⟨yj, hyj, hyjN, hyjbid⟩ := hsrc j
        have hjlt : j % 2 ^ t.global_depth_ < t.dir_.length := by
          rw [hwf.dir_len]; exact Nat.mod_lt _ (by positivity)
        have hsh := hcshare _ hjlt
        rw [mod_mod_pow_le _ hcdep, mod_mod_pow_le _ hcdep] at hsh
        constructor
        · intro h
          by_cases hcj : j % 2 ^ b.depth_ = i0 % 2 ^ b.depth_ ∧
              j % 2 ^ (b.depth_ + 1) ≠ i0 % 2 ^ b.depth_
          · rw [if_pos hcj, Option.some.injEq] at h; omega
          · rw [if_neg hcj] at h
            exact hsh.mp h
        · intro h
          have hjy := hsh.mpr h
          have hcj : ¬ (j % 2 ^ b.depth_ = i0 % 2 ^ b.depth_ ∧
              j % 2 ^ (b.depth_ + 1) ≠ i0 % 2 ^ b.depth_) := by
            rintro ⟨h1, -⟩
            rw [hyj, Option.some.injEq] at hjy
            exact hyb (hjy ▸ hyjbid.mpr h1)
          rw [if_neg hcj]; exact hjy
      · intro kv hkv
        have := hckeys kv hkv
        rwa [mod_mod_pow_le _ hcdep] at this

end ExtendibleHashTable

end Bustub

namespace Bustub

namespace Bucket

variable {K V : Type} [DecidableEq K]

theorem updateList_mem {key : K} {value : V} {l l' : List (K × V)}
    (h : updateList key value l = some l') {kv : K × V} (hm : kv ∈ l') :
    kv ∈ l ∨ kv.1 = key := by
  induction l generalizing l' with
  | nil => simp [updateList] at h
  | cons x rest ih =>
    obtain ⟨k, v⟩ := x
    by_cases hk : k = key
    · simp [updateList, hk] at h
      subst h
      simp only [List.mem_cons] at hm ⊢
      rcases hm with hm | hm
      · exact Or.inr (by rw [hm])
      · exact Or.inl (Or.inr hm)
    · cases hu : updateList key value rest with
      | none => simp [updateList, hk, hu] at h
      | some r =>
        simp [updateList, hk, hu] at h
        subst h
        simp only [List.mem_cons] at hm ⊢
        rcases hm with hm | hm
        · exact Or.inl (Or.inl hm)
        · rcases ih hu hm with h1 | h1
          · exact Or.inl (Or.inr h1)
          · exact Or.inr h1

/-- A successful `Bucket::Insert`: the key is then found with the new value, other keys are
found as before, and the shape of the bucket is kept. -/
theorem Insert_true {b : Bucket K V} {key : K} {value : V} (h : (b.Insert key value).1 = true) :
    findList key (b.Insert key value).2.list_ = some value ∧
    (∀ key', key' ≠ key →
      findList key' (b.Insert key value).2.list_ = findList key' b.list_) ∧
    (b.Insert key value).2.depth_ = b.depth_ ∧ (b.Insert key value).2.size_ = b.size_ ∧
    (∀ kv ∈ (b.Insert key value).2.list_, kv ∈ b.list_ ∨ kv.1 = key) ∧
    ((b.list_.map Prod.fst).Nodup → ((b.Insert key value).2.list_.map Prod.fst).Nodup) ∧
    (b.list_.length ≤ b.size_ → (b.Insert key value).2.list_.length ≤ b.size_) := by
  unfold Insert at h ⊢
  cases hu : updateList key value b.list_ with
  | some l =>
    simp only [hu]
    refine ⟨findList_updateList_self hu, fun k' hk' => findList_updateList_other hu hk',
      trivial, trivial, ?_, ?_, ?_⟩
    · intro kv hkv; exact updateList_mem hu hkv
    · intro hnd; rw [updateList_keys hu]; exact hnd
    · intro hc; rw [updateList_length hu]; exact hc
  | none =>
    simp only [hu] at h ⊢
    have hnot := (updateList_eq_none_iff key value b.list_).mp hu
    cases hf : b.IsFull with
    | true => simp [hf] at h
    | false =>
      simp only [hf, Bool.not_false, if_true]
      refine ⟨?_, ?_, trivial, trivial, ?_, ?_, ?_⟩
      · rw [findList_append, (findList_eq_none_iff _ _).mpr hnot]
        simp [findList]
      · intro k' hk'
        rw [findList_append]
        cases findList k' b.list_ with
        | some w => rfl
        | none => simp [findList, Ne.symm hk']
      · intro kv hkv
        simp only [List.mem_append, List.mem_singleton] at hkv
        rcases hkv with hkv | hkv
        · exact Or.inl hkv
        · exact Or.inr (by rw [hkv])
      · intro hnd
        rw [List.map_append, List.nodup_append]
        refine ⟨hnd, by simp, ?_⟩
        intro a ha hb
        simp only [List.map_cons, List.map_nil, List.mem_singleton] at hb
        exact hnot (hb ▸ ha)
      · intro hc
        simp only [IsFull, beq_eq_false_iff_ne] at hf
        simp only [List.length_append, List.length_singleton]
        omega

/-- A failed `Bucket::Insert` leaves the bucket alone; the bucket is full and does not hold
the key. -/
theorem Insert_false {b : Bucket K V} {key : K} {value : V}
    (h : (b.Insert key value).1 = false) :
    b.list_.length = b.size_ ∧ key ∉ b.list_.map Prod.fst := by
  unfold Insert at h
  cases hu : updateList key value b.list_ with
  | some l => simp [hu] at h
  | none =>
    simp only [hu] at h
    cases hf : b.IsFull with
    | false => simp [hf] at h
    | true =>
      exact ⟨by simpa [IsFull] using hf, (updateList_eq_none_iff key value b.list_).mp hu⟩

end Bucket

namespace ExtendibleHashTable

variable {K V : Type} [DecidableEq K]

/-- Lookup after one bucket of the arena has been replaced. -/
theorem Find_setBucket (hash : K → Nat) (t : ExtendibleHashTable K V)
    (hg : t.global_depth_ ≤ 30) {bid : Nat}
    {b : Bucket K V} (hb : t.heap[bid]? = some b) (b' : Bucket K V) (key : K) :
    Find hash { t with heap := t.heap.set bid b' } key =
      if t.dir_[hash key % 2 ^ t.global_depth_]? = some bid then Bucket.findList key b'.list_
      else Find hash t key := by
  have hbid : bid < t.heap.length := (List.getElem?_eq_some.mp hb).1
  have hg' : ({ t with heap := t.heap.set bid b' } : ExtendibleHashTable K V).global_depth_
      ≤ 30 := hg
  simp only [Find, IndexOf_eq hash _ key hg', IndexOf_eq hash t key hg, bucketAt, Bucket.Find]
  by_cases hlt : hash key % 2 ^ t.global_depth_ < t.dir_.length
  · obtain ⟨x, hx⟩ : ∃ x, t.dir_[hash key % 2 ^ t.global_depth_]? = some x :=
      ⟨_, List.getElem?_eq_getElem hlt⟩
    simp only [ge_iff_le, Nat.not_le.mpr hlt, if_false, hx, Option.some.injEq]
    by_cases hxb : x = bid
    · subst hxb; simp [List.getElem?_set, hbid]
    · rw [List.getElem?_set_ne (Ne.symm hxb)]; simp [hxb]
  · have hnone : t.dir_[hash key % 2 ^ t.global_depth_]? = none :=
      List.getElem?_eq_none (Nat.not_lt.mp hlt)
    simp [Nat.not_lt.mp hlt, hnone]

/-- Replacing the bucket behind a slot by one of the same shape whose keys belong to the
slot keeps the table well-formed. -/
theorem WF.setBucket {hash : K → Nat} {t : ExtendibleHashTable K V} (hwf : WF hash t)
    {i0 bid : Nat} {b b' : Bucket K V}
    (hslot : t.dir_[i0]? = some bid) (hb : t.heap[bid]? = some b)
    (hdepth : b'.depth_ = b.depth_) (hsize : b'.size_ = b.size_)
    (hkeys : ∀ kv ∈ b'.list_, hash kv.1 % 2 ^ b.depth_ = i0 % 2 ^ b.depth_)
    (hnd : (b'.list_.map Prod.fst).Nodup) (hcap : b'.list_.length ≤ b.size_) :
    WF hash { t with heap := t.heap.set bid b' } := by
  have hbid : bid < t.heap.length := (List.getElem?_eq_some.mp hb).1
  refine ⟨hwf.depth_le, hwf.dir_len, ?_⟩
  intro i x hx
  have hx' : t.dir_[i]? = some x := hx
  obtain ⟨c, hc, hcdep, hcshare, hckeys, hcnd, hccap, hcsize⟩ := hwf.slot i x hx'
  by_cases hxb : x = bid
  · subst hxb
    rw [hb] at hc; cases hc
    have hi0 : i % 2 ^ b.depth_ = i0 % 2 ^ b.depth_ := by
      have hlt : i < t.dir_.length := (List.getElem?_eq_some.mp hx').1
      obtain ⟨c, hc, -, hsh, -⟩ := hwf.slot i0 x hslot
      rw [hb] at hc; cases hc
      exact (hsh i hlt).mp hx'
    refine ⟨b', by simp [List.getElem?_set, hbid], hdepth ▸ hcdep, ?_, ?_, hnd,
      hsize ▸ hcap, hsize.trans hcsize⟩
    · rw [hdepth]; exact hcshare
    · rw [hdepth]; intro kv hkv; rw [hkeys kv hkv, hi0]
  · refine ⟨c, ?_, hcdep, hcshare, hckeys, hcnd, hccap, hcsize⟩
    show (t.heap.set bid b')[x]? = some c
    rw [List.getElem?_set_ne (Ne.symm hxb)]; exact hc

/-- `RedistributeBucket` changes no lookup. -/
theorem Find_redistribute {hash : K → Nat} {t t' : ExtendibleHashTable K V}
    (hwf : WF hash t) {i0 bid : Nat} {b : Bucket K V}
    (hslot : t.dir_[i0]? = some bid) (hb : t.heap[bid]? = some b)
    (hr : RedistributeBucket hash t bid = some t') (key : K) :
    Find hash t' key = Find hash t key := by
  have hne : b.list_ ≠ [] := by
    intro hnil
    simp [RedistributeBucket, hb, hnil] at hr
  obtain ⟨t'', hr', hbs, -, hgg, hdg, -, hlen, hdir, hheaplen, hold, hnew, hother⟩ :=
    RedistributeBucket_spec hwf hslot hb hne (RedistributeBucket_bound hb hr)
  have hg' : t'.global_depth_ ≤ 30 := (hwf.redistribute hslot hb hr).depth_le
  rw [hr] at hr'; cases hr'
  obtain ⟨b0, hb0, hdep, hshare, hkeys, hnd, hcap, hsize⟩ := hwf.slot i0 bid hslot
  rw [hb] at hb0; cases hb0
  have hj : hash key % 2 ^ t'.global_depth_ < 2 ^ t'.global_depth_ :=
    Nat.mod_lt _ (by positivity)
  have hlt : hash key % 2 ^ t.global_depth_ < t.dir_.length := by
    rw [hwf.dir_len]; exact Nat.mod_lt _ (by positivity)
  have hy := List.getElem?_eq_getElem hlt
  obtain ⟨c, hc, -⟩ := hwf.slot _ _ hy
  have hyN : t.dir_[hash key % 2 ^ t.global_depth_] < t.heap.length :=
    (List.getElem?_eq_some.mp hc).1
  have hybid := hshare _ hlt
  rw [hy, Option.some.injEq, mod_mod_pow_le _ hdep] at hybid
  have hd' := hdir _ hj
  rw [mod_mod_pow_le _ hgg, mod_mod_pow_le _ hdg, mod_mod_pow_le _ (le_trans (Nat.le_succ _) hdg)]
    at hd'
  rw [Find_of_bucketAt hwf.depth_le hy hc]
  by_cases hcond : hash key % 2 ^ b.depth_ = i0 % 2 ^ b.depth_ ∧
      hash key % 2 ^ (b.depth_ + 1) ≠ i0 % 2 ^ b.depth_
  · rw [if_pos hcond] at hd'
    rw [Find_of_bucketAt hg' hd' hnew]
    have hcb := hybid.mpr hcond.1
    rw [hcb, hb] at hc; cases hc
    exact Bucket.findList_filter key
      (fun k => decide (hash k % 2 ^ (b.depth_ + 1) ≠ i0 % 2 ^ b.depth_))
      (by simpa using hcond.2) b.list_
  · rw [if_neg hcond, hy] at hd'
    by_cases hyb : t.dir_[hash key % 2 ^ t.global_depth_] = bid
    · rw [hyb] at hd'
      rw [Find_of_bucketAt hg' hd' hold]
      rw [hyb, hb] at hc; cases hc
      have h1 := hybid.mp hyb
      have h2 : hash key % 2 ^ (b.depth_ + 1) = i0 % 2 ^ b.depth_ := by
        by_contra hcc; exact hcond ⟨h1, hcc⟩
      exact Bucket.findList_filter key
        (fun k => decide (hash k % 2 ^ (b.depth_ + 1) = i0 % 2 ^ b.depth_))
        (by simpa using h2) b.list_
    · rw [Find_of_bucketAt hg' hd' ((hother _ hyb hyN).trans hc)]

end ExtendibleHashTable

end Bustub

namespace Bustub

namespace ExtendibleHashTable

variable {K V : Type} [DecidableEq K]

/-- One iteration of the loop of `Insert`: either the bucket takes the entry, or the bucket
is split and the loop goes on. -/
theorem Insert_succ_cases {hash : K → Nat} {fuel : Nat} {t t' : ExtendibleHashTable K V}
    {k : K} {v : V} (h : Insert hash (fuel + 1) t k v = some t') :
    ∃ bid b, t.dir_[hash k % 2 ^ t.global_depth_]? = some bid ∧ t.heap[bid]? = some b ∧
      (((b.Insert k v).1 = true ∧ t' = { t with heap := t.heap.set bid (b.Insert k v).2 }) ∨
       ((b.Insert k v).1 = false ∧ ∃ t1, RedistributeBucket hash t bid = some t1 ∧
          Insert hash fuel t1 k v = some t')) := by
  rw [Insert] at h
  cases hi : IndexOf hash t k with
  | none => simp [hi] at h
  | some ind =>
    obtain ⟨-, rfl⟩ := IndexOf_some hi
    simp only [hi] at h
    cases hba : t.bucketAt (hash k % 2 ^ t.global_depth_) with
    | none => simp [hba] at h
    | some p =>
      obtain ⟨bid, b⟩ := p
      obtain ⟨hd, hb⟩ := bucketAt_eq_some.mp hba
      refine ⟨bid, b, hd, hb, ?_⟩
      simp only [hba] at h
      cases hs : (b.Insert k v).1 with
      | true =>
        simp only [hs, if_true, Option.some.injEq] at h
        exact Or.inl ⟨rfl, h.symm⟩
      | false =>
        simp only [hs, Bool.false_eq_true, if_false] at h
        cases hr : RedistributeBucket hash t bid with
        | none => simp [hr] at h
        | some t1 =>
          simp only [hr] at h
          exact Or.inr ⟨rfl, t1, rfl, h⟩

/-- A loop of `Insert` that returns has started at a global depth of at most 30. -/
theorem Insert_succ_depth {hash : K → Nat} {fuel : Nat} {t t' : ExtendibleHashTable K V}
    {k : K} {v : V} (h : Insert hash (fuel + 1) t k v = some t') : t.global_depth_ ≤ 30 := by
  rw [Insert] at h
  cases hi : IndexOf hash t k with
  | none => simp [hi] at h
  | some ind => exact (IndexOf_some hi).1

/-- Once `Insert(k, v)` has returned, `Find(k)` yields `v` (any table state). -/
theorem Find_Insert_self (hash : K → Nat) (fuel : Nat) (t t' : ExtendibleHashTable K V)
    (k : K) (v : V) (h : Insert hash fuel t k v = some t') : Find hash t' k = some v := by
  induction fuel generalizing t with
  | zero => simp [Insert] at h
  | succ n ih =>
    obtain ⟨bid, b, hd, hb, hcase⟩ := Insert_succ_cases h
    rcases hcase with ⟨hs, rfl⟩ | ⟨-, t1, -, hrec⟩
    · rw [Find_setBucket hash t (Insert_succ_depth h) hb, if_pos hd]
      exact (Bucket.Insert_true hs).1
    · exact ih t1 hrec

/-- `Insert` keeps a well-formed table well-formed. -/
theorem WF.insert {hash : K → Nat} {fuel : Nat} {t t' : ExtendibleHashTable K V} {k : K}
    {v : V} (hwf : WF hash t) (h : Insert hash fuel t k v = some t') : WF hash t' := by
  induction fuel generalizing t with
  | zero => simp [Insert] at h
  | succ n ih =>
    obtain ⟨bid, b, hd, hb, hcase⟩ := Insert_succ_cases h
    rcases hcase with ⟨hs, rfl⟩ | ⟨-, t1, hr, hrec⟩
    · obtain ⟨-, -, hdep, hsize, hmem, hnd, hcap⟩ := @Bucket.Insert_true K V _ b k v hs
      obtain ⟨b0, hb0, hbdep, -, hkeys, hbnd, hbcap, -⟩ := hwf.slot _ _ hd
      rw [hb] at hb0; cases hb0
      refine hwf.setBucket hd hb hdep hsize ?_ (hnd hbnd) (hcap hbcap)
      intro kv hkv
      rcases hmem kv hkv with h1 | h1
      · exact hkeys kv h1
      · rw [h1, mod_mod_pow_le _ hbdep]
    · exact ih (hwf.redistribute hd hb hr) hrec

/-- `Insert(k, v)` changes the lookup of no other key. -/
theorem Find_Insert_other {hash : K → Nat} {fuel : Nat} {t t' : ExtendibleHashTable K V}
    {k k' : K} {v : V} (hwf : WF hash t) (hne : k' ≠ k)
    (h : Insert hash fuel t k v = some t') : Find hash t' k' = Find hash t k' := by
  induction fuel generalizing t with
  | zero => simp [Insert] at h
  | succ n ih =>
    obtain ⟨bid, b, hd, hb, hcase⟩ := Insert_succ_cases h
    rcases hcase with ⟨hs, rfl⟩ | ⟨-, t1, hr, hrec⟩
    · rw [Find_setBucket hash t hwf.depth_le hb]
      split
      · rename_i hd'
        rw [Find_of_bucketAt hwf.depth_le hd' hb]
        exact (Bucket.Insert_true hs).2.1 k' hne
      · rfl
    · rw [ih (hwf.redistribute hd hb hr) hrec]
      exact Find_redistribute hwf hd hb hr k'

/-- What `Remove` returns and the state it leaves. -/
theorem Table_Remove_cases (hash : K → Nat) (t : ExtendibleHashTable K V) (k : K) :
    (Remove hash t k = (false, t) ∧ Find hash t k = none) ∨
    ∃ bid b, t.dir_[hash k % 2 ^ t.global_depth_]? = some bid ∧ t.heap[bid]? = some b ∧
      Remove hash t k = ((b.Remove k).1, { t with heap := t.heap.set bid (b.Remove k).2 }) := by
  by_cases hg : t.global_depth_ ≤ 30
  · simp only [Remove, Find, IndexOf_eq hash t k hg]
    by_cases hlt : hash k % 2 ^ t.global_depth_ < t.dir_.length
    · simp only [ge_iff_le, Nat.not_le.mpr hlt, if_false]
      cases hba : t.bucketAt (hash k % 2 ^ t.global_depth_) with
      | none => left; constructor <;> first | rfl | trivial
      | some p =>
        obtain ⟨bid, b⟩ := p
        obtain ⟨hd, hb⟩ := bucketAt_eq_some.mp hba
        right; refine ⟨bid, b, hd, hb, ?_⟩; first | rfl | trivial
    · simp only [ge_iff_le, Nat.not_lt.mp hlt, if_true]
      left; constructor <;> first | rfl | trivial
  · left
    simp only [Remove, Find, IndexOf_eq_none hash t k (Nat.not_le.mp hg)]
    constructor <;> first | rfl | trivial

theorem Bucket_Remove_spec (b : Bucket K V) (k : K) :
    ((b.Remove k).1 = true ↔ (Bucket.findList k b.list_).isSome = true) ∧
    (b.Remove k).2.depth_ = b.depth_ ∧ (b.Remove k).2.size_ = b.size_ ∧
    (b.Remove k).2.list_.Sublist b.list_ ∧
    (∀ k', k' ≠ k → Bucket.findList k' (b.Remove k).2.list_ = Bucket.findList k' b.list_) ∧
    ((b.list_.map Prod.fst).Nodup → Bucket.findList k (b.Remove k).2.list_ = none) := by
  unfold Bucket.Remove
  cases hr : Bucket.removeList k b.list_ with
  | none =>
    have hnone := (Bucket.removeList_eq_none_iff k b.list_).mp hr
    simp [hnone]
  | some l =>
    have hsome : Bucket.findList k b.list_ ≠ none := fun hc => by
      rw [(Bucket.removeList_eq_none_iff k b.list_).mpr hc] at hr; cases hr
    refine ⟨?_, rfl, rfl, Bucket.removeList_sublist hr,
      fun k' hk' => Bucket.findList_removeList_other hr hk',
      fun hnd => Bucket.findList_removeList_self hr hnd⟩
    simp only [true_iff]
    exact Option.isSome_iff_ne_none.mpr hsome

/-- `Remove` keeps a well-formed table well-formed. -/
theorem WF.table_remove {hash : K → Nat} {t : ExtendibleHashTable K V} (hwf : WF hash t) (k : K) :
    WF hash (Remove hash t k).2 := by
  rcases Table_Remove_cases hash t k with ⟨h, -⟩ | ⟨bid, b, hd, hb, h⟩
  · rw [h]; exact hwf
  · rw [h]
    obtain ⟨-, hdep, hsize, hsub, -, -⟩ := Bucket_Remove_spec b k
    obtain ⟨b0, hb0, -, -, hkeys, hbnd, hbcap, -⟩ := hwf.slot _ _ hd
    rw [hb] at hb0; cases hb0
    refine hwf.setBucket hd hb hdep hsize (fun kv hkv => hkeys kv (hsub.subset hkv))
      (hbnd.sublist (hsub.map _)) (le_trans hsub.length_le hbcap)

/-- Every reachable table state is well-formed. -/
theorem Reachable.wf {hash : K → Nat} {bucket_size : Nat} {t : ExtendibleHashTable K V}
    (h : Reachable hash bucket_size t) : WF hash t := by
  induction h with
  | init => exact WF.init_table hash bucket_size
  | insert fuel k v _ hins ih => exact ih.insert hins
  | remove k _ ih => exact ih.table_remove k

end ExtendibleHashTable

end Bustub

set_option linter.unusedVariables false

namespace Bustub

namespace ExtendibleHashTable

variable {K V : Type} [DecidableEq K]

theorem GetLocalDepth_setBucket (t : ExtendibleHashTable K V) {bid : Nat} {b b' : Bucket K V}
    (hb : t.heap[bid]? = some b) (hdep : b'.depth_ = b.depth_) (i : Nat) :
    GetLocalDepth { t with heap := t.heap.set bid b' } i = GetLocalDepth t i := by
  have hbid : bid < t.heap.length := (List.getElem?_eq_some.mp hb).1
  simp only [GetLocalDepth, bucketAt]
  cases hd : t.dir_[i]? with
  | none => rfl
  | some x =>
    by_cases hx : x = bid
    · subst hx; simp [List.getElem?_set, hbid, hb, hdep]
    · simp only [List.getElem?_set_ne (Ne.symm hx)]

/-- C1. Insert then Find: for every table reachable from an empty table (bucket size at
least one) by `Insert` and `Remove` calls, every key `k` and value `v`, once
`Insert(k, v)` has returned (in state `t'`), `Find(k)` returns `v`. The statement covers
the overwrite of a present key, the append of an absent one, and any number of splits and
directory doublings before the append. -/
theorem C1_insert_then_find (hash : K → Nat) (bucket_size : Nat) (hbs : 1 ≤ bucket_size)
    (t t' : ExtendibleHashTable K V) (hreach : Reachable hash bucket_size t)
    (fuel : Nat) (k : K) (v : V) (hins : Insert hash fuel t k v = some t') :
    Find hash t' k = some v :=
  Find_Insert_self hash fuel t t' k v hins

/-- C2. Insert keeps every other key: for every reachable table and keys `k ≠ k'`, once
`Insert(k, v)` has returned, `Find(k')` gives what it gave before (same found / not-found
answer, same value), splits and directory doublings included. Concretely, with bucket size
2 and integer keys hashed to themselves, inserting 0, 2, 4 into an empty table leaves all
three keys findable. -/
theorem C2_insert_frame :
    (∀ (K V : Type) [DecidableEq K] (hash : K → Nat) (bucket_size : Nat)
      (t t' : ExtendibleHashTable K V), 1 ≤ bucket_size → Reachable hash bucket_size t →
      ∀ (fuel : Nat) (k k' : K) (v : V), k ≠ k' → Insert hash fuel t k v = some t' →
        Find hash t' k' = Find hash t k') ∧
    (∃ t1 t2 t3 : ExtendibleHashTable Int Int,
      Insert Int.toNat 1 (new 2) 0 10 = some t1 ∧ Insert Int.toNat 1 t1 2 12 = some t2 ∧
      Insert Int.toNat 3 t2 4 14 = some t3 ∧
      Find Int.toNat t3 0 = some 10 ∧ Find Int.toNat t3 2 = some 12 ∧
      Find Int.toNat t3 4 = some 14) := by
  refine ⟨?_, ?_⟩
  · intro K V _ hash bucket_size t t' _ hreach fuel k k' v hne hins
    exact Find_Insert_other hreach.wf (Ne.symm hne) hins
  · exact ⟨_, _, _, rfl, rfl, rfl, rfl, rfl, rfl⟩

/-- C3. Remove: for every reachable table and key `k`, `Remove(k)` returns true exactly
when `Find(k)` would have found `k`; afterwards `Find(k)` finds nothing, `Find(k')` is
unchanged for every other key, and nothing shrinks: global depth, directory (hence its
length), every local depth and `num_buckets_` are as before. -/
theorem C3_remove (hash : K → Nat) (bucket_size : Nat) (hbs : 1 ≤ bucket_size)
    (t : ExtendibleHashTable K V) (hreach : Reachable hash bucket_size t) (k : K) :
    ((Remove hash t k).1 = true ↔ (Find hash t k).isSome = true) ∧
    Find hash (Remove hash t k).2 k = none ∧
    (∀ k', k' ≠ k → Find hash (Remove hash t k).2 k' = Find hash t k') ∧
    (Remove hash t k).2.global_depth_ = t.global_depth_ ∧
    (Remove hash t k).2.dir_ = t.dir_ ∧
    (Remove hash t k).2.dir_.length = t.dir_.length ∧
    (∀ i, GetLocalDepth (Remove hash t k).2 i = GetLocalDepth t i) ∧
    GetNumBuckets (Remove hash t k).2 = GetNumBuckets t := by
  have hwf := hreach.wf
  rcases Table_Remove_cases hash t k with ⟨h, hnone⟩ | ⟨bid, b, hd, hb, h⟩
  · rw [h]
    simp [hnone]
  · rw [h]
    obtain ⟨hiff, hdep, hsize, hsub, hother, hself⟩ := Bucket_Remove_spec b k
    obtain ⟨b0, hb0, -, -, -, hbnd, -, -⟩ := hwf.slot _ _ hd
    rw [hb] at hb0; cases hb0
    refine ⟨?_, ?_, ?_, rfl, rfl, rfl, fun i => GetLocalDepth_setBucket t hb hdep i, rfl⟩
    · rw [Find_of_bucketAt hwf.depth_le hd hb]; exact hiff
    · show Find hash { t with heap := t.heap.set bid (b.Remove k).2 } k = none
      rw [Find_setBucket hash t hwf.depth_le hb, if_pos hd]
      exact hself hbnd
    · intro k' hk'
      show Find hash { t with heap := t.heap.set bid (b.Remove k).2 } k' = _
      rw [Find_setBucket hash t hwf.depth_le hb]
      split
      · rename_i hd'
        rw [Find_of_bucketAt hwf.depth_le hd' hb]
        exact hother k' hk'
      · rfl

end ExtendibleHashTable

end Bustub

namespace Bustub

namespace ExtendibleHashTable

variable {K V : Type} [DecidableEq K]

/-! ## Extendible hash table: the split loop ends -/

/-- Entries of the arena after `RedistributeBucket` are entries of the arena before. -/
theorem RedistributeBucket_entries {hash : K → Nat} {t t' : ExtendibleHashTable K V}
    (hwf : WF hash t) {i0 bid : Nat} {b : Bucket K V}
    (hslot : t.dir_[i0]? = some bid) (hb : t.heap[bid]? = some b)
    (hr : RedistributeBucket hash t bid = some t') :
    ∀ c ∈ t'.heap, ∀ kv ∈ c.list_, ∃ c' ∈ t.heap, kv ∈ c'.list_ := by
  have hne : b.list_ ≠ [] := by
    intro hnil
    simp [RedistributeBucket, hb, hnil] at hr
  obtain ⟨dir', -, heq⟩ := RedistributeBucket_eq hwf hslot hb hne
    (RedistributeBucket_bound hb hr)
  rw [heq] at hr
  cases hr
  have hbmem : b ∈ t.heap := List.getElem?_mem hb
  intro c hc kv hkv
  simp only [List.mem_append, List.mem_singleton] at hc
  rcases hc with hc | rfl
  · rcases List.mem_or_eq_of_mem_set hc with hc | rfl
    · exact ⟨c, hc, hkv⟩
    · exact ⟨b, hbmem, (List.mem_filter.mp hkv).1⟩
  · exact ⟨b, hbmem, (List.mem_filter.mp hkv).1⟩

/-- The loop of `Insert` ends: with `B ≤ 30` low bits separating `k` from the other stored
keys and a target bucket of local depth `d`, `B - d + 1` iterations are enough; no split
raises a local depth beyond `B`, so every mask is defined. -/
theorem Insert_terminates_aux {hash : K → Nat} (k : K) (v : V) (B : Nat) (hB30 : B ≤ 30) :
    ∀ (n : Nat) (t : ExtendibleHashTable K V), WF hash t → 1 ≤ t.bucket_size_ →
      (∀ b ∈ t.heap, ∀ kv ∈ b.list_, kv.1 ≠ k → hash kv.1 % 2 ^ B ≠ hash k % 2 ^ B) →
      (∀ bid b, t.dir_[hash k % 2 ^ t.global_depth_]? = some bid → t.heap[bid]? = some b →
        B - b.depth_ ≤ n) →
      ∃ t', Insert hash (n + 1) t k v = some t' := by
  intro n
  induction n with
  | zero =>
    intro t hwf hbs hsep hdepth
    obtain ⟨bid, b, hd, hb⟩ := hwf.exists_bucket (hash k % 2 ^ t.global_depth_)
      (Nat.mod_lt _ (by positivity))
    obtain ⟨b0, hb0, hbdep, -, hkeys, -, -, hsize⟩ := hwf.slot _ _ hd
    rw [hb] at hb0; cases hb0
    have hba := bucketAt_eq_some.mpr ⟨hd, hb⟩
    cases hs : (b.Insert k v).1 with
    | true =>
      refine ⟨{ t with heap := t.heap.set bid (b.Insert k v).2 }, ?_⟩
      rw [Insert]
      simp [IndexOf_eq hash t k hwf.depth_le, hba, hs]
    | false =>
      exfalso
      obtain ⟨hfull, hnot⟩ := Bucket.Insert_false hs
      have hne : b.list_ ≠ [] := by
        intro h0; rw [h0] at hfull; simp at hfull; omega
      obtain ⟨kv, rest, hl⟩ := List.exists_cons_of_ne_nil hne
      have hkv : kv ∈ b.list_ := by rw [hl]; simp
      have hkne : kv.1 ≠ k := fun h => hnot (h ▸ List.mem_map_of_mem Prod.fst hkv)
      have hBd : B ≤ b.depth_ := by have := hdepth bid b hd hb; omega
      have h1 := hkeys kv hkv
      rw [mod_mod_pow_le _ hbdep] at h1
      exact hsep b (List.getElem?_mem hb) kv hkv hkne (mod_eq_of_mod_pow_eq hBd h1)
  | succ n ih =>
    intro t hwf hbs hsep hdepth
    obtain ⟨bid, b, hd, hb⟩ := hwf.exists_bucket (hash k % 2 ^ t.global_depth_)
      (Nat.mod_lt _ (by positivity))
    obtain ⟨b0, hb0, hbdep, hshare, hkeys, -, -, hsize⟩ := hwf.slot _ _ hd
    rw [hb] at hb0; cases hb0
    have hba := bucketAt_eq_some.mpr ⟨hd, hb⟩
    cases hs : (b.Insert k v).1 with
    | true =>
      refine ⟨{ t with heap := t.heap.set bid (b.Insert k v).2 }, ?_⟩
      rw [Insert]
      simp [IndexOf_eq hash t k hwf.depth_le, hba, hs]
    | false =>
      obtain ⟨hfull, hnot⟩ := Bucket.Insert_false hs
      have hne : b.list_ ≠ [] := by
        intro h0; rw [h0] at hfull; simp at hfull; omega
      have hlt : b.depth_ < B := by
        by_contra hge
        obtain ⟨kv, rest, hl⟩ := List.exists_cons_of_ne_nil hne
        have hkv : kv ∈ b.list_ := by rw [hl]; simp
        have hkne : kv.1 ≠ k := fun h => hnot (h ▸ List.mem_map_of_mem Prod.fst hkv)
        have h1 := hkeys kv hkv
        rw [mod_mod_pow_le _ hbdep] at h1
        exact hsep b (List.getElem?_mem hb) kv hkv hkne
          (mod_eq_of_mod_pow_eq (Nat.not_lt.mp hge) h1)
      obtain ⟨t1, hr, hbs1, -, hgg, hdg, -, hlen, hdir, -, hold, hnew, -⟩ :=
        RedistributeBucket_spec hwf hd hb hne (by omega)
      have hwf1 := hwf.redistribute hd hb hr
      have hsep1 : ∀ c ∈ t1.heap, ∀ kv ∈ c.list_, kv.1 ≠ k →
          hash kv.1 % 2 ^ B ≠ hash k % 2 ^ B := by
        intro c hc kv hkv hkne
        obtain ⟨c', hc', hkv'⟩ := RedistributeBucket_entries hwf hd hb hr c hc kv hkv
        exact hsep c' hc' kv hkv' hkne
      have hdepth1 : ∀ bid' b', t1.dir_[hash k % 2 ^ t1.global_depth_]? = some bid' →
          t1.heap[bid']? = some b' → B - b'.depth_ ≤ n := by
        intro bid' b' hd' hb'
        have hB := hdepth bid b hd hb
        rw [hdir _ (Nat.mod_lt _ (by positivity)), mod_mod_pow_le _ hgg] at hd'
        split at hd'
        · cases hd'
          rw [hnew] at hb'; cases hb'
          show B - (b.depth_ + 1) ≤ n
          omega
        · rw [hd] at hd'; cases hd'
          rw [hold] at hb'; cases hb'
          show B - (b.depth_ + 1) ≤ n
          omega
      obtain ⟨t', ht'⟩ := ih t1 hwf1 (hbs1 ▸ hbs) hsep1 hdepth1
      refine ⟨t', ?_⟩
      rw [Insert]
      simp only [IndexOf_eq hash t k hwf.depth_le, hba, hs, Bool.false_eq_true, if_false, hr]
      exact ht'

/-- `Insert` returns: in a well-formed table with bucket size at least one in which the hash
of `k` differs in its low 30 bits from the hash of every other stored key, 31 iterations of
the split loop store the key. -/
theorem Insert_terminates {hash : K → Nat}
    {t : ExtendibleHashTable K V} (hwf : WF hash t) (hbs : 1 ≤ t.bucket_size_) (k : K)
    (v : V)
    (hsep : ∀ b ∈ t.heap, ∀ kv ∈ b.list_, kv.1 ≠ k → hash kv.1 % 2 ^ 30 ≠ hash k % 2 ^ 30) :
    ∃ fuel t', Insert hash fuel t k v = some t' := by
  obtain ⟨t', ht'⟩ := Insert_terminates_aux k v 30 (le_refl _) 30 t hwf hbs hsep
    (fun _ _ _ _ => Nat.sub_le _ _)
  exact ⟨31, t', ht'⟩

/-- The bucket size of a table never changes. -/
theorem Insert_bucket_size {hash : K → Nat} {fuel : Nat} {t t' : ExtendibleHashTable K V}
    {k : K} {v : V} (hwf : WF hash t) (h : Insert hash fuel t k v = some t') :
    t'.bucket_size_ = t.bucket_size_ := by
  induction fuel generalizing t with
  | zero => simp [Insert] at h
  | succ n ih =>
    obtain ⟨bid, b, hd, hb, hcase⟩ := Insert_succ_cases h
    rcases hcase with ⟨hs, rfl⟩ | ⟨hs, t1, hr, hrec⟩
    · rfl
    · have hne : b.list_ ≠ [] := by
        intro hnil
        simp [RedistributeBucket, hb, hnil] at hr
      obtain ⟨t1', hr', hbs1, -⟩ := RedistributeBucket_spec hwf hd hb hne
        (RedistributeBucket_bound hb hr)
      rw [hr] at hr'; cases hr'
      rw [ih (hwf.redistribute hd hb hr) hrec, hbs1]

theorem Remove_bucket_size (hash : K → Nat) (t : ExtendibleHashTable K V) (k : K) :
    (Remove hash t k).2.bucket_size_ = t.bucket_size_ := by
  rcases Table_Remove_cases hash t k with ⟨h, -⟩ | ⟨bid, b, hd, hb, h⟩ <;> rw [h]

end ExtendibleHashTable

end Bustub

namespace Bustub

/-! ## Association lists -/

namespace AL

variable {κ α : Type} [DecidableEq κ]

@[simp] theorem find?_nil (k : κ) : find? k ([] : List (κ × α)) = none := rfl

theorem find?_cons (k k' : κ) (v : α) (l : List (κ × α)) :
    find? k ((k', v) :: l) = if k' = k then some v else find? k l := rfl

theorem find?_eq_none_iff (k : κ) (l : List (κ × α)) :
    find? k l = none ↔ k ∉ l.map Prod.fst := by
  induction l with
  | nil => simp
  | cons p rest ih =>
    obtain ⟨k', v⟩ := p
    by_cases h : k' = k
    · simp [find?_cons, h]
    · simp [find?_cons, h, ih, Ne.symm h]

theorem find?_isSome_iff (k : κ) (l : List (κ × α)) :
    (find? k l).isSome = true ↔ k ∈ l.map Prod.fst := by
  rw [← not_iff_not, ← find?_eq_none_iff]
  cases find? k l <;> simp

theorem mem_of_find? {k : κ} {v : α} {l : List (κ × α)} (h : find? k l = some v) :
    (k, v) ∈ l := by
  induction l with
  | nil => simp at h
  | cons p rest ih =>
    obtain ⟨k', w⟩ := p
    by_cases hk : k' = k
    · simp [find?_cons, hk] at h
      simp [hk, h]
    · simp [find?_cons, hk] at h
      exact List.mem_cons_of_mem _ (ih h)

theorem find?_of_mem {k : κ} {v : α} {l : List (κ × α)} (hnd : (l.map Prod.fst).Nodup)
    (h : (k, v) ∈ l) : find? k l = some v := by
  induction l with
  | nil => simp at h
  | cons p rest ih =>
    obtain ⟨k', w⟩ := p
    simp only [List.map_cons, List.nodup_cons] at hnd
    simp only [List.mem_cons, Prod.mk.injEq] at h
    rcases h with ⟨rfl, rfl⟩ | h
    · simp [find?_cons]
    · have : k' ≠ k := by
        rintro rfl
        exact hnd.1 (List.mem_map_of_mem Prod.fst h)
      simp [find?_cons, this, ih hnd.2 h]

theorem find?_append (k : κ) (l₁ l₂ : List (κ × α)) :
    find? k (l₁ ++ l₂) = (find? k l₁).orElse (fun _ => find? k l₂) := by
  induction l₁ with
  | nil => simp
  | cons p rest ih =>
    obtain ⟨k', v⟩ := p
    by_cases h : k' = k
    · simp [find?_cons, h]
    · simp [find?_cons, h, ih]

theorem find?_erase (k k' : κ) (l : List (κ × α)) :
    find? k' (erase k l) = if k' = k then none else find? k' l := by
  induction l with
  | nil => simp [erase]
  | cons p rest ih =>
    obtain ⟨k₀, v⟩ := p
    unfold erase at ih ⊢
    by_cases h0 : k₀ = k
    · have hf : List.filter (fun p : κ × α => decide (p.1 ≠ k)) ((k₀, v) :: rest) =
          List.filter (fun p : κ × α => decide (p.1 ≠ k)) rest := by
        simp [List.filter, h0]
      rw [hf, ih]
      by_cases h1 : k' = k
      · simp [h1]
      · have : k₀ ≠ k' := fun hc => h1 (hc ▸ h0)
        simp [h1, find?_cons, this]
    · have hf : List.filter (fun p : κ × α => decide (p.1 ≠ k)) ((k₀, v) :: rest) =
          (k₀, v) :: List.filter (fun p : κ × α => decide (p.1 ≠ k)) rest := by
        simp [List.filter, h0]
      rw [hf, find?_cons, ih]
      by_cases h1 : k' = k
      · have : k₀ ≠ k' := fun hc => h0 (hc.trans h1)
        simp [h1, this, h0]
      · simp [h1, find?_cons]

theorem find?_replace (k k' : κ) (v : α) (l : List (κ × α)) :
    find? k' (replace k v l) = if k' = k then (find? k l).map (fun _ => v) else find? k' l := by
  induction l with
  | nil => simp [replace]
  | cons p rest ih =>
    obtain ⟨k₀, w⟩ := p
    unfold replace at ih ⊢
    by_cases h0 : k₀ = k
    · subst h0
      by_cases h1 : k' = k₀
      · subst h1; simp [find?_cons]
      · simp [find?_cons, h1, ih, Ne.symm h1]
    · by_cases h1 : k' = k
      · subst h1; simp [find?_cons, h0, ih]
      · simp [find?_cons, h0, ih, h1]

theorem find?_insert (k k' : κ) (v : α) (l : List (κ × α)) :
    find? k' (insert k v l) = if k' = k then some v else find? k' l := by
  unfold insert
  cases h : find? k l with
  | none =>
    by_cases h1 : k' = k
    · simp [find?_cons, h1]
    · simp [find?_cons, h1, Ne.symm h1]
  | some w =>
    simp only [Option.isSome_some, if_true, find?_replace, h, Option.map_some']

theorem keys_replace (k : κ) (v : α) (l : List (κ × α)) :
    (replace k v l).map Prod.fst = l.map Prod.fst := by
  unfold replace
  rw [List.map_map]
  apply List.map_congr_left
  intro p _
  by_cases h : p.1 = k <;> simp [h]

theorem keys_erase (k : κ) (l : List (κ × α)) :
    (erase k l).map Prod.fst = (l.map Prod.fst).filter (fun x => decide (x ≠ k)) := by
  unfold erase
  rw [List.filter_map]
  rfl

theorem nodup_erase (k : κ) {l : List (κ × α)} (h : (l.map Prod.fst).Nodup) :
    ((erase k l).map Prod.fst).Nodup := by
  rw [keys_erase]; exact h.filter _

theorem nodup_insert (k : κ) (v : α) {l : List (κ × α)} (h : (l.map Prod.fst).Nodup) :
    ((insert k v l).map Prod.fst).Nodup := by
  unfold insert
  cases hf : find? k l with
  | none =>
    simp only [Option.isSome_none, Bool.false_eq_true, if_false, List.map_cons,
      List.nodup_cons]
    exact ⟨(find?_eq_none_iff k l).mp hf, h⟩
  | some w =>
    simp only [Option.isSome_some, if_true, keys_replace]
    exact h

theorem erase_sublist (k : κ) (l : List (κ × α)) : (erase k l).Sublist l :=
  List.filter_sublist l

theorem mem_erase {k : κ} {l : List (κ × α)} {p : κ × α} :
    p ∈ erase k l ↔ p ∈ l ∧ p.1 ≠ k := by
  simp [erase]

theorem mem_replace {k : κ} {v : α} {l : List (κ × α)} {p : κ × α} (h : p ∈ replace k v l) :
    (p.1 ≠ k ∧ p ∈ l) ∨ (p.1 = k ∧ p.2 = v) := by
  simp only [replace, List.mem_map] at h
  obtain ⟨q, hq, rfl⟩ := h
  by_cases hk : q.1 = k
  · simp [hk]
  · simp [hk, hq]

/-- Lookup does not depend on the order of a list without duplicate keys. -/
theorem find?_perm {l₁ l₂ : List (κ × α)} (hp : l₁.Perm l₂) (hnd : (l₁.map Prod.fst).Nodup)
    (k : κ) : find? k l₁ = find? k l₂ := by
  have hnd2 : (l₂.map Prod.fst).Nodup := (hp.map Prod.fst).nodup_iff.mp hnd
  cases h : find? k l₁ with
  | some v =>
    exact (find?_of_mem hnd2 (hp.subset (mem_of_find? h))).symm
  | none =>
    symm
    rw [find?_eq_none_iff] at h ⊢
    exact fun hc => h ((hp.map Prod.fst).symm.subset hc)

end AL

end Bustub

namespace Bustub

namespace LRUKReplacer

/-! ## LRU-K replacer: the scan, the sort and `Size` -/

/-- The scan over a list all of whose frames have an evictable entry creates no entry. -/
theorem scan_snd (m : List (Int × Bool)) (l : List (Int × List Nat))
    (h : ∀ n ∈ l, (AL.find? n.1 m).isSome = true) : (scan m l).2 = m := by
  induction l with
  | nil => rfl
  | cons n rest ih =>
    have hn := h n (List.mem_cons_self _ _)
    have hrest := ih (fun x hx => h x (List.mem_cons_of_mem _ hx))
    unfold scan
    cases hf : AL.find? n.1 m with
    | none => simp [hf] at hn
    | some b => cases b <;> simp [hrest]

theorem scan_fst_none (m : List (Int × Bool)) (l : List (Int × List Nat))
    (h : ∀ n ∈ l, (AL.find? n.1 m).isSome = true) :
    (scan m l).1 = none ↔ ∀ n ∈ l, AL.find? n.1 m ≠ some true := by
  induction l with
  | nil => simp [scan]
  | cons n rest ih =>
    have hn := h n (List.mem_cons_self _ _)
    have hrest := ih (fun x hx => h x (List.mem_cons_of_mem _ hx))
    unfold scan
    cases hf : AL.find? n.1 m with
    | none => simp [hf] at hn
    | some b =>
      cases b
      · simp [hrest, hf]
      · simp [hf]

/-- The frame the scan returns is the first of the list whose flag is set. -/
theorem scan_fst_some (m : List (Int × Bool)) (l : List (Int × List Nat))
    (h : ∀ n ∈ l, (AL.find? n.1 m).isSome = true) {f : Int} (hs : (scan m l).1 = some f) :
    ∃ l₁ ts l₂, l = l₁ ++ (f, ts) :: l₂ ∧ AL.find? f m = some true ∧
      ∀ n ∈ l₁, AL.find? n.1 m ≠ some true := by
  induction l with
  | nil => simp [scan] at hs
  | cons n rest ih =>
    have hn := h n (List.mem_cons_self _ _)
    unfold scan at hs
    cases hf : AL.find? n.1 m with
    | none => simp [hf] at hn
    | some b =>
      cases b
      · simp only [hf] at hs
        obtain ⟨l₁, ts, l₂, hl, hfm, hbefore⟩ :=
          ih (fun x hx => h x (List.mem_cons_of_mem _ hx)) hs
        refine ⟨n :: l₁, ts, l₂, by simp [hl], hfm, ?_⟩
        intro x hx
        rcases List.mem_cons.mp hx with rfl | hx
        · simp [hf]
        · exact hbefore x hx
      · simp only [hf, Option.some.injEq] at hs
        refine ⟨[], n.2, rest, ?_, hs ▸ hf, by simp⟩
        simp [← hs]

theorem sortCache_perm (l : List (Int × List Nat)) : (sortCache l).Perm l :=
  List.perm_insertionSort _ l

theorem sortCache_sorted (l : List (Int × List Nat)) :
    (sortCache l).Pairwise (fun a b => front a ≥ front b) := by
  haveI : IsTotal (Int × List Nat) (fun a b => front a ≥ front b) :=
    ⟨fun a b => Nat.le_total (front b) (front a)⟩
  haveI : IsTrans (Int × List Nat) (fun a b => front a ≥ front b) :=
    ⟨fun a b c (hab : front a ≥ front b) (hbc : front b ≥ front c) => le_trans hbc hab⟩
  exact List.sorted_insertionSort _ l

theorem find?_sortCache {l : List (Int × List Nat)} (hnd : (l.map Prod.fst).Nodup) (f : Int) :
    AL.find? f (sortCache l) = AL.find? f l :=
  (AL.find?_perm (sortCache_perm l).symm hnd f).symm

/-- `Size` is zero exactly when no frame has its flag set. -/
theorem Size_eq_zero_iff (r : LRUKReplacer) (hnd : (r.evictable_map_.map Prod.fst).Nodup) :
    r.Size = 0 ↔ ∀ f, AL.find? f r.evictable_map_ ≠ some true := by
  unfold Size
  rw [List.countP_eq_zero]
  constructor
  · intro h f hf
    exact h _ (AL.mem_of_find? hf) rfl
  · intro h p hp hp2
    obtain ⟨f, b⟩ := p
    simp only at hp2
    subst hp2
    exact h f (AL.find?_of_mem hnd hp)

theorem countP_erase_true {m : List (Int × Bool)} (hnd : (m.map Prod.fst).Nodup) {f : Int}
    (hf : AL.find? f m = some true) :
    (AL.erase f m).countP (fun p => p.2) + 1 = m.countP (fun p => p.2) := by
  induction m with
  | nil => simp at hf
  | cons p rest ih =>
    obtain ⟨g, b⟩ := p
    simp only [List.map_cons, List.nodup_cons] at hnd
    by_cases hg : g = f
    · subst hg
      simp only [AL.find?_cons, if_true, Option.some.injEq] at hf
      subst hf
      have hnot : ∀ p ∈ rest, p.1 ≠ g := by
        intro p hp hc
        exact hnd.1 (hc ▸ List.mem_map_of_mem Prod.fst hp)
      have : AL.erase g ((g, true) :: rest) = rest := by
        simp only [AL.erase, List.filter, ne_eq, not_true_eq_false, decide_False]
        exact List.filter_eq_self.mpr (fun p hp => by simpa using hnot p hp)
      rw [this]
      simp
    · simp only [AL.find?_cons, hg, if_false] at hf
      have := ih hnd.2 hf
      have he : AL.erase f ((g, b) :: rest) = (g, b) :: AL.erase f rest := by
        simp [AL.erase, List.filter, hg]
      rw [he]
      cases b <;> simp [List.countP_cons] <;> omega

theorem countP_erase_not_true {m : List (Int × Bool)} {f : Int}
    (hf : AL.find? f m ≠ some true) (hnd : (m.map Prod.fst).Nodup) :
    (AL.erase f m).countP (fun p => p.2) = m.countP (fun p => p.2) := by
  induction m with
  | nil => simp [AL.erase]
  | cons p rest ih =>
    obtain ⟨g, b⟩ := p
    simp only [List.map_cons, List.nodup_cons] at hnd
    by_cases hg : g = f
    · subst hg
      simp only [AL.find?_cons, if_true, ne_eq, Option.some.injEq] at hf
      have hnot : ∀ p ∈ rest, p.1 ≠ g := by
        intro p hp hc
        exact hnd.1 (hc ▸ List.mem_map_of_mem Prod.fst hp)
      have : AL.erase g ((g, b) :: rest) = rest := by
        simp only [AL.erase, List.filter, ne_eq, not_true_eq_false, decide_False]
        exact List.filter_eq_self.mpr (fun p hp => by simpa using hnot p hp)
      rw [this]
      cases b
      · simp
      · exact absurd rfl hf
    · simp only [AL.find?_cons, hg, if_false] at hf
      have := ih hf hnd.2
      have he : AL.erase f ((g, b) :: rest) = (g, b) :: AL.erase f rest := by
        simp [AL.erase, List.filter, hg]
      rw [he]
      cases b <;> simp [List.countP_cons, this]

end LRUKReplacer

end Bustub

namespace Bustub

namespace LRUKReplacer

/-! ## LRU-K replacer: the invariant is kept -/

theorem Inv.init_replacer (num_frames k : Nat) (hk : 1 ≤ k) : Inv (new num_frames k) := by
  refine ⟨hk, ?_, ?_, ?_, ?_, ?_, ?_, ?_, ?_, ?_⟩ <;> simp [LRUKReplacer.new]

/-- A frame is not in both lists. -/
theorem Inv.not_both {r : LRUKReplacer} (hinv : Inv r) (f : Int)
    (hh : (AL.find? f r.history_list_).isSome = true)
    (hc : (AL.find? f r.cache_list_).isSome = true) : False := by
  obtain ⟨ts, hts⟩ := Option.isSome_iff_exists.mp hh
  obtain ⟨ts', hts'⟩ := Option.isSome_iff_exists.mp hc
  obtain ⟨c, hc1, -, hlt, -⟩ := hinv.hist f ts hts
  obtain ⟨c', hc2, hle, -⟩ := hinv.cache f ts' hts'
  rw [hc1] at hc2; cases hc2
  omega

/-- The frames of both lists have an evictable entry. -/
theorem Inv.ev_of_hist {r : LRUKReplacer} (hinv : Inv r) {f : Int}
    (hh : (AL.find? f r.history_list_).isSome = true) :
    (AL.find? f r.evictable_map_).isSome = true := by
  obtain ⟨ts, hts⟩ := Option.isSome_iff_exists.mp hh
  obtain ⟨c, hc1, -⟩ := hinv.hist f ts hts
  rw [hinv.ev_dom, hc1]; rfl

theorem Inv.ev_of_cache {r : LRUKReplacer} (hinv : Inv r) {f : Int}
    (hh : (AL.find? f r.cache_list_).isSome = true) :
    (AL.find? f r.evictable_map_).isSome = true := by
  obtain ⟨ts, hts⟩ := Option.isSome_iff_exists.mp hh
  obtain ⟨c, hc1, -⟩ := hinv.cache f ts hts
  rw [hinv.ev_dom, hc1]; rfl

/-- Sorting the cache list keeps the invariant. -/
theorem Inv.sort {r : LRUKReplacer} (hinv : Inv r) :
    Inv { r with cache_list_ := sortCache r.cache_list_ } := by
  have hf := find?_sortCache hinv.nodup_cache
  refine ⟨hinv.k_pos, hinv.nodup_ev, hinv.nodup_hist, ?_, ?_, hinv.ev_dom, hinv.hist, ?_, ?_,
    hinv.hist_sorted⟩
  · exact ((sortCache_perm r.cache_list_).map Prod.fst).nodup_iff.mpr hinv.nodup_cache
  · intro f; simp only [hf]; exact hinv.loc f
  · intro f ts; simp only [hf]; exact hinv.cache f ts
  · intro f c; simp only [hf]; exact hinv.count_dom f c

/-- Closed form of `eraseFrame` for a frame whose node is in the list of kind `lid`. -/
theorem eraseFrame_eq {r : LRUKReplacer} (hinv : Inv r) {lid : ListId} {f : Int}
    (hf : (AL.find? f (r.listOf lid)).isSome = true) :
    eraseFrame r lid f = some { r.setList lid (AL.erase f (r.listOf lid)) with
      count_map_ := AL.erase f r.count_map_
      location_ := AL.erase f r.location_
      evictable_map_ := AL.erase f r.evictable_map_ } := by
  have hloc : AL.find? f r.location_ = some lid := by
    rw [hinv.loc f]
    cases lid with
    | history => simp only [listOf] at hf; simp [hf]
    | cache =>
      simp only [listOf] at hf
      have : (AL.find? f r.history_list_).isSome = false := by
        cases h : (AL.find? f r.history_list_).isSome with
        | false => rfl
        | true => exact (hinv.not_both f h hf).elim
      simp [this, hf]
  simp [eraseFrame, hloc, hf]

/-- Erasing a frame from its list and from the maps keeps the invariant. -/
theorem Inv.eraseFrame {r r' : LRUKReplacer} (hinv : Inv r) {lid : ListId} {f : Int}
    (h : eraseFrame r lid f = some r') : Inv r' := by
  have hf : (AL.find? f (r.listOf lid)).isSome = true := by
    unfold LRUKReplacer.eraseFrame at h
    cases hl : AL.find? f r.location_ with
    | none => simp [hl] at h
    | some lid' =>
      simp only [hl] at h
      split at h
      · rename_i hc; exact hc.2
      · cases h
  rw [eraseFrame_eq hinv hf] at h
  cases h
  have hnb := hinv.not_both f
  cases lid with
  | history =>
    simp only [listOf] at hf
    have hcf : AL.find? f r.cache_list_ = none := by
      cases hc : AL.find? f r.cache_list_ with
      | none => rfl
      | some ts => exact (hnb hf (by simp [hc])).elim
    refine ⟨hinv.k_pos, AL.nodup_erase f hinv.nodup_ev, AL.nodup_erase f hinv.nodup_hist,
      hinv.nodup_cache, ?_, ?_, ?_, ?_, ?_, ?_⟩
    · intro g
      simp only [setList, listOf, AL.find?_erase]
      by_cases hg : g = f
      · subst hg; simp [hcf]
      · simp only [hg, if_false]; exact hinv.loc g
    · intro g
      simp only [setList, AL.find?_erase]
      by_cases hg : g = f
      · simp [hg]
      · simp only [hg, if_false]; exact hinv.ev_dom g
    · intro g ts hts
      simp only [setList, listOf, AL.find?_erase] at hts ⊢
      by_cases hg : g = f
      · simp [hg] at hts
      · simp only [hg, if_false] at hts ⊢; exact hinv.hist g ts hts
    · intro g ts hts
      simp only [setList, AL.find?_erase] at hts ⊢
      have hg : g ≠ f := by
        rintro rfl; rw [hcf] at hts; cases hts
      simp only [hg, if_false]; exact hinv.cache g ts hts
    · intro g c hc
      simp only [setList, listOf, AL.find?_erase] at hc ⊢
      by_cases hg : g = f
      · simp [hg] at hc
      · simp only [hg, if_false] at hc ⊢; exact hinv.count_dom g c hc
    · exact hinv.hist_sorted.sublist (AL.erase_sublist f _)
  | cache =>
    simp only [listOf] at hf
    have hhf : AL.find? f r.history_list_ = none := by
      cases hc : AL.find? f r.history_list_ with
      | none => rfl
      | some ts => exact (hnb (by simp [hc]) hf).elim
    refine ⟨hinv.k_pos, AL.nodup_erase f hinv.nodup_ev, hinv.nodup_hist,
      AL.nodup_erase f hinv.nodup_cache, ?_, ?_, ?_, ?_, ?_, hinv.hist_sorted⟩
    · intro g
      simp only [setList, listOf, AL.find?_erase]
      by_cases hg : g = f
      · subst hg; simp [hhf]
      · simp only [hg, if_false]; exact hinv.loc g
    · intro g
      simp only [setList, AL.find?_erase]
      by_cases hg : g = f
      · simp [hg]
      · simp only [hg, if_false]; exact hinv.ev_dom g
    · intro g ts hts
      simp only [setList, AL.find?_erase] at hts ⊢
      have hg : g ≠ f := by
        rintro rfl; rw [hhf] at hts; cases hts
      simp only [hg, if_false]; exact hinv.hist g ts hts
    · intro g ts hts
      simp only [setList, listOf, AL.find?_erase] at hts ⊢
      by_cases hg : g = f
      · simp [hg] at hts
      · simp only [hg, if_false] at hts ⊢; exact hinv.cache g ts hts
    · intro g c hc
      simp only [setList, listOf, AL.find?_erase] at hc ⊢
      by_cases hg : g = f
      · simp [hg] at hc
      · simp only [hg, if_false] at hc ⊢; exact hinv.count_dom g c hc

end LRUKReplacer

end Bustub

namespace Bustub

namespace LRUKReplacer

theorem eta_evictable (r : LRUKReplacer) : { r with evictable_map_ := r.evictable_map_ } = r := by
  cases r; rfl

/-- All frames of the reversed history list have an evictable entry. -/
theorem Inv.scan_hist_dom {r : LRUKReplacer} (hinv : Inv r) :
    ∀ n ∈ r.history_list_.reverse, (AL.find? n.1 r.evictable_map_).isSome = true := by
  intro n hn
  apply hinv.ev_of_hist
  rw [AL.find?_isSome_iff]
  exact List.mem_map_of_mem Prod.fst (List.mem_reverse.mp hn)

theorem Inv.scan_cache_dom {r : LRUKReplacer} (hinv : Inv r) :
    ∀ n ∈ (sortCache r.cache_list_).reverse,
      (AL.find? n.1 r.evictable_map_).isSome = true := by
  intro n hn
  apply hinv.ev_of_cache
  rw [AL.find?_isSome_iff]
  exact List.mem_map_of_mem Prod.fst
    ((sortCache_perm r.cache_list_).subset (List.mem_reverse.mp hn))

/-- The three ways `Evict` ends in a state that satisfies the invariant: a victim from the
history list, a victim from the (sorted) cache list, or no victim. -/
theorem Evict_cases {r : LRUKReplacer} (hinv : Inv r) :
    (∃ f r', (scan r.evictable_map_ r.history_list_.reverse).1 = some f ∧
      eraseFrame r ListId.history f = some r' ∧ r.Evict = Res.ok r' (some f)) ∨
    ((scan r.evictable_map_ r.history_list_.reverse).1 = none ∧
      ∃ f r', (scan r.evictable_map_ (sortCache r.cache_list_).reverse).1 = some f ∧
        eraseFrame { r with cache_list_ := sortCache r.cache_list_ } ListId.cache f = some r' ∧
        r.Evict = Res.ok r' (some f)) ∨
    ((scan r.evictable_map_ r.history_list_.reverse).1 = none ∧
      (scan r.evictable_map_ (sortCache r.cache_list_).reverse).1 = none ∧
      r.Evict = Res.ok { r with cache_list_ := sortCache r.cache_list_ } none) := by
  have h1 := scan_snd _ _ hinv.scan_hist_dom
  have h2 := scan_snd _ _ hinv.scan_cache_dom
  unfold Evict
  cases hs1 : scan r.evictable_map_ r.history_list_.reverse with
  | mk a em =>
    rw [hs1] at h1
    simp only at h1
    subst h1
    cases a with
    | some f =>
      left
      obtain ⟨l₁, ts, l₂, hl, -, -⟩ := scan_fst_some _ _ hinv.scan_hist_dom
        (show (scan r.evictable_map_ r.history_list_.reverse).1 = some f by rw [hs1])
      have hmem : (AL.find? f (r.listOf ListId.history)).isSome = true := by
        rw [AL.find?_isSome_iff]
        have : (f, ts) ∈ r.history_list_.reverse := by rw [hl]; simp
        exact List.mem_map_of_mem Prod.fst (List.mem_reverse.mp this)
      refine ⟨f, _, rfl, eraseFrame_eq hinv hmem, ?_⟩
      simp only [eta_evictable, eraseFrame_eq hinv hmem]
    | none =>
      right
      simp only
      cases hs2 : scan r.evictable_map_ (sortCache r.cache_list_).reverse with
      | mk a' em' =>
        rw [hs2] at h2
        simp only at h2
        subst h2
        cases a' with
        | some f =>
          left
          obtain ⟨l₁, ts, l₂, hl, -, -⟩ := scan_fst_some _ _ hinv.scan_cache_dom
            (show (scan r.evictable_map_ (sortCache r.cache_list_).reverse).1 = some f by
              rw [hs2])
          have hmem : (AL.find? f
              (({ r with cache_list_ := sortCache r.cache_list_ } : LRUKReplacer).listOf
                ListId.cache)).isSome = true := by
            rw [AL.find?_isSome_iff]
            have : (f, ts) ∈ (sortCache r.cache_list_).reverse := by rw [hl]; simp
            exact List.mem_map_of_mem Prod.fst (List.mem_reverse.mp this)
          refine ⟨by first | rfl | trivial, f, _, rfl, eraseFrame_eq hinv.sort hmem, ?_⟩
          have := eraseFrame_eq hinv.sort hmem
          simp only [this]
        | none =>
          right
          refine ⟨?_, ?_, ?_⟩ <;> first | rfl | trivial

/-- `Evict` keeps the invariant. -/
theorem Inv.evict {r r' : LRUKReplacer} {a : Option Int} (hinv : Inv r)
    (h : r.Evict = Res.ok r' a) : Inv r' := by
  rcases Evict_cases hinv with ⟨f, r1, -, he, hev⟩ | ⟨-, f, r1, -, he, hev⟩ | ⟨-, -, hev⟩
  · rw [hev] at h; cases h; exact hinv.eraseFrame he
  · rw [hev] at h; cases h; exact hinv.sort.eraseFrame he
  · rw [hev] at h; cases h; exact hinv.sort

/-- `Evict` neither throws nor runs into undefined behaviour. -/
theorem Evict_ok {r : LRUKReplacer} (hinv : Inv r) : ∃ r' a, r.Evict = Res.ok r' a := by
  rcases Evict_cases hinv with ⟨f, r1, -, -, hev⟩ | ⟨-, f, r1, -, -, hev⟩ | ⟨-, -, hev⟩
  · exact ⟨_, _, hev⟩
  · exact ⟨_, _, hev⟩
  · exact ⟨_, _, hev⟩

/-- `SetEvictable` keeps the invariant. -/
theorem Inv.setEvictable {r r' : LRUKReplacer} {f : Int} {b : Bool} (hinv : Inv r)
    (h : r.SetEvictable f b = Res.ok r' ()) : Inv r' := by
  unfold SetEvictable at h
  split at h
  · cases h
  · split at h
    · cases h; exact hinv
    · rename_i htr
      cases h
      refine ⟨hinv.k_pos, AL.nodup_insert f b hinv.nodup_ev, hinv.nodup_hist, hinv.nodup_cache,
        hinv.loc, ?_, hinv.hist, hinv.cache, hinv.count_dom, hinv.hist_sorted⟩
      intro g
      simp only [AL.find?_insert]
      by_cases hg : g = f
      · subst hg
        cases hc : AL.find? g r.count_map_ with
        | none => simp [hc] at htr
        | some c => simp
      · simp only [hg, if_false]; exact hinv.ev_dom g

theorem SetEvictable_raise {r r' : LRUKReplacer} {f : Int} {b : Bool}
    (h : r.SetEvictable f b = Res.raise r') : r' = r := by
  unfold SetEvictable at h
  split at h
  · cases h; rfl
  · split at h <;> cases h

theorem RecordAccess_raise {r r' : LRUKReplacer} {f : Int}
    (h : r.RecordAccess f = Res.raise r') : r' = r := by
  unfold RecordAccess at h
  split at h
  · cases h; rfl
  · simp only at h
    split at h
    · split at h <;> cases h
    · split at h
      · cases h
      · split at h
        · split at h <;> cases h
        · cases h

/-- `Remove` on a state that satisfies the invariant: nothing for an untracked frame, an
exception that leaves the state as it is for a tracked frame whose flag is not set, and
the erasure of the frame otherwise. -/
theorem Replacer_Remove_cases {r : LRUKReplacer} (hinv : Inv r) (f : Int) :
    (AL.find? f r.count_map_ = none ∧ r.Remove f = Res.ok r ()) ∨
    (∃ c, AL.find? f r.count_map_ = some c ∧ AL.find? f r.evictable_map_ = some false ∧
      r.Remove f = Res.raise r) ∨
    (∃ c r', AL.find? f r.count_map_ = some c ∧ AL.find? f r.evictable_map_ = some true ∧
      eraseFrame r (if c ≥ r.k_ then ListId.cache else ListId.history) f = some r' ∧
      r.Remove f = Res.ok r' ()) := by
  unfold Remove
  cases hc : AL.find? f r.count_map_ with
  | none => left; exact ⟨rfl, rfl⟩
  | some c =>
    right
    have hev : (AL.find? f r.evictable_map_).isSome = true := by rw [hinv.ev_dom, hc]; rfl
    obtain ⟨b, hb⟩ := Option.isSome_iff_exists.mp hev
    have hem : (if (AL.find? f r.evictable_map_).isSome = true then r.evictable_map_
        else (f, false) :: r.evictable_map_) = r.evictable_map_ := if_pos hev
    simp only [hem, eta_evictable, hb, Option.getD_some]
    cases b with
    | false => left; exact ⟨c, rfl, rfl, by simp [hb]⟩
    | true =>
      right
      have hmem : (AL.find? f (r.listOf (if c ≥ r.k_ then ListId.cache
          else ListId.history))).isSome = true := by
        have := hinv.count_dom f c hc
        by_cases hck : c < r.k_
        · simp only [hck, if_true] at this
          simp [Nat.not_le.mpr hck, listOf, this]
        · simp only [hck, if_false] at this
          simp [Nat.not_lt.mp hck, listOf, this]
      refine ⟨c, _, rfl, rfl, eraseFrame_eq hinv hmem, ?_⟩
      have hmem' := eraseFrame_eq hinv hmem
      simp only [ge_iff_le] at hmem'
      simp [hmem', hb]

theorem Inv.replacer_remove {r r' : LRUKReplacer} {f : Int} (hinv : Inv r)
    (h : r.Remove f = Res.ok r' ()) : Inv r' := by
  rcases Replacer_Remove_cases hinv f with ⟨-, hr⟩ | ⟨c, -, -, hr⟩ | ⟨c, r1, -, -, he, hr⟩
  · rw [hr] at h; cases h; exact hinv
  · rw [hr] at h; cases h
  · rw [hr] at h; cases h; exact hinv.eraseFrame he

theorem Remove_raise {r r' : LRUKReplacer} {f : Int} (hinv : Inv r)
    (h : r.Remove f = Res.raise r') : r' = r := by
  rcases Replacer_Remove_cases hinv f with ⟨-, hr⟩ | ⟨c, -, -, hr⟩ | ⟨c, r1, -, -, he, hr⟩
  · rw [hr] at h; cases h
  · rw [hr] at h; cases h; rfl
  · rw [hr] at h; cases h

end LRUKReplacer

end Bustub

namespace Bustub

namespace AL

variable {κ α : Type} [DecidableEq κ]

theorem replace_of_find?_none {k : κ} {l : List (κ × α)} (h : find? k l = none) (v : α) :
    replace k v l = l := by
  rw [find?_eq_none_iff] at h
  unfold replace
  conv_rhs => rw [← List.map_id l]
  apply List.map_congr_left
  intro p hp
  have : p.1 ≠ k := fun hc => h (hc ▸ List.mem_map_of_mem Prod.fst hp)
  simp [this]

theorem erase_of_find?_none {k : κ} {l : List (κ × α)} (h : find? k l = none) :
    erase k l = l := by
  rw [find?_eq_none_iff] at h
  unfold erase
  apply List.filter_eq_self.mpr
  intro p hp
  have : p.1 ≠ k := fun hc => h (hc ▸ List.mem_map_of_mem Prod.fst hp)
  simpa using this

theorem erase_replace (k : κ) (v : α) (l : List (κ × α)) :
    erase k (replace k v l) = erase k l := by
  unfold erase replace
  induction l with
  | nil => rfl
  | cons p rest ih =>
    by_cases h : p.1 = k
    · simpa [List.filter, h] using ih
    · simpa [List.filter, h] using ih

theorem replace_cons (k k' : κ) (v w : α) (l : List (κ × α)) :
    replace k v ((k', w) :: l) = (if k' = k then (k', v) else (k', w)) :: replace k v l := rfl

theorem erase_cons (k k' : κ) (w : α) (l : List (κ × α)) :
    erase k ((k', w) :: l) = if k' = k then erase k l else (k', w) :: erase k l := by
  by_cases h : k' = k <;> simp [erase, List.filter, h]

end AL

namespace LRUKReplacer

/-- Closed form of `RecordAccess` on a state that satisfies the invariant, for a frame
that passes the range check. -/
theorem RecordAccess_cases {r : LRUKReplacer} (hinv : Inv r) {f : Int}
    (hr : ¬ f > (r.replacer_size_ : Int)) :
    (AL.find? f r.count_map_ = none ∧ 1 < r.k_ ∧
      r.RecordAccess f = Res.ok { r with
        count_map_ := AL.insert f 1 r.count_map_
        history_list_ := (f, [r.current_timestamp_]) :: r.history_list_
        location_ := AL.insert f ListId.history r.location_
        evictable_map_ := AL.insert f true r.evictable_map_
        current_timestamp_ := r.current_timestamp_ + 1 } ()) ∨
    (AL.find? f r.count_map_ = none ∧ r.k_ = 1 ∧
      r.RecordAccess f = Res.ok { r with
        count_map_ := AL.insert f 1 r.count_map_
        cache_list_ := (f, [r.current_timestamp_]) :: r.cache_list_
        location_ := AL.insert f ListId.cache (AL.insert f ListId.history r.location_)
        evictable_map_ := AL.insert f true r.evictable_map_
        current_timestamp_ := r.current_timestamp_ + 1 } ()) ∨
    (∃ c ts, AL.find? f r.count_map_ = some c ∧ AL.find? f r.history_list_ = some ts ∧
      c + 1 < r.k_ ∧
      r.RecordAccess f = Res.ok { r with
        count_map_ := AL.insert f (c + 1) r.count_map_
        history_list_ := AL.replace f (ts ++ [r.current_timestamp_]) r.history_list_
        current_timestamp_ := r.current_timestamp_ + 1 } ()) ∨
    (∃ c ts, AL.find? f r.count_map_ = some c ∧ AL.find? f r.history_list_ = some ts ∧
      c + 1 = r.k_ ∧
      r.RecordAccess f = Res.ok { r with
        count_map_ := AL.insert f (c + 1) r.count_map_
        cache_list_ := (f, ts ++ [r.current_timestamp_]) :: r.cache_list_
        location_ := AL.insert f ListId.cache r.location_
        history_list_ := AL.erase f r.history_list_
        current_timestamp_ := r.current_timestamp_ + 1 } ()) ∨
    (∃ c x tl, AL.find? f r.count_map_ = some c ∧ AL.find? f r.cache_list_ = some (x :: tl) ∧
      r.k_ ≤ c ∧
      r.RecordAccess f = Res.ok { r with
        count_map_ := AL.insert f (c + 1) r.count_map_
        cache_list_ := AL.replace f (tl ++ [r.current_timestamp_]) r.cache_list_
        current_timestamp_ := r.current_timestamp_ + 1 } ()) := by
  have hkpos := hinv.k_pos
  cases hc : AL.find? f r.count_map_ with
  | none =>
    -- first access: the frame is in no list and in no map
    have hh : AL.find? f r.history_list_ = none := by
      cases h : AL.find? f r.history_list_ with
      | none => rfl
      | some ts => obtain ⟨c, h1, -⟩ := hinv.hist f ts h; rw [hc] at h1; cases h1
    have hcl : AL.find? f r.cache_list_ = none := by
      cases h : AL.find? f r.cache_list_ with
      | none => rfl
      | some ts => obtain ⟨c, h1, -⟩ := hinv.cache f ts h; rw [hc] at h1; cases h1
    by_cases hk1 : r.k_ = 1
    · right; left
      refine ⟨rfl, hk1, ?_⟩
      simp [RecordAccess, hr, hc, hk1, updateTimestamps, AL.find?_insert, listOf, setList,
        AL.find?_cons, promote, AL.replace_of_find?_none hh, AL.erase_of_find?_none hh,
        AL.replace_cons, AL.erase_cons]
    · left
      have hk2 : 1 < r.k_ := by omega
      refine ⟨rfl, hk2, ?_⟩
      have hk3 : ¬ (1 = r.k_) := by omega
      simp [RecordAccess, hr, hc, hk1, hk3, Nat.not_lt.mpr (Nat.le_of_lt hk2), updateTimestamps,
        AL.find?_insert, listOf, setList, AL.find?_cons, AL.replace_of_find?_none hh,
        AL.replace_cons]
  | some c =>
    right; right
    have hdom := hinv.count_dom f c hc
    by_cases hck : c < r.k_
    · simp only [hck, if_true] at hdom
      obtain ⟨ts, hts⟩ := Option.isSome_iff_exists.mp hdom
      obtain ⟨c', hc', hc1, -, hlen, -⟩ := hinv.hist f ts hts
      rw [hc] at hc'; cases hc'
      have hloc : AL.find? f r.location_ = some ListId.history := by
        rw [hinv.loc f]; simp [hts]
      by_cases hk : c + 1 = r.k_
      · right; left
        refine ⟨c, ts, rfl, hts, hk, ?_⟩
        have h2 : ¬ (r.k_ = 1) := by omega
        simp [RecordAccess, hr, hc, h2, hk, updateTimestamps, hloc, listOf, setList, hts,
          promote, AL.find?_replace, AL.erase_replace]
      · left
        refine ⟨c, ts, rfl, hts, by omega, ?_⟩
        have h1 : ¬ (c + 1 > r.k_) := by omega
        have h2 : ¬ (c + 1 = 1) := by omega
        simp [RecordAccess, hr, hc, h1, h2, hk, updateTimestamps, hloc, listOf, setList, hts]
    · simp only [hck, if_false] at hdom
      obtain ⟨ts, hts⟩ := Option.isSome_iff_exists.mp hdom
      obtain ⟨c', hc', hc1, hlen, -⟩ := hinv.cache f ts hts
      rw [hc] at hc'; cases hc'
      have hloc : AL.find? f r.location_ = some ListId.cache := by
        rw [hinv.loc f]
        have : AL.find? f r.history_list_ = none := by
          cases h : AL.find? f r.history_list_ with
          | none => rfl
          | some ts' => exact (hinv.not_both f (by simp [h]) hdom).elim
        simp [this, hts]
      right; right
      cases ts with
      | nil => simp at hlen; omega
      | cons x tl =>
        refine ⟨c, x, tl, rfl, hts, hc1, ?_⟩
        have h1 : c + 1 > r.k_ := by omega
        simp [RecordAccess, hr, hc, h1, updateTimestamps, hloc, listOf, setList, hts]

end LRUKReplacer

end Bustub

namespace Bustub

namespace LRUKReplacer

/-- A node of the history list: its timestamps are what the lookup of its frame gives. -/
theorem Inv.hist_node {r : LRUKReplacer} (hinv : Inv r) {n : Int × List Nat}
    (hn : n ∈ r.history_list_) : AL.find? n.1 r.history_list_ = some n.2 :=
  AL.find?_of_mem hinv.nodup_hist (by simpa using hn)

/-- The front timestamp of a history node is an access made before now. -/
theorem Inv.front_lt {r : LRUKReplacer} (hinv : Inv r) {n : Int × List Nat}
    (hn : n ∈ r.history_list_) : front n < r.current_timestamp_ := by
  obtain ⟨c, -, hc1, -, hlen, hlt⟩ := hinv.hist n.1 n.2 (hinv.hist_node hn)
  unfold front
  cases hts : n.2 with
  | nil => rw [hts] at hlen; simp at hlen; omega
  | cons x tl => rw [hts] at hlt; simpa using hlt x (by simp)

theorem front_append {f : Int} {ts : List Nat} (x : Nat) (h : ts ≠ []) :
    front (f, ts ++ [x]) = front (f, ts) := by
  cases ts with
  | nil => exact absurd rfl h
  | cons y tl => rfl

theorem Inv.record_new_hist {r : LRUKReplacer} (hinv : Inv r) {f : Int}
    (hc : AL.find? f r.count_map_ = none) (hk : 1 < r.k_) :
    Inv { r with
      count_map_ := AL.insert f 1 r.count_map_
      history_list_ := (f, [r.current_timestamp_]) :: r.history_list_
      location_ := AL.insert f ListId.history r.location_
      evictable_map_ := AL.insert f true r.evictable_map_
      current_timestamp_ := r.current_timestamp_ + 1 } := by
  have hh : AL.find? f r.history_list_ = none := by
    cases h : AL.find? f r.history_list_ with
    | none => rfl
    | some ts => obtain ⟨c, h1, -⟩ := hinv.hist f ts h; rw [hc] at h1; cases h1
  have hcl : AL.find? f r.cache_list_ = none := by
    cases h : AL.find? f r.cache_list_ with
    | none => rfl
    | some ts => obtain ⟨c, h1, -⟩ := hinv.cache f ts h; rw [hc] at h1; cases h1
  refine ⟨hinv.k_pos, AL.nodup_insert f true hinv.nodup_ev, ?_, hinv.nodup_cache, ?_, ?_, ?_,
    ?_, ?_, ?_⟩
  · simp only [List.map_cons, List.nodup_cons]
    exact ⟨(AL.find?_eq_none_iff f _).mp hh, hinv.nodup_hist⟩
  · intro g
    simp only [AL.find?_insert, AL.find?_cons]
    by_cases hg : g = f
    · subst hg; simp
    · simp only [hg, Ne.symm hg, if_false]; exact hinv.loc g
  · intro g
    simp only [AL.find?_insert]
    by_cases hg : g = f
    · simp [hg]
    · simp only [hg, if_false]; exact hinv.ev_dom g
  · intro g ts hts
    simp only [AL.find?_insert, AL.find?_cons] at hts ⊢
    by_cases hg : g = f
    · subst hg
      simp only [if_true, Option.some.injEq] at hts
      subst hts
      exact ⟨1, by simp, le_refl _, hk, rfl, by simp⟩
    · simp only [hg, Ne.symm hg, if_false] at hts ⊢
      obtain ⟨c, h1, h2, h3, h4, h5⟩ := hinv.hist g ts hts
      exact ⟨c, h1, h2, h3, h4, fun x hx => Nat.lt_succ_of_lt (h5 x hx)⟩
  · intro g ts hts
    simp only [AL.find?_insert] at hts ⊢
    have hg : g ≠ f := by rintro rfl; rw [hcl] at hts; cases hts
    simp only [hg, if_false]
    obtain ⟨c, h1, h2, h3, h5⟩ := hinv.cache g ts hts
    exact ⟨c, h1, h2, h3, fun x hx => Nat.lt_succ_of_lt (h5 x hx)⟩
  · intro g c hgc
    simp only [AL.find?_insert, AL.find?_cons] at hgc ⊢
    by_cases hg : g = f
    · subst hg
      simp only [if_true, Option.some.injEq] at hgc
      subst hgc
      simp [hk]
    · simp only [hg, Ne.symm hg, if_false] at hgc ⊢
      exact hinv.count_dom g c hgc
  · simp only [List.pairwise_cons]
    refine ⟨?_, hinv.hist_sorted⟩
    intro n hn
    have := hinv.front_lt hn
    simpa [front] using this

theorem Inv.record_new_cache {r : LRUKReplacer} (hinv : Inv r) {f : Int}
    (hc : AL.find? f r.count_map_ = none) (hk : r.k_ = 1) :
    Inv { r with
      count_map_ := AL.insert f 1 r.count_map_
      cache_list_ := (f, [r.current_timestamp_]) :: r.cache_list_
      location_ := AL.insert f ListId.cache (AL.insert f ListId.history r.location_)
      evictable_map_ := AL.insert f true r.evictable_map_
      current_timestamp_ := r.current_timestamp_ + 1 } := by
  have hh : AL.find? f r.history_list_ = none := by
    cases h : AL.find? f r.history_list_ with
    | none => rfl
    | some ts => obtain ⟨c, h1, -⟩ := hinv.hist f ts h; rw [hc] at h1; cases h1
  have hcl : AL.find? f r.cache_list_ = none := by
    cases h : AL.find? f r.cache_list_ with
    | none => rfl
    | some ts => obtain ⟨c, h1, -⟩ := hinv.cache f ts h; rw [hc] at h1; cases h1
  refine ⟨hinv.k_pos, AL.nodup_insert f true hinv.nodup_ev, hinv.nodup_hist, ?_, ?_, ?_, ?_,
    ?_, ?_, hinv.hist_sorted⟩
  · simp only [List.map_cons, List.nodup_cons]
    exact ⟨(AL.find?_eq_none_iff f _).mp hcl, hinv.nodup_cache⟩
  · intro g
    simp only [AL.find?_insert, AL.find?_cons]
    by_cases hg : g = f
    · subst hg; simp [hh]
    · simp only [hg, Ne.symm hg, if_false]; exact hinv.loc g
  · intro g
    simp only [AL.find?_insert]
    by_cases hg : g = f
    · simp [hg]
    · simp only [hg, if_false]; exact hinv.ev_dom g
  · intro g ts hts
    simp only [AL.find?_insert] at hts ⊢
    have hg : g ≠ f := by rintro rfl; rw [hh] at hts; cases hts
    simp only [hg, if_false]
    obtain ⟨c, h1, h2, h3, h4, h5⟩ := hinv.hist g ts hts
    exact ⟨c, h1, h2, h3, h4, fun x hx => Nat.lt_succ_of_lt (h5 x hx)⟩
  · intro g ts hts
    simp only [AL.find?_insert, AL.find?_cons] at hts ⊢
    by_cases hg : g = f
    · subst hg
      simp only [if_true, Option.some.injEq] at hts
      subst hts
      exact ⟨1, by simp, by omega, by simp [hk], by simp⟩
    · simp only [hg, Ne.symm hg, if_false] at hts ⊢
      obtain ⟨c, h1, h2, h3, h5⟩ := hinv.cache g ts hts
      exact ⟨c, h1, h2, h3, fun x hx => Nat.lt_succ_of_lt (h5 x hx)⟩
  · intro g c hgc
    simp only [AL.find?_insert, AL.find?_cons] at hgc ⊢
    by_cases hg : g = f
    · subst hg
      simp only [if_true, Option.some.injEq] at hgc
      subst hgc
      simp [hk]
    · simp only [hg, Ne.symm hg, if_false] at hgc ⊢
      exact hinv.count_dom g c hgc

end LRUKReplacer

end Bustub

namespace Bustub

namespace LRUKReplacer

theorem Inv.record_hist {r : LRUKReplacer} (hinv : Inv r) {f : Int} {c : Nat} {ts : List Nat}
    (hc : AL.find? f r.count_map_ = some c) (hts : AL.find? f r.history_list_ = some ts)
    (hk : c + 1 < r.k_) :
    Inv { r with
      count_map_ := AL.insert f (c + 1) r.count_map_
      history_list_ := AL.replace f (ts ++ [r.current_timestamp_]) r.history_list_
      current_timestamp_ := r.current_timestamp_ + 1 } := by
  obtain ⟨c', hc', hc1, -, hlen, hlt⟩ := hinv.hist f ts hts
  rw [hc] at hc'; cases hc'
  have hne : ts ≠ [] := by rintro rfl; simp at hlen; omega
  refine ⟨hinv.k_pos, hinv.nodup_ev, ?_, hinv.nodup_cache, ?_, ?_, ?_, ?_, ?_, ?_⟩
  · rw [AL.keys_replace]; exact hinv.nodup_hist
  · intro g
    simp only [AL.find?_replace]
    by_cases hg : g = f
    · subst hg; simp only [if_true, hts, Option.map_some', Option.isSome_some]
      rw [hinv.loc g]; simp [hts]
    · simp only [hg, if_false]; exact hinv.loc g
  · intro g
    simp only [AL.find?_insert]
    by_cases hg : g = f
    · subst hg; simp [hinv.ev_dom g, hc]
    · simp only [hg, if_false]; exact hinv.ev_dom g
  · intro g ts' hts'
    simp only [AL.find?_insert, AL.find?_replace] at hts' ⊢
    by_cases hg : g = f
    · subst hg
      simp only [if_true, hts, Option.map_some', Option.some.injEq] at hts'
      subst hts'
      refine ⟨c + 1, by simp, by omega, hk, by simp [hlen], ?_⟩
      intro x hx
      simp only [List.mem_append, List.mem_singleton] at hx
      rcases hx with hx | rfl
      · exact Nat.lt_succ_of_lt (hlt x hx)
      · exact Nat.lt_succ_self _
    · simp only [hg, if_false] at hts' ⊢
      obtain ⟨c', h1, h2, h3, h4, h5⟩ := hinv.hist g ts' hts'
      exact ⟨c', h1, h2, h3, h4, fun x hx => Nat.lt_succ_of_lt (h5 x hx)⟩
  · intro g ts' hts'
    simp only [AL.find?_insert] at hts' ⊢
    have hg : g ≠ f := by
      rintro rfl
      exact hinv.not_both g (by simp [hts]) (by simp [hts'])
    simp only [hg, if_false]
    obtain ⟨c', h1, h2, h3, h5⟩ := hinv.cache g ts' hts'
    exact ⟨c', h1, h2, h3, fun x hx => Nat.lt_succ_of_lt (h5 x hx)⟩
  · intro g c' hgc
    simp only [AL.find?_insert, AL.find?_replace] at hgc ⊢
    by_cases hg : g = f
    · subst hg
      simp only [if_true, Option.some.injEq] at hgc
      subst hgc
      simp [hk, hts]
    · simp only [hg, if_false] at hgc ⊢
      exact hinv.count_dom g c' hgc
  · show (AL.replace f (ts ++ [r.current_timestamp_]) r.history_list_).Pairwise _
    unfold AL.replace
    rw [List.pairwise_map]
    refine hinv.hist_sorted.imp_of_mem ?_
    intro a b ha hb hab
    have hfr : ∀ n ∈ r.history_list_,
        front (if n.1 = f then (n.1, ts ++ [r.current_timestamp_]) else n) = front n := by
      intro n hn
      by_cases hnf : n.1 = f
      · have := hinv.hist_node hn
        rw [hnf, hts] at this
        simp only [hnf, if_true]
        rw [front_append _ hne]
        cases this
        rfl
      · simp [hnf]
    rw [hfr a ha, hfr b hb]
    exact hab

theorem Inv.record_promote {r : LRUKReplacer} (hinv : Inv r) {f : Int} {c : Nat}
    {ts : List Nat} (hc : AL.find? f r.count_map_ = some c)
    (hts : AL.find? f r.history_list_ = some ts) (hk : c + 1 = r.k_) :
    Inv { r with
      count_map_ := AL.insert f (c + 1) r.count_map_
      cache_list_ := (f, ts ++ [r.current_timestamp_]) :: r.cache_list_
      location_ := AL.insert f ListId.cache r.location_
      history_list_ := AL.erase f r.history_list_
      current_timestamp_ := r.current_timestamp_ + 1 } := by
  obtain ⟨c', hc', hc1, -, hlen, hlt⟩ := hinv.hist f ts hts
  rw [hc] at hc'; cases hc'
  have hcl : AL.find? f r.cache_list_ = none := by
    cases h : AL.find? f r.cache_list_ with
    | none => rfl
    | some ts' => exact (hinv.not_both f (by simp [hts]) (by simp [h])).elim
  refine ⟨hinv.k_pos, hinv.nodup_ev, AL.nodup_erase f hinv.nodup_hist, ?_, ?_, ?_, ?_, ?_, ?_,
    hinv.hist_sorted.sublist (AL.erase_sublist f _)⟩
  · simp only [List.map_cons, List.nodup_cons]
    exact ⟨(AL.find?_eq_none_iff f _).mp hcl, hinv.nodup_cache⟩
  · intro g
    simp only [AL.find?_insert, AL.find?_erase, AL.find?_cons]
    by_cases hg : g = f
    · subst hg; simp
    · simp only [hg, Ne.symm hg, if_false]; exact hinv.loc g
  · intro g
    simp only [AL.find?_insert]
    by_cases hg : g = f
    · subst hg; simp [hinv.ev_dom g, hc]
    · simp only [hg, if_false]; exact hinv.ev_dom g
  · intro g ts' hts'
    simp only [AL.find?_insert, AL.find?_erase] at hts' ⊢
    by_cases hg : g = f
    · simp [hg] at hts'
    · simp only [hg, if_false] at hts' ⊢
      obtain ⟨c', h1, h2, h3, h4, h5⟩ := hinv.hist g ts' hts'
      exact ⟨c', h1, h2, h3, h4, fun x hx => Nat.lt_succ_of_lt (h5 x hx)⟩
  · intro g ts' hts'
    simp only [AL.find?_insert, AL.find?_cons] at hts' ⊢
    by_cases hg : g = f
    · subst hg
      simp only [if_true, Option.some.injEq] at hts'
      subst hts'
      refine ⟨c + 1, by simp, by omega, by simp [hlen, hk], ?_⟩
      intro x hx
      simp only [List.mem_append, List.mem_singleton] at hx
      rcases hx with hx | rfl
      · exact Nat.lt_succ_of_lt (hlt x hx)
      · exact Nat.lt_succ_self _
    · simp only [hg, Ne.symm hg, if_false] at hts' ⊢
      obtain ⟨c', h1, h2, h3, h5⟩ := hinv.cache g ts' hts'
      exact ⟨c', h1, h2, h3, fun x hx => Nat.lt_succ_of_lt (h5 x hx)⟩
  · intro g c' hgc
    simp only [AL.find?_insert, AL.find?_erase, AL.find?_cons] at hgc ⊢
    by_cases hg : g = f
    · subst hg
      simp only [if_true, Option.some.injEq] at hgc
      subst hgc
      simp [hk]
    · simp only [hg, Ne.symm hg, if_false] at hgc ⊢
      exact hinv.count_dom g c' hgc

theorem Inv.record_cache {r : LRUKReplacer} (hinv : Inv r) {f : Int} {c x : Nat}
    {tl : List Nat} (hc : AL.find? f r.count_map_ = some c)
    (hts : AL.find? f r.cache_list_ = some (x :: tl)) (hk : r.k_ ≤ c) :
    Inv { r with
      count_map_ := AL.insert f (c + 1) r.count_map_
      cache_list_ := AL.replace f (tl ++ [r.current_timestamp_]) r.cache_list_
      current_timestamp_ := r.current_timestamp_ + 1 } := by
  obtain ⟨c', hc', -, hlen, hlt⟩ := hinv.cache f _ hts
  rw [hc] at hc'; cases hc'
  have hh : AL.find? f r.history_list_ = none := by
    cases h : AL.find? f r.history_list_ with
    | none => rfl
    | some ts' => exact (hinv.not_both f (by simp [h]) (by simp [hts])).elim
  refine ⟨hinv.k_pos, hinv.nodup_ev, hinv.nodup_hist, ?_, ?_, ?_, ?_, ?_, ?_,
    hinv.hist_sorted⟩
  · rw [AL.keys_replace]; exact hinv.nodup_cache
  · intro g
    simp only [AL.find?_replace]
    by_cases hg : g = f
    · subst hg; simp only [if_true, hts, Option.map_some', Option.isSome_some]
      rw [hinv.loc g]; simp [hts]
    · simp only [hg, if_false]; exact hinv.loc g
  · intro g
    simp only [AL.find?_insert]
    by_cases hg : g = f
    · subst hg; simp [hinv.ev_dom g, hc]
    · simp only [hg, if_false]; exact hinv.ev_dom g
  · intro g ts' hts'
    simp only [AL.find?_insert] at hts' ⊢
    have hg : g ≠ f := by rintro rfl; rw [hh] at hts'; cases hts'
    simp only [hg, if_false]
    obtain ⟨c', h1, h2, h3, h4, h5⟩ := hinv.hist g ts' hts'
    exact ⟨c', h1, h2, h3, h4, fun x hx => Nat.lt_succ_of_lt (h5 x hx)⟩
  · intro g ts' hts'
    simp only [AL.find?_insert, AL.find?_replace] at hts' ⊢
    by_cases hg : g = f
    · subst hg
      simp only [if_true, hts, Option.map_some', Option.some.injEq] at hts'
      subst hts'
      refine ⟨c + 1, by simp, by omega, ?_, ?_⟩
      · simp only [List.length_cons] at hlen
        simp only [List.length_append, List.length_singleton]; omega
      · intro y hy
        simp only [List.mem_append, List.mem_singleton] at hy
        rcases hy with hy | rfl
        · exact Nat.lt_succ_of_lt (hlt y (List.mem_cons_of_mem _ hy))
        · exact Nat.lt_succ_self _
    · simp only [hg, if_false] at hts' ⊢
      obtain ⟨c', h1, h2, h3, h5⟩ := hinv.cache g ts' hts'
      exact ⟨c', h1, h2, h3, fun x hx => Nat.lt_succ_of_lt (h5 x hx)⟩
  · intro g c' hgc
    simp only [AL.find?_insert, AL.find?_replace] at hgc ⊢
    by_cases hg : g = f
    · subst hg
      simp only [if_true, Option.some.injEq] at hgc
      subst hgc
      have : ¬ (c + 1 < r.k_) := by omega
      simp [this, hts]
    · simp only [hg, if_false] at hgc ⊢
      exact hinv.count_dom g c' hgc

/-- `RecordAccess` keeps the invariant. -/
theorem Inv.record {r r' : LRUKReplacer} {f : Int} (hinv : Inv r)
    (h : r.RecordAccess f = Res.ok r' ()) : Inv r' := by
  have hr : ¬ f > (r.replacer_size_ : Int) := by
    intro hc
    simp [RecordAccess, hc] at h
  rcases RecordAccess_cases hinv hr with ⟨hc, hk, he⟩ | ⟨hc, hk, he⟩ | ⟨c, ts, hc, hts, hk, he⟩ |
    ⟨c, ts, hc, hts, hk, he⟩ | ⟨c, x, tl, hc, hts, hk, he⟩
  · rw [he] at h; cases h; exact hinv.record_new_hist hc hk
  · rw [he] at h; cases h; exact hinv.record_new_cache hc hk
  · rw [he] at h; cases h; exact hinv.record_hist hc hts hk
  · rw [he] at h; cases h; exact hinv.record_promote hc hts hk
  · rw [he] at h; cases h; exact hinv.record_cache hc hts hk

/-- Every reachable replacer state satisfies the invariant. -/
theorem Reachable.inv {num_frames k : Nat} (hk : 1 ≤ k) {r : LRUKReplacer}
    (h : Reachable num_frames k r) : Inv r := by
  induction h with
  | init => exact Inv.init_replacer num_frames k hk
  | record f _ hop ih => exact ih.record hop
  | recordRaise f _ hop ih => rw [RecordAccess_raise hop]; exact ih
  | setEvictable f b _ hop ih => exact ih.setEvictable hop
  | setEvictableRaise f b _ hop ih => rw [SetEvictable_raise hop]; exact ih
  | evict a _ hop ih => exact ih.evict hop
  | remove f _ hop ih => exact ih.replacer_remove hop
  | removeRaise f _ hop ih => rw [Remove_raise ih hop]; exact ih

end LRUKReplacer

end Bustub

namespace Bustub

namespace LRUKReplacer

/-! ## LRU-K replacer: what `Evict` returns and what it leaves -/

theorem eraseFrame_mem {r r' : LRUKReplacer} {lid : ListId} {f : Int}
    (h : eraseFrame r lid f = some r') : (AL.find? f (r.listOf lid)).isSome = true := by
  unfold LRUKReplacer.eraseFrame at h
  cases hl : AL.find? f r.location_ with
  | none => simp [hl] at h
  | some lid' =>
    simp only [hl] at h
    split at h
    · rename_i hc; exact hc.2
    · cases h

/-- Effect of `eraseFrame` on the observable state: the frame is gone from every
structure, every other frame keeps its count, timestamps and flag. -/
theorem eraseFrame_effect {r r' : LRUKReplacer} (hinv : Inv r) {lid : ListId} {f : Int}
    (h : eraseFrame r lid f = some r') :
    r'.accessCount f = none ∧ r'.evictable f = none ∧ AL.find? f r'.location_ = none ∧
    AL.find? f r'.history_list_ = none ∧ AL.find? f r'.cache_list_ = none ∧
    r'.timestampsOf f = none ∧
    (∀ g, g ≠ f → r'.accessCount g = r.accessCount g ∧ r'.evictable g = r.evictable g ∧
      r'.timestampsOf g = r.timestampsOf g) ∧
    (r.evictable f = some true → r'.Size + 1 = r.Size) ∧
    r'.k_ = r.k_ ∧ r'.replacer_size_ = r.replacer_size_ ∧
    r'.current_timestamp_ = r.current_timestamp_ := by
  have hf := eraseFrame_mem h
  rw [eraseFrame_eq hinv hf] at h
  cases h
  have hnb := hinv.not_both f
  cases lid with
  | history =>
    simp only [listOf] at hf
    have hcf : AL.find? f r.cache_list_ = none := by
      cases hc : AL.find? f r.cache_list_ with
      | none => rfl
      | some ts => exact (hnb hf (by simp [hc])).elim
    refine ⟨?_, ?_, ?_, ?_, ?_, ?_, ?_, ?_, rfl, rfl, rfl⟩
    · simp [accessCount, setList, AL.find?_erase]
    · simp [evictable, setList, AL.find?_erase]
    · simp [setList, AL.find?_erase]
    · simp [setList, listOf, AL.find?_erase]
    · simpa [setList] using hcf
    · simp [timestampsOf, setList, listOf, AL.find?_erase, hcf]
    · intro g hg
      simp [accessCount, evictable, timestampsOf, setList, listOf, AL.find?_erase, hg]
    · intro hev
      exact countP_erase_true hinv.nodup_ev hev
  | cache =>
    simp only [listOf] at hf
    have hhf : AL.find? f r.history_list_ = none := by
      cases hc : AL.find? f r.history_list_ with
      | none => rfl
      | some ts => exact (hnb (by simp [hc]) hf).elim
    refine ⟨?_, ?_, ?_, ?_, ?_, ?_, ?_, ?_, rfl, rfl, rfl⟩
    · simp [accessCount, setList, AL.find?_erase]
    · simp [evictable, setList, AL.find?_erase]
    · simp [setList, AL.find?_erase]
    · simpa [setList] using hhf
    · simp [setList, listOf, AL.find?_erase]
    · simp [timestampsOf, setList, listOf, AL.find?_erase, hhf]
    · intro g hg
      simp [accessCount, evictable, timestampsOf, setList, listOf, AL.find?_erase, hg]
    · intro hev
      exact countP_erase_true hinv.nodup_ev hev

/-- Sorting the cache list changes no observation. -/
theorem sort_effect {r : LRUKReplacer} (hinv : Inv r) (g : Int) :
    ({ r with cache_list_ := sortCache r.cache_list_ } : LRUKReplacer).timestampsOf g =
      r.timestampsOf g := by
  simp [timestampsOf, find?_sortCache hinv.nodup_cache]

/-- A frame whose flag is set sits in one of the two lists, according to its count. -/
theorem Inv.evictable_in_list {r : LRUKReplacer} (hinv : Inv r) {g : Int}
    (hg : r.evictable g = some true) :
    ∃ c, r.accessCount g = some c ∧
      ((c < r.k_ ∧ ∃ ts, AL.find? g r.history_list_ = some ts ∧ ts ≠ [] ∧
          AL.find? g r.cache_list_ = none) ∨
       (r.k_ ≤ c ∧ ∃ ts, AL.find? g r.cache_list_ = some ts ∧ ts ≠ [] ∧
          AL.find? g r.history_list_ = none)) := by
  have hs : (AL.find? g r.count_map_).isSome = true := by
    rw [← hinv.ev_dom]; unfold evictable at hg; simp [hg]
  obtain ⟨c, hc⟩ := Option.isSome_iff_exists.mp hs
  refine ⟨c, hc, ?_⟩
  have hdom := hinv.count_dom g c hc
  by_cases hck : c < r.k_
  · left
    simp only [hck, if_true] at hdom
    obtain ⟨ts, hts⟩ := Option.isSome_iff_exists.mp hdom
    obtain ⟨c', hc', h1, -, hlen, -⟩ := hinv.hist g ts hts
    rw [hc] at hc'; cases hc'
    refine ⟨hck, ts, hts, ?_, ?_⟩
    · rintro rfl; simp at hlen; omega
    · cases h : AL.find? g r.cache_list_ with
      | none => rfl
      | some ts' => exact (hinv.not_both g hdom (by simp [h])).elim
  · right
    simp only [hck, if_false] at hdom
    obtain ⟨ts, hts⟩ := Option.isSome_iff_exists.mp hdom
    obtain ⟨c', hc', h1, hlen, -⟩ := hinv.cache g ts hts
    rw [hc] at hc'; cases hc'
    refine ⟨Nat.not_lt.mp hck, ts, hts, ?_, ?_⟩
    · rintro rfl; simp at hlen; have := hinv.k_pos; omega
    · cases h : AL.find? g r.history_list_ with
      | none => rfl
      | some ts' => exact (hinv.not_both g (by simp [h]) hdom).elim

theorem oldestTimestamp_hist {r : LRUKReplacer} {g : Int} {ts : List Nat}
    (h : AL.find? g r.history_list_ = some ts) (hne : ts ≠ []) :
    r.oldestTimestamp g = some (front (g, ts)) := by
  cases ts with
  | nil => exact absurd rfl hne
  | cons x tl => simp [oldestTimestamp, timestampsOf, h, front]

theorem oldestTimestamp_cache {r : LRUKReplacer} {g : Int} {ts : List Nat}
    (hh : AL.find? g r.history_list_ = none) (h : AL.find? g r.cache_list_ = some ts)
    (hne : ts ≠ []) : r.oldestTimestamp g = some (front (g, ts)) := by
  cases ts with
  | nil => exact absurd rfl hne
  | cons x tl => simp [oldestTimestamp, timestampsOf, hh, h, front]

/-- In a list scanned back to front, the frame the scan returns has the least front
timestamp among the frames of the list whose flag is set, when the list is ordered by
decreasing front timestamp. -/
theorem scan_least {m : List (Int × Bool)} {l : List (Int × List Nat)}
    (hdom : ∀ n ∈ l.reverse, (AL.find? n.1 m).isSome = true)
    (hsorted : l.Pairwise (fun a b => front a ≥ front b))
    (hnd : (l.map Prod.fst).Nodup) {f : Int}
    (hs : (scan m l.reverse).1 = some f) :
    ∃ ts, AL.find? f l = some ts ∧ AL.find? f m = some true ∧
      ∀ g tsg, AL.find? g l = some tsg → AL.find? g m = some true →
        front (f, ts) ≤ front (g, tsg) := by
  obtain ⟨l₁, ts, l₂, hl, hfm, hbefore⟩ := scan_fst_some m l.reverse hdom hs
  have hl' : l = l₂.reverse ++ (f, ts) :: l₁.reverse := by
    have := congrArg List.reverse hl
    simpa using this
  have hfl : AL.find? f l = some ts :=
    AL.find?_of_mem hnd (by rw [hl']; simp)
  refine ⟨ts, hfl, hfm, ?_⟩
  intro g tsg hg hgm
  have hmem : (g, tsg) ∈ l := AL.mem_of_find? hg
  rw [hl'] at hmem hsorted
  simp only [List.mem_append, List.mem_cons, List.mem_reverse] at hmem
  rcases hmem with h2 | h0 | h1
  · rw [List.pairwise_append] at hsorted
    exact hsorted.2.2 (g, tsg) (by simpa using h2) (f, ts) (by simp)
  · cases h0; exact le_refl _
  · exact absurd hgm (hbefore (g, tsg) h1)

end LRUKReplacer

end Bustub

namespace Bustub

namespace LRUKReplacer

theorem eraseFrame_count {r r' : LRUKReplacer} {lid : ListId} {f : Int}
    (h : eraseFrame r lid f = some r') :
    r'.count_map_ = AL.erase f r.count_map_ ∧ r'.replacer_size_ = r.replacer_size_ ∧
    r'.k_ = r.k_ := by
  unfold LRUKReplacer.eraseFrame at h
  cases hl : AL.find? f r.location_ with
  | none => simp [hl] at h
  | some lid' =>
    simp only [hl] at h
    split at h
    · cases h
      cases lid <;> exact ⟨rfl, rfl, rfl⟩
    · cases h

/-- Tracked frames of a reachable state have passed the range check, and the parameters
of the replacer never change. -/
theorem Reachable.range {num_frames k : Nat} (hk : 1 ≤ k) {r : LRUKReplacer}
    (h : Reachable num_frames k r) :
    r.replacer_size_ = num_frames ∧ r.k_ = k ∧
    ∀ f, (AL.find? f r.count_map_).isSome = true → f ≤ (r.replacer_size_ : Int) := by
  induction h with
  | init => simp [LRUKReplacer.new]
  | @record r r' f hre hop ih =>
    have hinv := hre.inv hk
    have hr : ¬ f > (r.replacer_size_ : Int) := by
      intro hc
      simp [RecordAccess, hc] at hop
    obtain ⟨ih1, ih2, ih3⟩ := ih
    have key : r'.replacer_size_ = r.replacer_size_ ∧ r'.k_ = r.k_ ∧
        ∃ c, r'.count_map_ = AL.insert f c r.count_map_ := by
      rcases RecordAccess_cases hinv hr with ⟨hc, hk, he⟩ | ⟨hc, hk, he⟩ |
        ⟨c, ts, hc, hts, hk, he⟩ | ⟨c, ts, hc, hts, hk, he⟩ | ⟨c, x, tl, hc, hts, hk, he⟩ <;>
      · rw [he] at hop; cases hop; exact ⟨rfl, rfl, _, rfl⟩
    obtain ⟨k1, k2, c, k3⟩ := key
    refine ⟨k1.trans ih1, k2.trans ih2, ?_⟩
    intro g hg
    rw [k3, AL.find?_insert] at hg
    rw [k1]
    by_cases hgf : g = f
    · subst hgf; omega
    · simp only [hgf, if_false] at hg; exact ih3 g hg
  | recordRaise f _ hop ih => rw [RecordAccess_raise hop]; exact ih
  | @setEvictable r r' f b hre hop ih =>
    unfold SetEvictable at hop
    split at hop
    · cases hop
    · split at hop <;> · cases hop; exact ih
  | setEvictableRaise f b _ hop ih => rw [SetEvictable_raise hop]; exact ih
  | @evict r r' a hre hop ih =>
    have hinv := hre.inv hk
    obtain ⟨ih1, ih2, ih3⟩ := ih
    rcases Evict_cases hinv with ⟨f, r1, -, he, hev⟩ | ⟨-, f, r1, -, he, hev⟩ | ⟨-, -, hev⟩
    · rw [hev] at hop; cases hop
      obtain ⟨e1, e2, e3⟩ := eraseFrame_count he
      refine ⟨e2.trans ih1, e3.trans ih2, ?_⟩
      intro g hg
      rw [e1, AL.find?_erase] at hg
      rw [e2]
      by_cases hgf : g = f
      · simp [hgf] at hg
      · simp only [hgf, if_false] at hg; exact ih3 g hg
    · rw [hev] at hop; cases hop
      obtain ⟨e1, e2, e3⟩ := eraseFrame_count he
      refine ⟨e2.trans ih1, e3.trans ih2, ?_⟩
      intro g hg
      rw [e1, AL.find?_erase] at hg
      rw [e2]
      by_cases hgf : g = f
      · simp [hgf] at hg
      · simp only [hgf, if_false] at hg; exact ih3 g hg
    · rw [hev] at hop; cases hop
      exact ⟨ih1, ih2, ih3⟩
  | @remove r r' f hre hop ih =>
    have hinv := hre.inv hk
    obtain ⟨ih1, ih2, ih3⟩ := ih
    rcases Replacer_Remove_cases hinv f with ⟨-, hr⟩ | ⟨c, -, -, hr⟩ | ⟨c, r1, -, -, he, hr⟩
    · rw [hr] at hop; cases hop; exact ⟨ih1, ih2, ih3⟩
    · rw [hr] at hop; cases hop
    · rw [hr] at hop; cases hop
      obtain ⟨e1, e2, e3⟩ := eraseFrame_count he
      refine ⟨e2.trans ih1, e3.trans ih2, ?_⟩
      intro g hg
      rw [e1, AL.find?_erase] at hg
      rw [e2]
      by_cases hgf : g = f
      · simp [hgf] at hg
      · simp only [hgf, if_false] at hg; exact ih3 g hg
  | @removeRaise r r' f hre hop ih => rw [Remove_raise (hre.inv hk) hop]; exact ih

end LRUKReplacer

end Bustub

namespace Bustub

namespace LRUKReplacer

/-- C4. LRU-K victim selection: in every reachable replacer state (`k ≥ 1`) in which some
frame is evictable, `Evict` returns an evictable frame `f` such that, if some evictable
frame has fewer than `k_` recorded accesses, `f` is one of those and its first access is
the earliest among them, and otherwise `f` has the smallest `k_`-th most recent access
timestamp among the evictable frames. Concretely, with `k = 2` and accesses A, B, A, B, C
(frames 1, 2, 1, 2, 3), all evictable, three `Evict` calls return C, then A, then B. -/
theorem C4_victim_selection :
    (∀ (num_frames k : Nat) (r : LRUKReplacer), 1 ≤ k → Reachable num_frames k r →
      (∃ g, r.evictable g = some true) →
      ∃ r' f, r.Evict = Res.ok r' (some f) ∧ r.evictable f = some true ∧
        ((∃ g c, r.evictable g = some true ∧ r.accessCount g = some c ∧ c < r.k_) →
          (∃ c, r.accessCount f = some c ∧ c < r.k_) ∧
          ∀ g c, r.evictable g = some true → r.accessCount g = some c → c < r.k_ →
            ∃ tf tg, r.oldestTimestamp f = some tf ∧ r.oldestTimestamp g = some tg ∧
              tf ≤ tg) ∧
        ((¬ ∃ g c, r.evictable g = some true ∧ r.accessCount g = some c ∧ c < r.k_) →
          ∀ g, r.evictable g = some true →
            ∃ tf tg, r.oldestTimestamp f = some tf ∧ r.oldestTimestamp g = some tg ∧
              tf ≤ tg)) ∧
    (∃ r1 r2 r3 r4 r5 e1 e2 e3 : LRUKReplacer,
      (new 7 2).RecordAccess 1 = Res.ok r1 () ∧ r1.RecordAccess 2 = Res.ok r2 () ∧
      r2.RecordAccess 1 = Res.ok r3 () ∧ r3.RecordAccess 2 = Res.ok r4 () ∧
      r4.RecordAccess 3 = Res.ok r5 () ∧
      r5.evictable 1 = some true ∧ r5.evictable 2 = some true ∧ r5.evictable 3 = some true ∧
      r5.Evict = Res.ok e1 (some 3) ∧ e1.Evict = Res.ok e2 (some 1) ∧
      e2.Evict = Res.ok e3 (some 2)) := by
  refine ⟨?_, ?_⟩
  · intro num_frames k r hk hreach ⟨g0, hg0⟩
    have hinv := hreach.inv hk
    rcases Evict_cases hinv with ⟨f, r1, hscan, he, hev⟩ | ⟨hnone, f, r1, hscan, he, hev⟩ |
      ⟨hn1, hn2, hev⟩
    · -- the victim comes from the history list
      have hdom : ∀ n ∈ r.history_list_.reverse,
          (AL.find? n.1 r.evictable_map_).isSome = true := hinv.scan_hist_dom
      have hsorted : r.history_list_.Pairwise (fun a b => front a ≥ front b) :=
        hinv.hist_sorted.imp (fun h => Nat.le_of_lt h)
      obtain ⟨ts, hfl, hfm, hleast⟩ := scan_least hdom hsorted hinv.nodup_hist hscan
      obtain ⟨cf, hcf, hc1, hcflt, hlen, -⟩ := hinv.hist f ts hfl
      have hts_ne : ts ≠ [] := by
        rintro rfl; simp at hlen; omega
      refine ⟨r1, f, hev, hfm, ?_, ?_⟩
      · intro _
        refine ⟨⟨cf, hcf, hcflt⟩, ?_⟩
        intro g c hge hgc hck
        obtain ⟨c', hc', hcase⟩ := hinv.evictable_in_list hge
        rw [hgc] at hc'; cases hc'
        rcases hcase with ⟨-, tsg, htsg, hne, -⟩ | ⟨hle, -⟩
        · exact ⟨_, _, oldestTimestamp_hist hfl hts_ne, oldestTimestamp_hist htsg hne,
            hleast g tsg htsg hge⟩
        · omega
      · intro hno
        exact absurd ⟨f, cf, hfm, hcf, hcflt⟩ hno
    · -- no evictable frame in the history list: the victim comes from the cache list
      have hsinv := hinv.sort
      have hdom : ∀ n ∈ (sortCache r.cache_list_).reverse,
          (AL.find? n.1 r.evictable_map_).isSome = true := hinv.scan_cache_dom
      obtain ⟨ts, hfl, hfm, hleast⟩ := scan_least hdom (sortCache_sorted _)
        hsinv.nodup_cache hscan
      rw [find?_sortCache hinv.nodup_cache] at hfl
      have hhist_none : ∀ g, r.evictable g = some true → AL.find? g r.history_list_ = none := by
        intro g hge
        cases hgh : AL.find? g r.history_list_ with
        | none => rfl
        | some tsg =>
          have hmem : (g, tsg) ∈ r.history_list_.reverse :=
            List.mem_reverse.mpr (AL.mem_of_find? hgh)
          exact absurd hge ((scan_fst_none _ _ hinv.scan_hist_dom).mp hnone _ hmem)
      have hcache_of : ∀ g, r.evictable g = some true →
          ∃ tsg, AL.find? g r.cache_list_ = some tsg ∧ tsg ≠ [] := by
        intro g hge
        obtain ⟨c', hc', hcase⟩ := hinv.evictable_in_list hge
        rcases hcase with ⟨-, tsg, htsg, -, -⟩ | ⟨-, tsg, htsg, hne, -⟩
        · rw [hhist_none g hge] at htsg; cases htsg
        · exact ⟨tsg, htsg, hne⟩
      obtain ⟨ts', hts', hts_ne⟩ := hcache_of f hfm
      rw [hfl] at hts'; cases hts'
      refine ⟨r1, f, hev, hfm, ?_, ?_⟩
      · rintro ⟨g, c, hge, hgc, hck⟩
        obtain ⟨c', hc', hcase⟩ := hinv.evictable_in_list hge
        rw [hgc] at hc'; cases hc'
        rcases hcase with ⟨-, tsg, htsg, -, -⟩ | ⟨hle, -⟩
        · rw [hhist_none g hge] at htsg; cases htsg
        · omega
      · intro _ g hge
        obtain ⟨tsg, htsg, hne⟩ := hcache_of g hge
        refine ⟨_, _, oldestTimestamp_cache (hhist_none f hfm) hfl hts_ne,
          oldestTimestamp_cache (hhist_none g hge) htsg hne, ?_⟩
        exact hleast g tsg (by rw [find?_sortCache hinv.nodup_cache]; exact htsg) hge
    · -- no victim at all contradicts the evictable frame `g0`
      exfalso
      obtain ⟨c, -, hcase⟩ := hinv.evictable_in_list hg0
      rcases hcase with ⟨-, tsg, htsg, -, -⟩ | ⟨-, tsg, htsg, -, -⟩
      · have hmem : (g0, tsg) ∈ r.history_list_.reverse :=
          List.mem_reverse.mpr (AL.mem_of_find? htsg)
        exact (scan_fst_none _ _ hinv.scan_hist_dom).mp hn1 _ hmem hg0
      · have hmem : (g0, tsg) ∈ (sortCache r.cache_list_).reverse :=
          List.mem_reverse.mpr ((sortCache_perm _).symm.subset (AL.mem_of_find? htsg))
        exact (scan_fst_none _ _ hinv.scan_cache_dom).mp hn2 _ hmem hg0
  · exact ⟨_, _, _, _, _, _, _, _, rfl, rfl, rfl, rfl, rfl, rfl, rfl, rfl, rfl, rfl, rfl⟩

/-- C5. `Evict` result and removal: in every reachable replacer state `Evict` returns
normally; it returns no frame exactly when `Size() = 0`, and then no frame's access count,
timestamps or evictable flag changes; when it returns a frame `f`, `f` was tracked and
evictable, `Size()` drops by exactly one, `f` is gone from `count_map_`,
`evictable_map_`, `location_` and both lists (so that the next `RecordAccess(f)` is a first
access: count 1 and the timestamp of that access as whole history), and every other frame
keeps its access count, timestamps and evictable flag. -/
theorem C5_evict_result (num_frames k : Nat) (hk : 1 ≤ k) (r : LRUKReplacer)
    (hreach : Reachable num_frames k r) :
    ∃ r' a, r.Evict = Res.ok r' a ∧
      (a = none ↔ r.Size = 0) ∧
      (a = none → r'.Size = r.Size ∧ ∀ g, r'.accessCount g = r.accessCount g ∧
        r'.timestampsOf g = r.timestampsOf g ∧ r'.evictable g = r.evictable g) ∧
      (∀ f, a = some f →
        r.tracked f = true ∧ r.evictable f = some true ∧ r'.Size + 1 = r.Size ∧
        r'.tracked f = false ∧ r'.accessCount f = none ∧ r'.evictable f = none ∧
        AL.find? f r'.location_ = none ∧ AL.find? f r'.history_list_ = none ∧
        AL.find? f r'.cache_list_ = none ∧ r'.timestampsOf f = none ∧
        (∀ g, g ≠ f → r'.accessCount g = r.accessCount g ∧
          r'.timestampsOf g = r.timestampsOf g ∧ r'.evictable g = r.evictable g) ∧
        (∃ r'', r'.RecordAccess f = Res.ok r'' () ∧ r''.accessCount f = some 1 ∧
          r''.timestampsOf f = some [r'.current_timestamp_] ∧
          r''.evictable f = some true)) := by
  have hinv := hreach.inv hk
  obtain ⟨hsize, hkk, hrange⟩ := hreach.range hk
  -- what an erased victim looks like afterwards
  have herased : ∀ (r0 r1 : LRUKReplacer) (lid : ListId) (f : Int), Inv r0 →
      (∀ g, r0.accessCount g = r.accessCount g ∧ r0.timestampsOf g = r.timestampsOf g ∧
        r0.evictable g = r.evictable g) → r0.Size = r.Size →
      r0.replacer_size_ = r.replacer_size_ →
      r0.evictable f = some true → eraseFrame r0 lid f = some r1 → Inv r1 →
      r.tracked f = true ∧ r.evictable f = some true ∧ r1.Size + 1 = r.Size ∧
        r1.tracked f = false ∧ r1.accessCount f = none ∧ r1.evictable f = none ∧
        AL.find? f r1.location_ = none ∧ AL.find? f r1.history_list_ = none ∧
        AL.find? f r1.cache_list_ = none ∧ r1.timestampsOf f = none ∧
        (∀ g, g ≠ f → r1.accessCount g = r.accessCount g ∧
          r1.timestampsOf g = r.timestampsOf g ∧ r1.evictable g = r.evictable g) ∧
        (∃ r'', r1.RecordAccess f = Res.ok r'' () ∧ r''.accessCount f = some 1 ∧
          r''.timestampsOf f = some [r1.current_timestamp_] ∧
          r''.evictable f = some true) := by
    intro r0 r1 lid f hinv0 hsame hsz hrs hfe he hinv1
    obtain ⟨e1, e2, e3, e4, e5, e6, e7, e8, e9, e10, e11⟩ := eraseFrame_effect hinv0 he
    have hfev : r.evictable f = some true := by rw [← (hsame f).2.2]; exact hfe
    have htr : r.tracked f = true := by
      unfold tracked; rw [← hinv.ev_dom]; unfold evictable at hfev; simp [hfev]
    refine ⟨htr, hfev, by rw [← hsz]; exact e8 hfe, by simpa [tracked, accessCount] using e1,
      e1, e2, e3, e4, e5, e6, ?_, ?_⟩
    · intro g hg
      obtain ⟨a1, a2, a3⟩ := e7 g hg
      exact ⟨a1.trans (hsame g).1, a3.trans (hsame g).2.1, a2.trans (hsame g).2.2⟩
    · have hr : ¬ f > (r1.replacer_size_ : Int) := by
        rw [e10, hrs]
        exact not_lt.mpr (hrange f htr)
      have hc1 : AL.find? f r1.count_map_ = none := e1
      rcases RecordAccess_cases hinv1 hr with ⟨hc, hk, he⟩ | ⟨hc, hk, he⟩ |
        ⟨c, ts, hc, hts, hk, he⟩ | ⟨c, ts, hc, hts, hk, he⟩ | ⟨c, x, tl, hc, hts, hk, he⟩
      · refine ⟨_, he, ?_, ?_, ?_⟩
        · simp [accessCount, AL.find?_insert]
        · simp [timestampsOf, AL.find?_cons]
        · simp [evictable, AL.find?_insert]
      · refine ⟨_, he, ?_, ?_, ?_⟩
        · simp [accessCount, AL.find?_insert]
        · simp [timestampsOf, AL.find?_cons, e4]
        · simp [evictable, AL.find?_insert]
      · rw [hc1] at hc; cases hc
      · rw [hc1] at hc; cases hc
      · rw [hc1] at hc; cases hc
  rcases Evict_cases hinv with ⟨f, r1, hscan, he, hev⟩ | ⟨hnone, f, r1, hscan, he, hev⟩ |
    ⟨hn1, hn2, hev⟩
  · obtain ⟨l₁, ts, l₂, -, hfm, -⟩ := scan_fst_some _ _ hinv.scan_hist_dom hscan
    have hsz : r.Size ≠ 0 := fun h0 => (Size_eq_zero_iff r hinv.nodup_ev).mp h0 f hfm
    refine ⟨r1, some f, hev, by simp [hsz], by simp, ?_⟩
    intro f' hf'
    cases hf'
    exact herased r r1 _ f hinv (fun g => ⟨rfl, rfl, rfl⟩) rfl rfl hfm he (hinv.eraseFrame he)
  · obtain ⟨l₁, ts, l₂, -, hfm, -⟩ := scan_fst_some _ _ hinv.scan_cache_dom hscan
    have hsz : r.Size ≠ 0 := fun h0 => (Size_eq_zero_iff r hinv.nodup_ev).mp h0 f hfm
    refine ⟨r1, some f, hev, by simp [hsz], by simp, ?_⟩
    intro f' hf'
    cases hf'
    exact herased _ r1 _ f hinv.sort (fun g => ⟨rfl, sort_effect hinv g, rfl⟩) rfl rfl hfm he
      (hinv.sort.eraseFrame he)
  · have hsz : r.Size = 0 := by
      rw [Size_eq_zero_iff r hinv.nodup_ev]
      intro g hg
      obtain ⟨c, -, hcase⟩ := hinv.evictable_in_list (show r.evictable g = some true from hg)
      rcases hcase with ⟨-, tsg, htsg, -, -⟩ | ⟨-, tsg, htsg, -, -⟩
      · have hmem : (g, tsg) ∈ r.history_list_.reverse :=
          List.mem_reverse.mpr (AL.mem_of_find? htsg)
        exact (scan_fst_none _ _ hinv.scan_hist_dom).mp hn1 _ hmem hg
      · have hmem : (g, tsg) ∈ (sortCache r.cache_list_).reverse :=
          List.mem_reverse.mpr ((sortCache_perm _).symm.subset (AL.mem_of_find? htsg))
        exact (scan_fst_none _ _ hinv.scan_cache_dom).mp hn2 _ hmem hg
    refine ⟨_, none, hev, by simp [hsz], ?_, by simp⟩
    intro _
    exact ⟨rfl, fun g => ⟨rfl, sort_effect hinv g, rfl⟩⟩

end LRUKReplacer

end Bustub

namespace Bustub

namespace ExtendibleHashTable

variable {K V : Type} [DecidableEq K]

/-- Lookups after `Remove`. -/
theorem Find_Remove {hash : K → Nat} {t : ExtendibleHashTable K V} (hwf : WF hash t)
    (k k' : K) :
    Find hash (Remove hash t k).2 k' = if k' = k then none else Find hash t k' := by
  rcases Table_Remove_cases hash t k with ⟨h, hnone⟩ | ⟨bid, b, hd, hb, h⟩
  · rw [h]
    by_cases hk : k' = k
    · subst hk; simp [hnone]
    · simp [hk]
  · rw [h]
    obtain ⟨-, -, -, -, hother, hself⟩ := Bucket_Remove_spec b k
    obtain ⟨b0, hb0, -, -, -, hbnd, -, -⟩ := hwf.slot _ _ hd
    rw [hb] at hb0; cases hb0
    show Find hash { t with heap := t.heap.set bid (b.Remove k).2 } k' = _
    rw [Find_setBucket hash t hwf.depth_le hb]
    by_cases hk : k' = k
    · subst hk
      rw [if_pos hd, if_pos rfl]
      exact hself hbnd
    · rw [if_neg hk]
      split
      · rename_i hd'
        rw [Find_of_bucketAt hwf.depth_le hd' hb]
        exact hother k' hk
      · rfl

end ExtendibleHashTable

namespace LRUKReplacer

/-- `RecordAccess` of an in-range frame followed by `SetEvictable(frame, false)`, as the
manager calls them: both return, the frame ends tracked and non-evictable, every other
frame keeps its tracking and its flag. -/
theorem record_then_pin {r : LRUKReplacer} (hinv : Inv r) {f : Int}
    (hr : f ≤ (r.replacer_size_ : Int)) :
    ∃ r1 r2, r.RecordAccess f = Res.ok r1 () ∧ r1.SetEvictable f false = Res.ok r2 () ∧
      Inv r2 ∧ r2.replacer_size_ = r.replacer_size_ ∧ r2.k_ = r.k_ ∧
      r2.evictable f = some false ∧ (AL.find? f r2.count_map_).isSome = true ∧
      (∀ g, g ≠ f → r2.evictable g = r.evictable g ∧
        (AL.find? g r2.count_map_).isSome = (AL.find? g r.count_map_).isSome) := by
  have hr' : ¬ f > (r.replacer_size_ : Int) := not_lt.mpr hr
  have key : ∃ r1, r.RecordAccess f = Res.ok r1 () ∧ r1.replacer_size_ = r.replacer_size_ ∧
      r1.k_ = r.k_ ∧ (AL.find? f r1.count_map_).isSome = true ∧
      (∀ g, g ≠ f → AL.find? g r1.evictable_map_ = AL.find? g r.evictable_map_ ∧
        (AL.find? g r1.count_map_).isSome = (AL.find? g r.count_map_).isSome) := by
    rcases RecordAccess_cases hinv hr' with ⟨hc, hk, he⟩ | ⟨hc, hk, he⟩ |
      ⟨c, ts, hc, hts, hk, he⟩ | ⟨c, ts, hc, hts, hk, he⟩ | ⟨c, x, tl, hc, hts, hk, he⟩ <;>
    · refine ⟨_, he, rfl, rfl, by simp [AL.find?_insert], ?_⟩
      intro g hg
      simp [AL.find?_insert, hg]
  obtain ⟨r1, h1, hs1, hk1, ht1, ho1⟩ := key
  have hinv1 := hinv.record h1
  have hr1 : ¬ f > (r1.replacer_size_ : Int) := by rw [hs1]; exact hr'
  have ht1' : ¬ (AL.find? f r1.count_map_).isNone = true := by
    cases h : AL.find? f r1.count_map_ with
    | none => simp [h] at ht1
    | some c => simp
  have h2 : r1.SetEvictable f false =
      Res.ok { r1 with evictable_map_ := AL.insert f false r1.evictable_map_ } () := by
    simp [SetEvictable, hr1, ht1']
  refine ⟨r1, _, h1, h2, hinv1.setEvictable h2, hs1, hk1, ?_, ht1, ?_⟩
  · simp [evictable, AL.find?_insert]
  · intro g hg
    obtain ⟨a1, a2⟩ := ho1 g hg
    refine ⟨?_, a2⟩
    simp only [evictable, AL.find?_insert, hg, if_false]
    exact a1

/-- `SetEvictable(frame, true)` of an in-range frame returns and only touches the flag of
that frame. -/
theorem setEvictable_true_spec {r : LRUKReplacer} (hinv : Inv r) {f : Int}
    (hr : f ≤ (r.replacer_size_ : Int)) :
    ∃ r1, r.SetEvictable f true = Res.ok r1 () ∧ Inv r1 ∧
      r1.replacer_size_ = r.replacer_size_ ∧ r1.k_ = r.k_ ∧ r1.count_map_ = r.count_map_ ∧
      r1.evictable f ≠ some false ∧
      (∀ g, g ≠ f → r1.evictable g = r.evictable g) := by
  have hr' : ¬ f > (r.replacer_size_ : Int) := not_lt.mpr hr
  cases hc : AL.find? f r.count_map_ with
  | none =>
    have h : r.SetEvictable f true = Res.ok r () := by simp [SetEvictable, hr', hc]
    refine ⟨r, h, hinv, rfl, rfl, rfl, ?_, fun g _ => rfl⟩
    have : AL.find? f r.evictable_map_ = none := by
      have := hinv.ev_dom f
      rw [hc] at this
      cases h' : AL.find? f r.evictable_map_ with
      | none => rfl
      | some b => rw [h'] at this; simp at this
    simp [evictable, this]
  | some c =>
    have h : r.SetEvictable f true =
        Res.ok { r with evictable_map_ := AL.insert f true r.evictable_map_ } () := by
      simp [SetEvictable, hr', hc]
    refine ⟨_, h, hinv.setEvictable h, rfl, rfl, rfl, ?_, ?_⟩
    · simp [evictable, AL.find?_insert]
    · intro g hg
      simp [evictable, AL.find?_insert, hg]

/-- `Remove` of a frame that is not marked non-evictable returns; the frame ends untracked
and every other frame keeps its tracking and its flag. -/
theorem remove_spec {r : LRUKReplacer} (hinv : Inv r) {f : Int}
    (hev : r.evictable f ≠ some false) :
    ∃ r1, r.Remove f = Res.ok r1 () ∧ Inv r1 ∧ r1.replacer_size_ = r.replacer_size_ ∧
      r1.k_ = r.k_ ∧
      AL.find? f r1.count_map_ = none ∧ r1.evictable f = none ∧
      (∀ g, g ≠ f → r1.evictable g = r.evictable g ∧
        AL.find? g r1.count_map_ = AL.find? g r.count_map_) := by
  rcases Replacer_Remove_cases hinv f with ⟨hc, hr⟩ | ⟨c, -, hfalse, hr⟩ | ⟨c, r1, -, -, he, hr⟩
  · refine ⟨r, hr, hinv, rfl, rfl, hc, ?_, fun g _ => ⟨rfl, rfl⟩⟩
    have := hinv.ev_dom f
    rw [hc] at this
    cases h' : AL.find? f r.evictable_map_ with
    | none => simpa [evictable] using h'
    | some b => rw [h'] at this; simp at this
  · exact absurd hfalse hev
  · obtain ⟨e1, e2, -, -, -, -, e7, -, e9, e10, -⟩ := eraseFrame_effect hinv he
    refine ⟨r1, hr, hinv.eraseFrame he, e10, e9, e1, e2, ?_⟩
    intro g hg
    obtain ⟨a1, a2, -⟩ := e7 g hg
    exact ⟨a2, a1⟩

/-- `Evict` when `Size()` is not zero: a tracked evictable frame is returned and erased,
every other frame keeps its tracking and its flag. -/
theorem evict_spec {r : LRUKReplacer} (hinv : Inv r) (hsz : r.Size ≠ 0) :
    ∃ r1 f, r.Evict = Res.ok r1 (some f) ∧ Inv r1 ∧ r1.replacer_size_ = r.replacer_size_ ∧
      r1.k_ = r.k_ ∧
      (AL.find? f r.count_map_).isSome = true ∧ r.evictable f = some true ∧
      AL.find? f r1.count_map_ = none ∧ r1.evictable f = none ∧
      (∀ g, g ≠ f → r1.evictable g = r.evictable g ∧
        AL.find? g r1.count_map_ = AL.find? g r.count_map_) := by
  rcases Evict_cases hinv with ⟨f, r1, hscan, he, hev⟩ | ⟨hnone, f, r1, hscan, he, hev⟩ |
    ⟨hn1, hn2, hev⟩
  · obtain ⟨l₁, ts, l₂, -, hfm, -⟩ := scan_fst_some _ _ hinv.scan_hist_dom hscan
    obtain ⟨e1, e2, -, -, -, -, e7, -, e9, e10, -⟩ := eraseFrame_effect hinv he
    have htr : (AL.find? f r.count_map_).isSome = true := by
      rw [← hinv.ev_dom, hfm]; rfl
    refine ⟨r1, f, hev, hinv.eraseFrame he, e10, e9, htr, hfm, e1, e2, ?_⟩
    intro g hg
    obtain ⟨a1, a2, -⟩ := e7 g hg
    exact ⟨a2, a1⟩
  · obtain ⟨l₁, ts, l₂, -, hfm, -⟩ := scan_fst_some _ _ hinv.scan_cache_dom hscan
    obtain ⟨e1, e2, -, -, -, -, e7, -, e9, e10, -⟩ := eraseFrame_effect hinv.sort he
    have htr : (AL.find? f r.count_map_).isSome = true := by
      rw [← hinv.ev_dom, hfm]; rfl
    refine ⟨r1, f, hev, hinv.sort.eraseFrame he, e10, e9, htr, hfm, e1, e2, ?_⟩
    intro g hg
    obtain ⟨a1, a2, -⟩ := e7 g hg
    exact ⟨a2, a1⟩
  · exfalso
    apply hsz
    rw [Size_eq_zero_iff r hinv.nodup_ev]
    intro g hg
    obtain ⟨c, -, hcase⟩ := hinv.evictable_in_list (show r.evictable g = some true from hg)
    rcases hcase with ⟨-, tsg, htsg, -, -⟩ | ⟨-, tsg, htsg, -, -⟩
    · have hmem : (g, tsg) ∈ r.history_list_.reverse :=
        List.mem_reverse.mpr (AL.mem_of_find? htsg)
      exact (scan_fst_none _ _ hinv.scan_hist_dom).mp hn1 _ hmem hg
    · have hmem : (g, tsg) ∈ (sortCache r.cache_list_).reverse :=
        List.mem_reverse.mpr ((sortCache_perm _).symm.subset (AL.mem_of_find? htsg))
      exact (scan_fst_none _ _ hinv.scan_cache_dom).mp hn2 _ hmem hg

end LRUKReplacer

end Bustub

namespace Bustub

namespace BufferPoolManagerInstance

/-! ## Buffer pool manager: frames -/

theorem pageAt_some {pages : List Page} {f : Int} {pg : Page} (h : pageAt pages f = some pg) :
    0 ≤ f ∧ f < (pages.length : Int) := by
  unfold pageAt at h
  split at h
  · rename_i h0
    have := (List.getElem?_eq_some.mp h).1
    exact ⟨h0, by omega⟩
  · cases h

theorem pageAt_of_range {pages : List Page} {f : Int} (h0 : 0 ≤ f)
    (h1 : f < (pages.length : Int)) : ∃ pg, pageAt pages f = some pg := by
  have : f.toNat < pages.length := by omega
  exact ⟨_, by simp only [pageAt, h0, if_true]; exact List.getElem?_eq_getElem this⟩

theorem length_setPageAt (pages : List Page) (f : Int) (p : Page) :
    (setPageAt pages f p).length = pages.length := by
  simp [setPageAt]

theorem pageAt_setPageAt {pages : List Page} {f : Int} (h0 : 0 ≤ f)
    (h1 : f < (pages.length : Int)) (p : Page) (g : Int) :
    pageAt (setPageAt pages f p) g = if g = f then some p else pageAt pages g := by
  have hf : f.toNat < pages.length := by omega
  unfold pageAt setPageAt
  by_cases hg0 : 0 ≤ g
  · simp only [hg0, if_true]
    by_cases hgf : g = f
    · subst hgf; simp [List.getElem?_set, hf]
    · have : f.toNat ≠ g.toNat := by omega
      simp [List.getElem?_set_ne this, hgf]
  · have hgf : g ≠ f := by omega
    simp [hg0, hgf]

/-- `FlushPgImpInternal` on a state that satisfies the invariant: it returns, and changes
at most the disk and the dirty flag of one frame. -/
theorem FlushPgImpInternal_spec {hash : Int → Nat} {s : BufferPoolManagerInstance}
    (hinv : Inv hash s) (p : Int) :
    ∃ s' b, FlushPgImpInternal hash s p = some (s', b) ∧
      s'.page_table_ = s.page_table_ ∧ s'.replacer_ = s.replacer_ ∧
      s'.free_list_ = s.free_list_ ∧ s'.pool_size_ = s.pool_size_ ∧
      s'.next_page_id_ = s.next_page_id_ ∧ s'.pages_.length = s.pages_.length ∧
      (∀ g pg', pageAt s'.pages_ g = some pg' → ∃ pg, pageAt s.pages_ g = some pg ∧
        pg'.pin_count_ = pg.pin_count_ ∧ pg'.page_id_ = pg.page_id_ ∧
        pg'.data_ = pg.data_) := by
  unfold FlushPgImpInternal
  cases hf : ExtendibleHashTable.Find hash s.page_table_ p with
  | none => exact ⟨s, false, rfl, rfl, rfl, rfl, rfl, rfl, rfl, fun g pg' h => ⟨pg', h, rfl, rfl, rfl⟩⟩
  | some f =>
    obtain ⟨h0, h1⟩ := hinv.table_range p f hf
    rw [← hinv.pages_len] at h1
    obtain ⟨pg, hpg⟩ := pageAt_of_range h0 h1
    simp only [hpg]
    refine ⟨_, true, rfl, rfl, rfl, rfl, rfl, rfl, length_setPageAt _ _ _, ?_⟩
    intro g pg' hg
    simp only [pageAt_setPageAt h0 h1] at hg
    by_cases hgf : g = f
    · subst hgf
      simp only [if_true, Option.some.injEq] at hg
      subst hg
      exact ⟨pg, hpg, rfl, rfl, rfl⟩
    · simp only [hgf, if_false] at hg
      exact ⟨pg', hg, rfl, rfl, rfl⟩

/-- The invariant only depends on the pin counts of the frames. -/
theorem Inv.of_pages {hash : Int → Nat} {s s' : BufferPoolManagerInstance} (hinv : Inv hash s)
    (ht : s'.page_table_ = s.page_table_) (hr : s'.replacer_ = s.replacer_)
    (hfl : s'.free_list_ = s.free_list_) (hps : s'.pool_size_ = s.pool_size_)
    (hlen : s'.pages_.length = s.pages_.length)
    (hpin : ∀ g pg', pageAt s'.pages_ g = some pg' → ∃ pg, pageAt s.pages_ g = some pg ∧
        pg'.pin_count_ = pg.pin_count_) : Inv hash s' := by
  refine ⟨by rw [hlen, hps]; exact hinv.pages_len, ht ▸ hinv.table_wf, ht ▸ hinv.bucket_pos,
    hr ▸ hinv.replacer_inv, by rw [hr, hps]; exact hinv.replacer_size, ?_, ?_, ?_, ?_, ?_, ?_⟩
  · rw [hfl, hps]; exact hinv.free_range
  · rw [hr, hps]; exact hinv.tracked_range
  · rw [ht, hps]; exact hinv.table_range
  · intro g pg' hg
    obtain ⟨pg, hpg, he⟩ := hpin g pg' hg
    rw [he]; exact hinv.pin_nonneg g pg hpg
  · intro g pg' hg h0
    obtain ⟨pg, hpg, he⟩ := hpin g pg' hg
    rw [hr]
    exact hinv.pin_evictable g pg hpg (he ▸ h0)
  · intro g pg' hg hp
    obtain ⟨pg, hpg, he⟩ := hpin g pg' hg
    rw [hr]
    exact hinv.pinned_flag g pg hpg (he ▸ hp)

theorem Inv.flush {hash : Int → Nat} {s s' : BufferPoolManagerInstance} {b : Bool} {p : Int}
    (hinv : Inv hash s) (h : FlushPgImpInternal hash s p = some (s', b)) : Inv hash s' := by
  obtain ⟨s1, b1, h1, e1, e2, e3, e4, -, e6, e7⟩ := FlushPgImpInternal_spec hinv p
  rw [h] at h1; cases h1
  exact hinv.of_pages e1 e2 e3 e4 e6 (fun g pg' hg => by
    obtain ⟨pg, hpg, hp, -⟩ := e7 g pg' hg
    exact ⟨pg, hpg, hp⟩)

end BufferPoolManagerInstance

end Bustub

namespace Bustub

namespace BufferPoolManagerInstance

/-! ## Buffer pool manager: obtaining a frame -/

/-- Removing a page id from the page table keeps the invariant. -/
theorem Inv.unmap {hash : Int → Nat} {s : BufferPoolManagerInstance} (hinv : Inv hash s)
    (p : Int) :
    Inv hash { s with page_table_ := (ExtendibleHashTable.Remove hash s.page_table_ p).2 } := by
  refine ⟨hinv.pages_len, hinv.table_wf.table_remove p, ?_, hinv.replacer_inv,
    hinv.replacer_size, hinv.free_range, hinv.tracked_range, ?_, hinv.pin_nonneg,
    hinv.pin_evictable, hinv.pinned_flag⟩
  · show 1 ≤ (ExtendibleHashTable.Remove hash s.page_table_ p).2.bucket_size_
    rw [ExtendibleHashTable.Remove_bucket_size]; exact hinv.bucket_pos
  · intro q f hq
    have hq' : ExtendibleHashTable.Find hash
        (ExtendibleHashTable.Remove hash s.page_table_ p).2 q = some f := hq
    rw [ExtendibleHashTable.Find_Remove hinv.table_wf] at hq'
    split at hq'
    · cases hq'
    · exact hinv.table_range q f hq'

/-- Replacing the replacer by one in which a frame has been erased (by `Evict` or `Remove`)
keeps the invariant. -/
theorem Inv.erased {hash : Int → Nat} {s : BufferPoolManagerInstance} (hinv : Inv hash s)
    {r1 : LRUKReplacer} {f : Int} (hr1 : LRUKReplacer.Inv r1)
    (hsz : r1.replacer_size_ = s.replacer_.replacer_size_)
    (hf : AL.find? f r1.count_map_ = none) (hfe : r1.evictable f = none)
    (hfpin : ∀ pg, pageAt s.pages_ f = some pg → ¬ 0 < pg.pin_count_)
    (hother : ∀ g, g ≠ f → r1.evictable g = s.replacer_.evictable g ∧
        AL.find? g r1.count_map_ = AL.find? g s.replacer_.count_map_) :
    Inv hash { s with replacer_ := r1 } := by
  refine ⟨hinv.pages_len, hinv.table_wf, hinv.bucket_pos, hr1, hsz.trans hinv.replacer_size,
    hinv.free_range, ?_, hinv.table_range, hinv.pin_nonneg, ?_, ?_⟩
  · intro g hg
    have hg' : (AL.find? g r1.count_map_).isSome = true := hg
    by_cases hgf : g = f
    · subst hgf; rw [hf] at hg'; cases hg'
    · rw [(hother g hgf).2] at hg'
      exact hinv.tracked_range g hg'
  · intro g pg hg h0
    show r1.evictable g ≠ some false
    by_cases hgf : g = f
    · subst hgf; rw [hfe]; simp
    · rw [(hother g hgf).1]
      exact hinv.pin_evictable g pg hg h0
  · intro g pg hg hp
    show r1.evictable g = some false
    by_cases hgf : g = f
    · subst hgf; exact absurd hp (hfpin pg hg)
    · rw [(hother g hgf).1]
      exact hinv.pinned_flag g pg hg hp

/-- The frame-obtaining block returns a frame in range whenever the free list is not empty
or the replacer's `Size()` is not zero, and keeps the invariant. -/
theorem takeFrame_spec {hash : Int → Nat} {s : BufferPoolManagerInstance}
    (hinv : Inv hash s) (hne : ¬ (s.free_list_ = [] ∧ s.replacer_.Size = 0)) :
    ∃ s1 f, takeFrame hash s = some (s1, f) ∧ Inv hash s1 ∧
      0 ≤ f ∧ f < (s.pool_size_ : Int) ∧ s1.pool_size_ = s.pool_size_ ∧
      s1.next_page_id_ = s.next_page_id_ ∧ s1.replacer_.k_ = s.replacer_.k_ ∧
      s1.page_table_.bucket_size_ = s.page_table_.bucket_size_ := by
  unfold takeFrame
  cases hfl : s.free_list_ with
  | cons f rest =>
    obtain ⟨h0, h1⟩ := hinv.free_range f (by rw [hfl]; simp)
    refine ⟨_, f, rfl, ?_, h0, h1, rfl, rfl, rfl, rfl⟩
    refine ⟨hinv.pages_len, hinv.table_wf, hinv.bucket_pos, hinv.replacer_inv,
      hinv.replacer_size, ?_, hinv.tracked_range, hinv.table_range, hinv.pin_nonneg,
      hinv.pin_evictable, hinv.pinned_flag⟩
    intro g hg
    exact hinv.free_range g (by rw [hfl]; exact List.mem_cons_of_mem _ hg)
  | nil =>
    have hsz : s.replacer_.Size ≠ 0 := fun h => hne ⟨hfl, h⟩
    obtain ⟨r1, f, hev, hr1, hs1, hk1, htr, hfev, hf1, hfe1, hother⟩ :=
      LRUKReplacer.evict_spec hinv.replacer_inv hsz
    obtain ⟨h0, h1⟩ := hinv.tracked_range f htr
    have hfpin : ∀ pg, pageAt s.pages_ f = some pg → ¬ 0 < pg.pin_count_ := by
      intro pg hpg hp
      have := hinv.pinned_flag f pg hpg hp
      rw [hfev] at this; cases this
    have hinv1 : Inv hash { s with replacer_ := r1 } :=
      hinv.erased hr1 hs1 hf1 hfe1 hfpin hother
    have h1' : f < (s.pages_.length : Int) := by rw [hinv.pages_len]; exact h1
    obtain ⟨pg, hpg⟩ := pageAt_of_range h0 h1'
    simp only [hev, Option.getD_some, hpg]
    -- the optional flush of the victim
    have hflush : ∃ s2 b, (if pg.is_dirty_ = true then
          FlushPgImpInternal hash { s with replacer_ := r1 } pg.page_id_
        else some ({ s with replacer_ := r1 }, true)) = some (s2, b) ∧ Inv hash s2 ∧
        s2.pool_size_ = s.pool_size_ ∧ s2.next_page_id_ = s.next_page_id_ ∧
        s2.replacer_ = r1 ∧ s2.page_table_ = s.page_table_ ∧
        s2.pages_.length = s.pages_.length := by
      by_cases hd : pg.is_dirty_ = true
      · obtain ⟨s2, b, hfl2, e1, e2, e3, e4, e5, e6, e7⟩ :=
          FlushPgImpInternal_spec hinv1 pg.page_id_
        exact ⟨s2, b, by rw [if_pos hd]; exact hfl2, hinv1.flush hfl2, e4, e5, e2, e1, e6⟩
      · exact ⟨_, true, by rw [if_neg hd], hinv1, rfl, rfl, rfl, rfl, rfl⟩
    obtain ⟨s2, b, hfl2, hinv2, e1, e2, e3, e4, e5⟩ := hflush
    rw [hfl] at hfl2
    rw [hfl2]
    obtain ⟨pg2, hpg2⟩ := pageAt_of_range h0 (e5 ▸ h1')
    simp only [hpg2]
    refine ⟨_, f, rfl, hinv2.unmap pg2.page_id_, h0, h1, e1, e2, ?_, ?_⟩
    · show s2.replacer_.k_ = s.replacer_.k_
      rw [e3, hk1]
    · show (ExtendibleHashTable.Remove hash s2.page_table_ pg2.page_id_).2.bucket_size_ = _
      rw [ExtendibleHashTable.Remove_bucket_size, e4]

end BufferPoolManagerInstance

end Bustub

namespace Bustub

namespace BufferPoolManagerInstance

/-! ## Buffer pool manager: installing and pinning a page -/

/-- The tail `RecordAccess; SetEvictable(false)` returns for a frame in range. -/
theorem recordAndPin_spec {s : BufferPoolManagerInstance}
    (hr : LRUKReplacer.Inv s.replacer_) {f : Int} (hf : f ≤ (s.replacer_.replacer_size_ : Int)) :
    ∃ r2, recordAndPin s f = Res.ok { s with replacer_ := r2 } () ∧
      LRUKReplacer.Inv r2 ∧ r2.replacer_size_ = s.replacer_.replacer_size_ ∧
      r2.k_ = s.replacer_.k_ ∧
      r2.evictable f = some false ∧ (AL.find? f r2.count_map_).isSome = true ∧
      (∀ g, g ≠ f → r2.evictable g = s.replacer_.evictable g ∧
        (AL.find? g r2.count_map_).isSome = (AL.find? g s.replacer_.count_map_).isSome) := by
  obtain ⟨r1, r2, h1, h2, hinv2, hs, hk, hev, htr, hother⟩ := LRUKReplacer.record_then_pin hr hf
  refine ⟨r2, ?_, hinv2, hs, hk, hev, htr, hother⟩
  simp only [recordAndPin, h1, h2]

/-- Installing a pinned page in a frame, with a replacer in which that frame is tracked and
non-evictable, keeps the invariant. -/
theorem Inv.install {hash : Int → Nat} {s : BufferPoolManagerInstance} (hinv : Inv hash s)
    {f : Int} (h0 : 0 ≤ f) (h1 : f < (s.pool_size_ : Int))
    {pt : ExtendibleHashTable Int Int} (hwf : ExtendibleHashTable.WF hash pt)
    (hbp : 1 ≤ pt.bucket_size_)
    (hrange : ∀ p g, ExtendibleHashTable.Find hash pt p = some g →
      0 ≤ g ∧ g < (s.pool_size_ : Int))
    {pg' : Page} (hpin : 0 < pg'.pin_count_) {r2 : LRUKReplacer} (hr2 : LRUKReplacer.Inv r2)
    (hsz : r2.replacer_size_ = s.replacer_.replacer_size_)
    (hev : r2.evictable f = some false)
    (hother : ∀ g, g ≠ f → r2.evictable g = s.replacer_.evictable g ∧
      (AL.find? g r2.count_map_).isSome = (AL.find? g s.replacer_.count_map_).isSome)
    {dm : DiskManager} {n : Int} :
    Inv hash { s with
      page_table_ := pt, pages_ := setPageAt s.pages_ f pg', replacer_ := r2,
      disk_manager_ := dm, next_page_id_ := n } := by
  have h1' : f < (s.pages_.length : Int) := by rw [hinv.pages_len]; exact h1
  refine ⟨?_, hwf, hbp, hr2, hsz.trans hinv.replacer_size, hinv.free_range, ?_, hrange, ?_, ?_,
    ?_⟩
  · show (setPageAt s.pages_ f pg').length = s.pool_size_
    rw [length_setPageAt]; exact hinv.pages_len
  · intro g hg
    have hg' : (AL.find? g r2.count_map_).isSome = true := hg
    by_cases hgf : g = f
    · subst hgf; exact ⟨h0, h1⟩
    · rw [(hother g hgf).2] at hg'
      exact hinv.tracked_range g hg'
  · intro g pg hg
    have hg' : pageAt (setPageAt s.pages_ f pg') g = some pg := hg
    rw [pageAt_setPageAt h0 h1'] at hg'
    by_cases hgf : g = f
    · simp only [hgf, if_true, Option.some.injEq] at hg'
      subst hg'; exact le_of_lt hpin
    · simp only [hgf, if_false] at hg'
      exact hinv.pin_nonneg g pg hg'
  · intro g pg hg hz
    have hg' : pageAt (setPageAt s.pages_ f pg') g = some pg := hg
    rw [pageAt_setPageAt h0 h1'] at hg'
    show r2.evictable g ≠ some false
    by_cases hgf : g = f
    · simp only [hgf, if_true, Option.some.injEq] at hg'
      subst hg'; omega
    · simp only [hgf, if_false] at hg'
      rw [(hother g hgf).1]
      exact hinv.pin_evictable g pg hg' hz
  · intro g pg hg hp
    have hg' : pageAt (setPageAt s.pages_ f pg') g = some pg := hg
    rw [pageAt_setPageAt h0 h1'] at hg'
    show r2.evictable g = some false
    by_cases hgf : g = f
    · subst hgf; exact hev
    · simp only [hgf, if_false] at hg'
      rw [(hother g hgf).1]
      exact hinv.pinned_flag g pg hg' hp

/-- Storing a mapping to a frame in range keeps the page table well-formed with values in
range. -/
theorem table_insert_range {hash : Int → Nat} {s : BufferPoolManagerInstance}
    (hinv : Inv hash s) {fuel : Nat} {p f : Int} {pt : ExtendibleHashTable Int Int}
    (h0 : 0 ≤ f) (h1 : f < (s.pool_size_ : Int))
    (hins : ExtendibleHashTable.Insert hash fuel s.page_table_ p f = some pt) :
    ExtendibleHashTable.WF hash pt ∧ 1 ≤ pt.bucket_size_ ∧
    ExtendibleHashTable.Find hash pt p = some f ∧
    (∀ q g, ExtendibleHashTable.Find hash pt q = some g → 0 ≤ g ∧ g < (s.pool_size_ : Int)) := by
  have hfind := ExtendibleHashTable.Find_Insert_self hash fuel _ _ p f hins
  refine ⟨hinv.table_wf.insert hins, ?_, hfind, ?_⟩
  · rw [ExtendibleHashTable.Insert_bucket_size hinv.table_wf hins]; exact hinv.bucket_pos
  · intro q g hq
    by_cases hqp : q = p
    · subst hqp
      rw [hfind] at hq; cases hq
      exact ⟨h0, h1⟩
    · rw [ExtendibleHashTable.Find_Insert_other hinv.table_wf hqp hins] at hq
      exact hinv.table_range q g hq

end BufferPoolManagerInstance

end Bustub

namespace Bustub

namespace BufferPoolManagerInstance

/-! ## Buffer pool manager: `NewPgImp` and `FetchPgImp` -/

theorem exhausted_iff (s : BufferPoolManagerInstance) :
    (s.free_list_.isEmpty && s.replacer_.Size == 0) = true ↔
      (s.free_list_ = [] ∧ s.replacer_.Size = 0) := by
  simp [List.isEmpty_iff]

theorem Inv.bump {hash : Int → Nat} {s : BufferPoolManagerInstance} (hinv : Inv hash s)
    (n : Int) : Inv hash { s with next_page_id_ := n } :=
  ⟨hinv.pages_len, hinv.table_wf, hinv.bucket_pos, hinv.replacer_inv, hinv.replacer_size,
    hinv.free_range, hinv.tracked_range, hinv.table_range, hinv.pin_nonneg, hinv.pin_evictable,
    hinv.pinned_flag⟩

/-- What `NewPgImp` does on a state that satisfies the invariant, with the frame-obtaining
block exposed. -/
theorem NewPgImp_spec_take {hash : Int → Nat} {s : BufferPoolManagerInstance} (hinv : Inv hash s) :
    ((s.free_list_ = [] ∧ s.replacer_.Size = 0) ∧ ∀ fuel, NewPgImp hash fuel s = Res.ok s none) ∨
    (¬ (s.free_list_ = [] ∧ s.replacer_.Size = 0) ∧
      ∃ s1 f, takeFrame hash { s with next_page_id_ := s.next_page_id_ + 1 } = some (s1, f) ∧ Inv hash s1 ∧ 0 ≤ f ∧ f < (s.pool_size_ : Int) ∧ s1.pool_size_ = s.pool_size_ ∧
        s1.next_page_id_ = s.next_page_id_ + 1 ∧ s1.replacer_.k_ = s.replacer_.k_ ∧
        s1.page_table_.bucket_size_ = s.page_table_.bucket_size_ ∧
        ∀ fuel,
          (ExtendibleHashTable.Insert hash fuel s1.page_table_ s.next_page_id_ f = none ∧
            NewPgImp hash fuel s = Res.undef) ∨
          (∃ pt r2, ExtendibleHashTable.Insert hash fuel s1.page_table_ s.next_page_id_ f
              = some pt ∧
            NewPgImp hash fuel s = Res.ok { s1 with
              page_table_ := pt
              pages_ := setPageAt s1.pages_ f
                { data_ := Page.zeroData, page_id_ := s.next_page_id_, pin_count_ := 1,
                  is_dirty_ := false }
              replacer_ := r2 } (some (f, s.next_page_id_)) ∧
            Inv hash { s1 with
              page_table_ := pt
              pages_ := setPageAt s1.pages_ f
                { data_ := Page.zeroData, page_id_ := s.next_page_id_, pin_count_ := 1,
                  is_dirty_ := false }
              replacer_ := r2 } ∧
            r2.k_ = s.replacer_.k_ ∧ pt.bucket_size_ = s.page_table_.bucket_size_ ∧
            r2.evictable f = some false ∧ (AL.find? f r2.count_map_).isSome = true ∧
            ExtendibleHashTable.Find hash pt s.next_page_id_ = some f)) := by
  by_cases hex : s.free_list_ = [] ∧ s.replacer_.Size = 0
  · left
    refine ⟨hex, fun fuel => ?_⟩
    simp only [NewPgImp, (exhausted_iff s).mpr hex, if_true]
  · right
    have hex' : ¬ (s.free_list_.isEmpty && s.replacer_.Size == 0) = true :=
      fun h => hex ((exhausted_iff s).mp h)
    obtain ⟨s1, f, htake, hinv1, h0, h1, e1, e2, e3, e4⟩ :=
      takeFrame_spec (hinv.bump (s.next_page_id_ + 1)) hex
    refine ⟨hex, s1, f, htake, hinv1, h0, h1, e1, e2, e3, e4, fun fuel => ?_⟩
    have h1' : f < (s1.pages_.length : Int) := by rw [hinv1.pages_len, e1]; exact h1
    obtain ⟨pg, hpg⟩ := pageAt_of_range h0 h1'
    cases hins : ExtendibleHashTable.Insert hash fuel s1.page_table_ s.next_page_id_ f with
    | none =>
      left
      refine ⟨rfl, ?_⟩
      simp only [NewPgImp, hex', htake, hins]
      rfl
    | some pt =>
      right
      have hf1 : f < (s1.pool_size_ : Int) := by rw [e1]; exact h1
      obtain ⟨hwf, hbp, hfind, hrange⟩ := table_insert_range hinv1 h0 hf1 hins
      have hfsz : f ≤ (s1.replacer_.replacer_size_ : Int) := by
        rw [hinv1.replacer_size]; omega
      obtain ⟨r2, hrp, hr2, hsz2, hk2, hev2, htr2, hother2⟩ :=
        recordAndPin_spec (s := { s1 with
          page_table_ := pt
          pages_ := setPageAt s1.pages_ f
            { data_ := Page.zeroData, page_id_ := s.next_page_id_, pin_count_ := 1,
              is_dirty_ := false } }) hinv1.replacer_inv hfsz
      refine ⟨pt, r2, rfl, ?_, ?_, hk2.trans e3, ?_, hev2, htr2, hfind⟩
      · simp only [NewPgImp, hex', htake, hins, hpg, hrp]
        rfl
      · exact hinv1.install h0 hf1 hwf hbp hrange Int.one_pos hr2 hsz2 hev2 hother2
      · rw [ExtendibleHashTable.Insert_bucket_size hinv1.table_wf hins, e4]

/-- What `NewPgImp` does on a state that satisfies the invariant. -/
theorem NewPgImp_spec {hash : Int → Nat} {s : BufferPoolManagerInstance} (hinv : Inv hash s) :
    ((s.free_list_ = [] ∧ s.replacer_.Size = 0) ∧ ∀ fuel, NewPgImp hash fuel s = Res.ok s none) ∨
    (¬ (s.free_list_ = [] ∧ s.replacer_.Size = 0) ∧
      ∃ s1 f, Inv hash s1 ∧ 0 ≤ f ∧ f < (s.pool_size_ : Int) ∧ s1.pool_size_ = s.pool_size_ ∧
        s1.next_page_id_ = s.next_page_id_ + 1 ∧ s1.replacer_.k_ = s.replacer_.k_ ∧
        s1.page_table_.bucket_size_ = s.page_table_.bucket_size_ ∧
        ∀ fuel,
          (ExtendibleHashTable.Insert hash fuel s1.page_table_ s.next_page_id_ f = none ∧
            NewPgImp hash fuel s = Res.undef) ∨
          (∃ pt r2, ExtendibleHashTable.Insert hash fuel s1.page_table_ s.next_page_id_ f
              = some pt ∧
            NewPgImp hash fuel s = Res.ok { s1 with
              page_table_ := pt
              pages_ := setPageAt s1.pages_ f
                { data_ := Page.zeroData, page_id_ := s.next_page_id_, pin_count_ := 1,
                  is_dirty_ := false }
              replacer_ := r2 } (some (f, s.next_page_id_)) ∧
            Inv hash { s1 with
              page_table_ := pt
              pages_ := setPageAt s1.pages_ f
                { data_ := Page.zeroData, page_id_ := s.next_page_id_, pin_count_ := 1,
                  is_dirty_ := false }
              replacer_ := r2 } ∧
            r2.k_ = s.replacer_.k_ ∧ pt.bucket_size_ = s.page_table_.bucket_size_ ∧
            r2.evictable f = some false ∧ (AL.find? f r2.count_map_).isSome = true ∧
            ExtendibleHashTable.Find hash pt s.next_page_id_ = some f)) := by
  rcases NewPgImp_spec_take hinv with h | ⟨hex, s1, f, -, h⟩
  · exact Or.inl h
  · exact Or.inr ⟨hex, s1, f, h⟩

end BufferPoolManagerInstance

end Bustub

namespace Bustub

namespace BufferPoolManagerInstance

theorem setPageAt_setPageAt (pages : List Page) (f : Int) (p q : Page) :
    setPageAt (setPageAt pages f p) f q = setPageAt pages f q := by
  simp [setPageAt]

/-- `FetchPgImp` of a page the directory maps: the frame is pinned once more. -/
theorem FetchPgImp_hit {hash : Int → Nat} {s : BufferPoolManagerInstance} (hinv : Inv hash s)
    {p f : Int} (hfind : ExtendibleHashTable.Find hash s.page_table_ p = some f) :
    ∃ pg r2, pageAt s.pages_ f = some pg ∧ 0 ≤ f ∧ f < (s.pool_size_ : Int) ∧
      (∀ fuel, FetchPgImp hash fuel s p = Res.ok { s with
        pages_ := setPageAt s.pages_ f { pg with pin_count_ := pg.pin_count_ + 1 }
        replacer_ := r2 } (some f)) ∧
      Inv hash { s with
        pages_ := setPageAt s.pages_ f { pg with pin_count_ := pg.pin_count_ + 1 }
        replacer_ := r2 } ∧
      r2.k_ = s.replacer_.k_ ∧
      r2.evictable f = some false ∧ (AL.find? f r2.count_map_).isSome = true := by
  obtain ⟨h0, h1⟩ := hinv.table_range p f hfind
  have h1' : f < (s.pages_.length : Int) := by rw [hinv.pages_len]; exact h1
  obtain ⟨pg, hpg⟩ := pageAt_of_range h0 h1'
  have hfsz : f ≤ (s.replacer_.replacer_size_ : Int) := by
    rw [hinv.replacer_size]; omega
  obtain ⟨r2, hrp, hr2, hsz2, hk2, hev2, htr2, hother2⟩ :=
    recordAndPin_spec (s := { s with
      pages_ := setPageAt s.pages_ f { pg with pin_count_ := pg.pin_count_ + 1 } })
      hinv.replacer_inv hfsz
  refine ⟨pg, r2, hpg, h0, h1, ?_, ?_, hk2, hev2, htr2⟩
  · intro fuel
    simp only [FetchPgImp, hfind, hpg, hrp]
  · have hpin : 0 < pg.pin_count_ + 1 := by
      have := hinv.pin_nonneg f pg hpg; omega
    exact hinv.install h0 h1 hinv.table_wf hinv.bucket_pos hinv.table_range
      (show 0 < ({ pg with pin_count_ := pg.pin_count_ + 1 } : Page).pin_count_ from hpin)
      hr2 hsz2 hev2 hother2

/-- `FetchPgImp` of a page the directory does not map, with the frame-obtaining block
exposed. -/
theorem FetchPgImp_miss_take {hash : Int → Nat} {s : BufferPoolManagerInstance} (hinv : Inv hash s)
    {p : Int} (hfind : ExtendibleHashTable.Find hash s.page_table_ p = none) :
    ((s.free_list_ = [] ∧ s.replacer_.Size = 0) ∧
      ∀ fuel, FetchPgImp hash fuel s p = Res.ok s none) ∨
    (¬ (s.free_list_ = [] ∧ s.replacer_.Size = 0) ∧
      ∃ s1 f, takeFrame hash s = some (s1, f) ∧ Inv hash s1 ∧ 0 ≤ f ∧ f < (s.pool_size_ : Int) ∧ s1.pool_size_ = s.pool_size_ ∧
        s1.next_page_id_ = s.next_page_id_ ∧ s1.replacer_.k_ = s.replacer_.k_ ∧
        s1.page_table_.bucket_size_ = s.page_table_.bucket_size_ ∧
        ∀ fuel,
          (ExtendibleHashTable.Insert hash fuel s1.page_table_ p f = none ∧
            FetchPgImp hash fuel s p = Res.undef) ∨
          (∃ pt r2, ExtendibleHashTable.Insert hash fuel s1.page_table_ p f = some pt ∧
            FetchPgImp hash fuel s p = Res.ok { s1 with
              page_table_ := pt
              pages_ := setPageAt s1.pages_ f
                { data_ := s1.disk_manager_.content p, page_id_ := p, pin_count_ := 1,
                  is_dirty_ := false }
              disk_manager_ := (s1.disk_manager_.ReadPage p).1
              replacer_ := r2 } (some f) ∧
            Inv hash { s1 with
              page_table_ := pt
              pages_ := setPageAt s1.pages_ f
                { data_ := s1.disk_manager_.content p, page_id_ := p, pin_count_ := 1,
                  is_dirty_ := false }
              disk_manager_ := (s1.disk_manager_.ReadPage p).1
              replacer_ := r2 } ∧
            r2.k_ = s.replacer_.k_ ∧ pt.bucket_size_ = s.page_table_.bucket_size_ ∧
            r2.evictable f = some false ∧ (AL.find? f r2.count_map_).isSome = true ∧
            ExtendibleHashTable.Find hash pt p = some f)) := by
  by_cases hex : s.free_list_ = [] ∧ s.replacer_.Size = 0
  · left
    refine ⟨hex, fun fuel => ?_⟩
    simp only [FetchPgImp, hfind, (exhausted_iff s).mpr hex, if_true]
  · right
    have hex' : ¬ (s.free_list_.isEmpty && s.replacer_.Size == 0) = true :=
      fun h => hex ((exhausted_iff s).mp h)
    obtain ⟨s1, f, htake, hinv1, h0, h1, e1, e2, e3, e4⟩ := takeFrame_spec hinv hex
    refine ⟨hex, s1, f, htake, hinv1, h0, h1, e1, e2, e3, e4, fun fuel => ?_⟩
    have h1' : f < (s1.pages_.length : Int) := by rw [hinv1.pages_len, e1]; exact h1
    obtain ⟨pg, hpg⟩ := pageAt_of_range h0 h1'
    cases hins : ExtendibleHashTable.Insert hash fuel s1.page_table_ p f with
    | none =>
      left
      refine ⟨rfl, ?_⟩
      simp only [FetchPgImp, hfind, hex', htake, hins]
      rfl
    | some pt =>
      right
      have hf1 : f < (s1.pool_size_ : Int) := by rw [e1]; exact h1
      obtain ⟨hwf, hbp, hfind', hrange⟩ := table_insert_range hinv1 h0 hf1 hins
      have hfsz : f ≤ (s1.replacer_.replacer_size_ : Int) := by
        rw [hinv1.replacer_size]; omega
      obtain ⟨r2, hrp, hr2, hsz2, hk2, hev2, htr2, hother2⟩ :=
        recordAndPin_spec (s := { s1 with
          page_table_ := pt
          pages_ := setPageAt s1.pages_ f
            { data_ := s1.disk_manager_.content p, page_id_ := p, pin_count_ := 1,
              is_dirty_ := false }
          disk_manager_ := (s1.disk_manager_.ReadPage p).1 }) hinv1.replacer_inv hfsz
      refine ⟨pt, r2, rfl, ?_, ?_, hk2.trans e3, ?_, hev2, htr2, hfind'⟩
      · have hp0 : pageAt (setPageAt s1.pages_ f
            { data_ := (s1.disk_manager_.ReadPage p).2, page_id_ := p, pin_count_ := 0,
              is_dirty_ := false }) f = some
            { data_ := (s1.disk_manager_.ReadPage p).2, page_id_ := p, pin_count_ := 0,
              is_dirty_ := false } := by
          rw [pageAt_setPageAt h0 h1']; simp
        simp only [FetchPgImp, hfind, hex', htake, hins, hpg, hp0, setPageAt_setPageAt]
        simp only [DiskManager.ReadPage, Int.zero_add] at hrp ⊢
        simp only [hrp]
        rfl
      · exact hinv1.install h0 hf1 hwf hbp hrange Int.one_pos hr2 hsz2 hev2 hother2
      · rw [ExtendibleHashTable.Insert_bucket_size hinv1.table_wf hins, e4]

/-- `FetchPgImp` of a page the directory does not map. -/
theorem FetchPgImp_miss {hash : Int → Nat} {s : BufferPoolManagerInstance} (hinv : Inv hash s)
    {p : Int} (hfind : ExtendibleHashTable.Find hash s.page_table_ p = none) :
    ((s.free_list_ = [] ∧ s.replacer_.Size = 0) ∧
      ∀ fuel, FetchPgImp hash fuel s p = Res.ok s none) ∨
    (¬ (s.free_list_ = [] ∧ s.replacer_.Size = 0) ∧
      ∃ s1 f, Inv hash s1 ∧ 0 ≤ f ∧ f < (s.pool_size_ : Int) ∧ s1.pool_size_ = s.pool_size_ ∧
        s1.next_page_id_ = s.next_page_id_ ∧ s1.replacer_.k_ = s.replacer_.k_ ∧
        s1.page_table_.bucket_size_ = s.page_table_.bucket_size_ ∧
        ∀ fuel,
          (ExtendibleHashTable.Insert hash fuel s1.page_table_ p f = none ∧
            FetchPgImp hash fuel s p = Res.undef) ∨
          (∃ pt r2, ExtendibleHashTable.Insert hash fuel s1.page_table_ p f = some pt ∧
            FetchPgImp hash fuel s p = Res.ok { s1 with
              page_table_ := pt
              pages_ := setPageAt s1.pages_ f
                { data_ := s1.disk_manager_.content p, page_id_ := p, pin_count_ := 1,
                  is_dirty_ := false }
              disk_manager_ := (s1.disk_manager_.ReadPage p).1
              replacer_ := r2 } (some f) ∧
            Inv hash { s1 with
              page_table_ := pt
              pages_ := setPageAt s1.pages_ f
                { data_ := s1.disk_manager_.content p, page_id_ := p, pin_count_ := 1,
                  is_dirty_ := false }
              disk_manager_ := (s1.disk_manager_.ReadPage p).1
              replacer_ := r2 } ∧
            r2.k_ = s.replacer_.k_ ∧ pt.bucket_size_ = s.page_table_.bucket_size_ ∧
            r2.evictable f = some false ∧ (AL.find? f r2.count_map_).isSome = true ∧
            ExtendibleHashTable.Find hash pt p = some f)) := by
  rcases FetchPgImp_miss_take hinv hfind with h | ⟨hex, s1, f, -, h⟩
  · exact Or.inl h
  · exact Or.inr ⟨hex, s1, f, h⟩

end BufferPoolManagerInstance

end Bustub

namespace Bustub

namespace BufferPoolManagerInstance

/-! ## Buffer pool manager: `UnpinPgImp` and `DeletePgImp` -/

/-- Rewriting one frame and its replacer entry keeps the invariant, provided the new pin
count is not negative and, when it is zero, the frame is not marked non-evictable. -/
theorem Inv.update {hash : Int → Nat} {s : BufferPoolManagerInstance} (hinv : Inv hash s)
    {f : Int} (h0 : 0 ≤ f) (h1 : f < (s.pool_size_ : Int))
    {pg' : Page} (hpin : 0 ≤ pg'.pin_count_) {r2 : LRUKReplacer} (hr2 : LRUKReplacer.Inv r2)
    (hsz : r2.replacer_size_ = s.replacer_.replacer_size_)
    (hzero : pg'.pin_count_ = 0 → r2.evictable f ≠ some false)
    (hposf : 0 < pg'.pin_count_ → r2.evictable f = some false)
    (hother : ∀ g, g ≠ f → r2.evictable g = s.replacer_.evictable g ∧
      (AL.find? g r2.count_map_).isSome = (AL.find? g s.replacer_.count_map_).isSome) :
    Inv hash { s with pages_ := setPageAt s.pages_ f pg', replacer_ := r2 } := by
  have h1' : f < (s.pages_.length : Int) := by rw [hinv.pages_len]; exact h1
  refine ⟨?_, hinv.table_wf, hinv.bucket_pos, hr2, hsz.trans hinv.replacer_size,
    hinv.free_range, ?_, hinv.table_range, ?_, ?_, ?_⟩
  · show (setPageAt s.pages_ f pg').length = s.pool_size_
    rw [length_setPageAt]; exact hinv.pages_len
  · intro g hg
    have hg' : (AL.find? g r2.count_map_).isSome = true := hg
    by_cases hgf : g = f
    · subst hgf; exact ⟨h0, h1⟩
    · rw [(hother g hgf).2] at hg'
      exact hinv.tracked_range g hg'
  · intro g pg hg
    have hg' : pageAt (setPageAt s.pages_ f pg') g = some pg := hg
    rw [pageAt_setPageAt h0 h1'] at hg'
    by_cases hgf : g = f
    · simp only [hgf, if_true, Option.some.injEq] at hg'
      subst hg'; exact hpin
    · simp only [hgf, if_false] at hg'
      exact hinv.pin_nonneg g pg hg'
  · intro g pg hg hz
    have hg' : pageAt (setPageAt s.pages_ f pg') g = some pg := hg
    rw [pageAt_setPageAt h0 h1'] at hg'
    show r2.evictable g ≠ some false
    by_cases hgf : g = f
    · simp only [hgf, if_true, Option.some.injEq] at hg'
      subst hg'; subst hgf; exact hzero hz
    · simp only [hgf, if_false] at hg'
      rw [(hother g hgf).1]
      exact hinv.pin_evictable g pg hg' hz
  · intro g pg hg hp
    have hg' : pageAt (setPageAt s.pages_ f pg') g = some pg := hg
    rw [pageAt_setPageAt h0 h1'] at hg'
    show r2.evictable g = some false
    by_cases hgf : g = f
    · simp only [hgf, if_true, Option.some.injEq] at hg'
      subst hg'; subst hgf; exact hposf hp
    · simp only [hgf, if_false] at hg'
      rw [(hother g hgf).1]
      exact hinv.pinned_flag g pg hg' hp

/-- What `UnpinPgImp` does on a state that satisfies the invariant. -/
theorem UnpinPgImp_spec {hash : Int → Nat} {s : BufferPoolManagerInstance} (hinv : Inv hash s)
    (p : Int) (is_dirty : Bool) :
    (ExtendibleHashTable.Find hash s.page_table_ p = none ∧
      UnpinPgImp hash s p is_dirty = Res.ok s false) ∨
    (∃ f pg, ExtendibleHashTable.Find hash s.page_table_ p = some f ∧
      pageAt s.pages_ f = some pg ∧ pg.pin_count_ = 0 ∧
      UnpinPgImp hash s p is_dirty = Res.ok s false) ∨
    (∃ f pg r1, ExtendibleHashTable.Find hash s.page_table_ p = some f ∧
      pageAt s.pages_ f = some pg ∧ 0 < pg.pin_count_ ∧
      0 ≤ f ∧ f < (s.pool_size_ : Int) ∧
      UnpinPgImp hash s p is_dirty = Res.ok { s with
        pages_ := setPageAt s.pages_ f { pg with
          pin_count_ := pg.pin_count_ - 1
          is_dirty_ := if is_dirty then is_dirty else pg.is_dirty_ }
        replacer_ := r1 } true ∧
      Inv hash { s with
        pages_ := setPageAt s.pages_ f { pg with
          pin_count_ := pg.pin_count_ - 1
          is_dirty_ := if is_dirty then is_dirty else pg.is_dirty_ }
        replacer_ := r1 } ∧
      (pg.pin_count_ - 1 = 0 → s.replacer_.SetEvictable f true = Res.ok r1 ()) ∧
      (pg.pin_count_ - 1 ≠ 0 → r1 = s.replacer_) ∧
      r1.k_ = s.replacer_.k_ ∧
      (∀ g, g ≠ f → r1.evictable g = s.replacer_.evictable g)) := by
  cases hfind : ExtendibleHashTable.Find hash s.page_table_ p with
  | none => left; exact ⟨rfl, by simp only [UnpinPgImp, hfind]⟩
  | some f =>
    right
    obtain ⟨h0, h1⟩ := hinv.table_range p f hfind
    have h1' : f < (s.pages_.length : Int) := by rw [hinv.pages_len]; exact h1
    obtain ⟨pg, hpg⟩ := pageAt_of_range h0 h1'
    have hnn := hinv.pin_nonneg f pg hpg
    by_cases hz : pg.pin_count_ = 0
    · left
      exact ⟨f, pg, rfl, hpg, hz, by simp only [UnpinPgImp, hfind, hpg, hz, if_true]⟩
    · right
      have hpos : 0 < pg.pin_count_ := by omega
      have hfsz : f ≤ (s.replacer_.replacer_size_ : Int) := by
        rw [hinv.replacer_size]; omega
      by_cases hz1 : pg.pin_count_ - 1 = 0
      · obtain ⟨r1, hse, hr1, hsz1, hk1, hcm1, hev1, hother1⟩ :=
          LRUKReplacer.setEvictable_true_spec hinv.replacer_inv hfsz
        refine ⟨f, pg, r1, rfl, hpg, hpos, h0, h1, ?_, ?_, fun _ => hse,
          fun h => absurd hz1 h, hk1, hother1⟩
        · simp only [UnpinPgImp, hfind, hpg, hz, if_false, hz1, if_true, hse]
        · refine hinv.update h0 h1 (by show 0 ≤ pg.pin_count_ - 1; omega) hr1 hsz1
            (fun _ => hev1) (fun h => absurd hz1 (by
              have h' : 0 < pg.pin_count_ - 1 := h
              omega)) ?_
          intro g hg
          exact ⟨hother1 g hg, by rw [hcm1]⟩
      · refine ⟨f, pg, s.replacer_, rfl, hpg, hpos, h0, h1, ?_, ?_, fun h => absurd h hz1,
          fun _ => rfl, rfl, fun g _ => rfl⟩
        · simp only [UnpinPgImp, hfind, hpg, hz, if_false, hz1]
        · exact hinv.update h0 h1 (by show 0 ≤ pg.pin_count_ - 1; omega) hinv.replacer_inv rfl
            (fun h => absurd h hz1) (fun _ => hinv.pinned_flag f pg hpg hpos)
            (fun g _ => ⟨rfl, rfl⟩)

/-- What `DeletePgImp` does on a state that satisfies the invariant. -/
theorem DeletePgImp_spec {hash : Int → Nat} {s : BufferPoolManagerInstance}
    (hinv : Inv hash s) (p : Int) :
    (ExtendibleHashTable.Find hash s.page_table_ p = none ∧
      DeletePgImp hash s p = Res.ok s true) ∨
    (∃ f pg, ExtendibleHashTable.Find hash s.page_table_ p = some f ∧
      pageAt s.pages_ f = some pg ∧ 0 < pg.pin_count_ ∧
      DeletePgImp hash s p = Res.ok s false) ∨
    (∃ f pg r1, ExtendibleHashTable.Find hash s.page_table_ p = some f ∧
      pageAt s.pages_ f = some pg ∧ pg.pin_count_ = 0 ∧
      0 ≤ f ∧ f < (s.pool_size_ : Int) ∧
      s.replacer_.Remove f = Res.ok r1 () ∧
      AL.find? f r1.count_map_ = none ∧ r1.evictable f = none ∧ r1.k_ = s.replacer_.k_ ∧
      DeletePgImp hash s p = Res.ok { s with
        page_table_ := (ExtendibleHashTable.Remove hash s.page_table_ p).2
        replacer_ := r1
        free_list_ := s.free_list_ ++ [f]
        pages_ := setPageAt s.pages_ f Page.empty
        disk_manager_ := s.disk_manager_.DeallocatePage p } true ∧
      Inv hash { s with
        page_table_ := (ExtendibleHashTable.Remove hash s.page_table_ p).2
        replacer_ := r1
        free_list_ := s.free_list_ ++ [f]
        pages_ := setPageAt s.pages_ f Page.empty
        disk_manager_ := s.disk_manager_.DeallocatePage p }) := by
  cases hfind : ExtendibleHashTable.Find hash s.page_table_ p with
  | none => left; exact ⟨rfl, by simp only [DeletePgImp, hfind]⟩
  | some f =>
    right
    obtain ⟨h0, h1⟩ := hinv.table_range p f hfind
    have h1' : f < (s.pages_.length : Int) := by rw [hinv.pages_len]; exact h1
    obtain ⟨pg, hpg⟩ := pageAt_of_range h0 h1'
    have hnn := hinv.pin_nonneg f pg hpg
    by_cases hpos : 0 < pg.pin_count_
    · left
      exact ⟨f, pg, rfl, hpg, hpos, by simp only [DeletePgImp, hfind, hpg, gt_iff_lt, hpos, if_true]⟩
    · right
      have hz : pg.pin_count_ = 0 := by omega
      obtain ⟨r1, hrem, hr1, hsz1, hk1, hc1, hev1, hother1⟩ :=
        LRUKReplacer.remove_spec hinv.replacer_inv (hinv.pin_evictable f pg hpg hz)
      refine ⟨f, pg, r1, rfl, hpg, hz, h0, h1, hrem, hc1, hev1, hk1, ?_, ?_⟩
      · simp only [DeletePgImp, hfind, hpg, gt_iff_lt, hpos, if_false, hrem]
      · have hfpin : ∀ pg', pageAt s.pages_ f = some pg' → ¬ 0 < pg'.pin_count_ := by
          intro pg' hpg'
          rw [hpg] at hpg'; cases hpg'
          exact hpos
        have hinvA := (hinv.unmap p).erased hr1 hsz1 hc1 hev1 hfpin hother1
        refine ⟨?_, hinvA.table_wf, hinvA.bucket_pos, hr1, hinvA.replacer_size, ?_,
          hinvA.tracked_range, hinvA.table_range, ?_, ?_, ?_⟩
        · show (setPageAt s.pages_ f Page.empty).length = s.pool_size_
          rw [length_setPageAt]; exact hinv.pages_len
        · intro g hg
          have hg' : g ∈ s.free_list_ ++ [f] := hg
          rcases List.mem_append.mp hg' with hg' | hg'
          · exact hinv.free_range g hg'
          · rw [List.mem_singleton.mp hg']; exact ⟨h0, h1⟩
        · intro g pg' hg
          have hg' : pageAt (setPageAt s.pages_ f Page.empty) g = some pg' := hg
          rw [pageAt_setPageAt h0 h1'] at hg'
          by_cases hgf : g = f
          · simp only [hgf, if_true, Option.some.injEq] at hg'
            subst hg'; exact le_refl _
          · simp only [hgf, if_false] at hg'
            exact hinv.pin_nonneg g pg' hg'
        · intro g pg' hg hz'
          have hg' : pageAt (setPageAt s.pages_ f Page.empty) g = some pg' := hg
          rw [pageAt_setPageAt h0 h1'] at hg'
          show r1.evictable g ≠ some false
          by_cases hgf : g = f
          · subst hgf; rw [hev1]; simp
          · simp only [hgf, if_false] at hg'
            rw [(hother1 g hgf).1]
            exact hinv.pin_evictable g pg' hg' hz'
        · intro g pg' hg hp
          have hg' : pageAt (setPageAt s.pages_ f Page.empty) g = some pg' := hg
          rw [pageAt_setPageAt h0 h1'] at hg'
          show r1.evictable g = some false
          by_cases hgf : g = f
          · simp only [hgf, if_true, Option.some.injEq] at hg'
            subst hg'
            exact absurd hp (by decide)
          · simp only [hgf, if_false] at hg'
            rw [(hother1 g hgf).1]
            exact hinv.pinned_flag g pg' hg' hp

end BufferPoolManagerInstance

end Bustub

namespace Bustub

namespace BufferPoolManagerInstance

/-! ## Buffer pool manager: reachable states -/

theorem Inv.init {hash : Int → Nat} (pool_size replacer_k bucket_size : Nat)
    (hk : 1 ≤ replacer_k) (hb : 1 ≤ bucket_size) (disk_manager : DiskManager) :
    Inv hash (new pool_size replacer_k bucket_size disk_manager) := by
  have hpage : ∀ f pg, pageAt (List.replicate pool_size Page.empty) f = some pg →
      pg = Page.empty := by
    intro f pg h
    unfold pageAt at h
    split at h
    · obtain ⟨hlt, hget⟩ := List.getElem?_eq_some.mp h
      rw [← hget]; simp
    · cases h
  refine ⟨by simp [new], ExtendibleHashTable.WF.init_table hash bucket_size, hb,
    LRUKReplacer.Inv.init_replacer pool_size replacer_k hk, rfl, ?_, ?_, ?_, ?_, ?_, ?_⟩
  · intro f hf
    simp only [new, List.mem_map, List.mem_range] at hf
    obtain ⟨n, hn, rfl⟩ := hf
    exact ⟨Int.ofNat_nonneg n, Int.ofNat_lt.mpr hn⟩
  · intro f hf
    simp [new, LRUKReplacer.new] at hf
  · intro p f hf
    have hnone : ExtendibleHashTable.Find hash
        (ExtendibleHashTable.new bucket_size : ExtendibleHashTable Int Int) p = none := by
      have hmod : hash p % 2 ^ (ExtendibleHashTable.new bucket_size :
          ExtendibleHashTable Int Int).global_depth_ = 0 := by
        simp [ExtendibleHashTable.new, Nat.mod_one]
      have hd : (ExtendibleHashTable.new bucket_size : ExtendibleHashTable Int Int).dir_[
          hash p % 2 ^ (ExtendibleHashTable.new bucket_size :
            ExtendibleHashTable Int Int).global_depth_]? = some 0 := by
        rw [hmod]; rfl
      have hbk : (ExtendibleHashTable.new bucket_size : ExtendibleHashTable Int Int).heap[0]? =
          some { size_ := bucket_size, depth_ := 0, list_ := [] } := rfl
      rw [ExtendibleHashTable.Find_of_bucketAt
        (ExtendibleHashTable.WF.init_table hash bucket_size).depth_le hd hbk]
      rfl
    have hf' : ExtendibleHashTable.Find hash
        (ExtendibleHashTable.new bucket_size : ExtendibleHashTable Int Int) p = some f := hf
    rw [hnone] at hf'; cases hf'
  · intro f pg h
    rw [hpage f pg h]; decide
  · intro f pg _ _
    simp [new, LRUKReplacer.new, LRUKReplacer.evictable]
  · intro f pg h hp
    rw [hpage f pg h] at hp
    exact absurd hp (by decide)

theorem Inv.write {hash : Int → Nat} {s s' : BufferPoolManagerInstance} (hinv : Inv hash s)
    {f : Int} {data : List Nat} (h : writeData s f data = some s') :
    Inv hash s' ∧ s'.pool_size_ = s.pool_size_ ∧ s'.replacer_ = s.replacer_ ∧
      s'.page_table_ = s.page_table_ := by
  unfold writeData at h
  cases hpg : pageAt s.pages_ f with
  | none => simp [hpg] at h
  | some pg =>
    simp only [hpg] at h
    split at h
    · cases h
      obtain ⟨h0, h1⟩ := pageAt_some hpg
      refine ⟨hinv.of_pages rfl rfl rfl rfl (length_setPageAt _ _ _) ?_, rfl, rfl, rfl⟩
      intro g pg' hg
      have hg' : pageAt (setPageAt s.pages_ f { pg with data_ := data }) g = some pg' := hg
      rw [pageAt_setPageAt h0 h1] at hg'
      by_cases hgf : g = f
      · simp only [hgf, if_true, Option.some.injEq] at hg'
        subst hg'; subst hgf
        exact ⟨pg, hpg, rfl⟩
      · simp only [hgf, if_false] at hg'
        exact ⟨pg', hg', rfl⟩
    · cases h

/-- Every reachable manager state satisfies the invariant and keeps the parameters of the
pool. -/
theorem Reachable.pool_inv {hash : Int → Nat} {pool_size replacer_k bucket_size : Nat}
    (hk : 1 ≤ replacer_k) (hb : 1 ≤ bucket_size) {disk_manager : DiskManager}
    {s : BufferPoolManagerInstance}
    (h : Reachable hash pool_size replacer_k bucket_size disk_manager s) :
    Inv hash s ∧ s.pool_size_ = pool_size ∧ s.replacer_.k_ = replacer_k ∧
      s.page_table_.bucket_size_ = bucket_size := by
  induction h with
  | init => exact ⟨Inv.init pool_size replacer_k bucket_size hk hb disk_manager, rfl, rfl, rfl⟩
  | @newPage s s' fuel a _ hop ih =>
    obtain ⟨hinv, hp, hkk, hbb⟩ := ih
    rcases NewPgImp_spec hinv with ⟨-, hnull⟩ | ⟨-, s1, f, hinv1, h0, h1, e1, e2, e3, e4, hfuel⟩
    · rw [hnull fuel] at hop; cases hop; exact ⟨hinv, hp, hkk, hbb⟩
    · rcases hfuel fuel with ⟨-, hu⟩ | ⟨pt, r2, -, hok, hinv', hk2, hb2, -⟩
      · rw [hu] at hop; cases hop
      · rw [hok] at hop; cases hop
        exact ⟨hinv', e1.trans hp, hk2.trans hkk, hb2.trans hbb⟩
  | @newPageRaise s s' fuel _ hop ih =>
    obtain ⟨hinv, hp, hkk, hbb⟩ := ih
    rcases NewPgImp_spec hinv with ⟨-, hnull⟩ | ⟨-, s1, f, hinv1, h0, h1, e1, e2, e3, e4, hfuel⟩
    · rw [hnull fuel] at hop; cases hop
    · rcases hfuel fuel with ⟨-, hu⟩ | ⟨pt, r2, -, hok, -⟩
      · rw [hu] at hop; cases hop
      · rw [hok] at hop; cases hop
  | @fetchPage s s' fuel p a _ hop ih =>
    obtain ⟨hinv, hp, hkk, hbb⟩ := ih
    cases hfind : ExtendibleHashTable.Find hash s.page_table_ p with
    | some f =>
      obtain ⟨pg, r2, -, -, -, hok, hinv', hk2, -⟩ := FetchPgImp_hit hinv hfind
      rw [hok fuel] at hop; cases hop
      exact ⟨hinv', hp, hk2.trans hkk, hbb⟩
    | none =>
      rcases FetchPgImp_miss hinv hfind with ⟨-, hnull⟩ |
        ⟨-, s1, f, hinv1, h0, h1, e1, e2, e3, e4, hfuel⟩
      · rw [hnull fuel] at hop; cases hop; exact ⟨hinv, hp, hkk, hbb⟩
      · rcases hfuel fuel with ⟨-, hu⟩ | ⟨pt, r2, -, hok, hinv', hk2, hb2, -⟩
        · rw [hu] at hop; cases hop
        · rw [hok] at hop; cases hop
          exact ⟨hinv', e1.trans hp, hk2.trans hkk, hb2.trans hbb⟩
  | @fetchPageRaise s s' fuel p _ hop ih =>
    obtain ⟨hinv, hp, hkk, hbb⟩ := ih
    cases hfind : ExtendibleHashTable.Find hash s.page_table_ p with
    | some f =>
      obtain ⟨pg, r2, -, -, -, hok, -⟩ := FetchPgImp_hit hinv hfind
      rw [hok fuel] at hop; cases hop
    | none =>
      rcases FetchPgImp_miss hinv hfind with ⟨-, hnull⟩ |
        ⟨-, s1, f, hinv1, h0, h1, e1, e2, e3, e4, hfuel⟩
      · rw [hnull fuel] at hop; cases hop
      · rcases hfuel fuel with ⟨-, hu⟩ | ⟨pt, r2, -, hok, -⟩
        · rw [hu] at hop; cases hop
        · rw [hok] at hop; cases hop
  | @unpinPage s s' p d b _ hop ih =>
    obtain ⟨hinv, hp, hkk, hbb⟩ := ih
    rcases UnpinPgImp_spec hinv p d with ⟨-, hok⟩ | ⟨f, pg, -, -, -, hok⟩ |
      ⟨f, pg, r1, -, -, -, -, -, hok, hinv', -, -, hk1, -⟩
    · rw [hok] at hop; cases hop; exact ⟨hinv, hp, hkk, hbb⟩
    · rw [hok] at hop; cases hop; exact ⟨hinv, hp, hkk, hbb⟩
    · rw [hok] at hop; cases hop; exact ⟨hinv', hp, hk1.trans hkk, hbb⟩
  | @unpinPageRaise s s' p d _ hop ih =>
    obtain ⟨hinv, hp, hkk, hbb⟩ := ih
    rcases UnpinPgImp_spec hinv p d with ⟨-, hok⟩ | ⟨f, pg, -, -, -, hok⟩ |
      ⟨f, pg, r1, -, -, -, -, -, hok, -⟩ <;>
    · rw [hok] at hop; cases hop
  | @flushPage s s' p b _ hop ih =>
    obtain ⟨hinv, hp, hkk, hbb⟩ := ih
    obtain ⟨s1, b1, h1, e1, e2, e3, e4, -⟩ := FlushPgImpInternal_spec hinv p
    have hinv1 := hinv.flush h1
    simp only [FlushPgImp, h1] at hop
    cases hop
    exact ⟨hinv1, e4.trans hp, by rw [e2]; exact hkk, by rw [e1]; exact hbb⟩
  | @deletePage s s' p b _ hop ih =>
    obtain ⟨hinv, hp, hkk, hbb⟩ := ih
    rcases DeletePgImp_spec hinv p with ⟨-, hok⟩ | ⟨f, pg, -, -, -, hok⟩ |
      ⟨f, pg, r1, -, -, -, -, -, -, -, -, hk1, hok, hinv'⟩
    · rw [hok] at hop; cases hop; exact ⟨hinv, hp, hkk, hbb⟩
    · rw [hok] at hop; cases hop; exact ⟨hinv, hp, hkk, hbb⟩
    · rw [hok] at hop; cases hop
      refine ⟨hinv', hp, hk1.trans hkk, ?_⟩
      show (ExtendibleHashTable.Remove hash s.page_table_ p).2.bucket_size_ = bucket_size
      rw [ExtendibleHashTable.Remove_bucket_size]; exact hbb
  | @deletePageRaise s s' p _ hop ih =>
    obtain ⟨hinv, hp, hkk, hbb⟩ := ih
    rcases DeletePgImp_spec hinv p with ⟨-, hok⟩ | ⟨f, pg, -, -, -, hok⟩ |
      ⟨f, pg, r1, -, -, -, -, -, -, -, -, -, hok, -⟩ <;>
    · rw [hok] at hop; cases hop
  | @write s s' f data _ hop ih =>
    obtain ⟨hinv, hp, hkk, hbb⟩ := ih
    obtain ⟨hinv', e1, e2, e3⟩ := hinv.write hop
    exact ⟨hinv', e1.trans hp, by rw [e2]; exact hkk, by rw [e3]; exact hbb⟩

end BufferPoolManagerInstance

end Bustub

namespace Bustub

namespace BufferPoolManagerInstance

/-- C7. `NewPgImp` postcondition: in every reachable manager state in which `NewPgImp`
returns a frame, the returned page id is the counter value before the call and the
counter has advanced by one; the returned frame has `page_id_` equal to that id,
`pin_count_ = 1`, `is_dirty_ = false` and an all-zero buffer; the directory maps the id to
the frame; the frame is tracked and non-evictable in the replacer. No other operation
moves the counter, so the ids of successive successful `NewPgImp` calls strictly increase
and are never reused. -/
theorem C7_new_page (hash : Int → Nat) (pool_size replacer_k bucket_size : Nat)
    (hk : 1 ≤ replacer_k) (hb : 1 ≤ bucket_size) (disk_manager : DiskManager)
    (s : BufferPoolManagerInstance)
    (hreach : Reachable hash pool_size replacer_k bucket_size disk_manager s) :
    (∀ fuel s' f pid, NewPgImp hash fuel s = Res.ok s' (some (f, pid)) →
      pid = s.next_page_id_ ∧ s'.next_page_id_ = s.next_page_id_ + 1 ∧
      pageAt s'.pages_ f = some
        { data_ := Page.zeroData, page_id_ := pid, pin_count_ := 1, is_dirty_ := false } ∧
      ExtendibleHashTable.Find hash s'.page_table_ pid = some f ∧
      s'.replacer_.tracked f = true ∧ s'.replacer_.evictable f = some false) ∧
    (∀ fuel s', NewPgImp hash fuel s = Res.ok s' none →
      s'.next_page_id_ = s.next_page_id_) ∧
    (∀ fuel p s' a, FetchPgImp hash fuel s p = Res.ok s' a →
      s'.next_page_id_ = s.next_page_id_) ∧
    (∀ p d s' b, UnpinPgImp hash s p d = Res.ok s' b → s'.next_page_id_ = s.next_page_id_) ∧
    (∀ p s' b, FlushPgImp hash s p = Res.ok s' b → s'.next_page_id_ = s.next_page_id_) ∧
    (∀ p s' b, DeletePgImp hash s p = Res.ok s' b → s'.next_page_id_ = s.next_page_id_) := by
  obtain ⟨hinv, hp, -, -⟩ := hreach.pool_inv hk hb
  refine ⟨?_, ?_, ?_, ?_, ?_, ?_⟩
  · intro fuel s' f pid hop
    rcases NewPgImp_spec hinv with ⟨hex, hnull⟩ |
      ⟨hex, s1, f1, hinv1, h0, h1, e1, e2, e3, e4, hfuel⟩
    · rw [hnull fuel] at hop; cases hop
    · rcases hfuel fuel with ⟨-, hu⟩ | ⟨pt, r2, -, hok, hinv', -, -, hev, htr, hfind⟩
      · rw [hu] at hop; cases hop
      · rw [hok] at hop; cases hop
        have h1' : f < (s1.pages_.length : Int) := by rw [hinv1.pages_len, e1]; exact h1
        refine ⟨rfl, e2, ?_, hfind, htr, hev⟩
        show pageAt (setPageAt s1.pages_ f _) f = _
        rw [pageAt_setPageAt h0 h1']; simp
  · intro fuel s' hop
    rcases NewPgImp_spec hinv with ⟨hex, hnull⟩ |
      ⟨hex, s1, f1, hinv1, h0, h1, e1, e2, e3, e4, hfuel⟩
    · rw [hnull fuel] at hop; cases hop; rfl
    · rcases hfuel fuel with ⟨-, hu⟩ | ⟨pt, r2, -, hok, -⟩
      · rw [hu] at hop; cases hop
      · rw [hok] at hop; cases hop
  · intro fuel p s' a hop
    cases hfind : ExtendibleHashTable.Find hash s.page_table_ p with
    | some f =>
      obtain ⟨pg, r2, -, -, -, hok, -⟩ := FetchPgImp_hit hinv hfind
      rw [hok fuel] at hop; cases hop; rfl
    | none =>
      rcases FetchPgImp_miss hinv hfind with ⟨-, hnull⟩ |
        ⟨-, s1, f, hinv1, h0, h1, e1, e2, e3, e4, hfuel⟩
      · rw [hnull fuel] at hop; cases hop; rfl
      · rcases hfuel fuel with ⟨-, hu⟩ | ⟨pt, r2, -, hok, -⟩
        · rw [hu] at hop; cases hop
        · rw [hok] at hop; cases hop; exact e2
  · intro p d s' b hop
    rcases UnpinPgImp_spec hinv p d with ⟨-, hok⟩ | ⟨f, pg, -, -, -, hok⟩ |
      ⟨f, pg, r1, -, -, -, -, -, hok, -⟩ <;>
    · rw [hok] at hop; cases hop; rfl
  · intro p s' b hop
    obtain ⟨s1, b1, h1, -, -, -, -, e5, -⟩ := FlushPgImpInternal_spec hinv p
    simp only [FlushPgImp, h1] at hop
    cases hop; exact e5
  · intro p s' b hop
    rcases DeletePgImp_spec hinv p with ⟨-, hok⟩ | ⟨f, pg, -, -, -, hok⟩ |
      ⟨f, pg, r1, -, -, -, -, -, -, -, -, -, hok, -⟩ <;>
    · rw [hok] at hop; cases hop; rfl

/-- C9. `UnpinPgImp` and the dirty-merge rule: in every reachable manager state,
`UnpinPgImp(p, h)` returns false and changes nothing if `p` is not in the directory or its
frame has pin count 0; otherwise it returns true, decrements that frame's pin count by
exactly one, sets `is_dirty_` to (old `is_dirty_` or `h`), marks the frame evictable in the
replacer exactly when the new pin count is 0, and changes no other frame, no other
replacer flag, and neither the directory, the free list, the counter nor the disk. -/
theorem C9_unpin_page (hash : Int → Nat) (pool_size replacer_k bucket_size : Nat)
    (hk : 1 ≤ replacer_k) (hb : 1 ≤ bucket_size) (disk_manager : DiskManager)
    (s : BufferPoolManagerInstance)
    (hreach : Reachable hash pool_size replacer_k bucket_size disk_manager s) (p : Int)
    (h : Bool) :
    (ExtendibleHashTable.Find hash s.page_table_ p = none →
      UnpinPgImp hash s p h = Res.ok s false) ∧
    (∀ f, ExtendibleHashTable.Find hash s.page_table_ p = some f →
      ∃ pg, pageAt s.pages_ f = some pg ∧
        (pg.pin_count_ = 0 → UnpinPgImp hash s p h = Res.ok s false) ∧
        (pg.pin_count_ ≠ 0 → ∃ s', UnpinPgImp hash s p h = Res.ok s' true ∧
          pageAt s'.pages_ f = some { pg with
            pin_count_ := pg.pin_count_ - 1, is_dirty_ := pg.is_dirty_ || h } ∧
          (pg.pin_count_ - 1 = 0 → s'.replacer_.evictable f = some true) ∧
          (pg.pin_count_ - 1 ≠ 0 → s'.replacer_.evictable f = some false) ∧
          (∀ g, g ≠ f → pageAt s'.pages_ g = pageAt s.pages_ g ∧
            s'.replacer_.evictable g = s.replacer_.evictable g) ∧
          s'.page_table_ = s.page_table_ ∧ s'.free_list_ = s.free_list_ ∧
          s'.next_page_id_ = s.next_page_id_ ∧ s'.disk_manager_ = s.disk_manager_)) := by
  obtain ⟨hinv, hp, -, -⟩ := hreach.pool_inv hk hb
  rcases UnpinPgImp_spec hinv p h with ⟨hfind, hok⟩ | ⟨f, pg, hfind, hpg, hz, hok⟩ |
    ⟨f, pg, r1, hfind, hpg, hpos, h0, h1, hok, hinv', hset, hsame, -, hother⟩
  · refine ⟨fun _ => hok, ?_⟩
    intro f hf; rw [hfind] at hf; cases hf
  · refine ⟨fun hn => (by rw [hfind] at hn; cases hn), ?_⟩
    intro f' hf'
    rw [hfind] at hf'; cases hf'
    exact ⟨pg, hpg, fun _ => hok, fun hne => absurd hz hne⟩
  · refine ⟨fun hn => (by rw [hfind] at hn; cases hn), ?_⟩
    intro f' hf'
    rw [hfind] at hf'; cases hf'
    have h1' : f < (s.pages_.length : Int) := by rw [hinv.pages_len]; exact h1
    refine ⟨pg, hpg, fun hz => by omega, fun _ => ⟨_, hok, ?_, ?_, ?_, ?_, rfl, rfl, rfl, rfl⟩⟩
    · show pageAt (setPageAt s.pages_ f _) f = _
      rw [pageAt_setPageAt h0 h1']
      cases h <;> simp
    · intro hz1
      have hflag := hinv.pinned_flag f pg hpg hpos
      have htr : (AL.find? f s.replacer_.count_map_).isSome = true := by
        rw [← hinv.replacer_inv.ev_dom]
        unfold LRUKReplacer.evictable at hflag
        simp [hflag]
      have hse := hset hz1
      have hr : ¬ f > (s.replacer_.replacer_size_ : Int) := by
        rw [hinv.replacer_size]; omega
      have hnn : ¬ (AL.find? f s.replacer_.count_map_).isNone = true := by
        cases hc : AL.find? f s.replacer_.count_map_ with
        | none => simp [hc] at htr
        | some c => simp
      simp only [LRUKReplacer.SetEvictable, hr, if_false, hnn] at hse
      cases hse
      show LRUKReplacer.evictable _ f = some true
      simp [LRUKReplacer.evictable, AL.find?_insert]
    · intro hz1
      show r1.evictable f = some false
      rw [hsame hz1]
      exact hinv.pinned_flag f pg hpg hpos
    · intro g hg
      refine ⟨?_, hother g hg⟩
      show pageAt (setPageAt s.pages_ f _) g = _
      rw [pageAt_setPageAt h0 h1', if_neg hg]

/-- C10. `DeletePgImp`: in every reachable manager state, `DeletePgImp(p)` returns true
and changes nothing if `p` is not in the directory (so a second call returns true again);
returns false and changes nothing if `p` is resident with a positive pin count; otherwise
it returns normally (the replacer's `Remove` does not throw) with value true, and
afterwards `p` is not in the directory, its frame is untracked by the replacer, has been
appended to the free list, and has `page_id_ = INVALID_PAGE_ID`, `pin_count_ = 0`,
`is_dirty_ = false` and an all-zero buffer. -/
theorem C10_delete_page (hash : Int → Nat) (pool_size replacer_k bucket_size : Nat)
    (hk : 1 ≤ replacer_k) (hb : 1 ≤ bucket_size) (disk_manager : DiskManager)
    (s : BufferPoolManagerInstance)
    (hreach : Reachable hash pool_size replacer_k bucket_size disk_manager s) (p : Int) :
    (ExtendibleHashTable.Find hash s.page_table_ p = none →
      DeletePgImp hash s p = Res.ok s true) ∧
    (∀ f, ExtendibleHashTable.Find hash s.page_table_ p = some f →
      ∃ pg, pageAt s.pages_ f = some pg ∧
        (0 < pg.pin_count_ → DeletePgImp hash s p = Res.ok s false) ∧
        (¬ 0 < pg.pin_count_ → ∃ s', DeletePgImp hash s p = Res.ok s' true ∧
          ExtendibleHashTable.Find hash s'.page_table_ p = none ∧
          s'.replacer_.tracked f = false ∧ s'.replacer_.evictable f = none ∧
          s'.free_list_ = s.free_list_ ++ [f] ∧
          pageAt s'.pages_ f = some
            { data_ := Page.zeroData, page_id_ := INVALID_PAGE_ID, pin_count_ := 0,
              is_dirty_ := false })) := by
  obtain ⟨hinv, hp, -, -⟩ := hreach.pool_inv hk hb
  rcases DeletePgImp_spec hinv p with ⟨hfind, hok⟩ | ⟨f, pg, hfind, hpg, hpos, hok⟩ |
    ⟨f, pg, r1, hfind, hpg, hz, h0, h1, hrem, hc1, hev1, -, hok, hinv'⟩
  · refine ⟨fun _ => hok, ?_⟩
    intro f hf; rw [hfind] at hf; cases hf
  · refine ⟨fun hn => (by rw [hfind] at hn; cases hn), ?_⟩
    intro f' hf'
    rw [hfind] at hf'; cases hf'
    exact ⟨pg, hpg, fun _ => hok, fun hne => absurd hpos hne⟩
  · refine ⟨fun hn => (by rw [hfind] at hn; cases hn), ?_⟩
    intro f' hf'
    rw [hfind] at hf'; cases hf'
    have h1' : f < (s.pages_.length : Int) := by rw [hinv.pages_len]; exact h1
    refine ⟨pg, hpg, fun hpos => by omega, fun _ => ⟨_, hok, ?_, ?_, hev1, rfl, ?_⟩⟩
    · show ExtendibleHashTable.Find hash
        (ExtendibleHashTable.Remove hash s.page_table_ p).2 p = none
      rw [ExtendibleHashTable.Find_Remove hinv.table_wf, if_pos rfl]
    · show LRUKReplacer.tracked r1 f = false
      simp [LRUKReplacer.tracked, hc1]
    · show pageAt (setPageAt s.pages_ f Page.empty) f = _
      rw [pageAt_setPageAt h0 h1']; simp [Page.empty]

end BufferPoolManagerInstance

end Bustub

namespace Bustub

theorem exampleTable_reachable :
    ExtendibleHashTable.Reachable Int.toNat 2 exampleTable :=
  ExtendibleHashTable.Reachable.insert 1 2 12
    (ExtendibleHashTable.Reachable.insert 1 0 10 ExtendibleHashTable.Reachable.init rfl) rfl

theorem exampleReplacer_reachable : LRUKReplacer.Reachable 7 2 exampleReplacer :=
  LRUKReplacer.Reachable.record 3
    (LRUKReplacer.Reachable.record 2
      (LRUKReplacer.Reachable.record 1
        (LRUKReplacer.Reachable.record 2
          (LRUKReplacer.Reachable.record 1 LRUKReplacer.Reachable.init rfl) rfl) rfl) rfl) rfl

/-- Witness of C1: inserting key 4 into the full example table splits twice and the key
is then found. -/
theorem C1_insert_then_find_witness :
    ∃ t' : ExtendibleHashTable Int Int,
      ExtendibleHashTable.Insert Int.toNat 3 exampleTable 4 14 = some t' ∧
      t'.global_depth_ = 2 ∧ ExtendibleHashTable.Find Int.toNat t' 4 = some 14 :=
  ⟨_, rfl, rfl, ExtendibleHashTable.C1_insert_then_find Int.toNat 2 (by decide) exampleTable _
    exampleTable_reachable 3 4 14 rfl⟩

/-- Witness of C2: the keys 0 and 2 of the example table survive the two splits caused by
inserting key 4. -/
theorem C2_insert_frame_witness :
    ∃ t' : ExtendibleHashTable Int Int,
      ExtendibleHashTable.Insert Int.toNat 3 exampleTable 4 14 = some t' ∧
      ExtendibleHashTable.Find Int.toNat t' 0 = ExtendibleHashTable.Find Int.toNat exampleTable 0 ∧
      ExtendibleHashTable.Find Int.toNat t' 2 = ExtendibleHashTable.Find Int.toNat exampleTable 2 :=
  ⟨_, rfl,
    ExtendibleHashTable.C2_insert_frame.1 Int Int Int.toNat 2 exampleTable _ (by decide)
      exampleTable_reachable 3 4 0 14 (by decide) rfl,
    ExtendibleHashTable.C2_insert_frame.1 Int Int Int.toNat 2 exampleTable _ (by decide)
      exampleTable_reachable 3 4 2 14 (by decide) rfl⟩

/-- Witness of C3: removing key 0 from the example table. -/
theorem C3_remove_witness :
    (ExtendibleHashTable.Remove Int.toNat exampleTable 0).1 = true ∧
    ExtendibleHashTable.Find Int.toNat (ExtendibleHashTable.Remove Int.toNat exampleTable 0).2 0
      = none ∧
    ExtendibleHashTable.Find Int.toNat (ExtendibleHashTable.Remove Int.toNat exampleTable 0).2 2
      = some 12 :=
  have h := ExtendibleHashTable.C3_remove Int.toNat 2 (by decide) exampleTable
    exampleTable_reachable 0
  ⟨h.1.mpr rfl, h.2.1, (h.2.2.1 2 (by decide)).trans rfl⟩

/-- Witness of C4: in the example replacer frame 3 is the only evictable frame with fewer
than two accesses and is the victim. -/
theorem C4_victim_selection_witness :
    ∃ r' f, exampleReplacer.Evict = Res.ok r' (some f) ∧
      exampleReplacer.evictable f = some true ∧ f = 3 := by
  obtain ⟨r', f, h1, h2, h3, -⟩ := LRUKReplacer.C4_victim_selection.1 7 2 exampleReplacer
    (by decide) exampleReplacer_reachable ⟨3, rfl⟩
  refine ⟨r', f, h1, h2, ?_⟩
  have : exampleReplacer.Evict = Res.ok _ (some 3) := rfl
  rw [this] at h1
  cases h1; rfl

/-- Witness of C5: `Evict` on the example replacer returns a frame and `Size()` is not 0. -/
theorem C5_evict_result_witness :
    ∃ r' a, exampleReplacer.Evict = Res.ok r' a ∧ (a = none ↔ exampleReplacer.Size = 0) := by
  obtain ⟨r', a, h1, h2, -⟩ := LRUKReplacer.C5_evict_result 7 2 (by decide) exampleReplacer
    exampleReplacer_reachable
  exact ⟨r', a, h1, h2⟩

end Bustub

namespace Bustub

theorem examplePool_reachable :
    BufferPoolManagerInstance.Reachable exampleHash 1 2 2 exampleDisk examplePool :=
  BufferPoolManagerInstance.Reachable.newPage 1 (some (0, 0))
    BufferPoolManagerInstance.Reachable.init rfl

/-- Witness of C7: the first `NewPgImp` of the pool of one frame returns page id 0 in frame
0 and leaves the counter at 1. -/
theorem C7_new_page_witness :
    BufferPoolManagerInstance.NewPgImp exampleHash 1
      (BufferPoolManagerInstance.new 1 2 2 exampleDisk) = Res.ok examplePool (some (0, 0)) ∧
    examplePool.next_page_id_ = (BufferPoolManagerInstance.new 1 2 2 exampleDisk).next_page_id_ + 1 ∧
    ExtendibleHashTable.Find exampleHash examplePool.page_table_ 0 = some 0 :=
  have h := (BufferPoolManagerInstance.C7_new_page exampleHash 1 2 2 (by decide) (by decide)
    exampleDisk _ BufferPoolManagerInstance.Reachable.init).1 1 examplePool 0 0 rfl
  ⟨rfl, h.2.1, h.2.2.2.1⟩

/-- Witness of C9: unpinning page 0 of the example pool with a dirty hint. -/
theorem C9_unpin_page_witness :
    ∃ s', BufferPoolManagerInstance.UnpinPgImp exampleHash examplePool 0 true = Res.ok s' true ∧
      s'.replacer_.evictable 0 = some true := by
  obtain ⟨pg, hpg, -, h2⟩ := (BufferPoolManagerInstance.C9_unpin_page exampleHash 1 2 2
    (by decide) (by decide) exampleDisk examplePool examplePool_reachable 0 true).2 0 rfl
  have hpg' : BufferPoolManagerInstance.pageAt examplePool.pages_ 0 = some
      { data_ := Page.zeroData, page_id_ := 0, pin_count_ := 1, is_dirty_ := false } := rfl
  rw [hpg'] at hpg
  cases hpg
  obtain ⟨s', h3, -, h5, -⟩ := h2 (by decide)
  exact ⟨s', h3, h5 (by decide)⟩

/-- Witness of C10: the pinned page 0 of the example pool is not deleted, and deleting the
absent page 5 returns true. -/
theorem C10_delete_page_witness :
    BufferPoolManagerInstance.DeletePgImp exampleHash examplePool 5 = Res.ok examplePool true :=
  (BufferPoolManagerInstance.C10_delete_page exampleHash 1 2 2 (by decide) (by decide)
    exampleDisk examplePool examplePool_reachable 5).1 rfl

end Bustub

namespace Bustub

namespace BufferPoolManagerInstance

/-! ## Buffer pool manager: flushing -/

/-- Closed form of `FlushPgImpInternal`. -/
theorem FlushPgImpInternal_cases (hash : Int → Nat) (s : BufferPoolManagerInstance) (p : Int) :
    (ExtendibleHashTable.Find hash s.page_table_ p = none ∧
      FlushPgImpInternal hash s p = some (s, false)) ∨
    (∃ f, ExtendibleHashTable.Find hash s.page_table_ p = some f ∧
      pageAt s.pages_ f = none ∧ FlushPgImpInternal hash s p = none) ∨
    (∃ f pg, ExtendibleHashTable.Find hash s.page_table_ p = some f ∧
      pageAt s.pages_ f = some pg ∧
      FlushPgImpInternal hash s p = some ({ s with
        disk_manager_ := s.disk_manager_.WritePage p pg.data_
        pages_ := setPageAt s.pages_ f { pg with is_dirty_ := false } }, true)) := by
  unfold FlushPgImpInternal
  cases hf : ExtendibleHashTable.Find hash s.page_table_ p with
  | none => exact Or.inl ⟨rfl, rfl⟩
  | some f =>
    cases hpg : pageAt s.pages_ f with
    | none => exact Or.inr (Or.inl ⟨f, rfl, hpg, by simp [hpg]⟩)
    | some pg => exact Or.inr (Or.inr ⟨f, pg, rfl, hpg, by simp [hpg]⟩)

/-- C11. FlushPage: in every reachable manager state, `FlushPgImp(p)` returns false and
leaves the whole state (frames and disk included) unchanged when the directory does not map
`p`; otherwise it returns true, the disk's content of page `p` becomes the buffer of the
frame of `p` (no other page's content changes), that frame's `is_dirty` becomes false while
its `pin_count`, buffer and `page_id` stay, no other frame changes, and the directory, the
free list, the replacer and the page-id counter are unchanged, whatever the pin count. -/
theorem C11_flush_page (hash : Int → Nat) (pool_size replacer_k bucket_size : Nat)
    (hk : 1 ≤ replacer_k) (hb : 1 ≤ bucket_size) (disk_manager : DiskManager)
    (s : BufferPoolManagerInstance)
    (hreach : Reachable hash pool_size replacer_k bucket_size disk_manager s) (p : Int) :
    (ExtendibleHashTable.Find hash s.page_table_ p = none →
      FlushPgImp hash s p = Res.ok s false) ∧
    (∀ f, ExtendibleHashTable.Find hash s.page_table_ p = some f →
      ∃ pg s', pageAt s.pages_ f = some pg ∧ FlushPgImp hash s p = Res.ok s' true ∧
        s'.disk_manager_.content p = pg.data_ ∧
        (∀ q, q ≠ p → s'.disk_manager_.content q = s.disk_manager_.content q) ∧
        s'.disk_manager_.log = s.disk_manager_.log ++ [DiskOp.write p pg.data_] ∧
        pageAt s'.pages_ f = some { pg with is_dirty_ := false } ∧
        (∀ g, g ≠ f → pageAt s'.pages_ g = pageAt s.pages_ g) ∧
        s'.page_table_ = s.page_table_ ∧ s'.free_list_ = s.free_list_ ∧
        s'.replacer_ = s.replacer_ ∧ s'.next_page_id_ = s.next_page_id_ ∧
        s'.pool_size_ = s.pool_size_) := by
  obtain ⟨hinv, -, -, -⟩ := hreach.pool_inv hk hb
  constructor
  · intro hnone
    rcases FlushPgImpInternal_cases hash s p with ⟨-, h⟩ | ⟨f, hf, -, -⟩ | ⟨f, pg, hf, -, -⟩
    · simp [FlushPgImp, h]
    · rw [hnone] at hf; cases hf
    · rw [hnone] at hf; cases hf
  · intro f hfind
    obtain ⟨h0, h1⟩ := hinv.table_range p f hfind
    rw [← hinv.pages_len] at h1
    rcases FlushPgImpInternal_cases hash s p with ⟨hn, -⟩ | ⟨f', hf, hnone, -⟩ |
      ⟨f', pg, hf, hpg, h⟩
    · rw [hn] at hfind; cases hfind
    · rw [hfind] at hf; cases hf
      obtain ⟨pg, hpg⟩ := pageAt_of_range h0 h1
      rw [hpg] at hnone; cases hnone
    · rw [hfind] at hf; cases hf
      refine ⟨pg, { s with
        disk_manager_ := s.disk_manager_.WritePage p pg.data_
        pages_ := setPageAt s.pages_ f { pg with is_dirty_ := false } }, hpg,
        by simp [FlushPgImp, h], ?_, ?_, rfl, ?_, ?_, rfl, rfl, rfl, rfl, rfl⟩
      · simp [DiskManager.WritePage]
      · intro q hq; simp [DiskManager.WritePage, hq]
      · show pageAt (setPageAt s.pages_ f _) f = _
        rw [pageAt_setPageAt h0 h1]; simp
      · intro g hg
        show pageAt (setPageAt s.pages_ f _) g = _
        rw [pageAt_setPageAt h0 h1]; simp [hg]

end BufferPoolManagerInstance

/-- Witness of C11: flushing the pinned page 0 of the example pool writes its buffer to the
disk and returns true. -/
theorem C11_flush_page_witness :
    ∃ pg s', BufferPoolManagerInstance.pageAt examplePool.pages_ 0 = some pg ∧
      BufferPoolManagerInstance.FlushPgImp exampleHash examplePool 0 = Res.ok s' true ∧
      s'.disk_manager_.content 0 = pg.data_ ∧
      BufferPoolManagerInstance.pageAt s'.pages_ 0 = some { pg with is_dirty_ := false } ∧
      s'.replacer_ = examplePool.replacer_ := by
  obtain ⟨pg, s', h1, h2, h3, -, -, h6, -, -, -, h10, -⟩ :=
    (BufferPoolManagerInstance.C11_flush_page exampleHash 1 2 2 (by decide) (by decide)
      exampleDisk examplePool examplePool_reachable 0).2 0 rfl
  exact ⟨pg, s', h1, h2, h3, h6, h10⟩

end Bustub

namespace Bustub

namespace LRUKReplacer

/-! ## LRU-K replacer: range check, `Remove`, `SetEvictable` and `Size` -/

theorem erase_insert (f : Int) (b : Bool) (m : List (Int × Bool)) :
    AL.erase f (AL.insert f b m) = AL.erase f m := by
  unfold AL.insert
  split
  · exact AL.erase_replace f b m
  · rw [AL.erase_cons]; simp

/-- Effect of an assignment `evictable_map_[f] = b` on the count of `true` entries. -/
theorem countP_insert {m : List (Int × Bool)} (hnd : (m.map Prod.fst).Nodup) (f : Int)
    (b : Bool) :
    (AL.insert f b m).countP (fun p => p.2) + (if AL.find? f m = some true then 1 else 0) =
      m.countP (fun p => p.2) + (if b = true then 1 else 0) := by
  have hnd' := AL.nodup_insert f b hnd
  have hfi : AL.find? f (AL.insert f b m) = some b := by rw [AL.find?_insert]; simp
  have h1 : (AL.erase f m).countP (fun p => p.2) + (if b = true then 1 else 0) =
      (AL.insert f b m).countP (fun p => p.2) := by
    cases b with
    | true =>
      have := countP_erase_true hnd' hfi
      rw [erase_insert] at this
      simpa using this
    | false =>
      have := countP_erase_not_true (f := f) (by rw [hfi]; simp) hnd'
      rw [erase_insert] at this
      simpa using this
  have h2 : (AL.erase f m).countP (fun p => p.2) +
      (if AL.find? f m = some true then 1 else 0) = m.countP (fun p => p.2) := by
    by_cases hf : AL.find? f m = some true
    · simpa [hf] using countP_erase_true hnd hf
    · simpa [hf] using countP_erase_not_true hf hnd
  omega

/-- `Size()` counts the tracked frames whose evictable flag is true. -/
theorem Inv.size_eq {r : LRUKReplacer} (hinv : Inv r) : r.Size = r.evictableFrames.length := by
  have h1 : r.Size = ((r.evictable_map_.filter (fun p => p.2)).map Prod.fst).length := by
    simp [Size, List.countP_eq_length_filter]
  rw [h1]
  apply List.Perm.length_eq
  have hnd1 : ((r.evictable_map_.filter (fun p => p.2)).map Prod.fst).Nodup :=
    (List.Sublist.map Prod.fst (List.filter_sublist r.evictable_map_)).nodup hinv.nodup_ev
  have hnd2 : r.evictableFrames.Nodup :=
    (List.nodup_dedup _).sublist (List.filter_sublist _)
  rw [List.perm_ext_iff_of_nodup hnd1 hnd2]
  intro f
  simp only [evictableFrames, List.mem_map, List.mem_filter, List.mem_dedup, decide_eq_true_eq,
    evictable]
  constructor
  · rintro ⟨⟨g, b⟩, ⟨hmem, hb⟩, rfl⟩
    simp only at hb
    subst hb
    have hf := AL.find?_of_mem hinv.nodup_ev hmem
    refine ⟨?_, hf⟩
    have hd := hinv.ev_dom g
    rw [hf] at hd
    have := (AL.find?_isSome_iff g r.count_map_).mp hd.symm
    simpa using this
  · rintro ⟨-, hf⟩
    exact ⟨(f, true), ⟨AL.mem_of_find? hf, rfl⟩, rfl⟩

end LRUKReplacer

end Bustub

namespace Bustub

namespace LRUKReplacer

/-- C14. Range check of the replacer, as the code has it, for `num_frames < 2^31` (the
values that `static_cast<int>(replacer_size_)` leaves unchanged): in every reachable state
of `LRUKReplacer(num_frames, k)`, `RecordAccess(f)` and `SetEvictable(f, flag)` throw
exactly for `f > num_frames` and then leave the state unchanged; for every
`f ≤ num_frames`, the frame id `f = num_frames` included, both return normally and
`RecordAccess` leaves `f` tracked. -/
theorem C14_range_check (num_frames k : Nat) (hn : num_frames < 2 ^ 31) (hk : 1 ≤ k)
    (r : LRUKReplacer) (hreach : Reachable num_frames k r) (f : Int) :
    ((num_frames : Int) < f →
      r.RecordAccess f = Res.raise r ∧ ∀ b, r.SetEvictable f b = Res.raise r) ∧
    (f ≤ (num_frames : Int) →
      (∃ r', r.RecordAccess f = Res.ok r' () ∧ r'.tracked f = true) ∧
      ∀ b, ∃ r', r.SetEvictable f b = Res.ok r' ()) := by
  have hinv := hreach.inv hk
  obtain ⟨hsize, -, -⟩ := hreach.range hk
  constructor
  · intro hf
    have hf' : f > (r.replacer_size_ : Int) := by rw [hsize]; exact hf
    constructor
    · simp [RecordAccess, hf']
    · intro b; simp [SetEvictable, hf']
  · intro hf
    have hf' : ¬ f > (r.replacer_size_ : Int) := by rw [hsize]; exact not_lt.mpr hf
    constructor
    · rcases RecordAccess_cases hinv hf' with ⟨-, -, h⟩ | ⟨-, -, h⟩ | ⟨c, ts, -, -, -, h⟩ |
        ⟨c, ts, -, -, -, h⟩ | ⟨c, x, tl, -, -, -, h⟩ <;>
      exact ⟨_, h, by simp [tracked, AL.find?_insert]⟩
    · intro b
      unfold SetEvictable
      rw [if_neg hf']
      split
      · exact ⟨_, rfl⟩
      · exact ⟨_, rfl⟩

/-- C15. `Remove(f)` in a reachable replacer state: it changes nothing when `f` is
untracked; it throws and leaves the state unchanged when `f` is tracked and its evictable
flag is not true; otherwise it returns, `f` is no longer tracked (no access count, flag,
iterator, or node in either list), `Size()` drops by exactly one, and every other frame
keeps its access count, timestamps and evictable flag. -/
theorem C15_remove (num_frames k : Nat) (hk : 1 ≤ k) (r : LRUKReplacer)
    (hreach : Reachable num_frames k r) (f : Int) :
    (r.tracked f = false → r.Remove f = Res.ok r ()) ∧
    (r.tracked f = true → r.evictable f ≠ some true → r.Remove f = Res.raise r) ∧
    (r.tracked f = true → r.evictable f = some true →
      ∃ r', r.Remove f = Res.ok r' () ∧
        r'.tracked f = false ∧ r'.accessCount f = none ∧ r'.evictable f = none ∧
        AL.find? f r'.location_ = none ∧ AL.find? f r'.history_list_ = none ∧
        AL.find? f r'.cache_list_ = none ∧ r'.timestampsOf f = none ∧
        r'.Size + 1 = r.Size ∧
        (∀ g, g ≠ f → r'.accessCount g = r.accessCount g ∧
          r'.timestampsOf g = r.timestampsOf g ∧ r'.evictable g = r.evictable g)) := by
  have hinv := hreach.inv hk
  rcases Replacer_Remove_cases hinv f with ⟨hc, h⟩ | ⟨c, hc, hfalse, h⟩ | ⟨c, r', hc, htrue, he, h⟩
  · refine ⟨fun _ => h, ?_, ?_⟩ <;> intro ht <;> simp [tracked, hc] at ht
  · refine ⟨?_, fun _ _ => h, ?_⟩
    · intro ht; simp [tracked, hc] at ht
    · intro _ hev; simp [evictable, hfalse] at hev
  · refine ⟨?_, ?_, ?_⟩
    · intro ht; simp [tracked, hc] at ht
    · intro _ hev; exact absurd htrue hev
    · intro _ _
      obtain ⟨e1, e2, e3, e4, e5, e6, e7, e8, -⟩ := eraseFrame_effect hinv he
      refine ⟨r', h, ?_, e1, e2, e3, e4, e5, e6, e8 htrue, ?_⟩
      · simp only [accessCount] at e1
        simp [tracked, e1]
      · intro g hg
        obtain ⟨a, b, c⟩ := e7 g hg
        exact ⟨a, c, b⟩

/-- C16. `SetEvictable` and `Size()` in a reachable state of a replacer with
`num_frames < 2^31` (the values that `static_cast<int>(replacer_size_)` leaves unchanged),
for a frame id that passes the range check: `Size()` equals the number of tracked frames whose flag is true;
`SetEvictable(f, flag)` on an untracked `f` returns with the whole state unchanged; on a
tracked `f` it returns a state that differs from the old one in the evictable flag of `f`
only, in which `Size()` again counts the tracked frames whose flag is true: one more on
false to true, one less on true to false, the same otherwise. -/
theorem C16_set_evictable (num_frames k : Nat) (hn : num_frames < 2 ^ 31) (hk : 1 ≤ k)
    (r : LRUKReplacer) (hreach : Reachable num_frames k r) (f : Int)
    (hf : f ≤ (num_frames : Int)) (flag : Bool) :
    r.Size = r.evictableFrames.length ∧
    (r.tracked f = false → r.SetEvictable f flag = Res.ok r ()) ∧
    (r.tracked f = true →
      ∃ r', r.SetEvictable f flag = Res.ok r' () ∧
        r'.evictable f = some flag ∧ (∀ g, g ≠ f → r'.evictable g = r.evictable g) ∧
        r'.count_map_ = r.count_map_ ∧ r'.history_list_ = r.history_list_ ∧
        r'.cache_list_ = r.cache_list_ ∧ r'.location_ = r.location_ ∧
        r'.current_timestamp_ = r.current_timestamp_ ∧ r'.k_ = r.k_ ∧
        r'.replacer_size_ = r.replacer_size_ ∧
        r'.Size = r'.evictableFrames.length ∧
        (r.evictable f = some false → flag = true → r'.Size = r.Size + 1) ∧
        (r.evictable f = some true → flag = false → r'.Size + 1 = r.Size) ∧
        (r.evictable f = some flag → r'.Size = r.Size)) := by
  have hinv := hreach.inv hk
  obtain ⟨hsize, -, -⟩ := hreach.range hk
  have hf' : ¬ f > (r.replacer_size_ : Int) := by rw [hsize]; exact not_lt.mpr hf
  refine ⟨hinv.size_eq, ?_, ?_⟩
  · intro ht
    have : (AL.find? f r.count_map_).isNone = true := by
      simp only [tracked] at ht
      cases h : AL.find? f r.count_map_ <;> simp_all
    simp [SetEvictable, hf', this]
  · intro ht
    have hnone : ¬ (AL.find? f r.count_map_).isNone = true := by
      simp only [tracked] at ht
      cases h : AL.find? f r.count_map_ <;> simp_all
    have hres : r.SetEvictable f flag = Res.ok { r with
        evictable_map_ := AL.insert f flag r.evictable_map_ } () := by
      simp [SetEvictable, hf', hnone]
    have hinv' := hinv.setEvictable hres
    have hcount := countP_insert hinv.nodup_ev f flag
    refine ⟨_, hres, ?_, ?_, rfl, rfl, rfl, rfl, rfl, rfl, rfl, hinv'.size_eq, ?_, ?_, ?_⟩
    · simp [evictable, AL.find?_insert]
    · intro g hg; simp [evictable, AL.find?_insert, hg]
    · intro h1 h2
      simp only [evictable] at h1
      subst h2
      simp only [h1] at hcount
      simpa [Size] using hcount
    · intro h1 h2
      simp only [evictable] at h1
      subst h2
      simp only [h1] at hcount
      simpa [Size] using hcount
    · intro h1
      simp only [evictable] at h1
      simp only [h1] at hcount
      cases flag <;> simpa [Size] using hcount

end LRUKReplacer

/-- Witness of C14: in `LRUKReplacer(7, 2)` the call `RecordAccess(7)` returns and leaves
frame 7 tracked and evictable, so that `Size()` is 1. -/
theorem C14_range_check_witness :
    ∃ r', (LRUKReplacer.new 7 2).RecordAccess 7 = Res.ok r' () ∧ r'.tracked 7 = true ∧
      r'.evictable 7 = some true ∧ r'.Size = 1 := by
  obtain ⟨r', h, ht⟩ := ((LRUKReplacer.C14_range_check 7 2 (by decide) (by decide) (LRUKReplacer.new 7 2)
    LRUKReplacer.Reachable.init 7).2 (le_refl _)).1
  have h2 : (LRUKReplacer.new 7 2).RecordAccess 7 = Res.ok
      { replacer_size_ := 7, k_ := 2, current_timestamp_ := 1, history_list_ := [(7, [0])],
        cache_list_ := [], count_map_ := [(7, 1)], evictable_map_ := [(7, true)],
        location_ := [(7, ListId.history)] } () := rfl
  rw [h2] at h
  cases h
  exact ⟨_, h2, ht, rfl, rfl⟩

/-- Witness of C15: removing the evictable frame 3 of the example replacer lowers `Size()`
from 3 to 2. -/
theorem C15_remove_witness :
    ∃ r', exampleReplacer.Remove 3 = Res.ok r' () ∧ r'.tracked 3 = false ∧
      r'.Size + 1 = exampleReplacer.Size := by
  obtain ⟨r', h1, h2, -, -, -, -, -, -, h9, -⟩ :=
    (LRUKReplacer.C15_remove 7 2 (by decide) exampleReplacer exampleReplacer_reachable 3).2.2
      rfl rfl
  exact ⟨r', h1, h2, h9⟩

/-- Witness of C16: marking frame 3 of the example replacer non-evictable lowers `Size()`
by one. -/
theorem C16_set_evictable_witness :
    ∃ r', exampleReplacer.SetEvictable 3 false = Res.ok r' () ∧
      r'.evictable 3 = some false ∧ r'.Size + 1 = exampleReplacer.Size := by
  obtain ⟨r', h1, h2, -, -, -, -, -, -, -, -, -, -, h3, -⟩ :=
    (LRUKReplacer.C16_set_evictable 7 2 (by decide) (by decide) exampleReplacer
      exampleReplacer_reachable 3 (by decide) false).2.2 rfl
  exact ⟨r', h1, h2, h3 rfl rfl⟩

end Bustub

namespace Bustub

namespace ExtendibleHashTable

variable {K V : Type} [DecidableEq K]

/-! ## Extendible hash table: number of buckets -/

/-- A handle held by the directory of a well-formed table is live. -/
theorem WF.handle_lt {hash : K → Nat} {t : ExtendibleHashTable K V} (hwf : WF hash t)
    {x : Nat} (hx : x ∈ t.dir_) : x < t.heap.length := by
  obtain ⟨i, hi⟩ := List.mem_iff_getElem?.mp hx
  obtain ⟨b, hb, -⟩ := hwf.slot i x hi
  exact (List.getElem?_eq_some.mp hb).1

/-- A split keeps every handle of the directory referenced and adds exactly the handle of
the new bucket. -/
theorem RedistributeBucket_handles {hash : K → Nat} {t t' : ExtendibleHashTable K V}
    (hwf : WF hash t) {bid : Nat} (hmem : bid ∈ t.dir_)
    (hr : RedistributeBucket hash t bid = some t') :
    t'.num_buckets_ = t.num_buckets_ + 1 ∧ t.heap.length ∉ t.dir_ ∧
    (∀ x, x ∈ t'.dir_ ↔ x = t.heap.length ∨ x ∈ t.dir_) := by
  obtain ⟨i0, hslot⟩ := List.mem_iff_getElem?.mp hmem
  obtain ⟨b, hb, hdep, hshare, -⟩ := hwf.slot i0 bid hslot
  have hne : b.list_ ≠ [] := by
    intro hnil
    simp [RedistributeBucket, hb, hnil] at hr
  obtain ⟨t'', hr', -, hnum, hgg, hdg, -, hlen, hdir, -⟩ :=
    RedistributeBucket_spec hwf hslot hb hne (RedistributeBucket_bound hb hr)
  rw [hr] at hr'; cases hr'
  have hnew : t.heap.length ∉ t.dir_ := fun h => lt_irrefl _ (hwf.handle_lt h)
  have hpd : 0 < 2 ^ b.depth_ := by positivity
  have hpow : 2 ^ (b.depth_ + 1) ≤ 2 ^ t'.global_depth_ := Nat.pow_le_pow_right (by omega) hdg
  have hpow2 : 2 ^ b.depth_ ≤ 2 ^ t.global_depth_ := Nat.pow_le_pow_right (by omega) hdep
  have hpow3 : 2 ^ t.global_depth_ ≤ 2 ^ t'.global_depth_ := Nat.pow_le_pow_right (by omega) hgg
  have hsucc : 2 ^ (b.depth_ + 1) = 2 ^ b.depth_ + 2 ^ b.depth_ := by rw [pow_succ]; omega
  have hp : i0 % 2 ^ b.depth_ < 2 ^ b.depth_ := Nat.mod_lt _ hpd
  refine ⟨hnum, hnew, ?_⟩
  intro x
  constructor
  · intro hx
    obtain ⟨j, hj⟩ := List.mem_iff_getElem?.mp hx
    have hjlt : j < 2 ^ t'.global_depth_ := by
      rw [← hlen]; exact (List.getElem?_eq_some.mp hj).1
    rw [hdir j hjlt] at hj
    split at hj
    · left; cases hj; rfl
    · right; exact List.mem_iff_getElem?.mpr ⟨_, hj⟩
  · rintro (rfl | hx)
    · -- the new bucket sits in slot `i0 % 2 ^ depth + 2 ^ depth`
      apply List.mem_iff_getElem?.mpr
      refine ⟨i0 % 2 ^ b.depth_ + 2 ^ b.depth_, ?_⟩
      have hlt : i0 % 2 ^ b.depth_ + 2 ^ b.depth_ < 2 ^ (b.depth_ + 1) := by omega
      rw [hdir _ (by omega)]
      have h1 : (i0 % 2 ^ b.depth_ + 2 ^ b.depth_) % 2 ^ b.depth_ = i0 % 2 ^ b.depth_ := by
        rw [Nat.add_mod_right, Nat.mod_mod]
      have h2 : (i0 % 2 ^ b.depth_ + 2 ^ b.depth_) % 2 ^ (b.depth_ + 1) ≠ i0 % 2 ^ b.depth_ := by
        rw [Nat.mod_eq_of_lt hlt]; omega
      rw [if_pos ⟨h1, h2⟩]
    · -- an old handle stays in a slot that is not repointed
      have key : ∀ j, j < 2 ^ t.global_depth_ →
          ¬ (j % 2 ^ b.depth_ = i0 % 2 ^ b.depth_ ∧
            j % 2 ^ (b.depth_ + 1) ≠ i0 % 2 ^ b.depth_) →
          t.dir_[j]? = some x → x ∈ t'.dir_ := by
        intro j hj hcond hjx
        apply List.mem_iff_getElem?.mpr
        refine ⟨j, ?_⟩
        rw [hdir j (by omega), if_neg hcond, Nat.mod_eq_of_lt hj]
        exact hjx
      obtain ⟨j, hj⟩ := List.mem_iff_getElem?.mp hx
      have hjlt : j < t.dir_.length := (List.getElem?_eq_some.mp hj).1
      by_cases hcond : j % 2 ^ b.depth_ = i0 % 2 ^ b.depth_ ∧
          j % 2 ^ (b.depth_ + 1) ≠ i0 % 2 ^ b.depth_
      · -- then `x` is the split bucket, which keeps slot `i0 % 2 ^ depth`
        have hxb : t.dir_[j]? = some bid := (hshare j hjlt).mpr hcond.1
        rw [hj] at hxb; cases hxb
        have hplt : i0 % 2 ^ b.depth_ < t.dir_.length := by rw [hwf.dir_len]; omega
        refine key (i0 % 2 ^ b.depth_) (by omega) ?_
          ((hshare _ hplt).mpr (Nat.mod_mod _ _))
        rintro ⟨-, h2⟩
        exact h2 (Nat.mod_eq_of_lt (by omega))
      · exact key j (by rw [← hwf.dir_len]; exact hjlt) hcond hj

/-- A split raises the number of distinct buckets of the directory by one. -/
theorem RedistributeBucket_distinct {hash : K → Nat} {t t' : ExtendibleHashTable K V}
    (hwf : WF hash t) {bid : Nat} (hmem : bid ∈ t.dir_)
    (hr : RedistributeBucket hash t bid = some t') :
    t'.distinctBuckets = t.distinctBuckets + 1 := by
  obtain ⟨-, hnew, hiff⟩ := RedistributeBucket_handles hwf hmem hr
  unfold distinctBuckets
  rw [← List.card_toFinset, ← List.card_toFinset]
  have : t'.dir_.toFinset = insert t.heap.length t.dir_.toFinset := by
    ext x
    simp [hiff x]
  rw [this, Finset.card_insert_of_not_mem (by simpa using hnew)]

/-- What `Insert` does to the bucket counter and the directory's distinct buckets. -/
theorem Insert_num_buckets {hash : K → Nat} {fuel : Nat} {t t' : ExtendibleHashTable K V}
    {k : K} {v : V} (hwf : WF hash t) (h : Insert hash fuel t k v = some t') :
    ∃ n, InsertSplits hash fuel t k v = some n ∧ t'.num_buckets_ = t.num_buckets_ + n ∧
      t'.distinctBuckets = t.distinctBuckets + n := by
  induction fuel generalizing t with
  | zero => simp [Insert] at h
  | succ m ih =>
    obtain ⟨bid, b, hd, hb, hcase⟩ := Insert_succ_cases h
    have hi := IndexOf_eq hash t k hwf.depth_le
    have hba : t.bucketAt (hash k % 2 ^ t.global_depth_) = some (bid, b) :=
      bucketAt_eq_some.mpr ⟨hd, hb⟩
    rcases hcase with ⟨hs, rfl⟩ | ⟨hs, t1, hr, hrec⟩
    · refine ⟨0, ?_, rfl, rfl⟩
      simp [InsertSplits, hi, hba, hs]
    · have hmem : bid ∈ t.dir_ := List.mem_iff_getElem?.mpr ⟨_, hd⟩
      obtain ⟨n, hn, h1, h2⟩ := ih (hwf.redistribute hd hb hr) hrec
      obtain ⟨hnum, -, -⟩ := RedistributeBucket_handles hwf hmem hr
      refine ⟨n + 1, ?_, ?_, ?_⟩
      · simp [InsertSplits, hi, hba, hs, hr, hn]
      · rw [h1, hnum]; omega
      · rw [h2, RedistributeBucket_distinct hwf hmem hr]; omega

/-- In a reachable table `num_buckets_` is the number of distinct buckets of the
directory. -/
theorem Reachable.num_buckets {hash : K → Nat} {bucket_size : Nat}
    {t : ExtendibleHashTable K V} (h : Reachable hash bucket_size t) :
    t.num_buckets_ = t.distinctBuckets := by
  induction h with
  | init => rfl
  | insert fuel k v hreach hins ih =>
    obtain ⟨n, -, h1, h2⟩ := Insert_num_buckets hreach.wf hins
    rw [h1, h2, ih]
  | remove k hreach ih =>
    rename_i t0
    rcases Table_Remove_cases hash t0 k with ⟨h, -⟩ | ⟨bid, b, -, -, h⟩
    · rw [h]; exact ih
    · rw [h]; exact ih

end ExtendibleHashTable

end Bustub

namespace Bustub

namespace ExtendibleHashTable

variable {K V : Type} [DecidableEq K]

/-- C17. Directory well-formedness: in every table state reachable from the empty table
(`bucket_size ≥ 1`) by `Insert` and `Remove`, the directory has `2 ^ global_depth` slots,
the bucket of every slot has a local depth that is at most the global depth, and a slot
`j` points to the same bucket as slot `i` exactly when `j` and `i` agree on the low
local-depth bits (`j mod 2 ^ d = i mod 2 ^ d`) of the bucket at `i`. -/
theorem C17_directory_wf (hash : K → Nat) (bucket_size : Nat) (hbs : 1 ≤ bucket_size)
    (t : ExtendibleHashTable K V) (hreach : Reachable hash bucket_size t) :
    t.dir_.length = 2 ^ t.GetGlobalDepth ∧
    ∀ i, i < t.dir_.length → ∃ d, t.GetLocalDepth i = some d ∧ d ≤ t.GetGlobalDepth ∧
      ∀ j, j < t.dir_.length → (t.dir_[j]? = t.dir_[i]? ↔ j % 2 ^ d = i % 2 ^ d) := by
  have hwf := hreach.wf
  refine ⟨hwf.dir_len, ?_⟩
  intro i hi
  have hslot : t.dir_[i]? = some t.dir_[i] := List.getElem?_eq_getElem hi
  obtain ⟨b, hb, hdep, hshare, -⟩ := hwf.slot i _ hslot
  refine ⟨b.depth_, ?_, hdep, ?_⟩
  · simp [GetLocalDepth, bucketAt_eq_some.mpr ⟨hslot, hb⟩]
  · intro j hj
    rw [hslot]
    exact hshare j hj

/-- C18. Bucket count: in every reachable table state `GetNumBuckets()` equals the number
of distinct buckets referenced by the directory; it is 1 for the empty table; a split
(`RedistributeBucket` of a bucket of the directory) raises the counter and the number of
distinct buckets by exactly one, the new bucket being referenced by a slot and the split
bucket staying referenced; an `Insert` that returns raises the counter by the number of
splits it made (by nothing when it made none), and `Remove` leaves it unchanged (`Find`
does not change the state). -/
theorem C18_bucket_count (hash : K → Nat) (bucket_size : Nat)
    (t : ExtendibleHashTable K V) (hreach : Reachable hash bucket_size t) :
    t.GetNumBuckets = t.distinctBuckets ∧
    (new bucket_size : ExtendibleHashTable K V).GetNumBuckets = 1 ∧
    (∀ bid t', bid ∈ t.dir_ → RedistributeBucket hash t bid = some t' →
      t'.GetNumBuckets = t.GetNumBuckets + 1 ∧ t'.distinctBuckets = t.distinctBuckets + 1 ∧
      t.heap.length ∉ t.dir_ ∧ t.heap.length ∈ t'.dir_ ∧ bid ∈ t'.dir_) ∧
    (∀ fuel k v t', Insert hash fuel t k v = some t' →
      ∃ n, InsertSplits hash fuel t k v = some n ∧
        t'.GetNumBuckets = t.GetNumBuckets + n ∧ t'.GetNumBuckets = t'.distinctBuckets) ∧
    (∀ k, (Remove hash t k).2.GetNumBuckets = t.GetNumBuckets) := by
  have hwf := hreach.wf
  refine ⟨hreach.num_buckets, rfl, ?_, ?_, ?_⟩
  · intro bid t' hmem hr
    obtain ⟨hnum, hnew, hiff⟩ := RedistributeBucket_handles hwf hmem hr
    exact ⟨hnum, RedistributeBucket_distinct hwf hmem hr, hnew, (hiff _).mpr (Or.inl rfl),
      (hiff _).mpr (Or.inr hmem)⟩
  · intro fuel k v t' hins
    obtain ⟨n, hn, h1, -⟩ := Insert_num_buckets hwf hins
    exact ⟨n, hn, h1, (Reachable.insert fuel k v hreach hins).num_buckets⟩
  · intro k
    rcases Table_Remove_cases hash t k with ⟨h, -⟩ | ⟨bid, b, -, -, h⟩
    · rw [h]
    · rw [h]; rfl

end ExtendibleHashTable

/-- Witness of C17: the directory of the example table has one slot and its bucket has
local depth 0. -/
theorem C17_directory_wf_witness :
    exampleTable.dir_.length = 2 ^ exampleTable.GetGlobalDepth ∧
    ∃ d, exampleTable.GetLocalDepth 0 = some d ∧ d ≤ exampleTable.GetGlobalDepth := by
  obtain ⟨h1, h2⟩ := ExtendibleHashTable.C17_directory_wf Int.toNat 2 (by decide) exampleTable
    exampleTable_reachable
  obtain ⟨d, hd, hle, -⟩ := h2 0 (by decide)
  exact ⟨h1, d, hd, hle⟩

/-- Witness of C18: with `bucket_size = 2` and integer keys hashed to themselves, the
insertions of the keys 0 and 2 into the empty table make no split, the insertion of key 4
makes exactly two splits and leaves `GetNumBuckets() = 3` and global depth 2. -/
theorem C18_bucket_count_witness :
    ExtendibleHashTable.Insert Int.toNat 1 (ExtendibleHashTable.new 2) (0 : Int) (10 : Int) =
      some { global_depth_ := 0, bucket_size_ := 2, num_buckets_ := 1, dir_ := [0],
             heap := [{ size_ := 2, depth_ := 0, list_ := [(0, 10)] }] } ∧
    ExtendibleHashTable.Insert Int.toNat 1
      ({ global_depth_ := 0, bucket_size_ := 2, num_buckets_ := 1, dir_ := [0],
         heap := [{ size_ := 2, depth_ := 0, list_ := [(0, 10)] }] } :
        ExtendibleHashTable Int Int) 2 12 = some exampleTable ∧
    ExtendibleHashTable.InsertSplits Int.toNat 1 (ExtendibleHashTable.new 2) (0 : Int)
      (10 : Int) = some 0 ∧
    ExtendibleHashTable.InsertSplits Int.toNat 1
      ({ global_depth_ := 0, bucket_size_ := 2, num_buckets_ := 1, dir_ := [0],
         heap := [{ size_ := 2, depth_ := 0, list_ := [(0, 10)] }] } :
        ExtendibleHashTable Int Int) 2 12 = some 0 ∧
    ∃ t' : ExtendibleHashTable Int Int,
      ExtendibleHashTable.Insert Int.toNat 3 exampleTable 4 14 = some t' ∧
      ExtendibleHashTable.InsertSplits Int.toNat 3 exampleTable 4 14 = some 2 ∧
      t'.GetNumBuckets = 3 ∧ t'.distinctBuckets = 3 ∧ t'.GetGlobalDepth = 2 := by
  obtain ⟨n, hn, h1, h2⟩ := (ExtendibleHashTable.C18_bucket_count Int.toNat 2 exampleTable
    exampleTable_reachable).2.2.2.1 3 4 14 _ rfl
  have hsplits : ExtendibleHashTable.InsertSplits Int.toNat 3 exampleTable 4 14 = some 2 := rfl
  rw [hsplits] at hn
  cases hn
  exact ⟨rfl, rfl, rfl, rfl, _, rfl, hsplits, h1, h2 ▸ h1, rfl⟩

end Bustub

namespace Bustub

namespace BufferPoolManagerInstance

/-! ## Buffer pool manager: pins and the replacer -/

theorem Inv.unpinned_iff {hash : Int → Nat} {s : BufferPoolManagerInstance}
    (hinv : Inv hash s) (f : Int) :
    f ∈ s.replacer_.evictableFrames ↔ f ∈ s.unpinnedTrackedFrames := by
  simp only [LRUKReplacer.evictableFrames, unpinnedTrackedFrames, List.mem_filter,
    List.mem_dedup, List.mem_map, List.mem_range, decide_eq_true_eq, Bool.and_eq_true]
  constructor
  · rintro ⟨hmem, hev⟩
    have htr : (AL.find? f s.replacer_.count_map_).isSome = true :=
      (AL.find?_isSome_iff f _).mpr (by simpa using hmem)
    obtain ⟨h0, h1⟩ := hinv.tracked_range f htr
    obtain ⟨pg, hpg⟩ := pageAt_of_range h0 (by rw [hinv.pages_len]; exact h1)
    refine ⟨⟨f.toNat, by omega, by simp [Int.toNat_of_nonneg h0]⟩, htr, ?_⟩
    rw [hpg]
    simp only [decide_eq_true_eq]
    by_contra hne
    have hpos : 0 < pg.pin_count_ :=
      lt_of_le_of_ne (hinv.pin_nonneg f pg hpg) (fun h => hne h.symm)
    have := hinv.pinned_flag f pg hpg hpos
    rw [hev] at this
    cases this
  · rintro ⟨-, htr, hpin⟩
    have htr' : (AL.find? f s.replacer_.count_map_).isSome = true := htr
    refine ⟨?_, ?_⟩
    · have := (AL.find?_isSome_iff f _).mp htr'
      simpa using this
    · cases hpg : pageAt s.pages_ f with
      | none => rw [hpg] at hpin; cases hpin
      | some pg =>
        rw [hpg] at hpin
        simp only [decide_eq_true_eq] at hpin
        have hne := hinv.pin_evictable f pg hpg hpin
        have hsome := hinv.replacer_inv.ev_dom f
        rw [htr'] at hsome
        simp only [LRUKReplacer.evictable] at hne ⊢
        cases hv : AL.find? f s.replacer_.evictable_map_ with
        | none => rw [hv] at hsome; cases hsome
        | some b =>
          cases b with
          | true => rfl
          | false => exact absurd hv hne

/-- `Size()` of the replacer is the number of tracked frames with pin count 0. -/
theorem Inv.size_unpinned {hash : Int → Nat} {s : BufferPoolManagerInstance}
    (hinv : Inv hash s) : s.replacer_.Size = s.unpinnedTrackedFrames.length := by
  rw [hinv.replacer_inv.size_eq]
  apply List.Perm.length_eq
  have hnd1 : s.replacer_.evictableFrames.Nodup :=
    (List.nodup_dedup _).sublist (List.filter_sublist _)
  have hnd2 : s.unpinnedTrackedFrames.Nodup := by
    apply List.Nodup.sublist (List.filter_sublist _)
    exact (List.nodup_range _).map (fun a b h => by simpa using h)
  rw [List.perm_ext_iff_of_nodup hnd1 hnd2]
  exact hinv.unpinned_iff

end BufferPoolManagerInstance

end Bustub

namespace Bustub

namespace BufferPoolManagerInstance

/-- C19. Pinned frames are never evictable: in every reachable manager state a frame with
`pin_count > 0` is marked non-evictable in the replacer, a frame returned by the replacer's
`Evict` has pin count 0, and the replacer's `Size()` equals the number of frames of the
pool that the replacer tracks and whose pin count is 0. -/
theorem C19_pinned_not_evictable (hash : Int → Nat) (pool_size replacer_k bucket_size : Nat)
    (hk : 1 ≤ replacer_k) (hb : 1 ≤ bucket_size) (disk_manager : DiskManager)
    (s : BufferPoolManagerInstance)
    (hreach : Reachable hash pool_size replacer_k bucket_size disk_manager s) :
    (∀ f pg, pageAt s.pages_ f = some pg → 0 < pg.pin_count_ →
      s.replacer_.evictable f = some false) ∧
    (∀ r' f, s.replacer_.Evict = Res.ok r' (some f) →
      ∃ pg, pageAt s.pages_ f = some pg ∧ pg.pin_count_ = 0) ∧
    s.replacer_.Size = s.unpinnedTrackedFrames.length := by
  obtain ⟨hinv, -, -, -⟩ := hreach.pool_inv hk hb
  refine ⟨hinv.pinned_flag, ?_, hinv.size_unpinned⟩
  intro r' f hev
  have hrinv := hinv.replacer_inv
  have htrue : s.replacer_.evictable f = some true := by
    rcases LRUKReplacer.Evict_cases hrinv with ⟨f0, r0, hscan, -, he⟩ |
      ⟨-, f0, r0, hscan, -, he⟩ | ⟨-, -, he⟩
    · rw [he] at hev
      cases hev
      obtain ⟨-, -, -, -, hfm, -⟩ := LRUKReplacer.scan_fst_some _ _ hrinv.scan_hist_dom hscan
      exact hfm
    · rw [he] at hev
      cases hev
      obtain ⟨-, -, -, -, hfm, -⟩ := LRUKReplacer.scan_fst_some _ _ hrinv.scan_cache_dom hscan
      exact hfm
    · rw [he] at hev
      cases hev
  have hmem : f ∈ s.replacer_.evictableFrames := by
    simp only [LRUKReplacer.evictableFrames, List.mem_filter, List.mem_dedup,
      decide_eq_true_eq]
    refine ⟨?_, htrue⟩
    have hsome := hrinv.ev_dom f
    simp only [LRUKReplacer.evictable] at htrue
    rw [htrue] at hsome
    exact (AL.find?_isSome_iff f _).mp hsome.symm
  have := (hinv.unpinned_iff f).mp hmem
  simp only [unpinnedTrackedFrames, List.mem_filter, Bool.and_eq_true] at this
  obtain ⟨-, -, hpin⟩ := this
  cases hpg : pageAt s.pages_ f with
  | none => rw [hpg] at hpin; cases hpin
  | some pg =>
    rw [hpg] at hpin
    exact ⟨pg, rfl, by simpa using hpin⟩

end BufferPoolManagerInstance

/-- Witness of C19: in the example pool frame 0 is pinned, it is marked non-evictable and
`Size()` is 0. -/
theorem C19_pinned_not_evictable_witness :
    examplePool.replacer_.evictable 0 = some false ∧
    examplePool.replacer_.Size = examplePool.unpinnedTrackedFrames.length :=
  have h := BufferPoolManagerInstance.C19_pinned_not_evictable exampleHash 1 2 2 (by decide)
    (by decide) exampleDisk examplePool examplePool_reachable
  ⟨h.1 0 _ rfl (by decide), h.2.2⟩

end Bustub

namespace Bustub

namespace BufferPoolManagerInstance

/-! ## Buffer pool manager: the shape of the state after each operation -/

theorem recordAndPin_ok {s s3 : BufferPoolManagerInstance} {f : Int} {u : Unit}
    (h : recordAndPin s f = Res.ok s3 u) : ∃ r, s3 = { s with replacer_ := r } := by
  unfold recordAndPin at h
  split at h
  · cases h
  · cases h
  · split at h
    · cases h
    · cases h
    · cases h; exact ⟨_, rfl⟩

/-- The two ways in which `takeFrame` obtains a frame. -/
theorem takeFrame_cases {hash : Int → Nat} {s s1 : BufferPoolManagerInstance} {g : Int}
    (h : takeFrame hash s = some (s1, g)) :
    (∃ rest, s.free_list_ = g :: rest ∧ s1 = { s with free_list_ := rest }) ∨
    (s.free_list_ = [] ∧ ∃ r pg s2, s.replacer_.Evict = Res.ok r (some g) ∧
      pageAt s.pages_ g = some pg ∧
      ((pg.is_dirty_ = true ∧
          ∃ b, FlushPgImpInternal hash { s with replacer_ := r } pg.page_id_ = some (s2, b)) ∨
        (pg.is_dirty_ = false ∧ s2 = { s with replacer_ := r })) ∧
      ∃ pg2, pageAt s2.pages_ g = some pg2 ∧
        s1 = { s2 with page_table_ :=
          (ExtendibleHashTable.Remove hash s2.page_table_ pg2.page_id_).2 }) := by
  unfold takeFrame at h
  split at h
  · rename_i g0 rest hfl
    simp only [Option.some.injEq, Prod.mk.injEq] at h
    obtain ⟨h1, h2⟩ := h
    subst h2
    exact Or.inl ⟨rest, hfl, h1.symm⟩
  · rename_i hfl
    right
    refine ⟨hfl, ?_⟩
    split at h
    · rename_i r a hev
      simp only at h
      split at h
      · cases h
      · rename_i pg hpg
        have ha : a = some (a.getD INVALID_PAGE_ID) := by
          cases a with
          | some x => rfl
          | none =>
            have := (pageAt_some hpg).1
            simp [INVALID_PAGE_ID] at this
        split at h
        · cases h
        · rename_i s2 b hfl2
          split at h
          · cases h
          · rename_i pg2 hpg2
            simp only [Option.some.injEq, Prod.mk.injEq] at h
            obtain ⟨h1, h2⟩ := h
            subst h2
            refine ⟨r, pg, s2, by rw [hev]; exact congrArg _ ha, hpg, ?_, pg2, hpg2, h1.symm⟩
            by_cases hd : pg.is_dirty_ = true
            · rw [if_pos hd] at hfl2
              exact Or.inl ⟨hd, b, hfl2⟩
            · rw [if_neg hd] at hfl2
              simp only [Option.some.injEq, Prod.mk.injEq] at hfl2
              exact Or.inr ⟨by simpa using hd, hfl2.1.symm⟩
    · cases h

end BufferPoolManagerInstance

end Bustub

namespace Bustub

namespace BufferPoolManagerInstance

/-- The state after a `NewPgImp` that returns. -/
theorem NewPgImp_ok {hash : Int → Nat} {fuel : Nat} {s s' : BufferPoolManagerInstance}
    {a : Option (Int × Int)} (h : NewPgImp hash fuel s = Res.ok s' a) :
    (a = none ∧ s' = s ∧ s.free_list_ = [] ∧ s.replacer_.Size = 0) ∨
    ∃ s1 g pt r pg0,
      takeFrame hash { s with next_page_id_ := s.next_page_id_ + 1 } = some (s1, g) ∧
      ExtendibleHashTable.Insert hash fuel s1.page_table_ s.next_page_id_ g = some pt ∧
      pageAt s1.pages_ g = some pg0 ∧ a = some (g, s.next_page_id_) ∧
      s' = { s1 with
        page_table_ := pt
        pages_ := setPageAt s1.pages_ g
          { data_ := Page.zeroData, page_id_ := s.next_page_id_, pin_count_ := 1,
            is_dirty_ := false }
        replacer_ := r } := by
  unfold NewPgImp at h
  split at h
  · rename_i hex
    cases h; exact Or.inl ⟨rfl, rfl, (exhausted_iff s).mp hex⟩
  · right
    simp only at h
    split at h
    · cases h
    · rename_i s1 g htake
      split at h
      · cases h
      · rename_i pt hins
        split at h
        · cases h
        · rename_i pg0 hpg0
          split at h
          · cases h
          · cases h
          · rename_i s3 u hrp
            cases h
            obtain ⟨r, hr⟩ := recordAndPin_ok hrp
            exact ⟨s1, g, pt, r, pg0, htake, hins, hpg0, rfl, hr⟩

/-- The state after a `FetchPgImp` that returns. -/
theorem FetchPgImp_ok {hash : Int → Nat} {fuel : Nat} {s s' : BufferPoolManagerInstance}
    {p : Int} {a : Option Int} (h : FetchPgImp hash fuel s p = Res.ok s' a) :
    (∃ g pg r, ExtendibleHashTable.Find hash s.page_table_ p = some g ∧
      pageAt s.pages_ g = some pg ∧ a = some g ∧
      s' = { s with
        pages_ := setPageAt s.pages_ g { pg with pin_count_ := pg.pin_count_ + 1 }
        replacer_ := r }) ∨
    (ExtendibleHashTable.Find hash s.page_table_ p = none ∧ a = none ∧ s' = s ∧
      s.free_list_ = [] ∧ s.replacer_.Size = 0) ∨
    (ExtendibleHashTable.Find hash s.page_table_ p = none ∧
      ∃ s1 g pt r pg0, takeFrame hash s = some (s1, g) ∧
        ExtendibleHashTable.Insert hash fuel s1.page_table_ p g = some pt ∧
        pageAt s1.pages_ g = some pg0 ∧ a = some g ∧
        s' = { s1 with
          page_table_ := pt
          pages_ := setPageAt s1.pages_ g
            { data_ := s1.disk_manager_.content p, page_id_ := p, pin_count_ := 1,
              is_dirty_ := false }
          disk_manager_ := (s1.disk_manager_.ReadPage p).1
          replacer_ := r }) := by
  unfold FetchPgImp at h
  simp only at h
  split at h
  · rename_i g hfind
    left
    split at h
    · cases h
    · rename_i pg hpg
      split at h
      · cases h
      · cases h
      · rename_i s3 u hrp
        cases h
        obtain ⟨r, hr⟩ := recordAndPin_ok hrp
        exact ⟨g, pg, r, hfind, hpg, rfl, hr⟩
  · rename_i hfind
    right
    split at h
    · rename_i hex
      cases h; exact Or.inl ⟨hfind, rfl, rfl, (exhausted_iff s).mp hex⟩
    · right
      refine ⟨hfind, ?_⟩
      split at h
      · cases h
      · rename_i s1 g htake
        split at h
        · cases h
        · rename_i pt hins
          split at h
          · cases h
          · rename_i pg0 hpg0
            obtain ⟨h0, h1⟩ := pageAt_some hpg0
            simp only [pageAt_setPageAt h0 h1, if_true] at h
            split at h
            · cases h
            · cases h
            · rename_i s3 u hrp
              cases h
              obtain ⟨r, hr⟩ := recordAndPin_ok hrp
              refine ⟨s1, g, pt, r, pg0, htake, hins, hpg0, rfl, ?_⟩
              rw [hr]
              simp [setPageAt_setPageAt, DiskManager.ReadPage]

/-- The state after an `UnpinPgImp` that returns. -/
theorem UnpinPgImp_ok {hash : Int → Nat} {s s' : BufferPoolManagerInstance} {p : Int}
    {is_dirty b : Bool} (h : UnpinPgImp hash s p is_dirty = Res.ok s' b) :
    (b = false ∧ s' = s) ∨
    ∃ g pg r, ExtendibleHashTable.Find hash s.page_table_ p = some g ∧
      pageAt s.pages_ g = some pg ∧ pg.pin_count_ ≠ 0 ∧ b = true ∧
      s' = { s with
        pages_ := setPageAt s.pages_ g { pg with
          pin_count_ := pg.pin_count_ - 1
          is_dirty_ := if is_dirty then is_dirty else pg.is_dirty_ }
        replacer_ := r } := by
  unfold UnpinPgImp at h
  split at h
  · cases h; exact Or.inl ⟨rfl, rfl⟩
  · rename_i g hfind
    split at h
    · cases h
    · rename_i pg hpg
      split at h
      · cases h; exact Or.inl ⟨rfl, rfl⟩
      · rename_i hpin
        right
        simp only at h
        split at h
        · split at h
          · cases h
          · cases h
          · cases h
            exact ⟨g, pg, _, hfind, hpg, hpin, rfl, rfl⟩
        · cases h
          exact ⟨g, pg, s.replacer_, hfind, hpg, hpin, rfl, rfl⟩

/-- The state after a `FlushPgImp` that returns. -/
theorem FlushPgImp_ok {hash : Int → Nat} {s s' : BufferPoolManagerInstance} {p : Int}
    {b : Bool} (h : FlushPgImp hash s p = Res.ok s' b) :
    (ExtendibleHashTable.Find hash s.page_table_ p = none ∧ b = false ∧ s' = s) ∨
    ∃ g pg, ExtendibleHashTable.Find hash s.page_table_ p = some g ∧
      pageAt s.pages_ g = some pg ∧ b = true ∧
      s' = { s with
        disk_manager_ := s.disk_manager_.WritePage p pg.data_
        pages_ := setPageAt s.pages_ g { pg with is_dirty_ := false } } := by
  unfold FlushPgImp at h
  rcases FlushPgImpInternal_cases hash s p with ⟨hn, hf⟩ | ⟨g, -, -, hf⟩ | ⟨g, pg, hg, hpg, hf⟩
  · rw [hf] at h; cases h; exact Or.inl ⟨hn, rfl, rfl⟩
  · rw [hf] at h; cases h
  · rw [hf] at h; cases h; exact Or.inr ⟨g, pg, hg, hpg, rfl, rfl⟩

/-- The state after a `DeletePgImp` that returns. -/
theorem DeletePgImp_ok {hash : Int → Nat} {s s' : BufferPoolManagerInstance} {p : Int}
    {b : Bool} (h : DeletePgImp hash s p = Res.ok s' b) :
    s' = s ∨
    ∃ g pg r, ExtendibleHashTable.Find hash s.page_table_ p = some g ∧
      pageAt s.pages_ g = some pg ∧ b = true ∧
      s' = { s with
        page_table_ := (ExtendibleHashTable.Remove hash s.page_table_ p).2
        replacer_ := r
        free_list_ := s.free_list_ ++ [g]
        pages_ := setPageAt s.pages_ g Page.empty
        disk_manager_ := s.disk_manager_.DeallocatePage p } := by
  unfold DeletePgImp at h
  split at h
  · cases h; exact Or.inl rfl
  · rename_i g hfind
    split at h
    · cases h
    · rename_i pg hpg
      split at h
      · cases h; exact Or.inl rfl
      · simp only at h
        split at h
        · cases h
        · cases h
        · cases h
          exact Or.inr ⟨g, pg, _, hfind, hpg, rfl, rfl⟩

/-- The state after a client's write. -/
theorem writeData_ok {s s' : BufferPoolManagerInstance} {f : Int} {data : List Nat}
    (h : writeData s f data = some s') :
    ∃ pg, pageAt s.pages_ f = some pg ∧ 0 < pg.pin_count_ ∧
      s' = { s with pages_ := setPageAt s.pages_ f { pg with data_ := data } } := by
  unfold writeData at h
  split at h
  · cases h
  · rename_i pg hpg
    split at h
    · rename_i hpin
      cases h
      exact ⟨pg, hpg, hpin, rfl⟩
    · cases h

end BufferPoolManagerInstance

end Bustub

namespace Bustub

namespace BufferPoolManagerInstance

/-! ## Buffer pool manager: page ids of the frames -/

theorem pageIdAt_setPageAt {pages : List Page} {f : Int} {pg : Page}
    (hpg : pageAt pages f = some pg) (pg' : Page) (g : Int) :
    pageIdAt (setPageAt pages f pg') g =
      if g = f then some pg'.page_id_ else pageIdAt pages g := by
  obtain ⟨h0, h1⟩ := pageAt_some hpg
  unfold pageIdAt
  rw [pageAt_setPageAt h0 h1]
  split <;> rfl

/-- Rewriting a frame without changing its page id changes no `pageIdAt`. -/
theorem pageIdAt_setPageAt_same {pages : List Page} {f : Int} {pg : Page}
    (hpg : pageAt pages f = some pg) {pg' : Page} (hid : pg'.page_id_ = pg.page_id_) (g : Int) :
    pageIdAt (setPageAt pages f pg') g = pageIdAt pages g := by
  rw [pageIdAt_setPageAt hpg]
  split
  · rename_i h; subst h
    simp [pageIdAt, hpg, hid]
  · rfl

theorem pageIdAt_eq_some {pages : List Page} {f q : Int} :
    pageIdAt pages f = some q ↔ ∃ pg, pageAt pages f = some pg ∧ pg.page_id_ = q := by
  unfold pageIdAt
  cases pageAt pages f <;> simp

/-- What `takeFrame` does to the state: it pops the free list, or else it evicts the
replacer's victim, writes the buffer of the frame that the directory gives for the
victim's page id when the victim is dirty, and removes that page id from the directory. -/
theorem takeFrame_core {hash : Int → Nat} {s s1 : BufferPoolManagerInstance} {g : Int}
    (h : takeFrame hash s = some (s1, g)) :
    s1.next_page_id_ = s.next_page_id_ ∧ s1.pool_size_ = s.pool_size_ ∧
    s1.free_list_ = s.free_list_.tail ∧
    (∀ x, pageIdAt s1.pages_ x = pageIdAt s.pages_ x) ∧
    ((∃ rest, s.free_list_ = g :: rest ∧ s1.page_table_ = s.page_table_ ∧
        s1.pages_ = s.pages_ ∧ s1.disk_manager_ = s.disk_manager_ ∧
        s1.replacer_ = s.replacer_) ∨
     (s.free_list_ = [] ∧ ∃ r pg, s.replacer_.Evict = Res.ok r (some g) ∧
        pageAt s.pages_ g = some pg ∧ s1.replacer_ = r ∧
        s1.page_table_ = (ExtendibleHashTable.Remove hash s.page_table_ pg.page_id_).2 ∧
        (((pg.is_dirty_ = false ∨
              ExtendibleHashTable.Find hash s.page_table_ pg.page_id_ = none) ∧
            s1.pages_ = s.pages_ ∧ s1.disk_manager_ = s.disk_manager_) ∨
          (pg.is_dirty_ = true ∧ ∃ x px,
            ExtendibleHashTable.Find hash s.page_table_ pg.page_id_ = some x ∧
            pageAt s.pages_ x = some px ∧
            s1.pages_ = setPageAt s.pages_ x { px with is_dirty_ := false } ∧
            s1.disk_manager_ = s.disk_manager_.WritePage pg.page_id_ px.data_)))) := by
  rcases takeFrame_cases h with ⟨rest, hfl, rfl⟩ | ⟨hfl, r, pg, s2, hev, hpg, hflush, pg2, hpg2, rfl⟩
  · refine ⟨rfl, rfl, by simp [hfl], fun _ => rfl, Or.inl ⟨rest, hfl, rfl, rfl, rfl, rfl⟩⟩
  · rcases hflush with ⟨hd, b, hf⟩ | ⟨hd, rfl⟩
    · rcases FlushPgImpInternal_cases hash { s with replacer_ := r } pg.page_id_ with
        ⟨hn, hf'⟩ | ⟨x, -, -, hf'⟩ | ⟨x, px, hx, hpx, hf'⟩
      · rw [hf'] at hf
        simp only [Option.some.injEq, Prod.mk.injEq] at hf
        obtain ⟨rfl, -⟩ := hf
        have e : pg2 = pg := by
          have : pageAt s.pages_ g = some pg2 := hpg2
          rw [hpg] at this; exact (Option.some.inj this).symm
        subst e
        exact ⟨rfl, rfl, by simp [hfl], fun _ => rfl,
          Or.inr ⟨hfl, r, pg2, hev, hpg, rfl, rfl, Or.inl ⟨Or.inr hn, rfl, rfl⟩⟩⟩
      · rw [hf'] at hf; cases hf
      · rw [hf'] at hf
        simp only [Option.some.injEq, Prod.mk.injEq] at hf
        obtain ⟨rfl, -⟩ := hf
        have hpx' : pageAt s.pages_ x = some px := hpx
        have hids : ∀ y, pageIdAt (setPageAt s.pages_ x { px with is_dirty_ := false }) y =
            pageIdAt s.pages_ y := pageIdAt_setPageAt_same hpx' rfl
        have e : pg2.page_id_ = pg.page_id_ := by
          have h2 : pageIdAt (setPageAt s.pages_ x { px with is_dirty_ := false }) g =
              some pg2.page_id_ := pageIdAt_eq_some.mpr ⟨pg2, hpg2, rfl⟩
          rw [hids, pageIdAt_eq_some.mpr ⟨pg, hpg, rfl⟩] at h2
          exact (Option.some.inj h2).symm
        refine ⟨rfl, rfl, by simp [hfl], hids, Or.inr ⟨hfl, r, pg, hev, hpg, rfl, ?_,
          Or.inr ⟨hd, x, px, hx, hpx', rfl, rfl⟩⟩⟩
        show (ExtendibleHashTable.Remove hash s.page_table_ pg2.page_id_).2 = _
        rw [e]
    · have e : pg2 = pg := by
        have : pageAt s.pages_ g = some pg2 := hpg2
        rw [hpg] at this; exact (Option.some.inj this).symm
      subst e
      exact ⟨rfl, rfl, by simp [hfl], fun _ => rfl,
        Or.inr ⟨hfl, r, pg2, hev, hpg, rfl, rfl, Or.inl ⟨Or.inl hd, rfl, rfl⟩⟩⟩

end BufferPoolManagerInstance

end Bustub

namespace Bustub

namespace BufferPoolManagerInstance

/-! ## Buffer pool manager: the directory agrees with the frames -/

theorem NewPgImp_no_raise {hash : Int → Nat} {s s' : BufferPoolManagerInstance}
    (hinv : Inv hash s) (fuel : Nat) : NewPgImp hash fuel s ≠ Res.raise s' := by
  intro hop
  rcases NewPgImp_spec hinv with ⟨-, hnull⟩ | ⟨-, s1, f, hinv1, h0, h1, e1, e2, e3, e4, hfuel⟩
  · rw [hnull fuel] at hop; cases hop
  · rcases hfuel fuel with ⟨-, hu⟩ | ⟨pt, r2, -, hok, -⟩
    · rw [hu] at hop; cases hop
    · rw [hok] at hop; cases hop

theorem FetchPgImp_no_raise {hash : Int → Nat} {s s' : BufferPoolManagerInstance}
    (hinv : Inv hash s) (fuel : Nat) (p : Int) : FetchPgImp hash fuel s p ≠ Res.raise s' := by
  intro hop
  cases hfind : ExtendibleHashTable.Find hash s.page_table_ p with
  | some f =>
    obtain ⟨pg, r2, -, -, -, hok, -⟩ := FetchPgImp_hit hinv hfind
    rw [hok fuel] at hop; cases hop
  | none =>
    rcases FetchPgImp_miss hinv hfind with ⟨-, hnull⟩ |
      ⟨-, s1, f, hinv1, h0, h1, e1, e2, e3, e4, hfuel⟩
    · rw [hnull fuel] at hop; cases hop
    · rcases hfuel fuel with ⟨-, hu⟩ | ⟨pt, r2, -, hok, -⟩
      · rw [hu] at hop; cases hop
      · rw [hok] at hop; cases hop

theorem UnpinPgImp_no_raise {hash : Int → Nat} {s s' : BufferPoolManagerInstance}
    (hinv : Inv hash s) (p : Int) (d : Bool) : UnpinPgImp hash s p d ≠ Res.raise s' := by
  intro hop
  rcases UnpinPgImp_spec hinv p d with ⟨-, hok⟩ | ⟨f, pg, -, -, -, hok⟩ |
    ⟨f, pg, r1, -, -, -, -, -, hok, -⟩ <;>
  · rw [hok] at hop; cases hop

theorem DeletePgImp_no_raise {hash : Int → Nat} {s s' : BufferPoolManagerInstance}
    (hinv : Inv hash s) (p : Int) : DeletePgImp hash s p ≠ Res.raise s' := by
  intro hop
  rcases DeletePgImp_spec hinv p with ⟨-, hok⟩ | ⟨f, pg, -, -, -, hok⟩ |
    ⟨f, pg, r1, -, -, -, -, -, -, -, -, -, hok, -⟩ <;>
  · rw [hok] at hop; cases hop

theorem DirInv.dir_congr {hash : Int → Nat} {s s' : BufferPoolManagerInstance}
    (hd : DirInv hash s) (ht : s'.page_table_ = s.page_table_)
    (hfl : s'.free_list_ = s.free_list_)
    (hid : ∀ x, pageIdAt s'.pages_ x = pageIdAt s.pages_ x) : DirInv hash s' := by
  refine ⟨?_, ?_, ?_⟩
  · intro q g hq
    rw [ht] at hq
    rw [hid]; exact hd.dir_page q g hq
  · intro g hg q
    rw [ht]; rw [hfl] at hg
    exact hd.free_unmapped g hg q
  · rw [hfl]; exact hd.free_nodup

/-- After `takeFrame` the directory still agrees with the frames, and the frame obtained
is neither the target of a directory entry nor in the free list. -/
theorem DirInv.dir_take {hash : Int → Nat} {s s1 : BufferPoolManagerInstance} {g : Int}
    (hd : DirInv hash s) (hwf : ExtendibleHashTable.WF hash s.page_table_)
    (h : takeFrame hash s = some (s1, g)) :
    DirInv hash s1 ∧ (∀ q, ExtendibleHashTable.Find hash s1.page_table_ q ≠ some g) ∧
      g ∉ s1.free_list_ ∧ ExtendibleHashTable.WF hash s1.page_table_ := by
  obtain ⟨-, -, hfree, hids, hcase⟩ := takeFrame_core h
  rcases hcase with ⟨rest, hfl, ht, -, -, -⟩ | ⟨hfl, r, pg, -, hpg, -, ht, -⟩
  · have hnd := hd.free_nodup
    rw [hfl] at hnd
    have hfree' : s1.free_list_ = rest := by rw [hfree, hfl]; rfl
    refine ⟨⟨?_, ?_, ?_⟩, ?_, ?_, ?_⟩
    · intro q x hq
      rw [ht] at hq; rw [hids]; exact hd.dir_page q x hq
    · intro x hx q
      rw [ht]
      exact hd.free_unmapped x (by rw [hfl]; rw [hfree'] at hx; exact List.mem_cons_of_mem _ hx) q
    · rw [hfree']; exact (List.nodup_cons.mp hnd).2
    · intro q
      rw [ht]
      exact hd.free_unmapped g (by rw [hfl]; exact List.mem_cons_self _ _) q
    · rw [hfree']; exact (List.nodup_cons.mp hnd).1
    · rw [ht]; exact hwf
  · have hfree' : s1.free_list_ = [] := by rw [hfree, hfl]; rfl
    have hfind : ∀ q, ExtendibleHashTable.Find hash s1.page_table_ q =
        if q = pg.page_id_ then none else ExtendibleHashTable.Find hash s.page_table_ q := by
      intro q; rw [ht]; exact ExtendibleHashTable.Find_Remove hwf _ _
    refine ⟨⟨?_, ?_, ?_⟩, ?_, ?_, ?_⟩
    · intro q x hq
      rw [hfind] at hq
      split at hq
      · cases hq
      · rw [hids]; exact hd.dir_page q x hq
    · intro x hx
      rw [hfree'] at hx; cases hx
    · rw [hfree']; exact List.nodup_nil
    · intro q hq
      rw [hfind] at hq
      split at hq
      · cases hq
      · rename_i hne
        have h1 := hd.dir_page q g hq
        rw [pageIdAt_eq_some.mpr ⟨pg, hpg, rfl⟩] at h1
        exact hne (Option.some.inj h1).symm
    · rw [hfree']; simp
    · rw [ht]; exact hwf.table_remove _

/-- Installing a page in a frame obtained by `takeFrame`. -/
theorem DirInv.dir_install {hash : Int → Nat} {s1 s' : BufferPoolManagerInstance} {g n : Int}
    {fuel : Nat} {pt : ExtendibleHashTable Int Int} {pg0 pgn : Page}
    (hd : DirInv hash s1) (hwf : ExtendibleHashTable.WF hash s1.page_table_)
    (hun : ∀ q, ExtendibleHashTable.Find hash s1.page_table_ q ≠ some g)
    (hnf : g ∉ s1.free_list_)
    (hins : ExtendibleHashTable.Insert hash fuel s1.page_table_ n g = some pt)
    (hpg0 : pageAt s1.pages_ g = some pg0) (hn : pgn.page_id_ = n)
    (ht : s'.page_table_ = pt) (hp : s'.pages_ = setPageAt s1.pages_ g pgn)
    (hfl : s'.free_list_ = s1.free_list_) : DirInv hash s' := by
  have hfind : ∀ q, ExtendibleHashTable.Find hash s'.page_table_ q =
      if q = n then some g else ExtendibleHashTable.Find hash s1.page_table_ q := by
    intro q
    rw [ht]
    split
    · rename_i h; subst h
      exact ExtendibleHashTable.Find_Insert_self hash fuel _ _ _ _ hins
    · rename_i h
      exact ExtendibleHashTable.Find_Insert_other hwf h hins
  refine ⟨?_, ?_, ?_⟩
  · intro q x hq
    rw [hfind] at hq
    rw [hp, pageIdAt_setPageAt hpg0]
    split at hq
    · rename_i h; subst h
      cases hq
      simp [hn]
    · have hx : x ≠ g := fun hxg => hun q (hxg ▸ hq)
      rw [if_neg hx]
      exact hd.dir_page q x hq
  · intro x hx q hq
    rw [hfl] at hx
    rw [hfind] at hq
    split at hq
    · cases hq; exact hnf hx
    · exact hd.free_unmapped x hx q hq
  · rw [hfl]; exact hd.free_nodup

end BufferPoolManagerInstance

end Bustub

namespace Bustub

namespace BufferPoolManagerInstance

theorem DirInv.dir_newPage {hash : Int → Nat} {s s' : BufferPoolManagerInstance} {fuel : Nat}
    {a : Option (Int × Int)} (hd : DirInv hash s)
    (hwf : ExtendibleHashTable.WF hash s.page_table_)
    (h : NewPgImp hash fuel s = Res.ok s' a) : DirInv hash s' := by
  rcases NewPgImp_ok h with ⟨-, rfl, -⟩ | ⟨s1, g, pt, r, pg0, htake, hins, hpg0, -, rfl⟩
  · exact hd
  · have hd0 : DirInv hash { s with next_page_id_ := s.next_page_id_ + 1 } :=
      hd.dir_congr rfl rfl (fun _ => rfl)
    obtain ⟨hd1, hun, hnf, hwf1⟩ := hd0.dir_take hwf htake
    exact hd1.dir_install hwf1 hun hnf hins hpg0 rfl rfl rfl rfl

theorem DirInv.dir_fetchPage {hash : Int → Nat} {s s' : BufferPoolManagerInstance} {fuel : Nat}
    {p : Int} {a : Option Int} (hd : DirInv hash s)
    (hwf : ExtendibleHashTable.WF hash s.page_table_)
    (h : FetchPgImp hash fuel s p = Res.ok s' a) : DirInv hash s' := by
  rcases FetchPgImp_ok h with ⟨g, pg, r, -, hpg, -, rfl⟩ | ⟨-, -, rfl, -⟩ |
    ⟨-, s1, g, pt, r, pg0, htake, hins, hpg0, -, rfl⟩
  · exact hd.dir_congr rfl rfl (pageIdAt_setPageAt_same hpg rfl)
  · exact hd
  · obtain ⟨hd1, hun, hnf, hwf1⟩ := hd.dir_take hwf htake
    exact hd1.dir_install hwf1 hun hnf hins hpg0 rfl rfl rfl rfl

theorem DirInv.dir_unpinPage {hash : Int → Nat} {s s' : BufferPoolManagerInstance} {p : Int}
    {d b : Bool} (hd : DirInv hash s) (h : UnpinPgImp hash s p d = Res.ok s' b) :
    DirInv hash s' := by
  rcases UnpinPgImp_ok h with ⟨-, rfl⟩ | ⟨g, pg, r, -, hpg, -, -, rfl⟩
  · exact hd
  · exact hd.dir_congr rfl rfl (pageIdAt_setPageAt_same hpg rfl)

theorem DirInv.dir_flushPage {hash : Int → Nat} {s s' : BufferPoolManagerInstance} {p : Int}
    {b : Bool} (hd : DirInv hash s) (h : FlushPgImp hash s p = Res.ok s' b) :
    DirInv hash s' := by
  rcases FlushPgImp_ok h with ⟨-, -, rfl⟩ | ⟨g, pg, -, hpg, -, rfl⟩
  · exact hd
  · exact hd.dir_congr rfl rfl (pageIdAt_setPageAt_same hpg rfl)

theorem DirInv.dir_deletePage {hash : Int → Nat} {s s' : BufferPoolManagerInstance} {p : Int}
    {b : Bool} (hd : DirInv hash s) (hwf : ExtendibleHashTable.WF hash s.page_table_)
    (h : DeletePgImp hash s p = Res.ok s' b) : DirInv hash s' := by
  rcases DeletePgImp_ok h with rfl | ⟨g, pg, r, hfind, hpg, -, rfl⟩
  · exact hd
  · have hfr : ∀ q, ExtendibleHashTable.Find hash
        (ExtendibleHashTable.Remove hash s.page_table_ p).2 q =
        if q = p then none else ExtendibleHashTable.Find hash s.page_table_ q :=
      fun q => ExtendibleHashTable.Find_Remove hwf _ _
    have hgp := hd.dir_page p g hfind
    -- the only page id mapped to `g` is `p`
    have honly : ∀ q, ExtendibleHashTable.Find hash s.page_table_ q = some g → q = p := by
      intro q hq
      have := hd.dir_page q g hq
      rw [hgp] at this
      exact (Option.some.inj this).symm
    refine ⟨?_, ?_, ?_⟩
    · intro q x hq
      have hq' : ExtendibleHashTable.Find hash
          (ExtendibleHashTable.Remove hash s.page_table_ p).2 q = some x := hq
      rw [hfr] at hq'
      split at hq'
      · cases hq'
      · rename_i hne
        have hx : x ≠ g := fun hxg => hne (honly q (hxg ▸ hq'))
        show pageIdAt (setPageAt s.pages_ g Page.empty) x = some q
        rw [pageIdAt_setPageAt hpg, if_neg hx]
        exact hd.dir_page q x hq'
    · intro x hx q hq
      have hq' : ExtendibleHashTable.Find hash
          (ExtendibleHashTable.Remove hash s.page_table_ p).2 q = some x := hq
      have hx' : x ∈ s.free_list_ ++ [g] := hx
      rw [hfr] at hq'
      split at hq'
      · cases hq'
      · rename_i hne
        rcases List.mem_append.mp hx' with hx1 | hx1
        · exact hd.free_unmapped x hx1 q hq'
        · simp only [List.mem_singleton] at hx1
          subst hx1
          exact hne (honly q hq')
    · show (s.free_list_ ++ [g]).Nodup
      rw [List.nodup_append]
      refine ⟨hd.free_nodup, List.nodup_singleton g, ?_⟩
      intro x hx hx2
      simp only [List.mem_singleton] at hx2
      subst hx2
      exact hd.free_unmapped x hx p hfind

theorem DirInv.dir_write {hash : Int → Nat} {s s' : BufferPoolManagerInstance} {f : Int}
    {data : List Nat} (hd : DirInv hash s) (h : writeData s f data = some s') :
    DirInv hash s' := by
  obtain ⟨pg, hpg, -, rfl⟩ := writeData_ok h
  exact hd.dir_congr rfl rfl (pageIdAt_setPageAt_same hpg rfl)

theorem DirInv.dir_init (hash : Int → Nat) (pool_size replacer_k bucket_size : Nat)
    (disk_manager : DiskManager) :
    DirInv hash (new pool_size replacer_k bucket_size disk_manager) := by
  refine ⟨?_, ?_, ?_⟩
  · intro q g hq
    have : ExtendibleHashTable.Find hash
        (ExtendibleHashTable.new bucket_size : ExtendibleHashTable Int Int) q = none :=
      ExtendibleHashTable.Find_new hash bucket_size q
    rw [show (new pool_size replacer_k bucket_size disk_manager).page_table_ =
      ExtendibleHashTable.new bucket_size from rfl, this] at hq
    cases hq
  · intro g _ q hq
    have : ExtendibleHashTable.Find hash
        (ExtendibleHashTable.new bucket_size : ExtendibleHashTable Int Int) q = none :=
      ExtendibleHashTable.Find_new hash bucket_size q
    rw [show (new pool_size replacer_k bucket_size disk_manager).page_table_ =
      ExtendibleHashTable.new bucket_size from rfl, this] at hq
    cases hq
  · show ((List.range pool_size).map Int.ofNat).Nodup
    exact (List.nodup_range _).map (fun a b h => by simpa using h)

/-- In every reachable manager state the directory agrees with the frames and the free
list. -/
theorem Reachable.dirInv {hash : Int → Nat} {pool_size replacer_k bucket_size : Nat}
    (hk : 1 ≤ replacer_k) (hb : 1 ≤ bucket_size) {disk_manager : DiskManager}
    {s : BufferPoolManagerInstance}
    (h : Reachable hash pool_size replacer_k bucket_size disk_manager s) : DirInv hash s := by
  induction h with
  | init => exact DirInv.dir_init hash pool_size replacer_k bucket_size disk_manager
  | @newPage s s' fuel a hr hop ih =>
    exact ih.dir_newPage (hr.pool_inv hk hb).1.table_wf hop
  | @newPageRaise s s' fuel hr hop ih =>
    exact absurd hop (NewPgImp_no_raise (hr.pool_inv hk hb).1 fuel)
  | @fetchPage s s' fuel p a hr hop ih =>
    exact ih.dir_fetchPage (hr.pool_inv hk hb).1.table_wf hop
  | @fetchPageRaise s s' fuel p hr hop ih =>
    exact absurd hop (FetchPgImp_no_raise (hr.pool_inv hk hb).1 fuel p)
  | @unpinPage s s' p d b hr hop ih => exact ih.dir_unpinPage hop
  | @unpinPageRaise s s' p d hr hop ih =>
    exact absurd hop (UnpinPgImp_no_raise (hr.pool_inv hk hb).1 p d)
  | @flushPage s s' p b hr hop ih => exact ih.dir_flushPage hop
  | @deletePage s s' p b hr hop ih =>
    exact ih.dir_deletePage (hr.pool_inv hk hb).1.table_wf hop
  | @deletePageRaise s s' p hr hop ih =>
    exact absurd hop (DeletePgImp_no_raise (hr.pool_inv hk hb).1 p)
  | @write s s' f data hr hop ih => exact ih.dir_write hop

end BufferPoolManagerInstance

end Bustub

namespace Bustub

namespace BufferPoolManagerInstance

/-! ## Buffer pool manager: the frames agree with the directory -/

theorem ReachableAllocated.reachable {hash : Int → Nat}
    {pool_size replacer_k bucket_size : Nat} {disk_manager : DiskManager}
    {s : BufferPoolManagerInstance}
    (h : ReachableAllocated hash pool_size replacer_k bucket_size disk_manager s) :
    Reachable hash pool_size replacer_k bucket_size disk_manager s := by
  induction h with
  | init => exact Reachable.init
  | newPage fuel a _ hop ih => exact Reachable.newPage fuel a ih hop
  | fetchPage fuel p a _ _ hop ih => exact Reachable.fetchPage fuel p a ih hop
  | unpinPage p d b _ hop ih => exact Reachable.unpinPage p d b ih hop
  | flushPage p b _ hop ih => exact Reachable.flushPage p b ih hop
  | deletePage p b _ hop ih => exact Reachable.deletePage p b ih hop
  | write f data _ hop ih => exact Reachable.write f data ih hop

theorem FrameInv.frame_congr {hash : Int → Nat} {s s' : BufferPoolManagerInstance}
    (hf : FrameInv hash s) (ht : s'.page_table_ = s.page_table_)
    (hfl : s'.free_list_ = s.free_list_)
    (hid : ∀ x, pageIdAt s'.pages_ x = pageIdAt s.pages_ x)
    (hn : s.next_page_id_ ≤ s'.next_page_id_) : FrameInv hash s' := by
  refine ⟨?_, ?_⟩
  · intro g q hq hg
    rw [hid] at hq; rw [hfl] at hg; rw [ht]
    exact hf.frame_dir g q hq hg
  · intro q g hq
    rw [ht] at hq
    exact lt_of_lt_of_le (hf.keys_lt q g hq) hn

/-- After `takeFrame` every frame but the one obtained still agrees with the directory,
and the directory has lost at most the page id of the victim. -/
theorem FrameInv.frame_take {hash : Int → Nat} {s s1 : BufferPoolManagerInstance} {g : Int}
    (hf : FrameInv hash s) (hwf : ExtendibleHashTable.WF hash s.page_table_)
    (h : takeFrame hash s = some (s1, g)) :
    (∀ x q, pageIdAt s1.pages_ x = some q → x ∉ s1.free_list_ → x ≠ g →
      ExtendibleHashTable.Find hash s1.page_table_ q = some x) ∧
    (∀ q x, ExtendibleHashTable.Find hash s1.page_table_ q = some x →
      ExtendibleHashTable.Find hash s.page_table_ q = some x) := by
  obtain ⟨-, -, hfree, hids, hcase⟩ := takeFrame_core h
  rcases hcase with ⟨rest, hfl, ht, -, -, -⟩ | ⟨hfl, r, pg, -, hpg, -, ht, -⟩
  · have hfree' : s1.free_list_ = rest := by rw [hfree, hfl]; rfl
    refine ⟨?_, ?_⟩
    · intro x q hq hx hxg
      rw [hids] at hq
      rw [ht]
      apply hf.frame_dir x q hq
      rw [hfl]
      rw [hfree'] at hx
      simp [hxg, hx]
    · intro q x hq
      rw [ht] at hq; exact hq
  · have hfind : ∀ q, ExtendibleHashTable.Find hash s1.page_table_ q =
        if q = pg.page_id_ then none else ExtendibleHashTable.Find hash s.page_table_ q := by
      intro q; rw [ht]; exact ExtendibleHashTable.Find_Remove hwf _ _
    have hg : ExtendibleHashTable.Find hash s.page_table_ pg.page_id_ = some g :=
      hf.frame_dir g _ (pageIdAt_eq_some.mpr ⟨pg, hpg, rfl⟩) (by rw [hfl]; simp)
    refine ⟨?_, ?_⟩
    · intro x q hq _ hxg
      rw [hids] at hq
      have hx := hf.frame_dir x q hq (by rw [hfl]; simp)
      rw [hfind]
      split
      · rename_i he
        subst he
        rw [hg] at hx
        exact absurd (Option.some.inj hx).symm hxg
      · exact hx
    · intro q x hq
      rw [hfind] at hq
      split at hq
      · cases hq
      · exact hq

/-- Installing a page id that the directory does not map in the frame obtained by
`takeFrame`. -/
theorem FrameInv.frame_install {hash : Int → Nat} {s1 s' : BufferPoolManagerInstance}
    {g n : Int} {fuel : Nat} {pt : ExtendibleHashTable Int Int} {pg0 pgn : Page}
    (hwf : ExtendibleHashTable.WF hash s1.page_table_)
    (hfr : ∀ x q, pageIdAt s1.pages_ x = some q → x ∉ s1.free_list_ → x ≠ g →
      ExtendibleHashTable.Find hash s1.page_table_ q = some x)
    (hkeys : ∀ q x, ExtendibleHashTable.Find hash s1.page_table_ q = some x →
      q < s'.next_page_id_)
    (hnone : ExtendibleHashTable.Find hash s1.page_table_ n = none)
    (hlt : n < s'.next_page_id_)
    (hins : ExtendibleHashTable.Insert hash fuel s1.page_table_ n g = some pt)
    (hpg0 : pageAt s1.pages_ g = some pg0) (hn : pgn.page_id_ = n)
    (ht : s'.page_table_ = pt) (hp : s'.pages_ = setPageAt s1.pages_ g pgn)
    (hfl : s'.free_list_ = s1.free_list_) : FrameInv hash s' := by
  have hfind : ∀ q, ExtendibleHashTable.Find hash s'.page_table_ q =
      if q = n then some g else ExtendibleHashTable.Find hash s1.page_table_ q := by
    intro q
    rw [ht]
    split
    · rename_i h; subst h
      exact ExtendibleHashTable.Find_Insert_self hash fuel _ _ _ _ hins
    · rename_i h
      exact ExtendibleHashTable.Find_Insert_other hwf h hins
  refine ⟨?_, ?_⟩
  · intro x q hq hx
    rw [hp, pageIdAt_setPageAt hpg0] at hq
    rw [hfl] at hx
    rw [hfind]
    split at hq
    · rename_i hxg
      subst hxg
      rw [hn] at hq
      cases hq
      simp
    · rename_i hxg
      have h1 := hfr x q hq hx hxg
      have hqn : q ≠ n := by
        intro he; subst he; rw [hnone] at h1; cases h1
      rw [if_neg hqn]; exact h1
  · intro q x hq
    rw [hfind] at hq
    split at hq
    · rename_i he; subst he; exact hlt
    · exact hkeys q x hq

theorem FrameInv.frame_newPage {hash : Int → Nat} {s s' : BufferPoolManagerInstance}
    {fuel : Nat} {a : Option (Int × Int)} (hf : FrameInv hash s)
    (hwf : ExtendibleHashTable.WF hash s.page_table_)
    (h : NewPgImp hash fuel s = Res.ok s' a) : FrameInv hash s' := by
  rcases NewPgImp_ok h with ⟨-, rfl, -⟩ | ⟨s1, g, pt, r, pg0, htake, hins, hpg0, -, rfl⟩
  · exact hf
  · have hf0 : FrameInv hash { s with next_page_id_ := s.next_page_id_ + 1 } :=
      hf.frame_congr rfl rfl (fun _ => rfl) (by show s.next_page_id_ ≤ s.next_page_id_ + 1; omega)
    obtain ⟨hfr, hsub⟩ := hf0.frame_take hwf htake
    obtain ⟨hnext, -⟩ := takeFrame_core htake
    have hwf1 : ExtendibleHashTable.WF hash s1.page_table_ := by
      obtain ⟨-, -, -, -, hcase⟩ := takeFrame_core htake
      rcases hcase with ⟨rest, -, ht, -⟩ | ⟨-, r', pg, -, -, -, ht, -⟩
      · rw [ht]; exact hwf
      · rw [ht]; exact hwf.table_remove _
    have hnext' : s1.next_page_id_ = s.next_page_id_ + 1 := hnext
    refine FrameInv.frame_install hwf1 hfr ?_ ?_ ?_ hins hpg0 rfl rfl rfl rfl
    · intro q x hq
      show q < s1.next_page_id_
      rw [hnext']
      have := hf.keys_lt q x (hsub q x hq)
      omega
    · cases hq : ExtendibleHashTable.Find hash s1.page_table_ s.next_page_id_ with
      | none => rfl
      | some x => exact absurd (hf.keys_lt _ x (hsub _ x hq)) (lt_irrefl _)
    · show s.next_page_id_ < s1.next_page_id_
      rw [hnext']; omega

theorem FrameInv.frame_fetchPage {hash : Int → Nat} {s s' : BufferPoolManagerInstance}
    {fuel : Nat} {p : Int} {a : Option Int} (hf : FrameInv hash s)
    (hwf : ExtendibleHashTable.WF hash s.page_table_) (hp : p < s.next_page_id_)
    (h : FetchPgImp hash fuel s p = Res.ok s' a) : FrameInv hash s' := by
  rcases FetchPgImp_ok h with ⟨g, pg, r, -, hpg, -, rfl⟩ | ⟨-, -, rfl, -⟩ |
    ⟨hnone, s1, g, pt, r, pg0, htake, hins, hpg0, -, rfl⟩
  · exact hf.frame_congr rfl rfl (pageIdAt_setPageAt_same hpg rfl) (le_refl _)
  · exact hf
  · obtain ⟨hfr, hsub⟩ := hf.frame_take hwf htake
    obtain ⟨hnext, -⟩ := takeFrame_core htake
    have hwf1 : ExtendibleHashTable.WF hash s1.page_table_ := by
      obtain ⟨-, -, -, -, hcase⟩ := takeFrame_core htake
      rcases hcase with ⟨rest, -, ht, -⟩ | ⟨-, r', pg, -, -, -, ht, -⟩
      · rw [ht]; exact hwf
      · rw [ht]; exact hwf.table_remove _
    refine FrameInv.frame_install hwf1 hfr ?_ ?_ ?_ hins hpg0 rfl rfl rfl rfl
    · intro q x hq
      show q < s1.next_page_id_
      rw [hnext]
      exact hf.keys_lt q x (hsub q x hq)
    · cases hq : ExtendibleHashTable.Find hash s1.page_table_ p with
      | none => rfl
      | some x => rw [hsub _ x hq] at hnone; cases hnone
    · show p < s1.next_page_id_
      rw [hnext]; exact hp

theorem FrameInv.frame_unpinPage {hash : Int → Nat} {s s' : BufferPoolManagerInstance}
    {p : Int} {d b : Bool} (hf : FrameInv hash s)
    (h : UnpinPgImp hash s p d = Res.ok s' b) : FrameInv hash s' := by
  rcases UnpinPgImp_ok h with ⟨-, rfl⟩ | ⟨g, pg, r, -, hpg, -, -, rfl⟩
  · exact hf
  · exact hf.frame_congr rfl rfl (pageIdAt_setPageAt_same hpg rfl) (le_refl _)

theorem FrameInv.frame_flushPage {hash : Int → Nat} {s s' : BufferPoolManagerInstance}
    {p : Int} {b : Bool} (hf : FrameInv hash s) (h : FlushPgImp hash s p = Res.ok s' b) :
    FrameInv hash s' := by
  rcases FlushPgImp_ok h with ⟨-, -, rfl⟩ | ⟨g, pg, -, hpg, -, rfl⟩
  · exact hf
  · exact hf.frame_congr rfl rfl (pageIdAt_setPageAt_same hpg rfl) (le_refl _)

theorem FrameInv.frame_deletePage {hash : Int → Nat} {s s' : BufferPoolManagerInstance}
    {p : Int} {b : Bool} (hf : FrameInv hash s) (hd : DirInv hash s)
    (hwf : ExtendibleHashTable.WF hash s.page_table_)
    (h : DeletePgImp hash s p = Res.ok s' b) : FrameInv hash s' := by
  rcases DeletePgImp_ok h with rfl | ⟨g, pg, r, hfind, hpg, -, rfl⟩
  · exact hf
  · have hfr : ∀ q, ExtendibleHashTable.Find hash
        (ExtendibleHashTable.Remove hash s.page_table_ p).2 q =
        if q = p then none else ExtendibleHashTable.Find hash s.page_table_ q :=
      fun q => ExtendibleHashTable.Find_Remove hwf _ _
    refine ⟨?_, ?_⟩
    · intro x q hq hx
      have hx' : x ∉ s.free_list_ ++ [g] := hx
      have hq' : pageIdAt (setPageAt s.pages_ g Page.empty) x = some q := hq
      simp only [List.mem_append, List.mem_singleton, not_or] at hx'
      rw [pageIdAt_setPageAt hpg, if_neg hx'.2] at hq'
      have h1 := hf.frame_dir x q hq' hx'.1
      show ExtendibleHashTable.Find hash
        (ExtendibleHashTable.Remove hash s.page_table_ p).2 q = some x
      rw [hfr]
      split
      · rename_i he
        subst he
        rw [hfind] at h1
        exact absurd (Option.some.inj h1).symm hx'.2
      · exact h1
    · intro q x hq
      have hq' : ExtendibleHashTable.Find hash
          (ExtendibleHashTable.Remove hash s.page_table_ p).2 q = some x := hq
      rw [hfr] at hq'
      split at hq'
      · cases hq'
      · exact hf.keys_lt q x hq'

theorem FrameInv.frame_write {hash : Int → Nat} {s s' : BufferPoolManagerInstance} {f : Int}
    {data : List Nat} (hf : FrameInv hash s) (h : writeData s f data = some s') :
    FrameInv hash s' := by
  obtain ⟨pg, hpg, -, rfl⟩ := writeData_ok h
  exact hf.frame_congr rfl rfl (pageIdAt_setPageAt_same hpg rfl) (le_refl _)

theorem FrameInv.frame_init (hash : Int → Nat) (pool_size replacer_k bucket_size : Nat)
    (disk_manager : DiskManager) :
    FrameInv hash (new pool_size replacer_k bucket_size disk_manager) := by
  have hnone : ∀ q, ExtendibleHashTable.Find hash
      (new pool_size replacer_k bucket_size disk_manager).page_table_ q = none := by
    intro q
    exact ExtendibleHashTable.Find_new hash bucket_size q
  refine ⟨?_, ?_⟩
  · intro g q hq hg
    exfalso
    apply hg
    obtain ⟨pg, hpg, -⟩ := pageIdAt_eq_some.mp hq
    obtain ⟨h0, h1⟩ := pageAt_some hpg
    have hlen : (new pool_size replacer_k bucket_size disk_manager).pages_.length = pool_size := by
      simp [new]
    rw [hlen] at h1
    show g ∈ (List.range pool_size).map Int.ofNat
    simp only [List.mem_map, List.mem_range]
    exact ⟨g.toNat, by omega, by simp [Int.toNat_of_nonneg h0]⟩
  · intro q g hq
    rw [hnone] at hq; cases hq

/-- In every state reached with `FetchPgImp` called on handed-out page ids only, the frames
agree with the directory. -/
theorem ReachableAllocated.frameInv {hash : Int → Nat}
    {pool_size replacer_k bucket_size : Nat} (hk : 1 ≤ replacer_k) (hb : 1 ≤ bucket_size)
    {disk_manager : DiskManager} {s : BufferPoolManagerInstance}
    (h : ReachableAllocated hash pool_size replacer_k bucket_size disk_manager s) :
    FrameInv hash s := by
  induction h with
  | init => exact FrameInv.frame_init hash pool_size replacer_k bucket_size disk_manager
  | newPage fuel a hr hop ih =>
    exact ih.frame_newPage (hr.reachable.pool_inv hk hb).1.table_wf hop
  | fetchPage fuel p a hr hp hop ih =>
    exact ih.frame_fetchPage (hr.reachable.pool_inv hk hb).1.table_wf hp hop
  | unpinPage p d b hr hop ih => exact ih.frame_unpinPage hop
  | flushPage p b hr hop ih => exact ih.frame_flushPage hop
  | deletePage p b hr hop ih =>
    exact ih.frame_deletePage (hr.reachable.dirInv hk hb)
      (hr.reachable.pool_inv hk hb).1.table_wf hop
  | write f data hr hop ih => exact ih.frame_write hop

end BufferPoolManagerInstance

end Bustub

namespace Bustub

namespace BufferPoolManagerInstance

/-- C20. Directory and frames agree. In every reachable manager state, with
arbitrary page-id arguments, the frame that the directory gives for a page id `p` holds
page id `p` and is not in the free list. In every state reached with `FetchPgImp` called
only on page ids below `next_page_id_` (ids that `NewPgImp` has handed out), moreover,
the page id held by a frame outside the free list is mapped by the directory to exactly
that frame, so no two frames outside the free list hold the same page id. -/
theorem C20_directory_frames_agree (hash : Int → Nat) (pool_size replacer_k bucket_size : Nat)
    (hk : 1 ≤ replacer_k) (hb : 1 ≤ bucket_size) (disk_manager : DiskManager) :
    (∀ s, Reachable hash pool_size replacer_k bucket_size disk_manager s →
      ∀ p f, ExtendibleHashTable.Find hash s.page_table_ p = some f →
        (∃ pg, pageAt s.pages_ f = some pg ∧ pg.page_id_ = p) ∧ f ∉ s.free_list_) ∧
    (∀ s, ReachableAllocated hash pool_size replacer_k bucket_size disk_manager s →
      (∀ f pg, pageAt s.pages_ f = some pg → f ∉ s.free_list_ →
        ExtendibleHashTable.Find hash s.page_table_ pg.page_id_ = some f) ∧
      (∀ f g pf pg, pageAt s.pages_ f = some pf → pageAt s.pages_ g = some pg →
        f ∉ s.free_list_ → g ∉ s.free_list_ → pf.page_id_ = pg.page_id_ → f = g)) := by
  constructor
  · intro s hreach p f hfind
    have hd := hreach.dirInv hk hb
    exact ⟨pageIdAt_eq_some.mp (hd.dir_page p f hfind),
      fun hmem => hd.free_unmapped f hmem p hfind⟩
  · intro s hreach
    have hf := hreach.frameInv hk hb
    have h1 : ∀ f pg, pageAt s.pages_ f = some pg → f ∉ s.free_list_ →
        ExtendibleHashTable.Find hash s.page_table_ pg.page_id_ = some f :=
      fun f pg hpg hfree => hf.frame_dir f _ (pageIdAt_eq_some.mpr ⟨pg, hpg, rfl⟩) hfree
    refine ⟨h1, ?_⟩
    intro f g pf pg hpf hpg hff hgf he
    have e1 := h1 f pf hpf hff
    have e2 := h1 g pg hpg hgf
    rw [he, e2] at e1
    exact (Option.some.inj e1).symm

end BufferPoolManagerInstance

theorem examplePool_reachableAllocated :
    BufferPoolManagerInstance.ReachableAllocated exampleHash 1 2 2 exampleDisk examplePool :=
  BufferPoolManagerInstance.ReachableAllocated.newPage 1 (some (0, 0))
    BufferPoolManagerInstance.ReachableAllocated.init rfl

/-- Witness of C20: in the example pool page 0 is mapped to frame 0, and frame 0 holds
page 0. -/
theorem C20_directory_frames_agree_witness :
    (∃ pg, BufferPoolManagerInstance.pageAt examplePool.pages_ 0 = some pg ∧ pg.page_id_ = 0) ∧
    ExtendibleHashTable.Find exampleHash examplePool.page_table_ 0 = some 0 :=
  have h := BufferPoolManagerInstance.C20_directory_frames_agree exampleHash 1 2 2 (by decide)
    (by decide) exampleDisk
  ⟨((h.1 examplePool examplePool_reachable) 0 0 rfl).1,
    (h.2 examplePool examplePool_reachableAllocated).1 0 _ rfl (by decide)⟩

/-- Counterexample to C20 for arbitrary page-id arguments: in a pool of two frames,
`FetchPgImp(0)` before page id 0 has been handed out puts page 0 in frame 0, and the
next `NewPgImp` hands out page id 0 in frame 1 and overwrites the directory entry. The
state is reachable, frame 0 is not in the free list and holds page id 0 (not
`INVALID_PAGE_ID`), yet the directory maps page 0 to frame 1, and the frames 0 and 1
hold the same page id. -/
theorem C20_stale_frame_counterexample :
    ∃ s1 s2 : BufferPoolManagerInstance,
      BufferPoolManagerInstance.FetchPgImp exampleHash 1
        (BufferPoolManagerInstance.new 2 2 2 exampleDisk) 0 = Res.ok s1 (some 0) ∧
      BufferPoolManagerInstance.NewPgImp exampleHash 1 s1 = Res.ok s2 (some (1, 0)) ∧
      BufferPoolManagerInstance.Reachable exampleHash 2 2 2 exampleDisk s2 ∧
      (0 : Int) ∉ s2.free_list_ ∧
      ∃ pg0 pg1, BufferPoolManagerInstance.pageAt s2.pages_ 0 = some pg0 ∧
        BufferPoolManagerInstance.pageAt s2.pages_ 1 = some pg1 ∧
        pg0.page_id_ = 0 ∧ pg0.page_id_ ≠ INVALID_PAGE_ID ∧ pg1.page_id_ = 0 ∧
        ExtendibleHashTable.Find exampleHash s2.page_table_ pg0.page_id_ = some 1 ∧
        ExtendibleHashTable.Find exampleHash s2.page_table_ pg0.page_id_ ≠ some 0 :=
  ⟨_, _, rfl, rfl,
    BufferPoolManagerInstance.Reachable.newPage 1 (some (1, 0))
      (BufferPoolManagerInstance.Reachable.fetchPage 1 0 (some 0)
        BufferPoolManagerInstance.Reachable.init rfl) rfl,
    by decide, _, _, rfl, rfl, rfl, by decide, rfl, rfl, by decide⟩

end Bustub

namespace Bustub

namespace LRUKReplacer

/-- A frame returned by `Evict` was evictable, so `Size()` was not zero. -/
theorem Evict_some_evictable {r r' : LRUKReplacer} {g : Int} (hinv : Inv r)
    (h : r.Evict = Res.ok r' (some g)) : r.evictable g = some true ∧ r.Size ≠ 0 := by
  have htrue : r.evictable g = some true := by
    rcases Evict_cases hinv with ⟨f0, r0, hscan, -, he⟩ | ⟨-, f0, r0, hscan, -, he⟩ |
      ⟨-, -, he⟩
    · rw [he] at h
      cases h
      obtain ⟨-, -, -, -, hfm, -⟩ := scan_fst_some _ _ hinv.scan_hist_dom hscan
      exact hfm
    · rw [he] at h
      cases h
      obtain ⟨-, -, -, -, hfm, -⟩ := scan_fst_some _ _ hinv.scan_cache_dom hscan
      exact hfm
    · rw [he] at h
      cases h
  refine ⟨htrue, ?_⟩
  intro hz
  exact (Size_eq_zero_iff r hinv.nodup_ev).mp hz g htrue

end LRUKReplacer

namespace BufferPoolManagerInstance

/-! ## Buffer pool manager: eviction -/

/-- The frame-obtaining block when the free list is empty and the directory maps the
victim's page id to the victim: a dirty victim is written to the disk and marked clean,
then its page id leaves the directory. -/
theorem takeFrame_evict {hash : Int → Nat} {s : BufferPoolManagerInstance}
    {r : LRUKReplacer} {g : Int} {pg : Page} (hfree : s.free_list_ = [])
    (hev : s.replacer_.Evict = Res.ok r (some g)) (hpg : pageAt s.pages_ g = some pg)
    (hfind : ExtendibleHashTable.Find hash s.page_table_ pg.page_id_ = some g) :
    takeFrame hash s = some ({ s with
      replacer_ := r
      disk_manager_ := if pg.is_dirty_ = true then
        s.disk_manager_.WritePage pg.page_id_ pg.data_ else s.disk_manager_
      pages_ := if pg.is_dirty_ = true then
        setPageAt s.pages_ g { pg with is_dirty_ := false } else s.pages_
      page_table_ := (ExtendibleHashTable.Remove hash s.page_table_ pg.page_id_).2 }, g) := by
  obtain ⟨h0, h1⟩ := pageAt_some hpg
  unfold takeFrame
  rw [hfree]
  simp only [hev, Option.getD_some, hpg]
  by_cases hd : pg.is_dirty_ = true
  · simp [hd, FlushPgImpInternal, hfind, hpg, pageAt_setPageAt h0 h1]
  · simp [hd, hpg]

end BufferPoolManagerInstance

end Bustub

namespace Bustub

namespace BufferPoolManagerInstance

/-- The eviction of a clean victim leaves the disk manager as it is, whatever the directory
maps the victim's page id to. -/
theorem takeFrame_clean_disk {hash : Int → Nat} {s s1 : BufferPoolManagerInstance} (n : Int)
    {r : LRUKReplacer} {g g1 : Int} {pg : Page} (hfree : s.free_list_ = [])
    (hev : s.replacer_.Evict = Res.ok r (some g)) (hpg : pageAt s.pages_ g = some pg)
    (hclean : pg.is_dirty_ = false)
    (htake : takeFrame hash { s with next_page_id_ := n } = some (s1, g1)) :
    s1.disk_manager_ = s.disk_manager_ := by
  obtain ⟨-, -, -, -, hcase⟩ := takeFrame_core htake
  rcases hcase with ⟨rest, hrest, -⟩ | ⟨-, r', pg', hev', hpg', -, -, hcase2⟩
  · have hrest' : s.free_list_ = g1 :: rest := hrest
    rw [hfree] at hrest'; cases hrest'
  · have hev'' : s.replacer_.Evict = Res.ok r' (some g1) := hev'
    rw [hev] at hev''
    have hg : g = g1 := by
      injection hev'' with _ h2
      exact Option.some.inj h2
    subst hg
    have hpg'' : pageAt s.pages_ g = some pg' := hpg'
    rw [hpg] at hpg''
    have hpp : pg = pg' := Option.some.inj hpg''
    subst hpp
    rcases hcase2 with ⟨-, -, hdisk⟩ | ⟨hdirty, -⟩
    · exact hdisk
    · rw [hclean] at hdirty; cases hdirty

/-- C13. Dirty victims are flushed on eviction. In a reachable manager state let the free
list be empty and let the replacer's `Evict` return frame `g`, which holds page `q` with
buffer `D`. If the directory maps `q` to `g` then: when `g` is dirty, `FlushPgImpInternal(q)`
writes `D` to the disk as page `q` and marks `g` clean while `q` is still mapped, and only
then `q` is removed from the directory; after a `NewPgImp`, or a `FetchPgImp` of an
unmapped page `p`, that returns, the disk has received exactly the call `WritePage(q, D)`
(followed by `ReadPage(p)` for a fetch) and its content of `q` is `D` when the victim was
dirty, and no write (only `ReadPage(p)` for a fetch) and no change of a page content when
the victim was clean; `q` is no longer mapped afterwards (unless `NewPgImp` hands out `q`
itself). The directory does map `q` to `g`, and `q` is below `next_page_id_`, in every
state reached with `FetchPgImp` called only on page ids below `next_page_id_` (ids that
`NewPgImp` has handed out). Whatever the directory maps `q` to, a clean victim causes no
disk write: a `NewPgImp` that returns leaves the disk manager as it is, and a `FetchPgImp`
of an unmapped page `p` that returns only adds `ReadPage(p)` to the calls received by the
disk and changes no page content. -/
theorem C13_dirty_victim_flushed (hash : Int → Nat) (pool_size replacer_k bucket_size : Nat)
    (hk : 1 ≤ replacer_k) (hb : 1 ≤ bucket_size) (disk_manager : DiskManager)
    (s : BufferPoolManagerInstance)
    (hreach : Reachable hash pool_size replacer_k bucket_size disk_manager s)
    (r : LRUKReplacer) (g : Int) (pg : Page) (hfree : s.free_list_ = [])
    (hev : s.replacer_.Evict = Res.ok r (some g)) (hpg : pageAt s.pages_ g = some pg) :
    (ExtendibleHashTable.Find hash s.page_table_ pg.page_id_ = some g →
      (pg.is_dirty_ = true →
        FlushPgImpInternal hash { s with replacer_ := r } pg.page_id_ = some ({ s with
          replacer_ := r
          disk_manager_ := s.disk_manager_.WritePage pg.page_id_ pg.data_
          pages_ := setPageAt s.pages_ g { pg with is_dirty_ := false } }, true)) ∧
      takeFrame hash s = some ({ s with
        replacer_ := r
        disk_manager_ := if pg.is_dirty_ = true then
          s.disk_manager_.WritePage pg.page_id_ pg.data_ else s.disk_manager_
        pages_ := if pg.is_dirty_ = true then
          setPageAt s.pages_ g { pg with is_dirty_ := false } else s.pages_
        page_table_ := (ExtendibleHashTable.Remove hash s.page_table_ pg.page_id_).2 }, g) ∧
      (∀ fuel s' a, NewPgImp hash fuel s = Res.ok s' a →
        (pg.is_dirty_ = true →
          s'.disk_manager_.log =
            s.disk_manager_.log ++ [DiskOp.write pg.page_id_ pg.data_] ∧
          s'.disk_manager_.content pg.page_id_ = pg.data_) ∧
        (pg.is_dirty_ = false → s'.disk_manager_ = s.disk_manager_) ∧
        (pg.page_id_ ≠ s.next_page_id_ →
          ExtendibleHashTable.Find hash s'.page_table_ pg.page_id_ = none)) ∧
      (∀ p fuel s' a, ExtendibleHashTable.Find hash s.page_table_ p = none →
        FetchPgImp hash fuel s p = Res.ok s' a →
        (pg.is_dirty_ = true →
          s'.disk_manager_.log =
            s.disk_manager_.log ++ [DiskOp.write pg.page_id_ pg.data_, DiskOp.read p] ∧
          s'.disk_manager_.content pg.page_id_ = pg.data_) ∧
        (pg.is_dirty_ = false →
          s'.disk_manager_.log = s.disk_manager_.log ++ [DiskOp.read p] ∧
          s'.disk_manager_.content = s.disk_manager_.content) ∧
        ExtendibleHashTable.Find hash s'.page_table_ pg.page_id_ = none)) ∧
    (ReachableAllocated hash pool_size replacer_k bucket_size disk_manager s →
      ExtendibleHashTable.Find hash s.page_table_ pg.page_id_ = some g ∧
      pg.page_id_ < s.next_page_id_) ∧
    (pg.is_dirty_ = false →
      (∀ fuel s' a, NewPgImp hash fuel s = Res.ok s' a →
        s'.disk_manager_ = s.disk_manager_) ∧
      (∀ p fuel s' a, ExtendibleHashTable.Find hash s.page_table_ p = none →
        FetchPgImp hash fuel s p = Res.ok s' a →
        s'.disk_manager_.log = s.disk_manager_.log ++ [DiskOp.read p] ∧
        s'.disk_manager_.content = s.disk_manager_.content)) := by
  obtain ⟨hinv, -, -, -⟩ := hreach.pool_inv hk hb
  have hwf := hinv.table_wf
  have hsz := (LRUKReplacer.Evict_some_evictable hinv.replacer_inv hev).2
  have hrem : ∀ q, ExtendibleHashTable.Find hash
      (ExtendibleHashTable.Remove hash s.page_table_ pg.page_id_).2 q =
      if q = pg.page_id_ then none else ExtendibleHashTable.Find hash s.page_table_ q :=
    fun q => ExtendibleHashTable.Find_Remove hwf _ _
  refine ⟨?_, ?_, ?_⟩
  · intro hfind
    refine ⟨?_, takeFrame_evict hfree hev hpg hfind, ?_, ?_⟩
    · intro hd
      simp [FlushPgImpInternal, hfind, hpg]
    · intro fuel s' a hop
      rcases NewPgImp_ok hop with ⟨-, -, -, hz⟩ |
        ⟨s1, g1, pt, r1, pg0, htake1, hins, hpg0, -, rfl⟩
      · exact absurd hz hsz
      · have htake0 := @takeFrame_evict hash { s with next_page_id_ := s.next_page_id_ + 1 }
          r g pg hfree hev hpg hfind
        rw [htake0] at htake1
        simp only [Option.some.injEq, Prod.mk.injEq] at htake1
        obtain ⟨rfl, rfl⟩ := htake1
        refine ⟨?_, ?_, ?_⟩
        · intro hd
          show (if pg.is_dirty_ = true then s.disk_manager_.WritePage pg.page_id_ pg.data_
            else s.disk_manager_).log = _ ∧
            (if pg.is_dirty_ = true then s.disk_manager_.WritePage pg.page_id_ pg.data_
            else s.disk_manager_).content pg.page_id_ = _
          rw [if_pos hd]
          simp [DiskManager.WritePage]
        · intro hd
          show (if pg.is_dirty_ = true then s.disk_manager_.WritePage pg.page_id_ pg.data_
            else s.disk_manager_) = _
          simp [hd]
        · intro hne
          show ExtendibleHashTable.Find hash pt pg.page_id_ = none
          rw [ExtendibleHashTable.Find_Insert_other (hwf.table_remove _) hne hins, hrem]
          simp
    · intro p fuel s' a hnone hop
      rcases FetchPgImp_ok hop with ⟨g', pg', r', hg', -⟩ | ⟨-, -, -, -, hz⟩ |
        ⟨-, s1, g1, pt, r1, pg0, htake1, hins, hpg0, -, rfl⟩
      · rw [hnone] at hg'; cases hg'
      · exact absurd hz hsz
      · rw [takeFrame_evict hfree hev hpg hfind] at htake1
        simp only [Option.some.injEq, Prod.mk.injEq] at htake1
        obtain ⟨rfl, rfl⟩ := htake1
        have hne : pg.page_id_ ≠ p := by
          intro he; rw [he, hnone] at hfind; cases hfind
        refine ⟨?_, ?_, ?_⟩
        · intro hd
          show ((if pg.is_dirty_ = true then s.disk_manager_.WritePage pg.page_id_ pg.data_
            else s.disk_manager_).ReadPage p).1.log = _ ∧
            ((if pg.is_dirty_ = true then s.disk_manager_.WritePage pg.page_id_ pg.data_
            else s.disk_manager_).ReadPage p).1.content pg.page_id_ = _
          rw [if_pos hd]
          simp [DiskManager.WritePage, DiskManager.ReadPage]
        · intro hd
          show ((if pg.is_dirty_ = true then s.disk_manager_.WritePage pg.page_id_ pg.data_
            else s.disk_manager_).ReadPage p).1.log = _ ∧
            ((if pg.is_dirty_ = true then s.disk_manager_.WritePage pg.page_id_ pg.data_
            else s.disk_manager_).ReadPage p).1.content = _
          simp [hd, DiskManager.ReadPage]
        · show ExtendibleHashTable.Find hash pt pg.page_id_ = none
          rw [ExtendibleHashTable.Find_Insert_other (hwf.table_remove _) hne hins, hrem]
          simp
  · intro hra
    have hf := hra.frameInv hk hb
    have hfind : ExtendibleHashTable.Find hash s.page_table_ pg.page_id_ = some g :=
      hf.frame_dir g _ (pageIdAt_eq_some.mpr ⟨pg, hpg, rfl⟩) (by rw [hfree]; simp)
    exact ⟨hfind, hf.keys_lt _ _ hfind⟩
  · intro hclean
    constructor
    · intro fuel s' a hop
      rcases NewPgImp_ok hop with ⟨-, -, -, hz⟩ |
        ⟨s1, g1, pt, r1, pg0, htake1, hins, hpg0, -, rfl⟩
      · exact absurd hz hsz
      · show s1.disk_manager_ = s.disk_manager_
        exact takeFrame_clean_disk (s.next_page_id_ + 1) hfree hev hpg hclean htake1
    · intro p fuel s' a hnone hop
      rcases FetchPgImp_ok hop with ⟨g', pg', r', hg', -⟩ | ⟨-, -, -, -, hz⟩ |
        ⟨-, s1, g1, pt, r1, pg0, htake1, hins, hpg0, -, rfl⟩
      · rw [hnone] at hg'; cases hg'
      · exact absurd hz hsz
      · have hdisk : s1.disk_manager_ = s.disk_manager_ :=
          takeFrame_clean_disk s.next_page_id_ hfree hev hpg hclean htake1
        show (s1.disk_manager_.ReadPage p).1.log = _ ∧
          (s1.disk_manager_.ReadPage p).1.content = _
        rw [hdisk]
        simp [DiskManager.ReadPage]

end BufferPoolManagerInstance

end Bustub

namespace Bustub

/-- Witness of C13: in a pool of one frame, after `NewPgImp` (page 0), `UnpinPgImp(0,
false)`, `FetchPgImp(0)` twice, `UnpinPgImp(0, true)` and `UnpinPgImp(0, false)`, the next
`NewPgImp` evicts the dirty page 0, and the disk has received exactly `WritePage` of page
0. -/
theorem C13_dirty_victim_flushed_witness :
    ∃ a1 a2 a3 a4 a5 s' : BufferPoolManagerInstance,
      BufferPoolManagerInstance.UnpinPgImp exampleHash examplePool 0 false = Res.ok a1 true ∧
      BufferPoolManagerInstance.FetchPgImp exampleHash 1 a1 0 = Res.ok a2 (some 0) ∧
      BufferPoolManagerInstance.FetchPgImp exampleHash 1 a2 0 = Res.ok a3 (some 0) ∧
      BufferPoolManagerInstance.UnpinPgImp exampleHash a3 0 true = Res.ok a4 true ∧
      BufferPoolManagerInstance.UnpinPgImp exampleHash a4 0 false = Res.ok a5 true ∧
      BufferPoolManagerInstance.NewPgImp exampleHash 1 a5 = Res.ok s' (some (0, 1)) ∧
      s'.disk_manager_.log = [DiskOp.write 0 Page.zeroData] ∧
      s'.disk_manager_.content 0 = Page.zeroData := by
  refine ⟨_, _, _, _, _, _, rfl, rfl, rfl, rfl, rfl, rfl, ?_⟩
  have hreach := BufferPoolManagerInstance.Reachable.unpinPage 0 false true
    (BufferPoolManagerInstance.Reachable.unpinPage 0 true true
      (BufferPoolManagerInstance.Reachable.fetchPage 1 0 (some 0)
        (BufferPoolManagerInstance.Reachable.fetchPage 1 0 (some 0)
          (BufferPoolManagerInstance.Reachable.unpinPage 0 false true
            examplePool_reachable rfl) rfl) rfl) rfl) rfl
  exact (((BufferPoolManagerInstance.C13_dirty_victim_flushed exampleHash 1 2 2 (by decide)
    (by decide) exampleDisk _ hreach _ 0 _ rfl rfl rfl).1 rfl).2.2.1 1 _ _ rfl).1 rfl

/-- Counterexample to C13 for arbitrary page-id arguments: in a pool of two frames,
`FetchPgImp(0)` before page id 0 has been handed out puts page 0 in frame 0; the client
writes the buffer `[1]` and unpins the page dirty; `NewPgImp` then hands out page id 0
in frame 1 and overwrites the directory entry. The state is reachable, its free list is
empty and `Evict` returns frame 0, which holds page 0 dirty with buffer `[1]`. The
eviction by `FetchPgImp(7)` writes the buffer of frame 1 as page 0: the disk never
receives `WritePage(0, [1])` and its content of page 0 is not `[1]`. -/
theorem C13_wrong_buffer_counterexample :
    ∃ (c1 c2 c3 c4 c5 : BufferPoolManagerInstance) (r : LRUKReplacer),
      BufferPoolManagerInstance.FetchPgImp exampleHash 1
        (BufferPoolManagerInstance.new 2 2 2 exampleDisk) 0 = Res.ok c1 (some 0) ∧
      BufferPoolManagerInstance.writeData c1 0 [1] = some c2 ∧
      BufferPoolManagerInstance.UnpinPgImp exampleHash c2 0 true = Res.ok c3 true ∧
      BufferPoolManagerInstance.NewPgImp exampleHash 1 c3 = Res.ok c4 (some (1, 0)) ∧
      BufferPoolManagerInstance.Reachable exampleHash 2 2 2 exampleDisk c4 ∧
      c4.free_list_ = [] ∧ c4.replacer_.Evict = Res.ok r (some 0) ∧
      BufferPoolManagerInstance.pageAt c4.pages_ 0 =
        some { data_ := [1], page_id_ := 0, pin_count_ := 0, is_dirty_ := true } ∧
      BufferPoolManagerInstance.FetchPgImp exampleHash 1 c4 7 = Res.ok c5 (some 0) ∧
      c5.disk_manager_.log =
        [DiskOp.read 0, DiskOp.write 0 Page.zeroData, DiskOp.read 7] ∧
      c5.disk_manager_.content 0 = Page.zeroData ∧
      c5.disk_manager_.content 0 ≠ [1] :=
  ⟨_, _, _, _, _, _, rfl, rfl, rfl, rfl,
    BufferPoolManagerInstance.Reachable.newPage 1 (some (1, 0))
      (BufferPoolManagerInstance.Reachable.unpinPage 0 true true
        (BufferPoolManagerInstance.Reachable.write 0 [1]
          (BufferPoolManagerInstance.Reachable.fetchPage 1 0 (some 0)
            BufferPoolManagerInstance.Reachable.init rfl) rfl) rfl) rfl,
    rfl, rfl, rfl, rfl, rfl, rfl, by decide⟩

end Bustub

namespace Bustub

namespace BufferPoolManagerInstance

/-! ## Buffer pool manager: the content of a page survives eviction -/

theorem Later.later_reachable {hash : Int → Nat} {pool_size replacer_k bucket_size : Nat}
    {disk_manager : DiskManager} {p : Int} {s s' : BufferPoolManagerInstance}
    (h : Later hash p s s')
    (hs : Reachable hash pool_size replacer_k bucket_size disk_manager s) :
    Reachable hash pool_size replacer_k bucket_size disk_manager s' := by
  induction h with
  | refl => exact hs
  | newPage fuel a _ hop ih => exact Reachable.newPage fuel a ih hop
  | fetchPage fuel q a _ hop ih => exact Reachable.fetchPage fuel q a ih hop
  | unpinPage q d b _ hop ih => exact Reachable.unpinPage q d b ih hop
  | flushPage q b _ hop ih => exact Reachable.flushPage q b ih hop
  | write f data _ _ hop ih => exact Reachable.write f data ih hop

/-- The frame of `p` keeps its buffer and its dirty mark, and the disk its content of `p`:
the latest content of `p` is kept. -/
theorem LatestContent.latest_congr {hash : Int → Nat} {s s' : BufferPoolManagerInstance}
    {p : Int} {B : List Nat} (hl : LatestContent hash s p B)
    (ht : ExtendibleHashTable.Find hash s'.page_table_ p =
      ExtendibleHashTable.Find hash s.page_table_ p)
    (hc : s'.disk_manager_.content p = s.disk_manager_.content p)
    (hp : ∀ f pg, ExtendibleHashTable.Find hash s.page_table_ p = some f →
      pageAt s.pages_ f = some pg → ∃ pg', pageAt s'.pages_ f = some pg' ∧
        pg'.data_ = pg.data_ ∧ (pg.is_dirty_ = true → pg'.is_dirty_ = true)) :
    LatestContent hash s' p B := by
  rcases hl with ⟨f, pg, hfind, hpg, hdata, hdc⟩ | ⟨hnone, hcont⟩
  · left
    obtain ⟨pg', hpg', hd', hdirty⟩ := hp f pg hfind hpg
    refine ⟨f, pg', ht.trans hfind, hpg', hd'.trans hdata, ?_⟩
    rcases hdc with h | h
    · exact Or.inl (hdirty h)
    · exact Or.inr (hc.trans h)
  · right
    exact ⟨ht.trans hnone, hc.trans hcont⟩

theorem Holds.holds_congr {hash : Int → Nat} {s s' : BufferPoolManagerInstance} {p : Int}
    {B : List Nat} (hh : Holds hash s p B) (ht : s'.page_table_ = s.page_table_)
    (hfl : s'.free_list_ = s.free_list_)
    (hid : ∀ x, pageIdAt s'.pages_ x = pageIdAt s.pages_ x)
    (hn : s.next_page_id_ ≤ s'.next_page_id_)
    (hc : s'.disk_manager_.content p = s.disk_manager_.content p)
    (hp : ∀ f pg, ExtendibleHashTable.Find hash s.page_table_ p = some f →
      pageAt s.pages_ f = some pg → ∃ pg', pageAt s'.pages_ f = some pg' ∧
        pg'.data_ = pg.data_ ∧ (pg.is_dirty_ = true → pg'.is_dirty_ = true)) :
    Holds hash s' p B := by
  obtain ⟨hlt, hown, hl⟩ := hh
  refine ⟨lt_of_lt_of_le hlt hn, ?_, hl.latest_congr (by rw [ht]) hc hp⟩
  intro x hx hxf
  rw [hid] at hx; rw [hfl] at hxf; rw [ht]
  exact hown x hx hxf

/-- `takeFrame` keeps the latest content of page `p`: when the victim holds `p` its buffer
is on the disk afterwards. -/
theorem Holds.holds_take {hash : Int → Nat} {s s1 : BufferPoolManagerInstance} {g p : Int}
    {B : List Nat} (hh : Holds hash s p B)
    (hwf : ExtendibleHashTable.WF hash s.page_table_) (hd : DirInv hash s)
    (htake : takeFrame hash s = some (s1, g)) : HoldsExcept hash s1 g p B := by
  obtain ⟨hnext, -, hfree, hids, hcase⟩ := takeFrame_core htake
  obtain ⟨-, hun, -, -⟩ := hd.dir_take hwf htake
  obtain ⟨hlt, hown, hl⟩ := hh
  rcases hcase with ⟨rest, hfl, ht, hps, hdm, -⟩ | ⟨hfl, r, pg, hev, hpg, -, ht, hsub⟩
  · have hfree' : s1.free_list_ = rest := by rw [hfree, hfl]; rfl
    refine ⟨by rw [hnext]; exact hlt, ?_, hun p, ?_⟩
    · intro x hxg hx hxf
      rw [hids] at hx; rw [hfree'] at hxf; rw [ht]
      exact hown x hx (by rw [hfl]; simp [hxg, hxf])
    · refine hl.latest_congr (by rw [ht]) (by rw [hdm]) ?_
      intro f pf _ hpf
      exact ⟨pf, by rw [hps]; exact hpf, rfl, fun h => h⟩
  · have hrem : ∀ q, ExtendibleHashTable.Find hash s1.page_table_ q =
        if q = pg.page_id_ then none else ExtendibleHashTable.Find hash s.page_table_ q := by
      intro q; rw [ht]; exact ExtendibleHashTable.Find_Remove hwf _ _
    have hgid : pageIdAt s.pages_ g = some pg.page_id_ := pageIdAt_eq_some.mpr ⟨pg, hpg, rfl⟩
    have hnotfree : ∀ x : Int, x ∉ s.free_list_ := by intro x; rw [hfl]; simp
    refine ⟨by rw [hnext]; exact hlt, ?_, hun p, ?_⟩
    · intro x hxg hx _
      rw [hids] at hx
      have hfx := hown x hx (hnotfree x)
      rw [hrem]
      split
      · rename_i hq
        have hfg := hown g (by rw [hgid, hq]) (hnotfree g)
        rw [hfx] at hfg
        exact absurd (Option.some.inj hfg) hxg
      · exact hfx
    · by_cases hq : p = pg.page_id_
      · -- the victim holds `p`, and the directory maps `p` to it
        have hfg : ExtendibleHashTable.Find hash s.page_table_ p = some g :=
          hown g (by rw [hgid, hq]) (hnotfree g)
        right
        refine ⟨by rw [hrem, if_pos hq], ?_⟩
        rcases hl with ⟨f, pf, hpfind, hpf, hdata, hdc⟩ | ⟨hnone, -⟩
        · rw [hfg] at hpfind
          cases hpfind
          rw [hpg] at hpf
          cases hpf
          rcases hsub with ⟨hclean, -, hdm⟩ | ⟨hdirty, x, px, hx, hpx, -, hdm⟩
          · rw [hdm]
            rcases hdc with h | h
            · rcases hclean with h' | h'
              · rw [h] at h'; cases h'
              · rw [← hq, hfg] at h'; cases h'
            · exact h
          · rw [← hq, hfg] at hx
            cases hx
            rw [hpg] at hpx
            cases hpx
            rw [hdm]
            simp [DiskManager.WritePage, hq, hdata]
        · rw [hfg] at hnone; cases hnone
      · -- the victim holds another page
        have hfp : ExtendibleHashTable.Find hash s1.page_table_ p =
            ExtendibleHashTable.Find hash s.page_table_ p := by rw [hrem, if_neg hq]
        rcases hsub with ⟨-, hps, hdm⟩ | ⟨-, x, px, hx, hpx, hps, hdm⟩
        · refine hl.latest_congr hfp (by rw [hdm]) ?_
          intro f pf _ hpf
          exact ⟨pf, by rw [hps]; exact hpf, rfl, fun h => h⟩
        · obtain ⟨h0, h1⟩ := pageAt_some hpx
          refine hl.latest_congr hfp (by rw [hdm]; simp [DiskManager.WritePage, hq]) ?_
          intro f pf hpfind hpf
          have hfx : f ≠ x := by
            intro he
            subst he
            have e1 := hd.dir_page p f hpfind
            have e2 := hd.dir_page _ f hx
            rw [e1] at e2
            exact hq (Option.some.inj e2)
          refine ⟨pf, ?_, rfl, fun h => h⟩
          rw [hps, pageAt_setPageAt h0 h1, if_neg hfx]
          exact hpf

end BufferPoolManagerInstance

end Bustub

namespace Bustub

namespace BufferPoolManagerInstance

/-- Installing another page id in the frame obtained by `takeFrame` keeps the latest
content of page `p`. -/
theorem HoldsExcept.holds_install {hash : Int → Nat} {s1 s' : BufferPoolManagerInstance}
    {g n p : Int} {B : List Nat} {fuel : Nat} {pt : ExtendibleHashTable Int Int}
    {pg0 pgn : Page} (he : HoldsExcept hash s1 g p B)
    (hwf : ExtendibleHashTable.WF hash s1.page_table_) (hne : p ≠ n)
    (hins : ExtendibleHashTable.Insert hash fuel s1.page_table_ n g = some pt)
    (hpg0 : pageAt s1.pages_ g = some pg0) (hid : pgn.page_id_ = n)
    (ht : s'.page_table_ = pt) (hp : s'.pages_ = setPageAt s1.pages_ g pgn)
    (hfl : s'.free_list_ = s1.free_list_)
    (hc : s'.disk_manager_.content p = s1.disk_manager_.content p)
    (hn : s1.next_page_id_ ≤ s'.next_page_id_) : Holds hash s' p B := by
  obtain ⟨h0, h1⟩ := pageAt_some hpg0
  have hfind : ExtendibleHashTable.Find hash s'.page_table_ p =
      ExtendibleHashTable.Find hash s1.page_table_ p := by
    rw [ht]; exact ExtendibleHashTable.Find_Insert_other hwf hne hins
  obtain ⟨hlt, hown, hun, hl⟩ := he
  refine ⟨lt_of_lt_of_le hlt hn, ?_, hl.latest_congr hfind hc ?_⟩
  · intro x hx hxf
    rw [hp, pageIdAt_setPageAt hpg0] at hx
    rw [hfl] at hxf
    rw [hfind]
    split at hx
    · rw [hid] at hx
      exact absurd (Option.some.inj hx).symm hne
    · rename_i hxg
      exact hown x hxg hx hxf
  · intro f pf hpfind hpf
    have hfg : f ≠ g := fun h => hun (h ▸ hpfind)
    refine ⟨pf, ?_, rfl, fun h => h⟩
    rw [hp, pageAt_setPageAt h0 h1, if_neg hfg]
    exact hpf

/-- Reloading page `p` itself into the frame obtained by `takeFrame`: the buffer read from
the disk is the latest content of `p`. -/
theorem HoldsExcept.holds_reload {hash : Int → Nat} {s1 s' : BufferPoolManagerInstance}
    {g p : Int} {B : List Nat} {fuel : Nat} {pt : ExtendibleHashTable Int Int}
    {pg0 : Page} (he : HoldsExcept hash s1 g p B)
    (hnone : ExtendibleHashTable.Find hash s1.page_table_ p = none)
    (hins : ExtendibleHashTable.Insert hash fuel s1.page_table_ p g = some pt)
    (hpg0 : pageAt s1.pages_ g = some pg0)
    (ht : s'.page_table_ = pt)
    (hp : s'.pages_ = setPageAt s1.pages_ g
      { data_ := s1.disk_manager_.content p, page_id_ := p, pin_count_ := 1,
        is_dirty_ := false })
    (hfl : s'.free_list_ = s1.free_list_)
    (hc : s'.disk_manager_.content p = s1.disk_manager_.content p)
    (hn : s1.next_page_id_ ≤ s'.next_page_id_) :
    Holds hash s' p B ∧ ∃ pg, pageAt s'.pages_ g = some pg ∧ pg.data_ = B := by
  obtain ⟨h0, h1⟩ := pageAt_some hpg0
  obtain ⟨hlt, hown, hun, hl⟩ := he
  have hfind : ExtendibleHashTable.Find hash s'.page_table_ p = some g := by
    rw [ht]; exact ExtendibleHashTable.Find_Insert_self hash fuel _ _ _ _ hins
  have hcont : s1.disk_manager_.content p = B := by
    rcases hl with ⟨f, pf, hpfind, -⟩ | ⟨-, h⟩
    · rw [hnone] at hpfind; cases hpfind
    · exact h
  have hpage : pageAt s'.pages_ g = some
      { data_ := s1.disk_manager_.content p, page_id_ := p, pin_count_ := 1,
        is_dirty_ := false } := by
    rw [hp, pageAt_setPageAt h0 h1]; simp
  refine ⟨⟨lt_of_lt_of_le hlt hn, ?_, Or.inl ⟨g, _, hfind, hpage, hcont, Or.inr (hc.trans hcont)⟩⟩,
    _, hpage, hcont⟩
  intro x hx hxf
  rw [hp, pageIdAt_setPageAt hpg0] at hx
  rw [hfl] at hxf
  rw [hfind]
  split at hx
  · rename_i hxg; rw [hxg]
  · rename_i hxg
    have := hown x hxg hx hxf
    rw [hnone] at this; cases this

theorem takeFrame_wf {hash : Int → Nat} {s s1 : BufferPoolManagerInstance} {g : Int}
    (hwf : ExtendibleHashTable.WF hash s.page_table_)
    (htake : takeFrame hash s = some (s1, g)) :
    ExtendibleHashTable.WF hash s1.page_table_ := by
  obtain ⟨-, -, -, -, hcase⟩ := takeFrame_core htake
  rcases hcase with ⟨rest, -, ht, -⟩ | ⟨-, r', pg, -, -, -, ht, -⟩
  · rw [ht]; exact hwf
  · rw [ht]; exact hwf.table_remove _

theorem Holds.holds_newPage {hash : Int → Nat} {s s' : BufferPoolManagerInstance}
    {p : Int} {B : List Nat} {fuel : Nat} {a : Option (Int × Int)}
    (hh : Holds hash s p B) (hwf : ExtendibleHashTable.WF hash s.page_table_)
    (hd : DirInv hash s) (hop : NewPgImp hash fuel s = Res.ok s' a) : Holds hash s' p B := by
  rcases NewPgImp_ok hop with ⟨-, rfl, -⟩ | ⟨s1, g, pt, r, pg0, htake, hins, hpg0, -, rfl⟩
  · exact hh
  · have hh0 : Holds hash { s with next_page_id_ := s.next_page_id_ + 1 } p B :=
      hh.holds_congr rfl rfl (fun _ => rfl)
        (by show s.next_page_id_ ≤ s.next_page_id_ + 1; omega) rfl
        (fun f pg _ hpg => ⟨pg, hpg, rfl, fun h => h⟩)
    have hd0 : DirInv hash { s with next_page_id_ := s.next_page_id_ + 1 } :=
      hd.dir_congr rfl rfl (fun _ => rfl)
    have he := hh0.holds_take hwf hd0 htake
    have hwf1 : ExtendibleHashTable.WF hash s1.page_table_ :=
      @takeFrame_wf hash _ s1 g (show ExtendibleHashTable.WF hash
        ({ s with next_page_id_ := s.next_page_id_ + 1 } :
          BufferPoolManagerInstance).page_table_ from hwf) htake
    exact he.holds_install hwf1 (ne_of_lt hh.1) hins hpg0 rfl rfl rfl rfl rfl (le_refl _)

/-- `FetchPgImp` keeps the latest content of page `p`, whichever page is fetched, and a
fetch of `p` itself returns a frame whose buffer is that content. -/
theorem Holds.holds_fetchPage {hash : Int → Nat} {s s' : BufferPoolManagerInstance}
    {p q : Int} {B : List Nat} {fuel : Nat} {a : Option Int}
    (hh : Holds hash s p B) (hwf : ExtendibleHashTable.WF hash s.page_table_)
    (hd : DirInv hash s) (hop : FetchPgImp hash fuel s q = Res.ok s' a) :
    Holds hash s' p B ∧ (q = p → ∀ f', a = some f' →
      ∃ pg, pageAt s'.pages_ f' = some pg ∧ pg.data_ = B) := by
  rcases FetchPgImp_ok hop with ⟨g, pg, r, hfind, hpg, ha, rfl⟩ | ⟨-, ha, rfl, -⟩ |
    ⟨hnone, s1, g, pt, r, pg0, htake, hins, hpg0, ha, rfl⟩
  · obtain ⟨h0, h1⟩ := pageAt_some hpg
    constructor
    · refine hh.holds_congr rfl rfl (pageIdAt_setPageAt_same hpg rfl) (le_refl _) rfl ?_
      intro f pf _ hpf
      show ∃ pg', pageAt (setPageAt s.pages_ g _) f = some pg' ∧ _
      rw [pageAt_setPageAt h0 h1]
      by_cases hfg : f = g
      · subst hfg
        rw [hpg] at hpf
        cases hpf
        exact ⟨_, if_pos rfl, rfl, fun h => h⟩
      · exact ⟨pf, by simp [hfg, hpf], rfl, fun h => h⟩
    · intro hqp f' hf'
      subst hqp
      rw [ha] at hf'
      cases hf'
      show ∃ pg', pageAt (setPageAt s.pages_ g _) g = some pg' ∧ _
      rw [pageAt_setPageAt h0 h1]
      rcases hh.2.2 with ⟨f, pf, hpfind, hpf, hdata, -⟩ | ⟨hn, -⟩
      · rw [hfind] at hpfind
        cases hpfind
        rw [hpg] at hpf
        cases hpf
        exact ⟨_, if_pos rfl, hdata⟩
      · rw [hfind] at hn; cases hn
  · refine ⟨hh, ?_⟩
    intro _ f' hf'
    rw [ha] at hf'; cases hf'
  · have he := hh.holds_take hwf hd htake
    have hwf1 := takeFrame_wf hwf htake
    by_cases hqp : q = p
    · subst hqp
      have hnone1 : ExtendibleHashTable.Find hash s1.page_table_ q = none := by
        obtain ⟨-, -, -, -, hcase⟩ := takeFrame_core htake
        rcases hcase with ⟨rest, -, ht, -⟩ | ⟨-, r', pg, -, -, -, ht, -⟩
        · rw [ht]; exact hnone
        · rw [ht, ExtendibleHashTable.Find_Remove hwf]
          split
          · rfl
          · exact hnone
      have key : Holds hash { s1 with
          page_table_ := pt
          pages_ := setPageAt s1.pages_ g
            { data_ := s1.disk_manager_.content q, page_id_ := q, pin_count_ := 1,
              is_dirty_ := false }
          disk_manager_ := (s1.disk_manager_.ReadPage q).1
          replacer_ := r } q B ∧ ∃ pg, pageAt (setPageAt s1.pages_ g
            { data_ := s1.disk_manager_.content q, page_id_ := q, pin_count_ := 1,
              is_dirty_ := false }) g = some pg ∧ pg.data_ = B :=
        he.holds_reload hnone1 hins hpg0 rfl rfl rfl (by simp [DiskManager.ReadPage])
          (le_refl _)
      obtain ⟨h1, h2⟩ := key
      refine ⟨h1, ?_⟩
      intro _ f' hf'
      rw [ha] at hf'
      cases hf'
      exact h2
    · refine ⟨he.holds_install hwf1 (fun h => hqp h.symm) hins hpg0 rfl rfl rfl rfl ?_
        (le_refl _), fun h => absurd h hqp⟩
      show (s1.disk_manager_.ReadPage q).1.content p = _
      simp [DiskManager.ReadPage]

theorem Holds.holds_unpinPage {hash : Int → Nat} {s s' : BufferPoolManagerInstance}
    {p q : Int} {B : List Nat} {d b : Bool} (hh : Holds hash s p B)
    (hop : UnpinPgImp hash s q d = Res.ok s' b) : Holds hash s' p B := by
  rcases UnpinPgImp_ok hop with ⟨-, rfl⟩ | ⟨g, pg, r, -, hpg, -, -, rfl⟩
  · exact hh
  · obtain ⟨h0, h1⟩ := pageAt_some hpg
    refine hh.holds_congr rfl rfl (pageIdAt_setPageAt_same hpg rfl) (le_refl _) rfl ?_
    intro f pf _ hpf
    show ∃ pg', pageAt (setPageAt s.pages_ g _) f = some pg' ∧ _
    rw [pageAt_setPageAt h0 h1]
    by_cases hfg : f = g
    · subst hfg
      rw [hpg] at hpf
      cases hpf
      refine ⟨_, if_pos rfl, rfl, ?_⟩
      intro h
      cases d <;> simp [h]
    · exact ⟨pf, by simp [hfg, hpf], rfl, fun h => h⟩

theorem Holds.holds_flushPage {hash : Int → Nat} {s s' : BufferPoolManagerInstance}
    {p q : Int} {B : List Nat} {b : Bool} (hh : Holds hash s p B) (hd : DirInv hash s)
    (hop : FlushPgImp hash s q = Res.ok s' b) : Holds hash s' p B := by
  rcases FlushPgImp_ok hop with ⟨-, -, rfl⟩ | ⟨g, pg, hfind, hpg, -, rfl⟩
  · exact hh
  · obtain ⟨h0, h1⟩ := pageAt_some hpg
    obtain ⟨hlt, hown, hl⟩ := hh
    refine ⟨hlt, ?_, ?_⟩
    · intro x hx hxf
      have hx' : pageIdAt (setPageAt s.pages_ g { pg with is_dirty_ := false }) x = some p := hx
      rw [@pageIdAt_setPageAt_same s.pages_ g pg hpg { pg with is_dirty_ := false } rfl x]
        at hx'
      exact hown x hx' hxf
    by_cases hqp : q = p
    · subst hqp
      rcases hl with ⟨f, pf, hpfind, hpf, hdata, -⟩ | ⟨hn, -⟩
      · rw [hfind] at hpfind
        cases hpfind
        rw [hpg] at hpf
        cases hpf
        left
        refine ⟨g, { pg with is_dirty_ := false }, hfind, ?_, hdata, Or.inr ?_⟩
        · show pageAt (setPageAt s.pages_ g _) g = _
          rw [pageAt_setPageAt h0 h1]; simp
        · show (s.disk_manager_.WritePage q pg.data_).content q = B
          simp [DiskManager.WritePage, hdata]
      · rw [hfind] at hn; cases hn
    · have hcont : (s.disk_manager_.WritePage q pg.data_).content p =
          s.disk_manager_.content p := by
        have hpq : ¬ p = q := fun h => hqp h.symm
        simp [DiskManager.WritePage, hpq]
      refine hl.latest_congr rfl hcont ?_
      intro f pf hpfind hpf
      have hfg : f ≠ g := by
        intro he
        subst he
        have e1 := hd.dir_page p f hpfind
        have e2 := hd.dir_page q f hfind
        rw [e1] at e2
        exact hqp (Option.some.inj e2).symm
      refine ⟨pf, ?_, rfl, fun h => h⟩
      show pageAt (setPageAt s.pages_ g _) f = _
      rw [pageAt_setPageAt h0 h1, if_neg hfg]; exact hpf

theorem Holds.holds_write {hash : Int → Nat} {s s' : BufferPoolManagerInstance}
    {p g : Int} {B data : List Nat} (hh : Holds hash s p B)
    (hg : ExtendibleHashTable.Find hash s.page_table_ p ≠ some g)
    (hop : writeData s g data = some s') : Holds hash s' p B := by
  obtain ⟨pg, hpg, -, rfl⟩ := writeData_ok hop
  obtain ⟨h0, h1⟩ := pageAt_some hpg
  refine hh.holds_congr rfl rfl (pageIdAt_setPageAt_same hpg rfl) (le_refl _) rfl ?_
  intro f pf hpfind hpf
  have hfg : f ≠ g := fun he => hg (he ▸ hpfind)
  show ∃ pg', pageAt (setPageAt s.pages_ g _) f = some pg' ∧ _
  rw [pageAt_setPageAt h0 h1, if_neg hfg]
  exact ⟨pf, hpf, rfl, fun h => h⟩

/-- The latest content of page `p` survives every later sequence of calls in which nobody
rewrites the buffer of `p`. -/
theorem Later.holds {hash : Int → Nat} {pool_size replacer_k bucket_size : Nat}
    (hk : 1 ≤ replacer_k) (hb : 1 ≤ bucket_size) {disk_manager : DiskManager} {p : Int}
    {B : List Nat} {s s' : BufferPoolManagerInstance} (h : Later hash p s s')
    (hs : Reachable hash pool_size replacer_k bucket_size disk_manager s)
    (hh : Holds hash s p B) : Holds hash s' p B := by
  induction h with
  | refl => exact hh
  | newPage fuel a hl hop ih =>
    have hr := hl.later_reachable hs
    exact ih.holds_newPage (hr.pool_inv hk hb).1.table_wf (hr.dirInv hk hb) hop
  | fetchPage fuel q a hl hop ih =>
    have hr := hl.later_reachable hs
    exact (ih.holds_fetchPage (hr.pool_inv hk hb).1.table_wf (hr.dirInv hk hb) hop).1
  | unpinPage q d b hl hop ih => exact ih.holds_unpinPage hop
  | flushPage q b hl hop ih =>
    have hr := hl.later_reachable hs
    exact ih.holds_flushPage (hr.dirInv hk hb) hop
  | write f data hl hf hop ih => exact ih.holds_write hf hop

end BufferPoolManagerInstance

end Bustub

namespace Bustub

namespace BufferPoolManagerInstance

/-- C12. Buffer pool round trip. In a reachable manager state in which no frame outside
the free list holds the page id that `NewPgImp` hands out next, let `NewPgImp` return page
`p` in frame `f`, let the client write the bytes `B` into the buffer of `f` while it is
pinned, and let `UnpinPgImp(p, true)` return true. After any later sequence of `NewPgImp`,
`FetchPgImp`, `UnpinPgImp` and `FlushPgImp` calls (with any arguments) and of client
writes into other pages' frames, a `FetchPgImp(p)` that returns a frame returns one whose
buffer equals `B`. The condition on the state holds in every state reached with
`FetchPgImp` called only on page ids below `next_page_id_` (ids that `NewPgImp` has
handed out). -/
theorem C12_round_trip (hash : Int → Nat) (pool_size replacer_k bucket_size : Nat)
    (hk : 1 ≤ replacer_k) (hb : 1 ≤ bucket_size) (disk_manager : DiskManager) :
    (∀ (s s1 s2 s3 s4 s5 : BufferPoolManagerInstance) (fuel fuel' : Nat) (f p f' : Int)
        (B : List Nat),
      Reachable hash pool_size replacer_k bucket_size disk_manager s →
      (∀ g, pageIdAt s.pages_ g = some s.next_page_id_ → g ∈ s.free_list_) →
      NewPgImp hash fuel s = Res.ok s1 (some (f, p)) →
      writeData s1 f B = some s2 →
      UnpinPgImp hash s2 p true = Res.ok s3 true →
      Later hash p s3 s4 →
      FetchPgImp hash fuel' s4 p = Res.ok s5 (some f') →
      ∃ pg, pageAt s5.pages_ f' = some pg ∧ pg.data_ = B) ∧
    (∀ s, ReachableAllocated hash pool_size replacer_k bucket_size disk_manager s →
      ∀ g, pageIdAt s.pages_ g = some s.next_page_id_ → g ∈ s.free_list_) := by
  constructor
  · intro s s1 s2 s3 s4 s5 fuel fuel' f p f' B hreach hfresh hnew hwrite hunpin hlater hfetch
    have hr1 := Reachable.newPage fuel _ hreach hnew
    have hr2 := Reachable.write f B hr1 hwrite
    have hr3 := Reachable.unpinPage p true true hr2 hunpin
    have hr4 := hlater.later_reachable hr3
    -- the state after `NewPgImp`
    have h1 : p < s1.next_page_id_ ∧
        ExtendibleHashTable.Find hash s1.page_table_ p = some f ∧
        (∀ x, pageIdAt s1.pages_ x = some p → x ∉ s1.free_list_ → x = f) := by
      rcases NewPgImp_ok hnew with ⟨ha, -⟩ | ⟨t1, g, pt, r, pg0, htake, hins, hpg0, ha, rfl⟩
      · cases ha
      · simp only [Option.some.injEq, Prod.mk.injEq] at ha
        obtain ⟨rfl, rfl⟩ := ha
        obtain ⟨hnext, -, hfree, hids, hcase⟩ := takeFrame_core htake
        refine ⟨?_, ExtendibleHashTable.Find_Insert_self hash fuel _ _ _ _ hins, ?_⟩
        · show s.next_page_id_ < t1.next_page_id_
          rw [hnext]
          show s.next_page_id_ < s.next_page_id_ + 1
          omega
        · intro x hx hxf
          by_contra hxg
          have hx' : pageIdAt (setPageAt t1.pages_ f _) x = some s.next_page_id_ := hx
          rw [pageIdAt_setPageAt hpg0, if_neg hxg, hids] at hx'
          have hmem : x ∈ s.free_list_ := hfresh x hx'
          have hxf' : x ∉ t1.free_list_ := hxf
          rw [hfree] at hxf'
          rcases hcase with ⟨rest, hfl, -⟩ | ⟨hfl, -⟩
          · have hfl' : s.free_list_ = f :: rest := hfl
            rw [hfl'] at hmem
            have : x ∉ (f :: rest).tail := by
              have h2 : x ∉ s.free_list_.tail := hxf'
              rw [hfl'] at h2; exact h2
            simp only [List.tail_cons] at this
            rcases List.mem_cons.mp hmem with h | h
            · exact hxg h
            · exact this h
          · have hfl' : s.free_list_ = [] := hfl
            rw [hfl'] at hmem
            cases hmem
    obtain ⟨hlt1, hfind1, hown1⟩ := h1
    -- the state after the write
    obtain ⟨pg1, hpg1, -, rfl⟩ := writeData_ok hwrite
    obtain ⟨h0, hlen⟩ := pageAt_some hpg1
    have hpg2 : pageAt (setPageAt s1.pages_ f { pg1 with data_ := B }) f =
        some { pg1 with data_ := B } := by
      rw [pageAt_setPageAt h0 hlen]; simp
    -- the state after the unpin
    have hh3 : Holds hash s3 p B := by
      rcases UnpinPgImp_ok hunpin with ⟨hb', -⟩ | ⟨g, pg, r, hfind, hpg, -, -, rfl⟩
      · cases hb'
      · have hfind' : ExtendibleHashTable.Find hash s1.page_table_ p = some g := hfind
        rw [hfind1] at hfind'
        cases hfind'
        have hpg' : pageAt (setPageAt s1.pages_ f { pg1 with data_ := B }) f = some pg := hpg
        rw [hpg2] at hpg'
        cases hpg'
        refine ⟨hlt1, ?_, Or.inl ⟨f, (⟨B, pg1.page_id_, pg1.pin_count_ - 1, true⟩ : Page),
          hfind1, ?_, rfl, Or.inl rfl⟩⟩
        · intro x hx hxf
          have hx' : pageIdAt (setPageAt (setPageAt s1.pages_ f { pg1 with data_ := B }) f
            (⟨B, pg1.page_id_, pg1.pin_count_ - 1, true⟩ : Page)) x = some p := hx
          rw [setPageAt_setPageAt, @pageIdAt_setPageAt_same s1.pages_ f pg1 hpg1
            (⟨B, pg1.page_id_, pg1.pin_count_ - 1, true⟩ : Page) rfl x] at hx'
          have hfx : x = f := hown1 x hx' hxf
          show ExtendibleHashTable.Find hash s1.page_table_ p = some x
          rw [hfx]; exact hfind1
        · show pageAt (setPageAt (setPageAt s1.pages_ f _) f _) f = _
          rw [setPageAt_setPageAt, pageAt_setPageAt h0 hlen]
          simp
    have hh4 := hlater.holds hk hb hr3 hh3
    exact (hh4.holds_fetchPage (hr4.pool_inv hk hb).1.table_wf (hr4.dirInv hk hb) hfetch).2
      rfl f' rfl
  · intro s hreach g hg
    by_contra hgf
    have hf := hreach.frameInv hk hb
    exact lt_irrefl _ (hf.keys_lt _ g (hf.frame_dir g _ hg hgf))

end BufferPoolManagerInstance

end Bustub

namespace Bustub

/-- Witness of C12: in a pool of one frame, page 0 is created, the client writes `[7]` and
unpins the page dirty; creating page 1 evicts page 0, and after page 1 is unpinned,
`FetchPgImp(0)` evicts page 1, reloads page 0 and returns frame 0 with buffer `[7]`. -/
theorem C12_round_trip_witness :
    ∃ w2 w3 w4 w5 s5 : BufferPoolManagerInstance,
      BufferPoolManagerInstance.NewPgImp exampleHash 1
        (BufferPoolManagerInstance.new 1 2 2 exampleDisk) = Res.ok examplePool (some (0, 0)) ∧
      BufferPoolManagerInstance.writeData examplePool 0 [7] = some w2 ∧
      BufferPoolManagerInstance.UnpinPgImp exampleHash w2 0 true = Res.ok w3 true ∧
      BufferPoolManagerInstance.NewPgImp exampleHash 1 w3 = Res.ok w4 (some (0, 1)) ∧
      BufferPoolManagerInstance.UnpinPgImp exampleHash w4 1 false = Res.ok w5 true ∧
      BufferPoolManagerInstance.FetchPgImp exampleHash 1 w5 0 = Res.ok s5 (some 0) ∧
      ∃ pg, BufferPoolManagerInstance.pageAt s5.pages_ 0 = some pg ∧ pg.data_ = [7] := by
  refine ⟨_, _, _, _, _, rfl, rfl, rfl, rfl, rfl, rfl, ?_⟩
  have h := BufferPoolManagerInstance.C12_round_trip exampleHash 1 2 2 (by decide) (by decide)
    exampleDisk
  exact h.1 _ _ _ _ _ _ 1 1 0 0 0 [7] BufferPoolManagerInstance.Reachable.init
    (h.2 _ BufferPoolManagerInstance.ReachableAllocated.init) rfl rfl rfl
    (BufferPoolManagerInstance.Later.unpinPage 1 false true
      (BufferPoolManagerInstance.Later.newPage 1 (some (0, 1))
        (BufferPoolManagerInstance.Later.refl _) rfl) rfl)
    rfl

/-- Counterexample to C12 for arbitrary page-id arguments: in a pool of two frames,
`FetchPgImp(0)` before page id 0 has been handed out puts page 0 in frame 0, and the
page is unpinned. `NewPgImp` then returns page 0 in frame 1, the client writes `[1]`
into it and unpins it dirty. Evicting frame 0 for `FetchPgImp(7)` removes page 0 from
the directory, so the later eviction of the dirty frame 1 writes nothing, and the final
`FetchPgImp(0)` returns frame 1 with the buffer read from the disk, which is not `[1]`. -/
theorem C12_lost_write_counterexample :
    ∃ d1 d2 d3 d4 d5 d6 d7 d8 : BufferPoolManagerInstance,
      BufferPoolManagerInstance.FetchPgImp exampleHash 1
        (BufferPoolManagerInstance.new 2 2 2 exampleDisk) 0 = Res.ok d1 (some 0) ∧
      BufferPoolManagerInstance.UnpinPgImp exampleHash d1 0 false = Res.ok d2 true ∧
      BufferPoolManagerInstance.Reachable exampleHash 2 2 2 exampleDisk d2 ∧
      BufferPoolManagerInstance.NewPgImp exampleHash 1 d2 = Res.ok d3 (some (1, 0)) ∧
      BufferPoolManagerInstance.writeData d3 1 [1] = some d4 ∧
      BufferPoolManagerInstance.UnpinPgImp exampleHash d4 0 true = Res.ok d5 true ∧
      BufferPoolManagerInstance.FetchPgImp exampleHash 1 d5 7 = Res.ok d6 (some 0) ∧
      BufferPoolManagerInstance.UnpinPgImp exampleHash d6 7 false = Res.ok d7 true ∧
      BufferPoolManagerInstance.FetchPgImp exampleHash 1 d7 0 = Res.ok d8 (some 1) ∧
      d8.disk_manager_.log = [DiskOp.read 0, DiskOp.read 7, DiskOp.read 0] ∧
      ∃ pg, BufferPoolManagerInstance.pageAt d8.pages_ 1 = some pg ∧ pg.page_id_ = 0 ∧
        pg.data_ = [] ∧ pg.data_ ≠ [1] :=
  ⟨_, _, _, _, _, _, _, _, rfl, rfl,
    BufferPoolManagerInstance.Reachable.unpinPage 0 false true
      (BufferPoolManagerInstance.Reachable.fetchPage 1 0 (some 0)
        BufferPoolManagerInstance.Reachable.init rfl) rfl,
    rfl, rfl, rfl, rfl, rfl, rfl, rfl, _, rfl, rfl, rfl, by decide⟩

end Bustub

namespace Bustub

namespace ExtendibleHashTable

variable {K V : Type} [DecidableEq K]

/-! ## Extendible hash table: the split loop of `Insert` -/

/-- Every table state of the split loop is well-formed. -/
theorem LoopState.loop_wf {hash : K → Nat} {t t0 : ExtendibleHashTable K V} {k : K} {v : V}
    (hwf : WF hash t) (h : LoopState hash t k v t0) : WF hash t0 := by
  induction h with
  | start => exact hwf
  | split _ _ hba _ hr ih =>
    obtain ⟨hd, hb⟩ := bucketAt_eq_some.mp hba
    exact ih.redistribute hd hb hr

/-- What a split does to the local depths: the split bucket gains one, the new bucket gets
the same depth, every other bucket is untouched. -/
theorem RedistributeBucket_depths {hash : K → Nat} {t t' : ExtendibleHashTable K V}
    (hwf : WF hash t) {bid : Nat} (hmem : bid ∈ t.dir_)
    (hr : RedistributeBucket hash t bid = some t') :
    ∃ b b' c, t.heap[bid]? = some b ∧ t'.heap[bid]? = some b' ∧ b'.depth_ = b.depth_ + 1 ∧
      t'.heap.length = t.heap.length + 1 ∧
      t'.heap[t.heap.length]? = some c ∧ c.depth_ = b.depth_ + 1 ∧
      ∀ x, x ≠ bid → x < t.heap.length → t'.heap[x]? = t.heap[x]? := by
  obtain ⟨i0, hslot⟩ := List.mem_iff_getElem?.mp hmem
  obtain ⟨b, hb, -⟩ := hwf.slot i0 bid hslot
  have hne : b.list_ ≠ [] := by
    intro hnil
    simp [RedistributeBucket, hb, hnil] at hr
  obtain ⟨t'', hr', -, -, -, -, -, -, -, hlen, hold, hnew, hother⟩ :=
    RedistributeBucket_spec hwf hslot hb hne (RedistributeBucket_bound hb hr)
  rw [hr] at hr'; cases hr'
  exact ⟨b, _, _, hb, hold, rfl, hlen, hnew, rfl, hother⟩

/-- No bucket loses local depth in a split. -/
theorem RedistributeBucket_depth_le {hash : K → Nat} {t t' : ExtendibleHashTable K V}
    (hwf : WF hash t) {bid : Nat} (hmem : bid ∈ t.dir_)
    (hr : RedistributeBucket hash t bid = some t') {x : Nat} {c : Bucket K V}
    (hc : t.heap[x]? = some c) : ∃ c', t'.heap[x]? = some c' ∧ c.depth_ ≤ c'.depth_ := by
  obtain ⟨b, b', -, hb, hb', hdep, -, -, -, hother⟩ := RedistributeBucket_depths hwf hmem hr
  by_cases hx : x = bid
  · subst hx
    rw [hb] at hc; cases hc
    exact ⟨b', hb', by omega⟩
  · have hlt : x < t.heap.length := (List.getElem?_eq_some.mp hc).1
    exact ⟨c, by rw [hother x hx hlt]; exact hc, le_refl _⟩

/-- No bucket loses local depth in an `Insert`. -/
theorem Insert_depth_le {hash : K → Nat} {fuel : Nat} {t t' : ExtendibleHashTable K V}
    {k : K} {v : V} (hwf : WF hash t) (h : Insert hash fuel t k v = some t') {x : Nat}
    {c : Bucket K V} (hc : t.heap[x]? = some c) :
    ∃ c', t'.heap[x]? = some c' ∧ c.depth_ ≤ c'.depth_ := by
  induction fuel generalizing t c with
  | zero => simp [Insert] at h
  | succ m ih =>
    obtain ⟨bid, b, hd, hb, hcase⟩ := Insert_succ_cases h
    rcases hcase with ⟨hs, rfl⟩ | ⟨hs, t1, hr, hrec⟩
    · have hbid : bid < t.heap.length := (List.getElem?_eq_some.mp hb).1
      by_cases hx : x = bid
      · subst hx
        rw [hb] at hc
        have hcb : b = c := Option.some.inj hc
        subst hcb
        refine ⟨(b.Insert k v).2, ?_, ?_⟩
        · show (t.heap.set x _)[x]? = _
          simp [List.getElem?_set, hbid]
        · rw [(Bucket.Insert_true hs).2.2.1]
      · refine ⟨c, ?_, le_refl _⟩
        show (t.heap.set bid _)[x]? = some c
        rw [List.getElem?_set_ne (fun h => hx h.symm)]; exact hc
    · have hmem : bid ∈ t.dir_ := List.mem_iff_getElem?.mpr ⟨_, hd⟩
      obtain ⟨c1, hc1, hle1⟩ := RedistributeBucket_depth_le hwf hmem hr hc
      obtain ⟨c', hc', hle'⟩ := ih (hwf.redistribute hd hb hr) hrec hc1
      exact ⟨c', hc', le_trans hle1 hle'⟩

/-- Every bucket of the arena is referenced by the directory, in every reachable table. -/
theorem Insert_referenced {hash : K → Nat} {fuel : Nat} {t t' : ExtendibleHashTable K V}
    {k : K} {v : V} (hwf : WF hash t) (href : ∀ x, x < t.heap.length → x ∈ t.dir_)
    (h : Insert hash fuel t k v = some t') : ∀ x, x < t'.heap.length → x ∈ t'.dir_ := by
  induction fuel generalizing t with
  | zero => simp [Insert] at h
  | succ m ih =>
    obtain ⟨bid, b, hd, hb, hcase⟩ := Insert_succ_cases h
    rcases hcase with ⟨hs, rfl⟩ | ⟨hs, t1, hr, hrec⟩
    · intro x hx
      exact href x (by simpa using hx)
    · have hmem : bid ∈ t.dir_ := List.mem_iff_getElem?.mpr ⟨_, hd⟩
      obtain ⟨-, -, hiff⟩ := RedistributeBucket_handles hwf hmem hr
      obtain ⟨-, -, -, -, -, -, hlen, -⟩ := RedistributeBucket_depths hwf hmem hr
      refine ih (hwf.redistribute hd hb hr) ?_ hrec
      intro x hx
      rw [hlen] at hx
      rw [hiff]
      by_cases hxl : x = t.heap.length
      · exact Or.inl hxl
      · exact Or.inr (href x (by omega))

theorem Reachable.referenced {hash : K → Nat} {bucket_size : Nat}
    {t : ExtendibleHashTable K V} (h : Reachable hash bucket_size t) :
    ∀ x, x < t.heap.length → x ∈ t.dir_ := by
  induction h with
  | init =>
    intro x hx
    have : x = 0 := by
      have : x < 1 := hx
      omega
    subst this
    show 0 ∈ [0]
    simp
  | insert fuel k v hreach hins ih => exact Insert_referenced hreach.wf ih hins
  | remove k hreach ih =>
    rename_i t0
    rcases Table_Remove_cases hash t0 k with ⟨h, -⟩ | ⟨bid, b, -, -, h⟩
    · rw [h]; exact ih
    · rw [h]
      intro x hx
      exact ih x (by simpa using hx)

/-- A key held by a bucket of the arena of a reachable table is found by `Find`. -/
theorem Reachable.find_of_mem {hash : K → Nat} {bucket_size : Nat}
    {t : ExtendibleHashTable K V} (h : Reachable hash bucket_size t) {b : Bucket K V}
    (hb : b ∈ t.heap) {kv : K × V} (hkv : kv ∈ b.list_) :
    (Find hash t kv.1).isSome = true := by
  have hwf := h.wf
  obtain ⟨bid, hbid⟩ := List.mem_iff_getElem?.mp hb
  have hlt : bid < t.heap.length := (List.getElem?_eq_some.mp hbid).1
  obtain ⟨i, hi⟩ := List.mem_iff_getElem?.mp (h.referenced bid hlt)
  obtain ⟨b0, hb0, hdep, hshare, hkeys, -⟩ := hwf.slot i bid hi
  rw [hbid] at hb0; cases hb0
  have hj : hash kv.1 % 2 ^ t.global_depth_ < t.dir_.length := by
    rw [hwf.dir_len]; exact Nat.mod_lt _ (by positivity)
  have hslot : t.dir_[hash kv.1 % 2 ^ t.global_depth_]? = some bid := by
    rw [hshare _ hj, mod_mod_pow_le _ hdep]
    exact hkeys kv hkv
  rw [Find_of_bucketAt hwf.depth_le hslot hbid]
  cases hf : Bucket.findList kv.1 b.list_ with
  | some x => rfl
  | none =>
    exact absurd (List.mem_map_of_mem Prod.fst hkv) ((Bucket.findList_eq_none_iff _ _).mp hf)

end ExtendibleHashTable

end Bustub

namespace Bustub

namespace ExtendibleHashTable

variable {K V : Type} [DecidableEq K]

theorem Reachable.table_bucket_size {hash : K → Nat} {bucket_size : Nat}
    {t : ExtendibleHashTable K V} (h : Reachable hash bucket_size t) :
    t.bucket_size_ = bucket_size := by
  induction h with
  | init => rfl
  | insert fuel k v hreach hins ih => rw [Insert_bucket_size hreach.wf hins, ih]
  | remove k hreach ih => rw [Remove_bucket_size, ih]

/-- A key that `Find` finds is held by a bucket of the arena. -/
theorem Find_some_mem {hash : K → Nat} {t : ExtendibleHashTable K V} {key : K} {v : V}
    (h : Find hash t key = some v) : ∃ b ∈ t.heap, (key, v) ∈ b.list_ := by
  unfold Find at h
  split at h
  · cases h
  · split at h
    · cases h
    · split at h
      · cases h
      · rename_i bid b hba
        obtain ⟨-, hb⟩ := bucketAt_eq_some.mp hba
        exact ⟨b, List.getElem?_mem hb, Bucket.mem_of_findList h⟩

/-- In a reachable table, a key whose hash differs in the low 30 bits from the hash of every
other key that `Find` finds differs so from every other key of the arena. -/
theorem Reachable.separated {hash : K → Nat} {bucket_size : Nat}
    {t : ExtendibleHashTable K V} (h : Reachable hash bucket_size t) {k : K}
    (hdist : ∀ k', k' ≠ k → (Find hash t k').isSome = true →
      hash k' % 2 ^ 30 ≠ hash k % 2 ^ 30) :
    ∀ b ∈ t.heap, ∀ kv ∈ b.list_, kv.1 ≠ k → hash kv.1 % 2 ^ 30 ≠ hash k % 2 ^ 30 :=
  fun _ hb kv hkv hne => hdist kv.1 hne (h.find_of_mem hb hkv)

/-- The loop of `Insert` never ends when the bucket size is 1 and the table holds another
key whose hash agrees with the hash of the new key on the low 30 bits: the two keys stay in
one bucket through every split, until the masks overflow. -/
theorem Insert_none_of_collision {hash : K → Nat} {k k' : K} {v' : V} (hne : k' ≠ k)
    (hcol : hash k' % 2 ^ 30 = hash k % 2 ^ 30) (v : V) :
    ∀ (fuel : Nat) (t : ExtendibleHashTable K V), WF hash t → t.bucket_size_ = 1 →
      Find hash t k' = some v' → Insert hash fuel t k v = none := by
  intro fuel
  induction fuel with
  | zero => intro t _ _ _; rfl
  | succ n ih =>
    intro t hwf hbs hfind
    have hg := hwf.depth_le
    have hidx : hash k' % 2 ^ t.global_depth_ = hash k % 2 ^ t.global_depth_ :=
      mod_eq_of_mod_pow_eq hg hcol
    obtain ⟨bid, b, hd, hb⟩ := hwf.exists_bucket (hash k' % 2 ^ t.global_depth_)
      (Nat.mod_lt _ (by positivity))
    obtain ⟨b0, hb0, -, -, -, hnd, hcap, hsize⟩ := hwf.slot _ _ hd
    rw [hb] at hb0; cases hb0
    rw [Find_of_bucketAt hg hd hb] at hfind
    have hmem := Bucket.mem_of_findList hfind
    have hlen : b.list_.length = b.size_ := by
      have h1 : 0 < b.list_.length := List.length_pos_of_mem hmem
      omega
    have hnot : k ∉ b.list_.map Prod.fst := by
      intro hk
      obtain ⟨kv, hkv, hkv1⟩ := List.mem_map.mp hk
      have hl1 : b.list_.length = 1 := by omega
      obtain ⟨x, hx⟩ := List.length_eq_one.mp hl1
      rw [hx] at hmem hkv
      have e1 := List.mem_singleton.mp hmem
      have e2 := List.mem_singleton.mp hkv
      apply hne
      rw [← hkv1, e2, ← e1]
    have hs : (b.Insert k v).1 = false := by
      have hfull : b.IsFull = true := by simp [Bucket.IsFull, hlen]
      simp [Bucket.Insert, (Bucket.updateList_eq_none_iff k v b.list_).mpr hnot, hfull]
    have hba : t.bucketAt (hash k % 2 ^ t.global_depth_) = some (bid, b) :=
      bucketAt_eq_some.mpr ⟨hidx ▸ hd, hb⟩
    rw [Insert]
    simp only [IndexOf_eq hash t k hg, hba, hs, Bool.false_eq_true, if_false]
    cases hr : RedistributeBucket hash t bid with
    | none => rfl
    | some t1 =>
      have hne' : b.list_ ≠ [] := List.ne_nil_of_mem hmem
      obtain ⟨t1', hr', hbs1, -⟩ := RedistributeBucket_spec hwf hd hb hne'
        (RedistributeBucket_bound hb hr)
      rw [hr] at hr'; cases hr'
      exact ih t1 (hwf.redistribute hd hb hr) (hbs1.trans hbs)
        ((Find_redistribute hwf hd hb hr k').trans
          ((Find_of_bucketAt hg hd hb).trans hfind))

/-- C22. `Insert` terminates, for hashes that differ in their low 30 bits: for every
reachable table with `bucket_size ≥ 1`, every key `k` whose hash differs in the low 30 bits
from the hash of every other key that `Find` finds in the table, and every value `v`, the
loop of `Insert(k, v)` ends after finitely many splits (for some number of iterations it
returns, having made `n` splits) with `k` stored, and no bucket has a smaller local depth
afterwards. Each split of the loop raises the local depth of the split bucket by exactly
one and lowers the local depth of no bucket. -/
theorem C22_insert_terminates (hash : K → Nat) (bucket_size : Nat) (hbs : 1 ≤ bucket_size)
    (t : ExtendibleHashTable K V) (hreach : Reachable hash bucket_size t) (k : K) (v : V)
    (hdist : ∀ k', k' ≠ k → (Find hash t k').isSome = true →
      hash k' % 2 ^ 30 ≠ hash k % 2 ^ 30) :
    (∃ fuel t' n, Insert hash fuel t k v = some t' ∧
      InsertSplits hash fuel t k v = some n ∧ Find hash t' k = some v ∧
      ∀ (x : Nat) (c : Bucket K V), t.heap[x]? = some c →
        ∃ c', t'.heap[x]? = some c' ∧ c.depth_ ≤ c'.depth_) ∧
    (∀ t0 t1 ind bid b, LoopState hash t k v t0 →
      IndexOf hash t0 k = some ind → t0.bucketAt ind = some (bid, b) →
      (b.Insert k v).1 = false → RedistributeBucket hash t0 bid = some t1 →
      (∃ b', t1.heap[bid]? = some b' ∧ b'.depth_ = b.depth_ + 1) ∧
      ∀ (x : Nat) (c : Bucket K V), t0.heap[x]? = some c →
        ∃ c', t1.heap[x]? = some c' ∧ c.depth_ ≤ c'.depth_) := by
  have hwf := hreach.wf
  constructor
  · obtain ⟨fuel, t', ht'⟩ := Insert_terminates hwf
      (by rw [hreach.table_bucket_size]; exact hbs) k v (hreach.separated hdist)
    obtain ⟨n, hn, -, -⟩ := Insert_num_buckets hwf ht'
    exact ⟨fuel, t', n, ht', hn, Find_Insert_self hash _ t t' k v ht',
      fun x c hc => Insert_depth_le hwf ht' hc⟩
  · intro t0 t1 ind bid b hloop hind hba hs hr
    have hwf0 := hloop.loop_wf hwf
    obtain ⟨hd, hb⟩ := bucketAt_eq_some.mp hba
    have hmem : bid ∈ t0.dir_ := List.mem_iff_getElem?.mpr ⟨_, hd⟩
    obtain ⟨b0, b', -, hb0, hb', hdep, -⟩ := RedistributeBucket_depths hwf0 hmem hr
    rw [hb] at hb0
    have hbb : b = b0 := Option.some.inj hb0
    subst hbb
    exact ⟨⟨b', hb', hdep⟩, fun x c hc => RedistributeBucket_depth_le hwf0 hmem hr hc⟩

end ExtendibleHashTable

/-- Witness of C22: the hash of key 4 differs in the low 30 bits from the hashes of the keys
0 and 2 of the full example table, and inserting it ends after two splits with the key
stored. -/
theorem C22_insert_terminates_witness :
    ∃ fuel t' n, ExtendibleHashTable.Insert Int.toNat fuel exampleTable 4 14 = some t' ∧
      ExtendibleHashTable.InsertSplits Int.toNat fuel exampleTable 4 14 = some n ∧
      ExtendibleHashTable.Find Int.toNat t' 4 = some 14 := by
  obtain ⟨fuel, t', n, h1, h2, h3, -⟩ := (ExtendibleHashTable.C22_insert_terminates Int.toNat
    2 (by decide) exampleTable exampleTable_reachable 4 14 (by
      intro k' hne hsome
      obtain ⟨w, hw⟩ := Option.isSome_iff_exists.mp hsome
      obtain ⟨b, hb, hkv⟩ := ExtendibleHashTable.Find_some_mem hw
      simp only [exampleTable, List.mem_singleton] at hb
      subst hb
      simp only [List.mem_cons, Prod.mk.injEq, List.mem_singleton, List.not_mem_nil,
        or_false] at hkv
      rcases hkv with ⟨rfl, -⟩ | ⟨rfl, -⟩ <;> decide)).1
  exact ⟨fuel, t', n, h1, h2, h3⟩

/-- Counterexample to C22 for hashes that are only pairwise distinct: with integer keys
hashed to themselves and bucket size 1, the table that holds key 0 is reachable, the keys 0
and `INT_MIN = -2147483648` have distinct hashes (0 and `2^64 - 2^31`), yet `Insert` of
`INT_MIN` ends for no number of iterations: the two hashes agree on their low 31 bits, so
no split separates the keys before `(1 << local_depth) - 1` overflows `int`. -/
theorem C22_colliding_keys_counterexample :
    ∃ t : ExtendibleHashTable Int Int,
      ExtendibleHashTable.Insert stdHashInt 1 (ExtendibleHashTable.new 1) 0 10 = some t ∧
      ExtendibleHashTable.Reachable stdHashInt 1 t ∧
      stdHashInt 0 ≠ stdHashInt (-2147483648) ∧
      ∀ fuel v, ExtendibleHashTable.Insert stdHashInt fuel t (-2147483648) v = none := by
  have hreach : ExtendibleHashTable.Reachable stdHashInt 1
      ({ global_depth_ := 0, bucket_size_ := 1, num_buckets_ := 1, dir_ := [0],
         heap := [{ size_ := 1, depth_ := 0, list_ := [(0, 10)] }] } :
        ExtendibleHashTable Int Int) :=
    ExtendibleHashTable.Reachable.insert 1 0 10 ExtendibleHashTable.Reachable.init rfl
  have hne : (0 : Int) ≠ -2147483648 := by decide
  have hcol : stdHashInt 0 % 2 ^ 30 = stdHashInt (-2147483648) % 2 ^ 30 := by decide
  refine ⟨(⟨0, 1, 1, [0], [⟨1, 0, [(0, 10)]⟩]⟩ : ExtendibleHashTable Int Int), rfl, hreach,
    by decide, ?_⟩
  intro fuel v
  exact ExtendibleHashTable.Insert_none_of_collision hne hcol v fuel _ hreach.wf rfl rfl

end Bustub

set_option autoImplicit false

namespace Bustub

/-! ## Buffer pool manager: the frames of the free list are not tracked -/

namespace LRUKReplacer

/-- `SetEvictable` leaves `count_map_` as it is. -/
theorem SetEvictable_count_map {r r' : LRUKReplacer} {f : Int} {b : Bool} {u : Unit}
    (h : r.SetEvictable f b = Res.ok r' u) : r'.count_map_ = r.count_map_ := by
  unfold SetEvictable at h
  split at h
  · cases h
  · split at h
    · cases h; rfl
    · cases h; rfl

end LRUKReplacer

namespace BufferPoolManagerInstance

/-- `recordAndPin` keeps the free list and the tracking of every other frame. -/
theorem recordAndPin_tracked {s s3 : BufferPoolManagerInstance} {f : Int} {u : Unit}
    (h : recordAndPin s f = Res.ok s3 u) (hr : LRUKReplacer.Inv s.replacer_) :
    s3.free_list_ = s.free_list_ ∧
    ∀ x, x ≠ f → s3.replacer_.tracked x = s.replacer_.tracked x := by
  by_cases hf : f ≤ (s.replacer_.replacer_size_ : Int)
  · obtain ⟨r2, hrp, -, -, -, -, -, hother⟩ := recordAndPin_spec hr hf
    rw [hrp] at h
    cases h
    exact ⟨rfl, fun x hx => (hother x hx).2⟩
  · have hgt : f > (s.replacer_.replacer_size_ : Int) := not_le.mp hf
    simp [recordAndPin, LRUKReplacer.RecordAccess, hgt] at h

/-- The frame-obtaining block keeps the frames of the free list untracked, and the frame
it returns is not in the remaining free list. -/
theorem FreeUntracked.free_take {hash : Int → Nat} {s s1 : BufferPoolManagerInstance}
    {g : Int} (hfu : FreeUntracked s) (hnd : s.free_list_.Nodup)
    (h : takeFrame hash s = some (s1, g)) :
    FreeUntracked s1 ∧ g ∉ s1.free_list_ := by
  obtain ⟨-, -, hfl, -, hcase⟩ := takeFrame_core h
  rcases hcase with ⟨rest, hrest, -, -, -, hrep⟩ | ⟨hnil, -⟩
  · rw [hrest] at hfl hnd
    simp only [List.tail_cons] at hfl
    refine ⟨?_, ?_⟩
    · intro x hx
      rw [hfl] at hx
      rw [hrep]
      exact hfu x (by rw [hrest]; exact List.mem_cons_of_mem _ hx)
    · rw [hfl]
      exact (List.nodup_cons.mp hnd).1
  · rw [hnil] at hfl
    simp only [List.tail_nil] at hfl
    refine ⟨?_, ?_⟩
    · intro x hx
      rw [hfl] at hx
      cases hx
    · rw [hfl]
      simp

/-- `NewPgImp` keeps the frames of the free list untracked. -/
theorem FreeUntracked.free_newPage {hash : Int → Nat} {s s' : BufferPoolManagerInstance}
    {fuel : Nat} {a : Option (Int × Int)} (hinv : Inv hash s) (hnd : s.free_list_.Nodup)
    (hfu : FreeUntracked s) (h : NewPgImp hash fuel s = Res.ok s' a) : FreeUntracked s' := by
  unfold NewPgImp at h
  split at h
  · cases h; exact hfu
  · rename_i hex
    simp only at h
    split at h
    · cases h
    · rename_i s1 g htake
      have hne : ¬ (s.free_list_ = [] ∧ s.replacer_.Size = 0) :=
        fun hh => hex ((exhausted_iff s).mpr hh)
      obtain ⟨s1', g', htake', hinv1, -⟩ :=
        takeFrame_spec (hinv.bump (s.next_page_id_ + 1)) hne
      rw [htake] at htake'
      obtain ⟨rfl, rfl⟩ := Prod.mk.inj (Option.some.inj htake')
      obtain ⟨hfu1, hg1⟩ := FreeUntracked.free_take
        (show FreeUntracked { s with next_page_id_ := s.next_page_id_ + 1 } from hfu) hnd htake
      split at h
      · cases h
      · rename_i pt hins
        split at h
        · cases h
        · rename_i pg0 hpg0
          split at h
          · cases h
          · cases h
          · rename_i s3 u hrp
            cases h
            obtain ⟨hfl, hother⟩ := recordAndPin_tracked hrp hinv1.replacer_inv
            intro x hx
            rw [hfl] at hx
            have hxg : x ≠ g := fun e => hg1 (e ▸ hx)
            rw [hother x hxg]
            exact hfu1 x hx

/-- `FetchPgImp` keeps the frames of the free list untracked. -/
theorem FreeUntracked.free_fetchPage {hash : Int → Nat} {s s' : BufferPoolManagerInstance}
    {fuel : Nat} {p : Int} {a : Option Int} (hinv : Inv hash s) (hd : DirInv hash s)
    (hfu : FreeUntracked s) (h : FetchPgImp hash fuel s p = Res.ok s' a) :
    FreeUntracked s' := by
  unfold FetchPgImp at h
  simp only at h
  split at h
  · rename_i g hfind
    split at h
    · cases h
    · rename_i pg hpg
      split at h
      · cases h
      · cases h
      · rename_i s3 u hrp
        cases h
        obtain ⟨hfl, hother⟩ := recordAndPin_tracked hrp hinv.replacer_inv
        intro x hx
        rw [hfl] at hx
        have hxg : x ≠ g := fun e => hd.free_unmapped x hx p (e ▸ hfind)
        rw [hother x hxg]
        exact hfu x hx
  · rename_i hfind
    split at h
    · cases h; exact hfu
    · rename_i hex
      have hne : ¬ (s.free_list_ = [] ∧ s.replacer_.Size = 0) :=
        fun hh => hex ((exhausted_iff s).mpr hh)
      split at h
      · cases h
      · rename_i s1 g htake
        obtain ⟨s1', g', htake', hinv1, -⟩ := takeFrame_spec hinv hne
        rw [htake] at htake'
        obtain ⟨rfl, rfl⟩ := Prod.mk.inj (Option.some.inj htake')
        obtain ⟨hfu1, hg1⟩ := FreeUntracked.free_take hfu hd.free_nodup htake
        split at h
        · cases h
        · rename_i pt hins
          split at h
          · cases h
          · rename_i pg0 hpg0
            obtain ⟨h0, h1⟩ := pageAt_some hpg0
            simp only [pageAt_setPageAt h0 h1, if_true] at h
            split at h
            · cases h
            · cases h
            · rename_i s3 u hrp
              cases h
              obtain ⟨hfl, hother⟩ := recordAndPin_tracked hrp hinv1.replacer_inv
              intro x hx
              rw [hfl] at hx
              have hxg : x ≠ g := fun e => hg1 (e ▸ hx)
              rw [hother x hxg]
              exact hfu1 x hx

/-- `UnpinPgImp` keeps the frames of the free list untracked. -/
theorem FreeUntracked.free_unpinPage {hash : Int → Nat} {s s' : BufferPoolManagerInstance}
    {p : Int} {is_dirty b : Bool} (hfu : FreeUntracked s)
    (h : UnpinPgImp hash s p is_dirty = Res.ok s' b) : FreeUntracked s' := by
  unfold UnpinPgImp at h
  split at h
  · cases h; exact hfu
  · rename_i g hfind
    split at h
    · cases h
    · rename_i pg hpg
      split at h
      · cases h; exact hfu
      · rename_i hpin
        simp only at h
        split at h
        · split at h
          · cases h
          · cases h
          · rename_i r1 u hse
            cases h
            intro x hx
            have hc := LRUKReplacer.SetEvictable_count_map hse
            show (AL.find? x r1.count_map_).isSome = false
            rw [hc]
            exact hfu x hx
        · cases h
          exact hfu

/-- `DeletePgImp` keeps the frames of the free list untracked: the frame it appends has
been removed from the replacer. -/
theorem FreeUntracked.free_deletePage {hash : Int → Nat} {s s' : BufferPoolManagerInstance}
    {p : Int} {b : Bool} (hinv : Inv hash s) (hfu : FreeUntracked s)
    (h : DeletePgImp hash s p = Res.ok s' b) : FreeUntracked s' := by
  rcases DeletePgImp_spec hinv p with ⟨-, hop⟩ | ⟨f, pg, -, -, -, hop⟩ |
      ⟨f, pg, r1, hfind, hpg, hpin, -, -, hrem, hnone, -, -, hop, -⟩
  · rw [hop] at h; cases h; exact hfu
  · rw [hop] at h; cases h; exact hfu
  · rw [hop] at h
    cases h
    have hev : s.replacer_.evictable f ≠ some false := hinv.pin_evictable f pg hpg hpin
    obtain ⟨r1', hrem', -, -, -, -, -, hother⟩ := LRUKReplacer.remove_spec hinv.replacer_inv hev
    rw [hrem] at hrem'
    cases hrem'
    intro x hx
    have hx' : x ∈ s.free_list_ ++ [f] := hx
    show (AL.find? x r1.count_map_).isSome = false
    by_cases hxf : x = f
    · subst hxf
      rw [hnone]; rfl
    · rw [(hother x hxf).2]
      rcases List.mem_append.mp hx' with hm | hm
      · exact hfu x hm
      · exact absurd (List.mem_singleton.mp hm) hxf

/-- In every reachable manager state no frame of the free list is tracked by the
replacer. -/
theorem Reachable.freeUntracked {hash : Int → Nat} {pool_size replacer_k bucket_size : Nat}
    (hk : 1 ≤ replacer_k) (hb : 1 ≤ bucket_size) {disk_manager : DiskManager}
    {s : BufferPoolManagerInstance}
    (h : Reachable hash pool_size replacer_k bucket_size disk_manager s) :
    FreeUntracked s := by
  induction h with
  | init =>
    intro g _
    rfl
  | @newPage s s' fuel a hr hop ih =>
    exact ih.free_newPage (hr.pool_inv hk hb).1 (hr.dirInv hk hb).free_nodup hop
  | @newPageRaise s s' fuel hr hop ih =>
    exact absurd hop (NewPgImp_no_raise (hr.pool_inv hk hb).1 fuel)
  | @fetchPage s s' fuel p a hr hop ih =>
    exact ih.free_fetchPage (hr.pool_inv hk hb).1 (hr.dirInv hk hb) hop
  | @fetchPageRaise s s' fuel p hr hop ih =>
    exact absurd hop (FetchPgImp_no_raise (hr.pool_inv hk hb).1 fuel p)
  | @unpinPage s s' p d b hr hop ih => exact ih.free_unpinPage hop
  | @unpinPageRaise s s' p d hr hop ih =>
    exact absurd hop (UnpinPgImp_no_raise (hr.pool_inv hk hb).1 p d)
  | @flushPage s s' p b hr hop ih =>
    rcases FlushPgImp_ok hop with ⟨-, -, rfl⟩ | ⟨g, pg, -, -, -, rfl⟩
    · exact ih
    · exact ih
  | @deletePage s s' p b hr hop ih =>
    exact ih.free_deletePage (hr.pool_inv hk hb).1 hop
  | @deletePageRaise s s' p hr hop ih =>
    exact absurd hop (DeletePgImp_no_raise (hr.pool_inv hk hb).1 p)
  | @write s s' f data hr hop ih =>
    obtain ⟨pg, -, -, rfl⟩ := writeData_ok hop
    exact ih

end BufferPoolManagerInstance

end Bustub

namespace Bustub

namespace BufferPoolManagerInstance

/-! ## Buffer pool manager: the frames that hold no page -/

theorem ReachableValidFetch.valid_reachable {hash : Int → Nat}
    {pool_size replacer_k bucket_size : Nat} {disk_manager : DiskManager}
    {s : BufferPoolManagerInstance}
    (h : ReachableValidFetch hash pool_size replacer_k bucket_size disk_manager s) :
    Reachable hash pool_size replacer_k bucket_size disk_manager s := by
  induction h with
  | init => exact Reachable.init
  | newPage fuel a _ hop ih => exact Reachable.newPage fuel a ih hop
  | fetchPage fuel p a _ _ hop ih => exact Reachable.fetchPage fuel p a ih hop
  | unpinPage p d b _ hop ih => exact Reachable.unpinPage p d b ih hop
  | flushPage p b _ hop ih => exact Reachable.flushPage p b ih hop
  | deletePage p b _ hop ih => exact Reachable.deletePage p b ih hop
  | write f data _ hop ih => exact Reachable.write f data ih hop

/-- The empty-frame invariant after an assignment to one frame. -/
theorem EmptyInv.empty_set {s' : BufferPoolManagerInstance} {pages : List Page} {g : Int}
    {pg pg' : Page} (hn : 0 ≤ s'.next_page_id_) (hpg : pageAt pages g = some pg)
    (hp : s'.pages_ = setPageAt pages g pg')
    (hg : pg'.page_id_ = INVALID_PAGE_ID →
      pg'.pin_count_ = 0 ∧ pg'.is_dirty_ = false ∧ g ∈ s'.free_list_)
    (hrest : ∀ x px, x ≠ g → pageAt pages x = some px → px.page_id_ = INVALID_PAGE_ID →
      px.pin_count_ = 0 ∧ px.is_dirty_ = false ∧ x ∈ s'.free_list_) : EmptyInv s' := by
  refine ⟨hn, ?_⟩
  intro x px hpx hid
  obtain ⟨h0, h1⟩ := pageAt_some hpg
  rw [hp, pageAt_setPageAt h0 h1] at hpx
  split at hpx
  · rename_i hxg
    subst hxg
    have e : pg' = px := Option.some.inj hpx
    subst e
    exact hg hid
  · rename_i hxg
    exact hrest x px hxg hpx hid

/-- A frame that the directory maps does not hold `INVALID_PAGE_ID`. -/
theorem EmptyInv.mapped_valid {hash : Int → Nat} {s : BufferPoolManagerInstance}
    (he : EmptyInv s) (hd : DirInv hash s) {p g : Int} {pg : Page}
    (hfind : ExtendibleHashTable.Find hash s.page_table_ p = some g)
    (hpg : pageAt s.pages_ g = some pg) : pg.page_id_ ≠ INVALID_PAGE_ID := by
  intro hid
  exact hd.free_unmapped g (he.empty g pg hpg hid).2.2 p hfind

/-- After the frame-obtaining block, every frame but the one obtained that holds
`INVALID_PAGE_ID` is unpinned, clean and in the remaining free list. -/
theorem EmptyInv.empty_take {hash : Int → Nat} {s s1 : BufferPoolManagerInstance} {g : Int}
    (he : EmptyInv s) (h : takeFrame hash s = some (s1, g)) :
    ∀ x px, x ≠ g → pageAt s1.pages_ x = some px → px.page_id_ = INVALID_PAGE_ID →
      px.pin_count_ = 0 ∧ px.is_dirty_ = false ∧ x ∈ s1.free_list_ := by
  obtain ⟨-, -, hfl, hids, hcase⟩ := takeFrame_core h
  intro x px hxg hpx hid
  have hidx : pageIdAt s.pages_ x = some INVALID_PAGE_ID := by
    rw [← hids x]
    exact pageIdAt_eq_some.mpr ⟨px, hpx, hid⟩
  obtain ⟨px0, hpx0, hid0⟩ := pageIdAt_eq_some.mp hidx
  obtain ⟨hpin0, hdirty0, hmem0⟩ := he.empty x px0 hpx0 hid0
  rcases hcase with ⟨rest, hrest, -, hpages, -, -⟩ | ⟨hnil, -⟩
  · rw [hpages, hpx0] at hpx
    have e : px0 = px := Option.some.inj hpx
    subst e
    refine ⟨hpin0, hdirty0, ?_⟩
    rw [hfl, hrest]
    rw [hrest] at hmem0
    rcases List.mem_cons.mp hmem0 with hm | hm
    · exact absurd hm hxg
    · exact hm
  · rw [hnil] at hmem0
    cases hmem0

theorem EmptyInv.empty_newPage {hash : Int → Nat} {s s' : BufferPoolManagerInstance}
    {fuel : Nat} {a : Option (Int × Int)} (he : EmptyInv s)
    (h : NewPgImp hash fuel s = Res.ok s' a) : EmptyInv s' := by
  rcases NewPgImp_ok h with ⟨-, rfl, -⟩ | ⟨s1, g, pt, r, pg0, htake, -, hpg0, -, rfl⟩
  · exact he
  · have he1 : EmptyInv { s with next_page_id_ := s.next_page_id_ + 1 } :=
      ⟨by have := he.next_nonneg; show 0 ≤ s.next_page_id_ + 1; omega, he.empty⟩
    obtain ⟨hn1, -⟩ := takeFrame_core htake
    have hnext := he.next_nonneg
    refine EmptyInv.empty_set ?_ hpg0 rfl ?_ (he1.empty_take htake)
    · show 0 ≤ s1.next_page_id_
      rw [hn1]
      show 0 ≤ s.next_page_id_ + 1
      omega
    · intro hid
      have hid' : s.next_page_id_ = -1 := hid
      omega

theorem EmptyInv.empty_fetchPage {hash : Int → Nat} {s s' : BufferPoolManagerInstance}
    {fuel : Nat} {p : Int} {a : Option Int} (he : EmptyInv s) (hd : DirInv hash s)
    (hp : p ≠ INVALID_PAGE_ID) (h : FetchPgImp hash fuel s p = Res.ok s' a) :
    EmptyInv s' := by
  rcases FetchPgImp_ok h with ⟨g, pg, r, hfind, hpg, -, rfl⟩ | ⟨-, -, rfl, -⟩ |
      ⟨-, s1, g, pt, r, pg0, htake, -, hpg0, -, rfl⟩
  · refine EmptyInv.empty_set he.next_nonneg hpg rfl ?_ (fun x px _ hpx hid => he.empty x px hpx hid)
    intro hid
    have hv : pg.page_id_ ≠ INVALID_PAGE_ID := he.mapped_valid hd hfind hpg
    exact absurd hid hv
  · exact he
  · obtain ⟨hn1, -⟩ := takeFrame_core htake
    refine EmptyInv.empty_set ?_ hpg0 rfl ?_ (he.empty_take htake)
    · show 0 ≤ s1.next_page_id_
      rw [hn1]
      exact he.next_nonneg
    · intro hid
      exact absurd hid hp

theorem EmptyInv.empty_unpinPage {hash : Int → Nat} {s s' : BufferPoolManagerInstance}
    {p : Int} {is_dirty b : Bool} (he : EmptyInv s) (hd : DirInv hash s)
    (h : UnpinPgImp hash s p is_dirty = Res.ok s' b) : EmptyInv s' := by
  rcases UnpinPgImp_ok h with ⟨-, rfl⟩ | ⟨g, pg, r, hfind, hpg, -, -, rfl⟩
  · exact he
  · refine EmptyInv.empty_set he.next_nonneg hpg rfl ?_ (fun x px _ hpx hid => he.empty x px hpx hid)
    intro hid
    have hv : pg.page_id_ ≠ INVALID_PAGE_ID := he.mapped_valid hd hfind hpg
    exact absurd hid hv

theorem EmptyInv.empty_flushPage {hash : Int → Nat} {s s' : BufferPoolManagerInstance}
    {p : Int} {b : Bool} (he : EmptyInv s) (hd : DirInv hash s)
    (h : FlushPgImp hash s p = Res.ok s' b) : EmptyInv s' := by
  rcases FlushPgImp_ok h with ⟨-, -, rfl⟩ | ⟨g, pg, hfind, hpg, -, rfl⟩
  · exact he
  · refine EmptyInv.empty_set he.next_nonneg hpg rfl ?_ (fun x px _ hpx hid => he.empty x px hpx hid)
    intro hid
    have hv : pg.page_id_ ≠ INVALID_PAGE_ID := he.mapped_valid hd hfind hpg
    exact absurd hid hv

theorem EmptyInv.empty_deletePage {hash : Int → Nat} {s s' : BufferPoolManagerInstance}
    {p : Int} {b : Bool} (he : EmptyInv s)
    (h : DeletePgImp hash s p = Res.ok s' b) : EmptyInv s' := by
  rcases DeletePgImp_ok h with rfl | ⟨g, pg, r, -, hpg, -, rfl⟩
  · exact he
  · refine EmptyInv.empty_set he.next_nonneg hpg rfl ?_ ?_
    · intro _
      exact ⟨rfl, rfl, List.mem_append.mpr (Or.inr (List.mem_singleton.mpr rfl))⟩
    · intro x px _ hpx hid
      obtain ⟨h1, h2, h3⟩ := he.empty x px hpx hid
      exact ⟨h1, h2, List.mem_append.mpr (Or.inl h3)⟩

theorem EmptyInv.empty_write {s s' : BufferPoolManagerInstance} {f : Int} {data : List Nat}
    (he : EmptyInv s) (h : writeData s f data = some s') : EmptyInv s' := by
  obtain ⟨pg, hpg, hpin, rfl⟩ := writeData_ok h
  refine EmptyInv.empty_set he.next_nonneg hpg rfl ?_ (fun x px _ hpx hid => he.empty x px hpx hid)
  intro hid
  have hid' : pg.page_id_ = INVALID_PAGE_ID := hid
  have := (he.empty f pg hpg hid').1
  omega

theorem EmptyInv.empty_init (pool_size replacer_k bucket_size : Nat)
    (disk_manager : DiskManager) :
    EmptyInv (new pool_size replacer_k bucket_size disk_manager) := by
  refine ⟨le_refl _, ?_⟩
  intro g pg hpg _
  obtain ⟨h0, h1⟩ := pageAt_some hpg
  have hlen : g < (pool_size : Int) := by
    have : (new pool_size replacer_k bucket_size disk_manager).pages_.length = pool_size := by
      simp [new]
    rw [this] at h1; exact h1
  have hpg' : pageAt (List.replicate pool_size Page.empty) g = some pg := hpg
  unfold pageAt at hpg'
  rw [if_pos h0] at hpg'
  have hmem : pg ∈ List.replicate pool_size Page.empty :=
    List.mem_iff_getElem?.mpr ⟨g.toNat, hpg'⟩
  have e : pg = Page.empty := (List.mem_replicate.mp hmem).2
  subst e
  refine ⟨rfl, rfl, ?_⟩
  show g ∈ (List.range pool_size).map Int.ofNat
  refine List.mem_map.mpr ⟨g.toNat, List.mem_range.mpr (by omega), ?_⟩
  show ((g.toNat : Nat) : Int) = g
  omega

/-- When `FetchPgImp` is never given `INVALID_PAGE_ID`, every reachable manager state
satisfies the empty-frame invariant. -/
theorem ReachableValidFetch.emptyInv {hash : Int → Nat}
    {pool_size replacer_k bucket_size : Nat} (hk : 1 ≤ replacer_k) (hb : 1 ≤ bucket_size)
    {disk_manager : DiskManager} {s : BufferPoolManagerInstance}
    (h : ReachableValidFetch hash pool_size replacer_k bucket_size disk_manager s) :
    EmptyInv s := by
  induction h with
  | init => exact EmptyInv.empty_init pool_size replacer_k bucket_size disk_manager
  | newPage fuel a _ hop ih => exact ih.empty_newPage hop
  | fetchPage fuel p a hr hp hop ih =>
    exact ih.empty_fetchPage (hr.valid_reachable.dirInv hk hb) hp hop
  | unpinPage p d b hr hop ih =>
    exact ih.empty_unpinPage (hr.valid_reachable.dirInv hk hb) hop
  | flushPage p b hr hop ih =>
    exact ih.empty_flushPage (hr.valid_reachable.dirInv hk hb) hop
  | deletePage p b _ hop ih => exact ih.empty_deletePage hop
  | write f data _ hop ih => exact ih.empty_write hop

end BufferPoolManagerInstance

end Bustub

namespace Bustub

namespace BufferPoolManagerInstance

/-! ## Claim C21 -/

/-- C21. Empty-frame invariant, when `FetchPgImp` is never given `INVALID_PAGE_ID`: in every
manager state reachable from a fresh pool (`replacer_k ≥ 1`, `bucket_size ≥ 1`) by calls of
`NewPgImp`, `UnpinPgImp`, `FlushPgImp`, `DeletePgImp` with any arguments, calls of
`FetchPgImp` with a page id other than `INVALID_PAGE_ID`, and client writes into pinned
frames, every frame whose `page_id_` is `INVALID_PAGE_ID` has pin count 0 and is not dirty,
and is in the free list or not tracked by the replacer; in fact it is both in the free list
and not tracked. -/
theorem C21_empty_frames (hash : Int → Nat) (pool_size replacer_k bucket_size : Nat)
    (hk : 1 ≤ replacer_k) (hb : 1 ≤ bucket_size) (disk_manager : DiskManager)
    (s : BufferPoolManagerInstance)
    (hreach : ReachableValidFetch hash pool_size replacer_k bucket_size disk_manager s)
    (g : Int) (pg : Page) (hpg : pageAt s.pages_ g = some pg)
    (hid : pg.page_id_ = INVALID_PAGE_ID) :
    pg.pin_count_ = 0 ∧ pg.is_dirty_ = false ∧
    (g ∈ s.free_list_ ∨ s.replacer_.tracked g = false) ∧
    (g ∈ s.free_list_ ∧ s.replacer_.tracked g = false) := by
  obtain ⟨hpin, hdirty, hmem⟩ := (hreach.emptyInv hk hb).empty g pg hpg hid
  have hun : s.replacer_.tracked g = false :=
    hreach.valid_reachable.freeUntracked hk hb g hmem
  exact ⟨hpin, hdirty, Or.inl hmem, hmem, hun⟩

end BufferPoolManagerInstance

/-- C21 at the pool of two frames after one `NewPgImp`: frame 1 holds `INVALID_PAGE_ID`, so
it is unpinned, clean, in the free list and not tracked. -/
theorem C21_empty_frames_witness :
    BufferPoolManagerInstance.pageAt examplePoolTwoFrames.pages_ 1 = some Page.empty ∧
    Page.empty.page_id_ = INVALID_PAGE_ID ∧
    (Page.empty.pin_count_ = 0 ∧ Page.empty.is_dirty_ = false ∧
      ((1 : Int) ∈ examplePoolTwoFrames.free_list_ ∨
        examplePoolTwoFrames.replacer_.tracked 1 = false) ∧
      ((1 : Int) ∈ examplePoolTwoFrames.free_list_ ∧
        examplePoolTwoFrames.replacer_.tracked 1 = false)) :=
  ⟨rfl, rfl,
    BufferPoolManagerInstance.C21_empty_frames exampleHash 2 2 2 (by decide) (by decide)
      exampleDisk examplePoolTwoFrames
      (BufferPoolManagerInstance.ReachableValidFetch.newPage 1 (some (0, 0))
        BufferPoolManagerInstance.ReachableValidFetch.init rfl)
      1 Page.empty rfl rfl⟩

/-- Counterexample to C21 for arbitrary page-id arguments: on a fresh pool of one frame,
`FetchPgImp(INVALID_PAGE_ID)` misses in the directory, takes frame 0 from the free list and
reads "page -1" into it. The state is reachable, and frame 0 holds `INVALID_PAGE_ID` with
pin count 1, outside the free list and tracked by the replacer. -/
theorem C21_invalid_fetch_counterexample :
    ∃ s1 : BufferPoolManagerInstance,
      BufferPoolManagerInstance.FetchPgImp exampleHash 1
        (BufferPoolManagerInstance.new 1 2 2 exampleDisk) INVALID_PAGE_ID
          = Res.ok s1 (some 0) ∧
      BufferPoolManagerInstance.Reachable exampleHash 1 2 2 exampleDisk s1 ∧
      ∃ pg, BufferPoolManagerInstance.pageAt s1.pages_ 0 = some pg ∧
        pg.page_id_ = INVALID_PAGE_ID ∧ pg.pin_count_ = 1 ∧ pg.pin_count_ ≠ 0 ∧
        (0 : Int) ∉ s1.free_list_ ∧ s1.replacer_.tracked 0 = true ∧
        ¬ ((0 : Int) ∈ s1.free_list_ ∨ s1.replacer_.tracked 0 = false) :=
  ⟨_, rfl,
    BufferPoolManagerInstance.Reachable.fetchPage 1 INVALID_PAGE_ID (some 0)
      BufferPoolManagerInstance.Reachable.init rfl,
    _, rfl, rfl, rfl, by decide, by decide, rfl, by decide⟩

end Bustub

namespace Bustub

namespace BufferPoolManagerInstance

/-! ## Buffer pool manager: the page table is a reachable table, and the calls return -/

/-- The frame-obtaining block leaves the directory as it is or removes one page id. -/
theorem takeFrame_table {hash : Int → Nat} {s s1 : BufferPoolManagerInstance} {g : Int}
    (h : takeFrame hash s = some (s1, g)) :
    s1.page_table_ = s.page_table_ ∨
    ∃ q, s1.page_table_ = (ExtendibleHashTable.Remove hash s.page_table_ q).2 := by
  obtain ⟨-, -, -, -, hcase⟩ := takeFrame_core h
  rcases hcase with ⟨rest, -, ht, -⟩ | ⟨-, r, pg, -, -, -, ht, -⟩
  · exact Or.inl ht
  · exact Or.inr ⟨_, ht⟩

theorem takeFrame_table_reachable {hash : Int → Nat} {bucket_size : Nat}
    {s s1 : BufferPoolManagerInstance} {g : Int}
    (ht : ExtendibleHashTable.Reachable hash bucket_size s.page_table_)
    (h : takeFrame hash s = some (s1, g)) :
    ExtendibleHashTable.Reachable hash bucket_size s1.page_table_ := by
  rcases takeFrame_table h with e | ⟨q, e⟩
  · rw [e]; exact ht
  · rw [e]; exact ExtendibleHashTable.Reachable.remove q ht

/-- The page table of a reachable manager state is a reachable table. -/
theorem Reachable.table_reachable {hash : Int → Nat} {pool_size replacer_k bucket_size : Nat}
    (hk : 1 ≤ replacer_k) (hb : 1 ≤ bucket_size) {disk_manager : DiskManager}
    {s : BufferPoolManagerInstance}
    (h : Reachable hash pool_size replacer_k bucket_size disk_manager s) :
    ExtendibleHashTable.Reachable hash bucket_size s.page_table_ := by
  induction h with
  | init => exact ExtendibleHashTable.Reachable.init
  | @newPage s s' fuel a hr hop ih =>
    rcases NewPgImp_ok hop with ⟨-, rfl, -⟩ | ⟨s1, g, pt, r, pg0, htake, hins, -, -, rfl⟩
    · exact ih
    · have h1 := takeFrame_table_reachable
        (show ExtendibleHashTable.Reachable hash bucket_size
          ({ s with next_page_id_ := s.next_page_id_ + 1 } :
            BufferPoolManagerInstance).page_table_ from ih) htake
      exact ExtendibleHashTable.Reachable.insert fuel _ _ h1 hins
  | @newPageRaise s s' fuel hr hop ih =>
    exact absurd hop (NewPgImp_no_raise (hr.pool_inv hk hb).1 fuel)
  | @fetchPage s s' fuel p a hr hop ih =>
    rcases FetchPgImp_ok hop with ⟨g, pg, r, -, -, -, rfl⟩ | ⟨-, -, rfl, -⟩ |
        ⟨-, s1, g, pt, r, pg0, htake, hins, -, -, rfl⟩
    · exact ih
    · exact ih
    · exact ExtendibleHashTable.Reachable.insert fuel _ _
        (takeFrame_table_reachable ih htake) hins
  | @fetchPageRaise s s' fuel p hr hop ih =>
    exact absurd hop (FetchPgImp_no_raise (hr.pool_inv hk hb).1 fuel p)
  | @unpinPage s s' p d b hr hop ih =>
    rcases UnpinPgImp_ok hop with ⟨-, rfl⟩ | ⟨g, pg, r, -, -, -, -, rfl⟩
    · exact ih
    · exact ih
  | @unpinPageRaise s s' p d hr hop ih =>
    exact absurd hop (UnpinPgImp_no_raise (hr.pool_inv hk hb).1 p d)
  | @flushPage s s' p b hr hop ih =>
    rcases FlushPgImp_ok hop with ⟨-, -, rfl⟩ | ⟨g, pg, -, -, -, rfl⟩
    · exact ih
    · exact ih
  | @deletePage s s' p b hr hop ih =>
    rcases DeletePgImp_ok hop with rfl | ⟨g, pg, r, -, -, -, rfl⟩
    · exact ih
    · exact ExtendibleHashTable.Reachable.remove p ih
  | @deletePageRaise s s' p hr hop ih =>
    exact absurd hop (DeletePgImp_no_raise (hr.pool_inv hk hb).1 p)
  | @write s s' f data hr hop ih =>
    obtain ⟨pg, -, -, rfl⟩ := writeData_ok hop
    exact ih

/-- After the frame-obtaining block, the split loop of the page table's `Insert(p, f)` ends
when the hash of `p` differs in its low 30 bits from the hash of every other page id of the
directory. -/
theorem Insert_after_take {hash : Int → Nat} {bucket_size : Nat} (hb : 1 ≤ bucket_size)
    {s s1 : BufferPoolManagerInstance} {g : Int}
    (ht : ExtendibleHashTable.Reachable hash bucket_size s.page_table_)
    (htake : takeFrame hash s = some (s1, g)) (p f : Int)
    (hsep : ∀ q, q ≠ p → (ExtendibleHashTable.Find hash s.page_table_ q).isSome = true →
      hash q % 2 ^ 30 ≠ hash p % 2 ^ 30) :
    ∃ fuel pt, ExtendibleHashTable.Insert hash fuel s1.page_table_ p f = some pt := by
  have ht1 := takeFrame_table_reachable ht htake
  have hsep1 : ∀ q, q ≠ p →
      (ExtendibleHashTable.Find hash s1.page_table_ q).isSome = true →
      hash q % 2 ^ 30 ≠ hash p % 2 ^ 30 := by
    intro q hq hsome
    apply hsep q hq
    rcases takeFrame_table htake with e | ⟨x, e⟩
    · rw [e] at hsome; exact hsome
    · rw [e, ExtendibleHashTable.Find_Remove ht.wf] at hsome
      split at hsome
      · cases hsome
      · exact hsome
  exact ExtendibleHashTable.Insert_terminates ht1.wf
    (by rw [ht1.table_bucket_size]; exact hb) p f (ht1.separated hsep1)

/-- The frame that a returning `NewPgImp` hands out is the front of the free list, which is
popped, or, when the free list is empty, the victim that `Evict` returns. -/
theorem NewPgImp_frame {hash : Int → Nat} {fuel : Nat} {s s' : BufferPoolManagerInstance}
    {f pid : Int} (h : NewPgImp hash fuel s = Res.ok s' (some (f, pid))) :
    (∃ rest, s.free_list_ = f :: rest ∧ s'.free_list_ = rest) ∨
    (s.free_list_ = [] ∧ s'.free_list_ = [] ∧
      ∃ r, s.replacer_.Evict = Res.ok r (some f)) := by
  rcases NewPgImp_ok h with ⟨ha, -⟩ | ⟨s1, g, pt, r, pg0, htake, -, -, ha, rfl⟩
  · cases ha
  · have hfg : f = g := (Prod.mk.inj (Option.some.inj ha)).1
    subst hfg
    obtain ⟨-, -, hfl, -, hcase⟩ := takeFrame_core htake
    have hfl' : s1.free_list_ = s.free_list_.tail := hfl
    rcases hcase with ⟨rest, hrest, -⟩ | ⟨hnil, r', pg, hev, -⟩
    · have hrest' : s.free_list_ = f :: rest := hrest
      exact Or.inl ⟨rest, hrest', by show s1.free_list_ = rest; rw [hfl', hrest']; rfl⟩
    · have hnil' : s.free_list_ = [] := hnil
      exact Or.inr ⟨hnil', by show s1.free_list_ = []; rw [hfl', hnil']; rfl, r', hev⟩

/-- The frame that a returning `FetchPgImp` of an unmapped page hands out is the front of
the free list, which is popped, or, when the free list is empty, the victim that `Evict`
returns. -/
theorem FetchPgImp_frame {hash : Int → Nat} {fuel : Nat} {s s' : BufferPoolManagerInstance}
    {p f : Int} (hfind : ExtendibleHashTable.Find hash s.page_table_ p = none)
    (h : FetchPgImp hash fuel s p = Res.ok s' (some f)) :
    (∃ rest, s.free_list_ = f :: rest ∧ s'.free_list_ = rest) ∨
    (s.free_list_ = [] ∧ s'.free_list_ = [] ∧
      ∃ r, s.replacer_.Evict = Res.ok r (some f)) := by
  rcases FetchPgImp_ok h with ⟨g, pg, r, hg, -⟩ | ⟨-, ha, -⟩ |
      ⟨-, s1, g, pt, r, pg0, htake, -, -, ha, rfl⟩
  · rw [hfind] at hg; cases hg
  · cases ha
  · have hfg : f = g := Option.some.inj ha
    subst hfg
    obtain ⟨-, -, hfl, -, hcase⟩ := takeFrame_core htake
    rcases hcase with ⟨rest, hrest, -⟩ | ⟨hnil, r', pg, hev, -⟩
    · exact Or.inl ⟨rest, hrest, by show s1.free_list_ = rest; rw [hfl, hrest]; rfl⟩
    · exact Or.inr ⟨hnil, by show s1.free_list_ = []; rw [hfl, hnil]; rfl, r', hev⟩

/-- `NewPgImp` returns a frame when one is available and the hash of the page id to hand
out differs in its low 30 bits from the hash of every other page id of the directory. -/
theorem NewPgImp_returns {hash : Int → Nat} {pool_size replacer_k bucket_size : Nat}
    (hk : 1 ≤ replacer_k) (hb : 1 ≤ bucket_size) {disk_manager : DiskManager}
    {s : BufferPoolManagerInstance}
    (hreach : Reachable hash pool_size replacer_k bucket_size disk_manager s)
    (hne : ¬ (s.free_list_ = [] ∧ s.replacer_.Size = 0))
    (hsep : ∀ q, q ≠ s.next_page_id_ →
      (ExtendibleHashTable.Find hash s.page_table_ q).isSome = true →
      hash q % 2 ^ 30 ≠ hash s.next_page_id_ % 2 ^ 30) :
    ∃ fuel s' f, NewPgImp hash fuel s = Res.ok s' (some (f, s.next_page_id_)) := by
  obtain ⟨hinv, -⟩ := hreach.pool_inv hk hb
  rcases NewPgImp_spec_take hinv with ⟨hex, -⟩ | ⟨-, s1, f, htake, -, -, -, -, -, -, -, hfuel⟩
  · exact absurd hex hne
  · obtain ⟨fuel, pt, hins⟩ := Insert_after_take hb
      (show ExtendibleHashTable.Reachable hash bucket_size
        ({ s with next_page_id_ := s.next_page_id_ + 1 } :
          BufferPoolManagerInstance).page_table_ from hreach.table_reachable hk hb)
      htake s.next_page_id_ f hsep
    rcases hfuel fuel with ⟨hnone, -⟩ | ⟨pt', r2, -, hok, -⟩
    · rw [hins] at hnone; cases hnone
    · exact ⟨fuel, _, f, hok⟩

/-- `FetchPgImp` of an unmapped page returns a frame when one is available and the hash of
the page id differs in its low 30 bits from the hash of every page id of the directory. -/
theorem FetchPgImp_returns {hash : Int → Nat} {pool_size replacer_k bucket_size : Nat}
    (hk : 1 ≤ replacer_k) (hb : 1 ≤ bucket_size) {disk_manager : DiskManager}
    {s : BufferPoolManagerInstance}
    (hreach : Reachable hash pool_size replacer_k bucket_size disk_manager s) {p : Int}
    (hfind : ExtendibleHashTable.Find hash s.page_table_ p = none)
    (hne : ¬ (s.free_list_ = [] ∧ s.replacer_.Size = 0))
    (hsep : ∀ q, q ≠ p →
      (ExtendibleHashTable.Find hash s.page_table_ q).isSome = true →
      hash q % 2 ^ 30 ≠ hash p % 2 ^ 30) :
    ∃ fuel s' f, FetchPgImp hash fuel s p = Res.ok s' (some f) := by
  obtain ⟨hinv, -⟩ := hreach.pool_inv hk hb
  rcases FetchPgImp_miss_take hinv hfind with ⟨hex, -⟩ |
    ⟨-, s1, f, htake, -, -, -, -, -, -, -, hfuel⟩
  · exact absurd hex hne
  · obtain ⟨fuel, pt, hins⟩ := Insert_after_take hb (hreach.table_reachable hk hb)
      htake p f hsep
    rcases hfuel fuel with ⟨hnone, -⟩ | ⟨pt', r2, -, hok, -⟩
    · rw [hins] at hnone; cases hnone
    · exact ⟨fuel, _, f, hok⟩

/-- The calls that install a page id never return when the bucket size is 1 and the
directory maps another page id whose hash agrees with the hash of the new one on the low
30 bits (the free list being non-empty). -/
theorem Insert_never_after_pop {hash : Int → Nat} {s s1 : BufferPoolManagerInstance}
    {g : Int} (hwf : ExtendibleHashTable.WF hash s.page_table_)
    (hbs : s.page_table_.bucket_size_ = 1) (hfree : s.free_list_ ≠ [])
    (htake : takeFrame hash s = some (s1, g)) {p q f : Int} (hqp : q ≠ p)
    (hq : ExtendibleHashTable.Find hash s.page_table_ q = some f)
    (hcol : hash q % 2 ^ 30 = hash p % 2 ^ 30) (fuel : Nat) (v : Int) :
    ExtendibleHashTable.Insert hash fuel s1.page_table_ p v = none := by
  obtain ⟨-, -, -, -, hcase⟩ := takeFrame_core htake
  rcases hcase with ⟨rest, -, ht, -⟩ | ⟨hnil, -⟩
  · rw [ht]
    exact ExtendibleHashTable.Insert_none_of_collision hqp hcol v fuel _ hwf hbs hq
  · exact absurd hnil hfree

end BufferPoolManagerInstance

end Bustub

namespace Bustub

namespace BufferPoolManagerInstance

/-! ## Claim C6 -/

/-- C6. Capacity exhaustion, for page ids whose hashes differ in their low 30 bits: in
every reachable manager state (`replacer_k ≥ 1`, `bucket_size ≥ 1`), `NewPgImp`, and
`FetchPgImp` of a page the directory does not map, return null exactly when the free list is
empty and the replacer's `Size()` is zero, and then leave the whole state unchanged;
otherwise they return a frame (for enough iterations of the page table's split loop)
provided the hash of the page id to install differs in its low 30 bits from the hash of
every other page id of the directory. They never throw, and a returned frame is the front
of the free list, which is popped, or, when the free list is empty, the victim returned by
the replacer's `Evict`; its index is in `[0, pool_size)`. -/
theorem C6_capacity_exhaustion (hash : Int → Nat)
    (pool_size replacer_k bucket_size : Nat) (hk : 1 ≤ replacer_k) (hb : 1 ≤ bucket_size)
    (disk_manager : DiskManager) (s : BufferPoolManagerInstance)
    (hreach : Reachable hash pool_size replacer_k bucket_size disk_manager s) :
    (((s.free_list_ = [] ∧ s.replacer_.Size = 0) →
        ∀ fuel, NewPgImp hash fuel s = Res.ok s none) ∧
      (¬ (s.free_list_ = [] ∧ s.replacer_.Size = 0) →
        (∀ q, q ≠ s.next_page_id_ →
          (ExtendibleHashTable.Find hash s.page_table_ q).isSome = true →
          hash q % 2 ^ 30 ≠ hash s.next_page_id_ % 2 ^ 30) →
        ∃ fuel s' f, NewPgImp hash fuel s = Res.ok s' (some (f, s.next_page_id_))) ∧
      (∀ fuel s' a, NewPgImp hash fuel s = Res.ok s' a →
        (a = none ↔ (s.free_list_ = [] ∧ s.replacer_.Size = 0)) ∧ (a = none → s' = s) ∧
        ∀ f pid, a = some (f, pid) → 0 ≤ f ∧ f < (pool_size : Int) ∧
          ((∃ rest, s.free_list_ = f :: rest ∧ s'.free_list_ = rest) ∨
            (s.free_list_ = [] ∧ s'.free_list_ = [] ∧
              ∃ r, s.replacer_.Evict = Res.ok r (some f)))) ∧
      (∀ fuel s', NewPgImp hash fuel s ≠ Res.raise s')) ∧
    (∀ p, ExtendibleHashTable.Find hash s.page_table_ p = none →
      ((s.free_list_ = [] ∧ s.replacer_.Size = 0) →
        ∀ fuel, FetchPgImp hash fuel s p = Res.ok s none) ∧
      (¬ (s.free_list_ = [] ∧ s.replacer_.Size = 0) →
        (∀ q, q ≠ p → (ExtendibleHashTable.Find hash s.page_table_ q).isSome = true →
          hash q % 2 ^ 30 ≠ hash p % 2 ^ 30) →
        ∃ fuel s' f, FetchPgImp hash fuel s p = Res.ok s' (some f)) ∧
      (∀ fuel s' a, FetchPgImp hash fuel s p = Res.ok s' a →
        (a = none ↔ (s.free_list_ = [] ∧ s.replacer_.Size = 0)) ∧ (a = none → s' = s) ∧
        ∀ f, a = some f → 0 ≤ f ∧ f < (pool_size : Int) ∧
          ((∃ rest, s.free_list_ = f :: rest ∧ s'.free_list_ = rest) ∨
            (s.free_list_ = [] ∧ s'.free_list_ = [] ∧
              ∃ r, s.replacer_.Evict = Res.ok r (some f)))) ∧
      (∀ fuel s', FetchPgImp hash fuel s p ≠ Res.raise s')) := by
  obtain ⟨hinv, hp, -, -⟩ := hreach.pool_inv hk hb
  constructor
  · rcases NewPgImp_spec hinv with ⟨hex, hnull⟩ |
      ⟨hex, s1, f, hinv1, h0, h1, e1, e2, e3, e4, hfuel⟩
    · refine ⟨fun _ => hnull, fun h => absurd hex h, ?_, ?_⟩
      · intro fuel s' a hop
        rw [hnull fuel] at hop; cases hop
        exact ⟨by simp [hex], fun _ => rfl, fun f pid h => by cases h⟩
      · intro fuel s' hop
        rw [hnull fuel] at hop; cases hop
    · refine ⟨fun h => absurd h hex, fun _ hsep => NewPgImp_returns hk hb hreach hex hsep,
        ?_, ?_⟩
      · intro fuel s' a hop
        have hop0 := hop
        rcases hfuel fuel with ⟨-, hu⟩ | ⟨pt', r2, -, hok, -⟩
        · rw [hu] at hop; cases hop
        · rw [hok] at hop; cases hop
          refine ⟨by simp [hex], fun h => (by cases h), ?_⟩
          intro f' pid h
          cases h
          exact ⟨h0, hp ▸ h1, NewPgImp_frame hop0⟩
      · intro fuel s' hop
        rcases hfuel fuel with ⟨-, hu⟩ | ⟨pt', r2, -, hok, -⟩
        · rw [hu] at hop; cases hop
        · rw [hok] at hop; cases hop
  · intro p hfind
    rcases FetchPgImp_miss hinv hfind with ⟨hex, hnull⟩ |
      ⟨hex, s1, f, hinv1, h0, h1, e1, e2, e3, e4, hfuel⟩
    · refine ⟨fun _ => hnull, fun h => absurd hex h, ?_, ?_⟩
      · intro fuel s' a hop
        rw [hnull fuel] at hop; cases hop
        exact ⟨by simp [hex], fun _ => rfl, fun f h => by cases h⟩
      · intro fuel s' hop
        rw [hnull fuel] at hop; cases hop
    · refine ⟨fun h => absurd h hex,
        fun _ hsep => FetchPgImp_returns hk hb hreach hfind hex hsep, ?_, ?_⟩
      · intro fuel s' a hop
        have hop0 := hop
        rcases hfuel fuel with ⟨-, hu⟩ | ⟨pt', r2, -, hok, -⟩
        · rw [hu] at hop; cases hop
        · rw [hok] at hop; cases hop
          refine ⟨by simp [hex], fun h => (by cases h), ?_⟩
          intro f' h
          cases h
          exact ⟨h0, hp ▸ h1, FetchPgImp_frame hfind hop0⟩
      · intro fuel s' hop
        rcases hfuel fuel with ⟨-, hu⟩ | ⟨pt', r2, -, hok, -⟩
        · rw [hu] at hop; cases hop
        · rw [hok] at hop; cases hop

end BufferPoolManagerInstance

theorem examplePoolUnpinned_reachable :
    BufferPoolManagerInstance.Reachable exampleHash 1 2 2 exampleDisk examplePoolUnpinned :=
  BufferPoolManagerInstance.Reachable.unpinPage 0 false true examplePool_reachable rfl

/-- The only page id that the directory of the unpinned example pool maps is 0. -/
theorem examplePoolUnpinned_keys (q : Int)
    (h : (ExtendibleHashTable.Find exampleHash examplePoolUnpinned.page_table_ q).isSome
      = true) : q = 0 := by
  obtain ⟨w, hw⟩ := Option.isSome_iff_exists.mp h
  obtain ⟨b, hb, hkv⟩ := ExtendibleHashTable.Find_some_mem hw
  have hheap : examplePoolUnpinned.page_table_.heap =
      [{ size_ := 2, depth_ := 0, list_ := [(0, 0)] }] := rfl
  rw [hheap, List.mem_singleton] at hb
  subst hb
  simp only [List.mem_singleton, Prod.mk.injEq] at hkv
  exact hkv.1

/-- Witness of C6: in the example pool of one frame whose page 0 is unpinned, the free list
is empty and the replacer has an evictable frame; `NewPgImp` returns, and the frame it
returns, frame 0, is the victim of `Evict`. -/
theorem C6_capacity_exhaustion_witness :
    (∃ fuel s' f, BufferPoolManagerInstance.NewPgImp exampleHash fuel examplePoolUnpinned
      = Res.ok s' (some (f, 1))) ∧
    ∃ s', BufferPoolManagerInstance.NewPgImp exampleHash 1 examplePoolUnpinned
        = Res.ok s' (some (0, 1)) ∧
      examplePoolUnpinned.free_list_ = [] ∧ s'.free_list_ = [] ∧
      ∃ r, examplePoolUnpinned.replacer_.Evict = Res.ok r (some 0) := by
  have h := (BufferPoolManagerInstance.C6_capacity_exhaustion exampleHash 1 2 2 (by decide)
    (by decide) exampleDisk examplePoolUnpinned examplePoolUnpinned_reachable).1
  refine ⟨h.2.1 (by decide) ?_, ?_⟩
  · intro q hq hsome
    have hq0 := examplePoolUnpinned_keys q hsome
    subst hq0
    decide
  · obtain ⟨s', hs'⟩ : ∃ s', BufferPoolManagerInstance.NewPgImp exampleHash 1
        examplePoolUnpinned = Res.ok s' (some (0, 1)) := ⟨_, rfl⟩
    rcases (h.2.2.1 1 s' _ hs').2.2 0 1 rfl with ⟨-, -, hfront | hvictim⟩
    · obtain ⟨rest, hrest, -⟩ := hfront
      have : examplePoolUnpinned.free_list_ = [] := rfl
      rw [this] at hrest; cases hrest
    · exact ⟨s', hs', hvictim⟩

/-- Counterexample to C6: with page ids hashed to themselves and a page table of bucket size
1, a pool of two frames holds page 0 in frame 0 after one `NewPgImp`; the free list still
has frame 1 and page `INT_MIN = -2147483648` is not in the directory, yet
`FetchPgImp(INT_MIN)` returns for no number of iterations of the split loop: the hashes 0
and `2^64 - 2^31` agree on their low 31 bits, and the `int` masks cannot separate them. -/
theorem C6_never_returns_counterexample :
    BufferPoolManagerInstance.NewPgImp stdHashInt 1
      (BufferPoolManagerInstance.new 2 2 1 exampleDisk)
        = Res.ok examplePoolBucketOne (some (0, 0)) ∧
    BufferPoolManagerInstance.Reachable stdHashInt 2 2 1 exampleDisk examplePoolBucketOne ∧
    ExtendibleHashTable.Find stdHashInt examplePoolBucketOne.page_table_ (-2147483648)
      = none ∧
    examplePoolBucketOne.free_list_ = [1] ∧
    ¬ (examplePoolBucketOne.free_list_ = [] ∧ examplePoolBucketOne.replacer_.Size = 0) ∧
    ∀ fuel s' a, BufferPoolManagerInstance.FetchPgImp stdHashInt fuel examplePoolBucketOne
      (-2147483648) ≠ Res.ok s' a := by
  have hs1 : BufferPoolManagerInstance.NewPgImp stdHashInt 1
      (BufferPoolManagerInstance.new 2 2 1 exampleDisk)
        = Res.ok examplePoolBucketOne (some (0, 0)) := rfl
  have hreach : BufferPoolManagerInstance.Reachable stdHashInt 2 2 1 exampleDisk
      examplePoolBucketOne :=
    BufferPoolManagerInstance.Reachable.newPage 1 (some (0, 0))
      BufferPoolManagerInstance.Reachable.init hs1
  have hfind : ExtendibleHashTable.Find stdHashInt examplePoolBucketOne.page_table_
      (-2147483648) = none := rfl
  have hfree : examplePoolBucketOne.free_list_ = [1] := rfl
  refine ⟨hs1, hreach, hfind, hfree, by rw [hfree]; simp, ?_⟩
  intro fuel s' a hop
  obtain ⟨hinv, -⟩ := hreach.pool_inv (by decide) (by decide)
  rcases BufferPoolManagerInstance.FetchPgImp_ok hop with ⟨g, pg, r, hg, -⟩ |
      ⟨-, -, -, hnil, -⟩ | ⟨-, s2, g, pt, r, pg0, htake, hins, -⟩
  · rw [hfind] at hg; cases hg
  · rw [hfree] at hnil; cases hnil
  · have hnone := BufferPoolManagerInstance.Insert_never_after_pop hinv.table_wf rfl
      (by rw [hfree]; simp) htake (show (0 : Int) ≠ -2147483648 by decide)
      (show ExtendibleHashTable.Find stdHashInt examplePoolBucketOne.page_table_ 0 = some 0
        from rfl)
      (by decide) fuel g
    rw [hnone] at hins; cases hins

end Bustub

namespace Bustub

namespace BufferPoolManagerInstance

/-! ## Claim C8 -/

/-- C8. `FetchPgImp` postcondition, for page ids whose hashes differ in their low 30 bits:
in every reachable manager state, if the directory maps `p` to frame `f`, `FetchPgImp(p)`
returns `f` with `pin_count_` increased by exactly one, buffer, `page_id_` and `is_dirty_`
unchanged, the disk manager untouched (no read, no write) and `f` non-evictable; if `p` is
not in the directory and a frame is available, `FetchPgImp(p)` returns (for enough
iterations of the split loop) provided the hash of `p` differs in its low 30 bits from the
hash of every page id of the directory, and whenever it returns a frame, that frame has
`page_id_ = p`, `pin_count_ = 1`, `is_dirty_ = false` and the disk's content of page `p` as
buffer, the directory maps `p` to it and it is non-evictable. -/
theorem C8_fetch_page (hash : Int → Nat)
    (pool_size replacer_k bucket_size : Nat)
    (hk : 1 ≤ replacer_k) (hb : 1 ≤ bucket_size) (disk_manager : DiskManager)
    (s : BufferPoolManagerInstance)
    (hreach : Reachable hash pool_size replacer_k bucket_size disk_manager s) (p : Int) :
    (∀ f, ExtendibleHashTable.Find hash s.page_table_ p = some f →
      ∃ pg, pageAt s.pages_ f = some pg ∧ ∀ fuel, ∃ s',
        FetchPgImp hash fuel s p = Res.ok s' (some f) ∧
        pageAt s'.pages_ f = some { pg with pin_count_ := pg.pin_count_ + 1 } ∧
        s'.disk_manager_ = s.disk_manager_ ∧ s'.page_table_ = s.page_table_ ∧
        s'.replacer_.evictable f = some false) ∧
    (ExtendibleHashTable.Find hash s.page_table_ p = none →
      (¬ (s.free_list_ = [] ∧ s.replacer_.Size = 0) →
        (∀ q, q ≠ p → (ExtendibleHashTable.Find hash s.page_table_ q).isSome = true →
          hash q % 2 ^ 30 ≠ hash p % 2 ^ 30) →
        ∃ fuel s' f, FetchPgImp hash fuel s p = Res.ok s' (some f)) ∧
      ∀ fuel s' f, FetchPgImp hash fuel s p = Res.ok s' (some f) →
        pageAt s'.pages_ f = some
          { data_ := s'.disk_manager_.content p, page_id_ := p, pin_count_ := 1,
            is_dirty_ := false } ∧
        ExtendibleHashTable.Find hash s'.page_table_ p = some f ∧
        s'.replacer_.evictable f = some false) := by
  obtain ⟨hinv, hp, -, -⟩ := hreach.pool_inv hk hb
  constructor
  · intro f hfind
    obtain ⟨pg, r2, hpg, h0, h1, hok, hinv', -, hev, -⟩ := FetchPgImp_hit hinv hfind
    have h1' : f < (s.pages_.length : Int) := by rw [hinv.pages_len]; exact h1
    refine ⟨pg, hpg, fun fuel => ⟨_, hok fuel, ?_, rfl, rfl, hev⟩⟩
    show pageAt (setPageAt s.pages_ f _) f = _
    rw [pageAt_setPageAt h0 h1']; simp
  · intro hfind
    rcases FetchPgImp_miss hinv hfind with ⟨hex, hnull⟩ |
      ⟨hex, s1, f, hinv1, h0, h1, e1, e2, e3, e4, hfuel⟩
    · refine ⟨fun h => absurd hex h, ?_⟩
      intro fuel s' f hop
      rw [hnull fuel] at hop; cases hop
    · constructor
      · intro _ hsep
        exact FetchPgImp_returns hk hb hreach hfind hex hsep
      · intro fuel s' f' hop
        rcases hfuel fuel with ⟨-, hu⟩ | ⟨pt, r2, -, hok, hinv', -, -, hev, htr, hfind'⟩
        · rw [hu] at hop; cases hop
        · rw [hok] at hop; cases hop
          have h1' : f < (s1.pages_.length : Int) := by rw [hinv1.pages_len, e1]; exact h1
          refine ⟨?_, hfind', hev⟩
          show pageAt (setPageAt s1.pages_ f _) f = _
          rw [pageAt_setPageAt h0 h1']; simp [DiskManager.ReadPage]

end BufferPoolManagerInstance

/-- Witness of C8: fetching the resident page 0 of the example pool pins frame 0 a second
time; fetching page 5, which the directory of the unpinned example pool does not map,
returns a frame. -/
theorem C8_fetch_page_witness :
    (∃ pg, BufferPoolManagerInstance.pageAt examplePool.pages_ 0 = some pg ∧ ∀ fuel, ∃ s',
      BufferPoolManagerInstance.FetchPgImp exampleHash fuel examplePool 0 = Res.ok s' (some 0) ∧
      BufferPoolManagerInstance.pageAt s'.pages_ 0 =
        some { pg with pin_count_ := pg.pin_count_ + 1 } ∧
      s'.disk_manager_ = examplePool.disk_manager_ ∧
      s'.page_table_ = examplePool.page_table_ ∧
      s'.replacer_.evictable 0 = some false) ∧
    ∃ fuel s' f, BufferPoolManagerInstance.FetchPgImp exampleHash fuel examplePoolUnpinned 5
      = Res.ok s' (some f) :=
  ⟨(BufferPoolManagerInstance.C8_fetch_page exampleHash 1 2 2 (by decide)
      (by decide) exampleDisk examplePool examplePool_reachable 0).1 0 rfl,
    ((BufferPoolManagerInstance.C8_fetch_page exampleHash 1 2 2 (by decide)
      (by decide) exampleDisk examplePoolUnpinned examplePoolUnpinned_reachable 5).2 rfl).1
      (by decide)
      (fun q _ hsome => by
        have hq0 := examplePoolUnpinned_keys q hsome
        subst hq0
        decide)⟩

/-- Counterexample to C8: with page ids hashed to themselves and a page table of bucket size
1, a pool of two frames holds page 0 in frame 0 after `FetchPgImp(0)`; page
`INT_MIN = -2147483648` is not in the directory and frame 1 is free, yet
`FetchPgImp(INT_MIN)` returns for no number of iterations of the split loop. -/
theorem C8_fetch_never_returns_counterexample :
    BufferPoolManagerInstance.FetchPgImp stdHashInt 1
      (BufferPoolManagerInstance.new 2 2 1 exampleDisk) 0
        = Res.ok examplePoolBucketOneFetched (some 0) ∧
    BufferPoolManagerInstance.Reachable stdHashInt 2 2 1 exampleDisk
      examplePoolBucketOneFetched ∧
    ExtendibleHashTable.Find stdHashInt examplePoolBucketOneFetched.page_table_
      (-2147483648) = none ∧
    ¬ (examplePoolBucketOneFetched.free_list_ = [] ∧
      examplePoolBucketOneFetched.replacer_.Size = 0) ∧
    ∀ fuel s' f, BufferPoolManagerInstance.FetchPgImp stdHashInt fuel
      examplePoolBucketOneFetched (-2147483648) ≠ Res.ok s' (some f) := by
  have hs1 : BufferPoolManagerInstance.FetchPgImp stdHashInt 1
      (BufferPoolManagerInstance.new 2 2 1 exampleDisk) 0
        = Res.ok examplePoolBucketOneFetched (some 0) := rfl
  have hreach : BufferPoolManagerInstance.Reachable stdHashInt 2 2 1 exampleDisk
      examplePoolBucketOneFetched :=
    BufferPoolManagerInstance.Reachable.fetchPage 1 0 (some 0)
      BufferPoolManagerInstance.Reachable.init hs1
  have hfind : ExtendibleHashTable.Find stdHashInt examplePoolBucketOneFetched.page_table_
      (-2147483648) = none := rfl
  have hfree : examplePoolBucketOneFetched.free_list_ = [1] := rfl
  refine ⟨hs1, hreach, hfind, by rw [hfree]; simp, ?_⟩
  intro fuel s' f hop
  obtain ⟨hinv, -⟩ := hreach.pool_inv (by decide) (by decide)
  rcases BufferPoolManagerInstance.FetchPgImp_ok hop with ⟨g, pg, r, hg, -⟩ |
      ⟨-, -, -, hnil, -⟩ | ⟨-, s2, g, pt, r, pg0, htake, hins, -⟩
  · rw [hfind] at hg; cases hg
  · rw [hfree] at hnil; cases hnil
  · have hnone := BufferPoolManagerInstance.Insert_never_after_pop hinv.table_wf rfl
      (by rw [hfree]; simp) htake (show (0 : Int) ≠ -2147483648 by decide)
      (show ExtendibleHashTable.Find stdHashInt examplePoolBucketOneFetched.page_table_ 0
        = some 0 from rfl)
      (by decide) fuel g
    rw [hnone] at hins; cases hins

end Bustub
